import Mathlib

/-!
# roughfa: finite automata toolkit

Shallow embedding of the Go package `roughfa` (DFA and NFA runners, builders,
epsilon expansion, powerset construction, Brzozowski minimisation, shells and
their JSON codec) and of its `internal/set` package.

Representation choices, fixed here once:

* A Go `map[K]bool` used as a set is the list of its keys, without repetition.
  `Unwrap` returns that list; Go leaves the order unspecified, the embedding
  lists keys in insertion order and ranges over a map in that order.  General
  statements about sets are stated through membership; the values computed on
  concrete machines, and the numbering of the subset states by the powerset
  construction, are those of this order.
* A Go `map[K]V` is an association list with pairwise distinct keys.
* A `rune` is an `Int` (no arithmetic is done on runes).
* A loop `for modified { ... }` or `for len(q) > 0 { ... }` takes a fuel
  argument bounding the number of passes and returns `none` when it runs out.
* The JSON text of a shell is the JSON object it denotes; the length of a
  string is its number of UTF-8 bytes.
-/

namespace roughfa

/-! ## The `internal/set` package -/

/-- A rune is a Go `int32`; only equality and order of runes are used. -/
abbrev Rune := Int

/-- The keys of a `map[string]bool`. -/
abbrev StringSet := List String

/-- The keys of a `map[rune]bool`. -/
abbrev RuneSet := List Rune

/-- A Go map as an association list. -/
abbrev GoMap (κ ν : Type) := List (κ × ν)

/-- Map read `v, ok := m[k]`. -/
def mapGet {κ ν : Type} [DecidableEq κ] (m : GoMap κ ν) (k : κ) : Option ν :=
  match m with
  | [] => none
  | (k1, v) :: rest => if k1 = k then some v else mapGet rest k

/-- Map write `m[k] = v`: an existing key keeps its place. -/
def mapSet {κ ν : Type} [DecidableEq κ] (m : GoMap κ ν) (k : κ) (v : ν) : GoMap κ ν :=
  match m with
  | [] => [(k, v)]
  | (k1, v1) :: rest => if k1 = k then (k1, v) :: rest else (k1, v1) :: mapSet rest k v

/-- The test `_, ok := m[k]`. -/
def mapHas {κ ν : Type} [DecidableEq κ] (m : GoMap κ ν) (k : κ) : Bool :=
  (mapGet m k).isSome

/-- The statement `if _, ok := m[k]; !ok { m[k] = v }`. -/
def mapEnsure {κ ν : Type} [DecidableEq κ] (m : GoMap κ ν) (k : κ) (v : ν) : GoMap κ ν :=
  if mapHas m k then m else mapSet m k v

namespace GoSet

variable {α : Type} [DecidableEq α]

/-- One assignment `s.v[p] = true`. -/
def addOne (s : List α) (p : α) : List α := if p ∈ s then s else s ++ [p]

/-- Method `Add(x ...)`, the same body for `stringSet` and `runeSet`. -/
def Add (s : List α) (x : List α) : List α := x.foldl addOne s

/-- One call `delete(s.v, p)`. -/
def delOne (s : List α) (p : α) : List α := s.filter (fun e => decide (e ≠ p))

/-- Method `Del(x ...)`. -/
def Del (s : List α) (x : List α) : List α := x.foldl delOne s

/-- Method `In(x ...)`: every argument is a member. -/
def In (s : List α) (x : List α) : Bool := x.all (fun p => decide (p ∈ s))

/-- Method `Len()`. -/
def Len (s : List α) : Nat := s.length

/-- Method `Unwrap()`. -/
def Unwrap (s : List α) : List α := s

/-- Constructors `NewStringSet(seed...)` and `NewRuneSet(seed...)`. -/
def New (seed : List α) : List α := Add [] seed

/-- Method `Clone()`. -/
def Clone (s : List α) : List α := New (Unwrap s)

/-- Method `And(x)` of `stringSet`: the members of `x` that are in `s`. -/
def And (s x : List α) : List α :=
  (Unwrap x).foldl (fun p e => if In s [e] then Add p [e] else p) (New [])

end GoSet

/-- Constructor `set.NewStringSet`. -/
def NewStringSet (seed : List String) : StringSet := GoSet.New seed

/-- Constructor `set.NewRuneSet`. -/
def NewRuneSet (seed : List Rune) : RuneSet := GoSet.New seed

/-- Go's `<` on strings is byte-wise lexicographic; on UTF-8 text that is the
lexicographic order of the code points. -/
def lessChars : List Char → List Char → Bool
  | [], [] => false
  | [], _ :: _ => true
  | _ :: _, [] => false
  | a :: l, b :: r =>
    if a.toNat < b.toNat then true
    else if b.toNat < a.toNat then false
    else lessChars l r

/-- Go's `a < b` on strings. -/
def stringLess (a b : String) : Bool := lessChars a.data b.data

/-- Insertion of one string into an ascending list. -/
def insertSorted (a : String) : List String → List String
  | [] => [a]
  | b :: l => if stringLess b a then b :: insertSorted a l else a :: b :: l

/-- Library call `sort.Strings`: the ascending arrangement of the slice. -/
def sortStrings : List String → List String
  | [] => []
  | a :: l => insertSorted a (sortStrings l)

/-- Library call `strings.Join`. -/
def stringsJoin : List String → String → String
  | [], _ => ""
  | [a], _ => a
  | a :: b :: rest, sep => a ++ sep ++ stringsJoin (b :: rest) sep

/-- Method `stringSet.Equal`: same length and same sorted slices. -/
def StringSet.Equal (s x : StringSet) : Bool :=
  let xs := GoSet.Unwrap s
  let ys := GoSet.Unwrap x
  if xs.length ≠ ys.length then false
  else decide (sortStrings xs = sortStrings ys)

/-! ## Errors -/

/-- The error values of `errors.go` that the machines return. -/
inductive FaError where
  | ErrInvalidStartState
  | ErrInvalidAcceptStates
  | ErrInvalidTransitions
  | ErrInvalidInputChar
  | ErrOutOfTransition
  | ErrInvalidState
  | ErrCannotUnmarshalMachine
  | ErrNotDFA
  | ErrEpsilonExists
  | ErrEmptyStates
  | ErrInvalidStartStates
  | ErrNoDotSource
  deriving DecidableEq, Repr

/-! ## DFA machine and builder -/

/-- Struct `dfaMachine`. -/
structure dfaMachine where
  states : StringSet
  chars : RuneSet
  startState : String
  acceptStates : StringSet
  transitions : GoMap String (GoMap Rune String)
  currentState : String
  deriving DecidableEq, Repr

/-- Method `dfaMachine.Reset`. -/
def dfaMachine.Reset (s : dfaMachine) : dfaMachine := { s with currentState := s.startState }

/-- Method `dfaMachine.IsAccepted`. -/
def dfaMachine.IsAccepted (s : dfaMachine) : Bool := GoSet.In s.acceptStates [s.currentState]

/-- Method `dfaMachine.State`. -/
def dfaMachine.State (s : dfaMachine) : String := s.currentState

/-- Method `dfaMachine.SetState`. -/
def dfaMachine.SetState (s : dfaMachine) (state : String) : dfaMachine × Option FaError :=
  if !GoSet.In s.states [state] then (s, some FaError.ErrInvalidState)
  else ({ s with currentState := state }, none)

/-- Method `dfaMachine.Put`: the machine after the call and the returned error. -/
def dfaMachine.Put (s : dfaMachine) (x : Rune) : dfaMachine × Option FaError :=
  if decide (GoSet.Len s.chars > 0) && !GoSet.In s.chars [x] then
    (s, some FaError.ErrInvalidInputChar)
  else
    match mapGet s.transitions s.currentState with
    | none => (s, some FaError.ErrOutOfTransition)
    | some t =>
      match mapGet t x with
      | none => (s, some FaError.ErrOutOfTransition)
      | some nextState => ({ s with currentState := nextState }, none)

/-- The calls `Put` on the runes of `w` in order, stopping at the first error:
`some m` when every call returned no error and left machine `m`, `none` when a
call returned an error. -/
def dfaMachine.putAll : dfaMachine → List Rune → Option dfaMachine
  | s, [] => some s
  | s, x :: w =>
    match s.Put x with
    | (_, some _) => none
    | (s1, none) => dfaMachine.putAll s1 w

/-- Acceptance of `w` by a DFA: from the `Reset` configuration every `Put`
returns no error and `IsAccepted` is then true. -/
def dfaMachine.accepts (s : dfaMachine) (w : List Rune) : Bool :=
  match dfaMachine.putAll s.Reset w with
  | none => false
  | some m => m.IsAccepted

/-- Struct `dfaMachineBuilder`. -/
structure dfaMachineBuilder where
  states : List String
  chars : List Rune
  startState : String
  acceptStates : List String
  transitions : GoMap String (GoMap Rune String)
  deriving DecidableEq, Repr

/-- The inner loop of `dfaMachineBuilder.Build` over one row of the table. -/
def dfaCollectRow (acc : StringSet × RuneSet) (v : GoMap Rune String) : StringSet × RuneSet :=
  v.foldl (fun a e => (GoSet.Add a.1 [e.2], GoSet.Add a.2 [e.1])) acc

/-- The loop of `dfaMachineBuilder.Build` over the table, from given values of
`tStates` and `tChars`; rows without entries are skipped. -/
def dfaCollectFrom (acc : StringSet × RuneSet) (transitions : GoMap String (GoMap Rune String)) :
    StringSet × RuneSet :=
  transitions.foldl
    (fun acc e => if e.2.length = 0 then acc else dfaCollectRow (GoSet.Add acc.1 [e.1], acc.2) e.2)
    acc

/-- The loop of `dfaMachineBuilder.Build` that gathers `tStates` and `tChars`. -/
def dfaCollect (transitions : GoMap String (GoMap Rune String)) : StringSet × RuneSet :=
  dfaCollectFrom (NewStringSet [], NewRuneSet []) transitions

/-- Method `dfaMachineBuilder.Build`. -/
def dfaMachineBuilder.Build (s : dfaMachineBuilder) : Except FaError dfaMachine :=
  let states := NewStringSet s.states
  if !GoSet.In states [s.startState] then Except.error FaError.ErrInvalidStartState
  else if !GoSet.In states s.acceptStates then Except.error FaError.ErrInvalidAcceptStates
  else
    let t := dfaCollect s.transitions
    let chars := NewRuneSet s.chars
    if !GoSet.In states (GoSet.Unwrap t.1)
        || (decide (GoSet.Len chars > 0) && !GoSet.In chars (GoSet.Unwrap t.2)) then
      Except.error FaError.ErrInvalidTransitions
    else
      Except.ok
        { states := states
          chars := chars
          acceptStates := NewStringSet s.acceptStates
          startState := s.startState
          transitions := s.transitions
          currentState := s.startState }

/-! ## NFA machine -/

/-- Constant `Epsilon`, the rune U+03B5. -/
def Epsilon : Rune := 949

/-- The transition table `map[string]map[rune]set.StringSet`. -/
abbrev NTrans := GoMap String (GoMap Rune StringSet)

/-- The two reads `t, ok := transitions[state]` and `u, ok := t[x]` that the
loops make one after the other: the entry for `state` and `x` when both reads
succeed. -/
def tableGet (tr : NTrans) (state : String) (x : Rune) : Option StringSet :=
  match mapGet tr state with
  | none => none
  | some t => mapGet t x

/-- Struct `nfaMachine`. -/
structure nfaMachine where
  states : StringSet
  chars : RuneSet
  startStates : StringSet
  acceptStates : StringSet
  transitions : NTrans
  currentStates : StringSet
  deriving DecidableEq, Repr

/-- Method `nfaMachine.HasEpsilon`: some row has the key `Epsilon`. -/
def nfaMachine.HasEpsilon (s : nfaMachine) : Bool :=
  s.transitions.any (fun e => mapHas e.2 Epsilon)

/-- Method `nfaMachine.IsDFA`. -/
def nfaMachine.IsDFA (s : nfaMachine) : Bool :=
  if s.HasEpsilon || decide (GoSet.Len s.startStates ≠ 1) then false
  else s.transitions.all (fun e => e.2.all (fun r => decide (GoSet.Len r.2 = 1)))

/-- Method `nfaMachine.States`. -/
def nfaMachine.States (s : nfaMachine) : List String := GoSet.Unwrap s.currentStates

/-- Method `nfaMachine.IsAccepted`. -/
def nfaMachine.IsAccepted (s : nfaMachine) : Bool :=
  decide (GoSet.Len (GoSet.And s.currentStates s.acceptStates) > 0)

/-- Method `nfaMachine.Reset`. -/
def nfaMachine.Reset (s : nfaMachine) : nfaMachine :=
  { s with currentStates := NewStringSet (GoSet.Unwrap s.startStates) }

/-- Method `nfaMachine.SetStates`. -/
def nfaMachine.SetStates (s : nfaMachine) (states : List String) : nfaMachine × Option FaError :=
  let x := NewStringSet states
  if !GoSet.In s.states (GoSet.Unwrap x) then (s, some FaError.ErrInvalidState)
  else ({ s with currentStates := x }, none)

/-- One pass of the `range` loop of `applyEpsilon` over the snapshot of the
current states: a state with an epsilon entry is deleted and its epsilon
destinations are added. -/
def applyEpsilonPass (tr : NTrans) :
    List String → StringSet → Bool → StringSet × Bool
  | [], cur, modified => (cur, modified)
  | state :: rest, cur, modified =>
    match tableGet tr state Epsilon with
    | none => applyEpsilonPass tr rest cur modified
    | some u =>
      let states := NewStringSet (GoSet.Unwrap cur)
      let cur1 := GoSet.Add (GoSet.Del cur [state]) (GoSet.Unwrap u)
      let modified1 := if !modified then !(StringSet.Equal states cur1) else modified
      applyEpsilonPass tr rest cur1 modified1

/-- Method `nfaMachine.applyEpsilon` on the current states; each unit of fuel
pays for one pass of `for modified`. -/
def applyEpsilonLoop (tr : NTrans) : Nat → StringSet → Option StringSet
  | 0, _ => none
  | fuel + 1, cur =>
    let r := applyEpsilonPass tr (GoSet.Unwrap cur) cur false
    if r.2 then applyEpsilonLoop tr fuel r.1 else some r.1

/-- Method `nfaMachine.applyEpsilon`. -/
def nfaMachine.applyEpsilon (fuel : Nat) (s : nfaMachine) : Option nfaMachine :=
  (applyEpsilonLoop s.transitions fuel s.currentStates).map
    (fun c => { s with currentStates := c })

/-- The loop of `Put` that gathers, for each current state, the destinations on
`x`, and the loop that unites them. -/
def putNext (tr : NTrans) (cur : StringSet) (x : Rune) : StringSet :=
  let css : List StringSet := (GoSet.Unwrap cur).map (fun state =>
    match tableGet tr state x with
    | none => NewStringSet []
    | some u => GoSet.Add (NewStringSet []) (GoSet.Unwrap u))
  css.foldl (fun nextStates cs => GoSet.Add nextStates (GoSet.Unwrap cs)) (NewStringSet [])

/-- The statement `if s.HasEpsilon() { s.applyEpsilon() }` of `Put`. -/
def nfaMachine.closeIfEpsilon (fuel : Nat) (s : nfaMachine) : Option nfaMachine :=
  if s.HasEpsilon then s.applyEpsilon fuel else some s

/-- Method `nfaMachine.Put`: `none` when a closure loop runs out of fuel,
otherwise the machine after the call and the returned error. -/
def nfaMachine.Put (fuel : Nat) (s : nfaMachine) (x : Rune) :
    Option (nfaMachine × Option FaError) :=
  if decide (GoSet.Len s.chars > 0) && !GoSet.In s.chars [x] then
    some (s, some FaError.ErrInvalidInputChar)
  else if GoSet.Len s.currentStates = 0 then
    some (s, some FaError.ErrEmptyStates)
  else
    match s.closeIfEpsilon fuel with
    | none => none
    | some s1 =>
      let s2 := { s1 with currentStates := putNext s1.transitions s1.currentStates x }
      match s2.closeIfEpsilon fuel with
      | none => none
      | some s3 =>
        if GoSet.Len s3.currentStates = 0 then some (s3, some FaError.ErrEmptyStates)
        else some (s3, none)

/-- The calls `Put` on the runes of `w` in order, stopping at the first error:
`some (some m)` when every call returned no error and left machine `m`,
`some none` when a call returned an error, `none` when fuel ran out. -/
def nfaMachine.putAll (fuel : Nat) : nfaMachine → List Rune → Option (Option nfaMachine)
  | s, [] => some (some s)
  | s, x :: w =>
    match s.Put fuel x with
    | none => none
    | some (_, some _) => some none
    | some (s1, none) => nfaMachine.putAll fuel s1 w

/-- Acceptance of `w`: from the `Reset` configuration every `Put` returns no
error and `IsAccepted` is then true. -/
def nfaMachine.accepts (fuel : Nat) (s : nfaMachine) (w : List Rune) : Option Bool :=
  (nfaMachine.putAll fuel s.Reset w).map (fun r =>
    match r with
    | none => false
    | some m => m.IsAccepted)

/-- Acceptance of `w` from state `n`: `SetStates` to `n` returns no error, every
`Put` on the runes of `w` returns no error and `IsAccepted` is then true. -/
def nfaMachine.acceptsFrom (fuel : Nat) (s : nfaMachine) (n : String) (w : List Rune) :
    Option Bool :=
  match s.SetStates [n] with
  | (_, some _) => some false
  | (s1, none) =>
    (nfaMachine.putAll fuel s1 w).map (fun r =>
      match r with
      | none => false
      | some m => m.IsAccepted)

/-- The runes of a Go string, as `for _, c := range s` yields them. -/
def runes (s : String) : List Rune := s.data.map (fun c => (c.toNat : Int))

/-! ## Epsilon expansion -/

/-- First loop of `ExpandEpsilon` for one row: the entries that are not epsilon
and not empty, copied. -/
def expandRoutes (v : GoMap Rune StringSet) : GoMap Rune StringSet :=
  v.foldl (fun routes e =>
    if e.1 = Epsilon ∨ GoSet.Len e.2 = 0 then routes
    else mapSet routes e.1 (NewStringSet (GoSet.Unwrap e.2))) []

/-- First loop of `ExpandEpsilon`: rows left without entries are skipped. -/
def expandExtract (transitions : NTrans) : NTrans :=
  transitions.foldl (fun ts e =>
    let routes := expandRoutes e.2
    if routes.length = 0 then ts else mapSet ts e.1 routes) []

/-- The `range` loop inside `for modified` of `ExpandEpsilon`: the epsilon
destinations of every state of the snapshot are added. -/
def expandPass (transitions : NTrans) (snapshot : List String) (toStates : StringSet) :
    StringSet :=
  snapshot.foldl (fun acc toState =>
    match tableGet transitions toState Epsilon with
    | none => acc
    | some nextStates => GoSet.Add acc (GoSet.Unwrap nextStates)) toStates

/-- The loop `for modified` of `ExpandEpsilon` on one destination set. -/
def expandClosure (transitions : NTrans) : Nat → StringSet → Option StringSet
  | 0, _ => none
  | fuel + 1, toStates =>
    let old := NewStringSet (GoSet.Unwrap toStates)
    let new := expandPass transitions (GoSet.Unwrap toStates) toStates
    if !(StringSet.Equal old new) then expandClosure transitions fuel new else some new

/-- Sequencing of a fuelled computation over the values of an association list. -/
def mapValuesM {κ ν μ : Type} (f : ν → Option μ) : GoMap κ ν → Option (GoMap κ μ)
  | [] => some []
  | (k, v) :: rest =>
    match f v with
    | none => none
    | some v1 =>
      match mapValuesM f rest with
      | none => none
      | some rest1 => some ((k, v1) :: rest1)

/-- Function `ExpandEpsilon`. -/
def ExpandEpsilon (fuel : Nat) (transitions : NTrans) : Option NTrans :=
  mapValuesM (fun v => mapValuesM (expandClosure transitions fuel) v) (expandExtract transitions)

/-- One pass of the `range` loop of `applyEpsilonToStartStates`. -/
def startPass (tr : NTrans) : List String → StringSet → Bool → StringSet × Bool
  | [], startStates, modified => (startStates, modified)
  | state :: rest, startStates, modified =>
    match tableGet tr state Epsilon with
    | none => startPass tr rest startStates modified
    | some toStates =>
      let states := GoSet.Clone startStates
      let startStates1 := GoSet.Add startStates (GoSet.Unwrap toStates)
      let modified1 := if !modified then StringSet.Equal states startStates1 else modified
      startPass tr rest startStates1 modified1

/-- The loop `for modified` of `applyEpsilonToStartStates`. -/
def startLoop (tr : NTrans) : Nat → StringSet → Option StringSet
  | 0, _ => none
  | fuel + 1, startStates =>
    let r := startPass tr (GoSet.Unwrap startStates) startStates false
    if r.2 then startLoop tr fuel r.1 else some r.1

/-- Method `nfaMachine.applyEpsilonToStartStates`. -/
def nfaMachine.applyEpsilonToStartStates (fuel : Nat) (s : nfaMachine) : Option StringSet :=
  startLoop s.transitions fuel (GoSet.Clone s.startStates)

/-- The loop of `ApplyEpsilonExpansion` that gathers the useless states: not an
accept state and no row in the expanded table. -/
def uselessOf (s : nfaMachine) (transitions : NTrans) : StringSet :=
  (GoSet.Unwrap s.states).foldl (fun u state =>
    if GoSet.In s.acceptStates [state] then u
    else if mapHas transitions state then u
    else GoSet.Add u [state]) (NewStringSet [])

/-- The loop of `ApplyEpsilonExpansion` that deletes the useless states from
every destination set. -/
def purgeTransitions (transitions : NTrans) (useless : StringSet) : NTrans :=
  transitions.map (fun e =>
    (e.1, e.2.map (fun r => (r.1, GoSet.Del r.2 (GoSet.Unwrap useless)))))

/-- Method `nfaMachine.ApplyEpsilonExpansion`. -/
def nfaMachine.ApplyEpsilonExpansion (fuel : Nat) (s : nfaMachine) : Option nfaMachine :=
  match ExpandEpsilon fuel s.transitions with
  | none => none
  | some transitions =>
    let uselessStates := uselessOf s transitions
    match s.applyEpsilonToStartStates fuel with
    | none => none
    | some startStates =>
      some
        { states := GoSet.Del (GoSet.Clone s.states) (GoSet.Unwrap uselessStates)
          chars := GoSet.Clone s.chars
          startStates := GoSet.Del startStates (GoSet.Unwrap uselessStates)
          acceptStates := GoSet.Clone s.acceptStates
          currentStates := GoSet.Clone s.currentStates
          transitions := purgeTransitions transitions uselessStates }

/-! ## Reverse and complement -/

/-- The body of the innermost loop of `Reverse`: the edge `fromState -c-> toState`
is recorded as `toState -c-> fromState`. -/
def reverseEdge (fromState : String) (c : Rune) (transitions : NTrans) (toState : String) :
    NTrans :=
  let t1 := mapEnsure transitions toState []
  let row := (mapGet t1 toState).getD []
  let row1 := mapEnsure row c (NewStringSet [])
  let cell := (mapGet row1 c).getD (NewStringSet [])
  mapSet t1 toState (mapSet row1 c (GoSet.Add cell [fromState]))

/-- The three nested loops of `Reverse`. -/
def reverseTransitions (tr : NTrans) : NTrans :=
  tr.foldl (fun acc e =>
    e.2.foldl (fun acc1 r =>
      (GoSet.Unwrap r.2).foldl (reverseEdge e.1 r.1) acc1) acc) []

/-- Method `nfaMachine.Reverse`. -/
def nfaMachine.Reverse (s : nfaMachine) : nfaMachine :=
  { states := GoSet.Clone s.states
    chars := GoSet.Clone s.chars
    transitions := reverseTransitions s.transitions
    startStates := GoSet.Clone s.acceptStates
    acceptStates := GoSet.Clone s.startStates
    currentStates := GoSet.Clone s.acceptStates }

/-- Method `nfaMachine.Not`. -/
def nfaMachine.Not (s : nfaMachine) : nfaMachine :=
  { states := GoSet.Clone s.states
    chars := GoSet.Clone s.chars
    startStates := GoSet.Clone s.startStates
    acceptStates := GoSet.Del (GoSet.Clone s.states) (GoSet.Unwrap s.acceptStates)
    transitions := s.transitions
    currentStates := GoSet.Clone s.startStates }

/-! ## Powerset construction -/

/-- Local function `stringSetToString` of `ApplyPowersetConstruction`. -/
def stringSetToString (x : StringSet) : String :=
  stringsJoin (sortStrings (GoSet.Unwrap x)) "_"

/-- Local value `chars` of `ApplyPowersetConstruction`. -/
def powersetChars (s : nfaMachine) : RuneSet :=
  if GoSet.Len s.chars > 0 then GoSet.Add (NewRuneSet []) (GoSet.Unwrap s.chars)
  else
    s.transitions.foldl (fun cs e => e.2.foldl (fun cs1 r => GoSet.Add cs1 [r.1]) cs)
      (NewRuneSet [])

/-- The loop variables of `ApplyPowersetConstruction`. -/
structure PowersetVars where
  states : StringSet
  transitions : GoMap String (GoMap Rune String)
  acceptStates : StringSet
  dfaStatesMap : GoMap String String
  q : List StringSet
  deriving DecidableEq, Repr

/-- Map read `m[k]` with Go's zero value for a missing key. -/
def mapGetD (m : GoMap String String) (k : String) : String := (mapGet m k).getD ""

/-- The set `dNext` of the powerset loop: the union of the destinations on `c`
of the states of `dState`. -/
def powersetNext (tr : NTrans) (dState : StringSet) (c : Rune) : StringSet :=
  (GoSet.Unwrap dState).foldl (fun dNext x =>
    match tableGet tr x c with
    | none => dNext
    | some y => GoSet.Add dNext (GoSet.Unwrap y)) (NewStringSet [])

/-- The statements `if _, ok := transitions[k]; !ok { transitions[k] = ... }`
and `transitions[k][c] = m` of the powerset loop. -/
def dtUpdate (dt : GoMap String (GoMap Rune String)) (k : String) (c : Rune) (m : String) :
    GoMap String (GoMap Rune String) :=
  let t1 := mapEnsure dt k []
  mapSet t1 k (mapSet ((mapGet t1 k).getD []) c m)

/-- The body of the loop over `chars` of the powerset loop. -/
def powersetStep (tr : NTrans) (dState : StringSet) (v : PowersetVars) (c : Rune) :
    PowersetVars :=
  let dNext := powersetNext tr dState c
  if GoSet.Len dNext = 0 then v
  else
    let v1 : PowersetVars :=
      if mapHas v.dfaStatesMap (stringSetToString dNext) then v
      else
        { v with
          q := v.q ++ [dNext]
          dfaStatesMap :=
            mapSet v.dfaStatesMap (stringSetToString dNext) (toString v.dfaStatesMap.length) }
    let k := mapGetD v1.dfaStatesMap (stringSetToString dState)
    { v1 with
      transitions :=
        dtUpdate v1.transitions k c (mapGetD v1.dfaStatesMap (stringSetToString dNext)) }

/-- The loop `for len(q) > 0` of `ApplyPowersetConstruction`; each unit of fuel
pays for one dequeued subset. -/
def powersetLoop (s : nfaMachine) (chars : RuneSet) : Nat → PowersetVars → Option PowersetVars
  | 0, v => if v.q.length > 0 then none else some v
  | fuel + 1, v =>
    match v.q with
    | [] => some v
    | dState :: rest =>
      let name := mapGetD v.dfaStatesMap (stringSetToString dState)
      let v1 : PowersetVars :=
        { v with
          q := rest
          states := GoSet.Add v.states [name]
          acceptStates :=
            if GoSet.Len (GoSet.And dState s.acceptStates) > 0 then GoSet.Add v.acceptStates [name]
            else v.acceptStates }
      powersetLoop s chars fuel ((GoSet.Unwrap chars).foldl (powersetStep s.transitions dState) v1)

/-- The last loop of `ApplyPowersetConstruction`: every destination becomes a
singleton set. -/
def singletonTable (transitions : GoMap String (GoMap Rune String)) : NTrans :=
  transitions.map (fun e => (e.1, e.2.map (fun r => (r.1, NewStringSet [r.2]))))

/-- Method `nfaMachine.ApplyPowersetConstruction`: `none` when the loop runs out
of fuel. -/
def nfaMachine.ApplyPowersetConstruction (fuel : Nat) (s : nfaMachine) :
    Option (Except FaError nfaMachine) :=
  if s.HasEpsilon then some (Except.error FaError.ErrEpsilonExists)
  else
    let chars := powersetChars s
    let v0 : PowersetVars :=
      { states := NewStringSet []
        transitions := []
        acceptStates := NewStringSet []
        dfaStatesMap := [(stringSetToString s.startStates, "0")]
        q := [NewStringSet (GoSet.Unwrap s.startStates)] }
    match powersetLoop s chars fuel v0 with
    | none => none
    | some v =>
      some (Except.ok
        { states := v.states
          chars := chars
          startStates := NewStringSet ["0"]
          acceptStates := v.acceptStates
          transitions := singletonTable v.transitions
          currentStates := NewStringSet ["0"] })

/-- Method `nfaMachine.Minimize`. -/
def nfaMachine.Minimize (fuel : Nat) (s : nfaMachine) : Option (Except FaError nfaMachine) :=
  match s.Reverse.ApplyEpsilonExpansion fuel with
  | none => none
  | some e1 =>
    match e1.ApplyPowersetConstruction fuel with
    | none => none
    | some (Except.error err) => some (Except.error err)
    | some (Except.ok m) =>
      match m.Reverse.ApplyEpsilonExpansion fuel with
      | none => none
      | some e2 => e2.ApplyPowersetConstruction fuel

/-! ## NFA builder -/

/-- Struct `nfaMachineBuilder`. -/
structure nfaMachineBuilder where
  states : List String
  chars : List Rune
  startStates : List String
  acceptStates : List String
  transitions : GoMap String (GoMap Rune (List String))
  deriving DecidableEq, Repr

/-- The loop variables of `nfaMachineBuilder.Build`. -/
structure NfaCollect where
  tStates : StringSet
  tChars : RuneSet
  transitions : NTrans
  deriving DecidableEq, Repr

/-- The inner loop of `nfaMachineBuilder.Build` over the row of `state`. -/
def nfaCollectRow (state : String) (acc : NfaCollect) (v : GoMap Rune (List String)) :
    NfaCollect :=
  v.foldl (fun a e =>
    if e.2.length = 0 then a
    else
      { tChars := GoSet.Add a.tChars [e.1]
        tStates := GoSet.Add a.tStates e.2
        transitions :=
          mapSet a.transitions state
            (mapSet ((mapGet a.transitions state).getD []) e.1 (NewStringSet e.2)) }) acc

/-- The outer loop of `nfaMachineBuilder.Build`. -/
def nfaCollect (transitions : GoMap String (GoMap Rune (List String))) : NfaCollect :=
  transitions.foldl (fun acc e =>
    if e.2.length = 0 then acc
    else
      nfaCollectRow e.1
        { acc with
          tStates := GoSet.Add acc.tStates [e.1]
          transitions := mapSet acc.transitions e.1 [] } e.2)
    { tStates := NewStringSet [], tChars := NewRuneSet [], transitions := [] }

/-- Method `nfaMachineBuilder.Build`. -/
def nfaMachineBuilder.Build (s : nfaMachineBuilder) : Except FaError nfaMachine :=
  let states := NewStringSet s.states
  if !GoSet.In states s.startStates then Except.error FaError.ErrInvalidStartStates
  else if !GoSet.In states s.acceptStates then Except.error FaError.ErrInvalidAcceptStates
  else
    let t := nfaCollect s.transitions
    let chars := NewRuneSet s.chars
    if !GoSet.In states (GoSet.Unwrap t.tStates)
        || (decide (GoSet.Len chars > 0) && !GoSet.In chars (GoSet.Unwrap t.tChars)) then
      Except.error FaError.ErrInvalidTransitions
    else
      Except.ok
        { states := states
          chars := chars
          startStates := NewStringSet s.startStates
          acceptStates := NewStringSet s.acceptStates
          transitions := t.transitions
          currentStates := NewStringSet s.startStates }

/-! ## Conversions between the two machine forms -/

/-- Struct `DFAMachineShell`, without the raw fields that only the JSON codec
uses. -/
structure DFAMachineShell where
  States : List String
  Chars : List Rune
  StartState : String
  AcceptStates : List String
  Transitions : GoMap String (GoMap Rune String)
  CurrentState : String
  deriving DecidableEq, Repr

/-- Method `dfaMachine.ToShell`. -/
def dfaMachine.ToShell (s : dfaMachine) : DFAMachineShell :=
  { States := GoSet.Unwrap s.states
    Chars := GoSet.Unwrap s.chars
    StartState := s.startState
    AcceptStates := GoSet.Unwrap s.acceptStates
    Transitions := s.transitions
    CurrentState := s.currentState }

/-- Function `FromDFA`; its loop over the table is the loop that ends
`ApplyPowersetConstruction`. -/
def FromDFA (m : dfaMachine) : nfaMachine :=
  let s := m.ToShell
  { states := NewStringSet s.States
    startStates := NewStringSet [s.StartState]
    chars := NewRuneSet s.Chars
    acceptStates := NewStringSet s.AcceptStates
    currentStates := NewStringSet [s.StartState]
    transitions := singletonTable s.Transitions }

/-- The expression `x.Unwrap()[0]` of `ToDFA`.  It is evaluated only after
`IsDFA` has returned true, on sets with exactly one member; on an empty slice
Go panics, which the default stands for. -/
def firstOf (x : StringSet) : String := (GoSet.Unwrap x).headD ""

/-- Method `nfaMachine.ToDFA`. -/
def nfaMachine.ToDFA (s : nfaMachine) : Except FaError dfaMachine :=
  if !s.IsDFA then Except.error FaError.ErrNotDFA
  else
    let ts : GoMap String (GoMap Rune String) :=
      s.transitions.map (fun e => (e.1, e.2.map (fun r => (r.1, firstOf r.2))))
    dfaMachineBuilder.Build
      { states := GoSet.Unwrap s.states
        acceptStates := GoSet.Unwrap s.acceptStates
        chars := GoSet.Unwrap s.chars
        startState := firstOf s.startStates
        transitions := ts }

/-! ## Runs that go on after an error -/

/-- The calls `Put` on the runes of `w` in order, each made whatever the one
before returned, as the test loops do: the machine after the last call and the
error of every call. -/
def nfaMachine.putTrace (fuel : Nat) :
    nfaMachine → List Rune → Option (nfaMachine × List (Option FaError))
  | s, [] => some (s, [])
  | s, x :: w =>
    match s.Put fuel x with
    | none => none
    | some (s1, e) =>
      match nfaMachine.putTrace fuel s1 w with
      | none => none
      | some (s2, es) => some (s2, e :: es)

/-- The calls `Put` of a DFA on the runes of `w` in order, each made whatever
the one before returned: the machine after the last call and the error of
every call. -/
def dfaMachine.putTrace : dfaMachine → List Rune → dfaMachine × List (Option FaError)
  | s, [] => (s, [])
  | s, x :: w =>
    let r := dfaMachine.putTrace (s.Put x).1 w
    (r.1, (s.Put x).2 :: r.2)

/-! ## Equality of rune sets -/

/-- Library call `sort.Slice(xs, func(i, j int) bool { return xs[i] < xs[j] })`:
the ascending arrangement of the slice. -/
def sortRunes (l : List Rune) : List Rune := l.insertionSort (fun a b => a ≤ b)

/-- The loop `for i, p := range xs { if p != ys[i] { return false } }` of
`runeSet.Equal` and the `return true` after it; `none` when the index
expression `ys[i]` is out of range, which stops the program. -/
def runeEqualLoop : List Rune → List Rune → Option Bool
  | [], _ => some true
  | _ :: _, [] => none
  | p :: xs, y :: ys => if p ≠ y then some false else runeEqualLoop xs ys

/-- Method `runeSet.Equal` on two sets (the argument is a set, not the nil
interface); it compares the sorted slices without comparing their lengths
first. -/
def RuneSet.Equal (s x : RuneSet) : Option Bool :=
  runeEqualLoop (sortRunes (GoSet.Unwrap s)) (sortRunes (GoSet.Unwrap x))

/-! ## Shells and the JSON codec

The text that `json.Marshal` writes is represented by the JSON object it
denotes, with one field per struct tag, and `json.Unmarshal` reads that object
back: a field tagged `omitempty` is left out when it is empty, and a field that
is left out is read as Go's zero value.  Strings are sequences of code points,
on which the string codec of `encoding/json` is the identity.  Text that is
not a JSON object of the expected shape, on which `json.Unmarshal` returns its
own error, is outside the embedding. -/

/-- Constant `EpsilonForJSON`, the rune U+0007. -/
def EpsilonForJSON : Rune := 7

/-- The number of bytes of the UTF-8 text of one code point. -/
def utf8Len (c : Char) : Nat :=
  if c.toNat < 128 then 1
  else if c.toNat < 2048 then 2
  else if c.toNat < 65536 then 3
  else 4

/-- Go's `len(x)` of a string: its number of bytes. -/
def goLen (x : String) : Nat := (x.data.map utf8Len).sum

/-- Go's conversion `string(x)` of a rune: the text of the code point `x`, and
of U+FFFD when `x` is not a code point. -/
def runeToString (x : Rune) : String :=
  if 0 ≤ x ∧ Nat.isValidChar x.toNat then String.mk [Char.ofNat x.toNat]
  else String.mk [Char.ofNat 65533]

/-- Go's `[]rune(x)[0]`, the first code point of a string; the codec reads it
only after the test `len(x) != 1`, so never on the empty string. -/
def firstRune (x : String) : Rune :=
  match x.data with
  | [] => 0
  | c :: _ => (c.toNat : Int)

/-- Struct `NFAMachineShell`, without the raw fields that only the JSON codec
uses; `CurrentStates` is `none` for the nil slice. -/
structure NFAMachineShell where
  States : List String
  Chars : List Rune
  StartStates : List String
  AcceptStates : List String
  Transitions : GoMap String (GoMap Rune (List String))
  CurrentStates : Option (List String)
  deriving DecidableEq, Repr

/-- Method `nfaMachine.ToShell`. -/
def nfaMachine.ToShell (s : nfaMachine) : NFAMachineShell :=
  { States := GoSet.Unwrap s.states
    Chars := GoSet.Unwrap s.chars
    StartStates := GoSet.Unwrap s.startStates
    AcceptStates := GoSet.Unwrap s.acceptStates
    Transitions := s.transitions.map (fun e => (e.1, e.2.map (fun r => (r.1, GoSet.Unwrap r.2))))
    CurrentStates := some (GoSet.Unwrap s.currentStates) }

/-- The JSON object of an NFA shell: the fields `states`, `chars`,
`start_states`, `accept_states`, `transitions` and `current_states`;
`current_states` is `none` when the key is absent. -/
structure NFAJson where
  states : List String
  chars : List String
  start_states : List String
  accept_states : List String
  transitions : GoMap String (GoMap String (List String))
  current_states : Option (List String)
  deriving DecidableEq, Repr

/-- The JSON object of a DFA shell: the fields `states`, `chars`,
`start_state`, `accept_states`, `transitions` and `current_state`; an absent
`current_state` is the empty string. -/
structure DFAJson where
  states : List String
  chars : List String
  start_state : String
  accept_states : List String
  transitions : GoMap String (GoMap String String)
  current_state : String
  deriving DecidableEq, Repr

/-- The inner loop of `NFAMachineShell.ToJSON` over one row. -/
def nfaEncodeRow (x : GoMap Rune (List String)) : GoMap String (List String) :=
  x.foldl (fun row r =>
    if r.1 = Epsilon then mapSet row (runeToString EpsilonForJSON) r.2
    else mapSet row (runeToString r.1) r.2) []

/-- The loop of `NFAMachineShell.ToJSON` over the table. -/
def nfaEncodeTable (t : GoMap String (GoMap Rune (List String))) :
    GoMap String (GoMap String (List String)) :=
  t.foldl (fun rts e => mapSet rts e.1 (nfaEncodeRow e.2)) []

/-- Method `NFAMachineShell.ToJSON`; the error it returns is always nil. -/
def NFAMachineShell.ToJSON (s : NFAMachineShell) : NFAJson :=
  { states := s.States
    chars := s.Chars.map runeToString
    start_states := s.StartStates
    accept_states := s.AcceptStates
    transitions := nfaEncodeTable s.Transitions
    current_states :=
      match s.CurrentStates with
      | none => none
      | some l => if l.length = 0 then none else some l }

/-- The loop over `RawChars` of the two decoders. -/
def decodeChars : List String → Except FaError (List Rune)
  | [] => Except.ok []
  | x :: rest =>
    if goLen x ≠ 1 then Except.error FaError.ErrCannotUnmarshalMachine
    else
      match decodeChars rest with
      | Except.error e => Except.error e
      | Except.ok cs => Except.ok (firstRune x :: cs)

/-- The inner loop of `NewNFAMachineShellFromJSON` over one raw row, from the
row `acc` filled so far. -/
def nfaDecodeRow : GoMap String (List String) → GoMap Rune (List String) →
    Except FaError (GoMap Rune (List String))
  | [], acc => Except.ok acc
  | (kx, kv) :: rest, acc =>
    if goLen kx ≠ 1 then Except.error FaError.ErrCannotUnmarshalMachine
    else
      let c := firstRune kx
      if c = EpsilonForJSON then nfaDecodeRow rest (mapSet acc Epsilon kv)
      else nfaDecodeRow rest (mapSet acc c kv)

/-- The loop of `NewNFAMachineShellFromJSON` over the raw table, from the table
`acc` filled so far. -/
def nfaDecodeTable : GoMap String (GoMap String (List String)) →
    GoMap String (GoMap Rune (List String)) →
    Except FaError (GoMap String (GoMap Rune (List String)))
  | [], acc => Except.ok acc
  | (k, x) :: rest, acc =>
    match nfaDecodeRow x [] with
    | Except.error e => Except.error e
    | Except.ok row => nfaDecodeTable rest (mapSet acc k row)

/-- Function `NewNFAMachineShellFromJSON` on a JSON object. -/
def NewNFAMachineShellFromJSON (b : NFAJson) : Except FaError NFAMachineShell :=
  match decodeChars b.chars with
  | Except.error e => Except.error e
  | Except.ok cs =>
    match nfaDecodeTable b.transitions [] with
    | Except.error e => Except.error e
    | Except.ok ts =>
      Except.ok
        { States := b.states
          Chars := cs
          StartStates := b.start_states
          AcceptStates := b.accept_states
          Transitions := ts
          CurrentStates := b.current_states }

/-- Method `NFAMachineShell.ToMachine`. -/
def NFAMachineShell.ToMachine (s : NFAMachineShell) : Except FaError nfaMachine :=
  match nfaMachineBuilder.Build
      { states := s.States
        chars := s.Chars
        startStates := s.StartStates
        acceptStates := s.AcceptStates
        transitions := s.Transitions } with
  | Except.error e => Except.error e
  | Except.ok m =>
    match s.CurrentStates with
    | none => Except.ok m
    | some cur =>
      match m.SetStates cur with
      | (_, some e) => Except.error e
      | (m1, none) => Except.ok m1

/-- The helper `toggle` of `TestNFAMachineShell`: machine to shell, to JSON,
back to a shell and to a machine. -/
def nfaToggle (m : nfaMachine) : Except FaError nfaMachine :=
  match NewNFAMachineShellFromJSON m.ToShell.ToJSON with
  | Except.error e => Except.error e
  | Except.ok p => p.ToMachine

/-- The inner loop of `DFAMachineShell.ToJSON` over one row. -/
def dfaEncodeRow (x : GoMap Rune String) : GoMap String String :=
  x.foldl (fun row r => mapSet row (runeToString r.1) r.2) []

/-- The loop of `DFAMachineShell.ToJSON` over the table. -/
def dfaEncodeTable (t : GoMap String (GoMap Rune String)) : GoMap String (GoMap String String) :=
  t.foldl (fun rts e => mapSet rts e.1 (dfaEncodeRow e.2)) []

/-- Method `DFAMachineShell.ToJSON`; the error it returns is always nil. -/
def DFAMachineShell.ToJSON (s : DFAMachineShell) : DFAJson :=
  { states := s.States
    chars := s.Chars.map runeToString
    start_state := s.StartState
    accept_states := s.AcceptStates
    transitions := dfaEncodeTable s.Transitions
    current_state := s.CurrentState }

/-- The inner loop of `NewDFAMachineShellFromJSON` over one raw row. -/
def dfaDecodeRow : GoMap String String → GoMap Rune String → Except FaError (GoMap Rune String)
  | [], acc => Except.ok acc
  | (kx, kv) :: rest, acc =>
    if goLen kx ≠ 1 then Except.error FaError.ErrCannotUnmarshalMachine
    else dfaDecodeRow rest (mapSet acc (firstRune kx) kv)

/-- The loop of `NewDFAMachineShellFromJSON` over the raw table. -/
def dfaDecodeTable : GoMap String (GoMap String String) → GoMap String (GoMap Rune String) →
    Except FaError (GoMap String (GoMap Rune String))
  | [], acc => Except.ok acc
  | (k, x) :: rest, acc =>
    match dfaDecodeRow x [] with
    | Except.error e => Except.error e
    | Except.ok row => dfaDecodeTable rest (mapSet acc k row)

/-- Function `NewDFAMachineShellFromJSON` on a JSON object. -/
def NewDFAMachineShellFromJSON (b : DFAJson) : Except FaError DFAMachineShell :=
  match decodeChars b.chars with
  | Except.error e => Except.error e
  | Except.ok cs =>
    match dfaDecodeTable b.transitions [] with
    | Except.error e => Except.error e
    | Except.ok ts =>
      Except.ok
        { States := b.states
          Chars := cs
          StartState := b.start_state
          AcceptStates := b.accept_states
          Transitions := ts
          CurrentState := b.current_state }

/-- Method `DFAMachineShell.ToMachine`. -/
def DFAMachineShell.ToMachine (s : DFAMachineShell) : Except FaError dfaMachine :=
  match dfaMachineBuilder.Build
      { states := s.States
        chars := s.Chars
        startState := s.StartState
        acceptStates := s.AcceptStates
        transitions := s.Transitions } with
  | Except.error e => Except.error e
  | Except.ok m =>
    if s.CurrentState ≠ "" then
      match m.SetState s.CurrentState with
      | (_, some e) => Except.error e
      | (m1, none) => Except.ok m1
    else Except.ok m

/-- The helper `toggle` of `TestDFAMachineShell`. -/
def dfaToggle (m : dfaMachine) : Except FaError dfaMachine :=
  match NewDFAMachineShellFromJSON m.ToShell.ToJSON with
  | Except.error e => Except.error e
  | Except.ok p => p.ToMachine

/-! ## Definitions used to state the properties -/

/-- The partial transition function of a DFA read off its table. -/
def dfaMachine.delta (s : dfaMachine) (q : String) (x : Rune) : Option String :=
  (mapGet s.transitions q).bind (fun t => mapGet t x)

/-- Some source state that has a transition, or some destination state, is
outside the declared states. -/
def dfaMachineBuilder.badStates (b : dfaMachineBuilder) : Prop :=
  ∃ e ∈ b.transitions, e.2 ≠ [] ∧ (e.1 ∉ b.states ∨ ∃ r ∈ e.2, r.2 ∉ b.states)

/-- The declared alphabet is not empty and some transition symbol is outside it. -/
def dfaMachineBuilder.badChars (b : dfaMachineBuilder) : Prop :=
  b.chars ≠ [] ∧ ∃ e ∈ b.transitions, ∃ r ∈ e.2, r.1 ∉ b.chars

/-- The parity DFA of the test suite. -/
def parityBuilder : dfaMachineBuilder :=
  { states := ["even", "odd"]
    chars := [48, 49]
    startState := "even"
    acceptStates := ["odd"]
    transitions := [("even", [(48, "even"), (49, "odd")]), ("odd", [(48, "odd"), (49, "even")])] }

/-- The machine built from `parityBuilder`. -/
def parity : dfaMachine :=
  { states := ["even", "odd"]
    chars := [48, 49]
    startState := "even"
    acceptStates := ["odd"]
    transitions := [("even", [(48, "even"), (49, "odd")]), ("odd", [(48, "odd"), (49, "even")])]
    currentState := "even" }

/-- The builder input of the `a(b|c)*d` machine of `TestNFAMachine`. -/
def abcdBuilder : nfaMachineBuilder :=
  { states := ["a-start", "a-end", "bc-start", "b-start", "b-end", "c-start", "c-end",
      "bc-end", "d-start", "d-end"]
    chars := []
    startStates := ["a-start"]
    acceptStates := ["d-end"]
    transitions :=
      [("a-start", [(97, ["a-end"])]),
       ("a-end", [(Epsilon, ["bc-start", "d-start"])]),
       ("bc-start", [(Epsilon, ["b-start", "c-start"])]),
       ("b-start", [(98, ["b-end"])]),
       ("c-start", [(99, ["c-end"])]),
       ("b-end", [(Epsilon, ["bc-end"])]),
       ("c-end", [(Epsilon, ["bc-end"])]),
       ("bc-end", [(Epsilon, ["bc-start", "d-start"])]),
       ("d-start", [(100, ["d-end"])])] }

/-- The machine that `abcdBuilder.Build` returns. -/
def abcd : nfaMachine :=
  { states := ["a-start", "a-end", "bc-start", "b-start", "b-end", "c-start", "c-end",
      "bc-end", "d-start", "d-end"]
    chars := []
    startStates := ["a-start"]
    acceptStates := ["d-end"]
    transitions :=
      [("a-start", [(97, ["a-end"])]),
       ("a-end", [(Epsilon, ["bc-start", "d-start"])]),
       ("bc-start", [(Epsilon, ["b-start", "c-start"])]),
       ("b-start", [(98, ["b-end"])]),
       ("c-start", [(99, ["c-end"])]),
       ("b-end", [(Epsilon, ["bc-end"])]),
       ("c-end", [(Epsilon, ["bc-end"])]),
       ("bc-end", [(Epsilon, ["bc-start", "d-start"])]),
       ("d-start", [(100, ["d-end"])])]
    currentStates := ["a-start"] }

/-- The destinations `Delta(q, x)` read off a transition table; no entry means
no destination. -/
def tableDelta (tr : NTrans) (q : String) (x : Rune) : StringSet :=
  (tableGet tr q x).getD []

/-- The destinations `Delta(q, x)` of a machine. -/
def nfaMachine.Delta (s : nfaMachine) (q : String) (x : Rune) : StringSet :=
  tableDelta s.transitions q x

/-- The epsilon-closure of a set `S` of states as the specification defines it:
the least superset of `S` closed under the epsilon transitions of the table. -/
inductive EpsClosure (tr : NTrans) (S : String → Prop) : String → Prop where
  | base {y : String} : S y → EpsClosure tr S y
  | step {p y : String} : EpsClosure tr S p → y ∈ tableDelta tr p Epsilon → EpsClosure tr S y

/-- The set the specification assigns to the current states after `Put(x)` from
`C`: the epsilon-closure of the union of `Delta(q, x)` over `q` in the
epsilon-closure of `C`. -/
def specPutSet (tr : NTrans) (C : StringSet) (x : Rune) : String → Prop :=
  EpsClosure tr (fun y => ∃ q, EpsClosure tr (fun p => p ∈ C) q ∧ y ∈ tableDelta tr q x)

/-- A set of states on which the closure loop of the simulator changes nothing:
every member that has an epsilon entry is one of its own epsilon destinations
and all its epsilon destinations are members. -/
def EpsStable (tr : NTrans) (C : StringSet) : Prop :=
  ∀ p ∈ C, ∀ u, tableGet tr p Epsilon = some u → p ∈ u ∧ ∀ y ∈ u, y ∈ C

/-- The keys of an association list are pairwise distinct, as in a Go map. -/
def NodupKeys {κ ν : Type} (m : GoMap κ ν) : Prop := (m.map Prod.fst).Nodup

/-- A transition table is a map of maps: distinct row keys, and distinct
symbol keys inside every row. -/
def TableOK (tr : NTrans) : Prop := NodupKeys tr ∧ ∀ e ∈ tr, NodupKeys e.2

/-- A run of the table from state `p` to state `q` that reads the word `w`. -/
inductive Path (tr : NTrans) : String → List Rune → String → Prop where
  | nil (p : String) : Path tr p [] p
  | cons {p y q : String} {x : Rune} {w : List Rune} :
      y ∈ tableDelta tr p x → Path tr y w q → Path tr p (x :: w) q

/-- The symbol `x` passes the alphabet check of `Put`: the alphabet is empty
(universe) or contains `x`. -/
def nfaMachine.admits (s : nfaMachine) (x : Rune) : Prop := s.chars = [] ∨ x ∈ s.chars

/-- The language of a machine read as an automaton without epsilon moves: every
symbol of `w` is admitted and some run from a start state to an accept state
reads `w`. -/
def nfaMachine.Lang (s : nfaMachine) (w : List Rune) : Prop :=
  (∀ x ∈ w, s.admits x) ∧
    ∃ p ∈ s.startStates, ∃ q ∈ s.acceptStates, Path s.transitions p w q

/-- Builder input of a machine in which the state `s` has both an epsilon
transition and a transition on `a`. -/
def forkBuilder : nfaMachineBuilder :=
  { states := ["s", "p", "f"]
    chars := []
    startStates := ["s"]
    acceptStates := ["f"]
    transitions := [("s", [(97, ["f"]), (Epsilon, ["p"])])] }

/-- The machine that `forkBuilder.Build` returns. -/
def fork : nfaMachine :=
  { states := ["s", "p", "f"]
    chars := []
    startStates := ["s"]
    acceptStates := ["f"]
    transitions := [("s", [(97, ["f"]), (Epsilon, ["p"])])]
    currentStates := ["s"] }

/-- Builder input of the parity automaton as an NFA. -/
def parityNfaBuilder : nfaMachineBuilder :=
  { states := ["even", "odd"]
    chars := [48, 49]
    startStates := ["even"]
    acceptStates := ["odd"]
    transitions :=
      [("even", [(48, ["even"]), (49, ["odd"])]), ("odd", [(48, ["odd"]), (49, ["even"])])] }

/-- The machine that `parityNfaBuilder.Build` returns. -/
def parityNfa : nfaMachine :=
  { states := ["even", "odd"]
    chars := [48, 49]
    startStates := ["even"]
    acceptStates := ["odd"]
    transitions :=
      [("even", [(48, ["even"]), (49, ["odd"])]), ("odd", [(48, ["odd"]), (49, ["even"])])]
    currentStates := ["even"] }

/-- A state name that the subset naming handles: not empty and without the
separator `_`. -/
def GoodName (n : String) : Prop := n ≠ "" ∧ '_' ∉ n.data

/-- Two reads of the table `map[string]map[rune]string` that the powerset loop
fills: the destination name for state name `n` and symbol `c`. -/
def dtGet (dt : GoMap String (GoMap Rune String)) (n : String) (c : Rune) : Option String :=
  match mapGet dt n with
  | none => none
  | some row => mapGet row c

/-- The content of `dfaStatesMap` once the subsets `sets` have been discovered
in this order, counting from `k`: each subset is keyed by its canonical string
and named by the numeral of its position. -/
def nameFrom (k : Nat) : List StringSet → GoMap String String
  | [] => []
  | t :: l => (stringSetToString t, toString k) :: nameFrom (k + 1) l

/-- The pair (subset number `i`, symbol `c`) has been handled by the powerset
loop when subset `d` is being expanded and the symbols `cs` are done for it. -/
def psHandled (chars : RuneSet) (d : Nat) (cs : List Rune) (i : Nat) (c : Rune) : Prop :=
  (i < d ∧ c ∈ chars) ∨ (i = d ∧ c ∈ cs)

/-- Invariant of the loop of `ApplyPowersetConstruction`.  `sets` lists the
subsets discovered so far in order of discovery, `reg` of them have been taken
off the queue and registered as states, and the pairs `psHandled chars d cs`
have their edge in the table. -/
structure PowersetInv (s : nfaMachine) (chars : RuneSet) (sets : List StringSet) (d : Nat)
    (cs : List Rune) (reg : Nat) (v : PowersetVars) : Prop where
  hq : v.q = sets.drop reg
  hreg : reg ≤ sets.length
  hmap : v.dfaStatesMap = nameFrom 0 sets
  hkeys : (sets.map stringSetToString).Nodup
  hstates : ∀ n, n ∈ v.states ↔ ∃ i, i < reg ∧ n = toString i
  hstatesNodup : v.states.Nodup
  haccept : ∀ n, n ∈ v.acceptStates ↔
    ∃ (i : Nat) (t : StringSet), i < reg ∧ sets[i]? = some t ∧ n = toString i ∧
      ∃ y ∈ t, y ∈ s.acceptStates
  hacceptNodup : v.acceptStates.Nodup
  hedge : ∀ (i : Nat) (t : StringSet) (c : Rune), sets[i]? = some t → psHandled chars d cs i c →
    powersetNext s.transitions t c ≠ [] →
    ∃ (j : Nat) (u : StringSet), sets[j]? = some u ∧
      stringSetToString u = stringSetToString (powersetNext s.transitions t c) ∧
      dtGet v.transitions (toString i) c = some (toString j)
  honly : ∀ n c m, dtGet v.transitions n c = some m →
    ∃ (i : Nat) (t : StringSet), sets[i]? = some t ∧ n = toString i ∧ psHandled chars d cs i c ∧
      powersetNext s.transitions t c ≠ []
  htableOK : NodupKeys v.transitions ∧ ∀ e ∈ v.transitions, NodupKeys e.2
  hreach : ∀ (j : Nat) (u : StringSet), 0 < j → sets[j]? = some u →
    ∃ (i : Nat) (c : Rune), i < j ∧ dtGet v.transitions (toString i) c = some (toString j)
  hnodup : ∀ t ∈ sets, t.Nodup
  hfrom : ∀ (j : Nat) (u : StringSet), 0 < j → sets[j]? = some u →
    ∃ (t : StringSet) (c : Rune), u = powersetNext s.transitions t c ∧ u ≠ []

/-- Every state that occurs in a destination set of the table. -/
def tableDests (tr : NTrans) : List String :=
  tr.flatMap (fun e => e.2.flatMap (fun r => r.2))

/-- A number of dequeued subsets that the powerset loop cannot exceed: the
start subset and one subset per set of destination states. -/
def powersetBound (s : nfaMachine) : Nat := 2 ^ (tableDests s.transitions).dedup.length + 1

/-- Every state name that the powerset construction can put into a subset, the
start states and the destination states, is a good name. -/
def GoodNames (s : nfaMachine) : Prop :=
  ∀ n, (n ∈ s.startStates ∨ n ∈ tableDests s.transitions) → GoodName n

/-- Builder input of a machine without epsilon transitions in which the state
name `a_b` is also the canonical string of the subset `{a, b}`. -/
def clashBuilder : nfaMachineBuilder :=
  { states := ["a", "b", "a_b", "f"]
    chars := []
    startStates := ["a", "b"]
    acceptStates := ["f"]
    transitions := [("a", [(120, ["a_b"])]), ("a_b", [(121, ["f"])])] }

/-- The machine that `clashBuilder.Build` returns. -/
def clash : nfaMachine :=
  { states := ["a", "b", "a_b", "f"]
    chars := []
    startStates := ["a", "b"]
    acceptStates := ["f"]
    transitions := [("a", [(120, ["a_b"])]), ("a_b", [(121, ["f"])])]
    currentStates := ["a", "b"] }

/-- One half of `Minimize`: the chain
`Reverse().ApplyEpsilonExpansion().ApplyPowersetConstruction()`. -/
def halfMinimize (fuel : Nat) (s : nfaMachine) : Option (Except FaError nfaMachine) :=
  match s.Reverse.ApplyEpsilonExpansion fuel with
  | none => none
  | some e => e.ApplyPowersetConstruction fuel

/-- The machine that `ApplyEpsilonExpansion` returns on a machine without
epsilon transitions: the table without empty entries, purged of the useless
states. -/
def expandedOf (s : nfaMachine) : nfaMachine :=
  { states := GoSet.Del (GoSet.Clone s.states)
      (GoSet.Unwrap (uselessOf s (expandExtract s.transitions)))
    chars := GoSet.Clone s.chars
    startStates := GoSet.Del (GoSet.Clone s.startStates)
      (GoSet.Unwrap (uselessOf s (expandExtract s.transitions)))
    acceptStates := GoSet.Clone s.acceptStates
    currentStates := GoSet.Clone s.currentStates
    transitions := purgeTransitions (expandExtract s.transitions)
      (uselessOf s (expandExtract s.transitions)) }

/-- The names that the first subset construction of `Minimize` puts into
subsets, the accept states and the states with an outgoing transition, are good
names. -/
def SourceNamesGood (s : nfaMachine) : Prop :=
  ∀ n, (n ∈ s.acceptStates ∨ ∃ c y, y ∈ tableDelta s.transitions n c) → GoodName n

/-- Builder input of a machine without epsilon transitions for which the first
subset construction of `Minimize` meets the state name `a_b` and the subset
`{a, b}`. -/
def clashRevBuilder : nfaMachineBuilder :=
  { states := ["a", "b", "a_b", "f"]
    chars := []
    startStates := ["f"]
    acceptStates := ["a", "b"]
    transitions := [("f", [(121, ["a_b"]), (122, ["b"])]), ("a_b", [(120, ["a"])])] }

/-- The machine that `clashRevBuilder.Build` returns. -/
def clashRev : nfaMachine :=
  { states := ["a", "b", "a_b", "f"]
    chars := []
    startStates := ["f"]
    acceptStates := ["a", "b"]
    transitions := [("f", [(121, ["a_b"]), (122, ["b"])]), ("a_b", [(120, ["a"])])]
    currentStates := ["f"] }

/-- What is known of a machine returned by the powerset construction, whatever
its input: no epsilon entry, the single start state `0`, at most one destination
per state and symbol, every state reached from `0`, every edge labelled by a
symbol of the alphabet, numerals as names. -/
structure IsSubsetMachine (X : nfaMachine) : Prop where
  eps : X.HasEpsilon = false
  table : TableOK X.transitions
  start : X.startStates = ["0"]
  det : ∀ n c y1 y2, y1 ∈ tableDelta X.transitions n c → y2 ∈ tableDelta X.transitions n c →
    y1 = y2
  reach : ∀ n, (n ∈ X.acceptStates ∨ (∃ c y, y ∈ tableDelta X.transitions n c) ∨ n ∈ X.states) →
    ∃ u, Path X.transitions "0" u n
  labels : ∀ n c y, y ∈ tableDelta X.transitions n c → c ∈ X.chars
  names : SourceNamesGood X
  statesNodup : X.states.Nodup

/-- Some run from state `n` that reads `z` ends in an accept state. -/
def LeadsToAccept (X : nfaMachine) (n : String) (z : List Rune) : Prop :=
  ∃ q ∈ X.acceptStates, Path X.transitions n z q

/-- A reduced deterministic machine: a subset machine in its start
configuration whose states are closed under the table, pairwise
distinguishable, and all co-accessible unless there is only one state. -/
structure IsReduced (D : nfaMachine) : Prop where
  sub : IsSubsetMachine D
  cur : D.currentStates = ["0"]
  start0 : "0" ∈ D.states
  closed : ∀ n c y, y ∈ tableDelta D.transitions n c → y ∈ D.states
  distinct : ∀ n1 ∈ D.states, ∀ n2 ∈ D.states, n1 ≠ n2 →
    ∃ z, (LeadsToAccept D n1 z ∧ ¬ LeadsToAccept D n2 z) ∨
      (LeadsToAccept D n2 z ∧ ¬ LeadsToAccept D n1 z)
  coacc : (∀ n ∈ D.states, ∃ z, LeadsToAccept D n z) ∨ D.states.length ≤ 1

/-- The machine that `Minimize` returns on the a(b|c)*d automaton `abcd`. -/
def abcdMin : nfaMachine :=
  { states := ["0", "1", "2"]
    chars := [97, 98, 99, 100]
    startStates := ["0"]
    acceptStates := ["2"]
    transitions := [("0", [(97, ["1"])]), ("1", [(98, ["1"]), (99, ["1"]), (100, ["2"])])]
    currentStates := ["0"] }

/-- Every cell of the table gathered so far has its symbol in `tChars` and its
destinations in `tStates`. -/
def CollectOK (acc : NfaCollect) : Prop :=
  ∀ e ∈ acc.transitions, ∀ r ∈ e.2, r.1 ∈ acc.tChars ∧ ∀ y ∈ r.2, y ∈ acc.tStates

/-- A number of passes that the closure loop of `ExpandEpsilon` cannot exceed on
any destination set: one per destination state of the table, and a last pass
that changes nothing. -/
def expandBound (tr : NTrans) : Nat := (tableDests tr).dedup.length + 1

/-- The table of the case `first` of `TestExpandEpsilon`: `0 -0-> 1`,
`1 -eps-> 2`, `1 -1-> {1, 3}`, `2 -0-> 4`. -/
def firstTable : NTrans :=
  [("0", [(48, ["1"])]), ("1", [(Epsilon, ["2"]), (49, ["1", "3"])]), ("2", [(48, ["4"])])]

/-- The first pass of the loop of `applyEpsilonToStartStates` leaves the flag
`modified` unset. -/
def nfaMachine.startQuiet (s : nfaMachine) : Bool :=
  !(startPass s.transitions (GoSet.Unwrap (GoSet.Clone s.startStates))
      (GoSet.Clone s.startStates) false).2

/-- A useless state of `s` with respect to the expanded table `T`: a state of `s`
that is not an accept state and is the source of no transition of `T` on a
symbol other than epsilon. -/
def IsUseless (s : nfaMachine) (T : NTrans) (y : String) : Prop :=
  y ∈ s.states ∧ y ∉ s.acceptStates ∧ ∀ a : Rune, a ≠ Epsilon → tableDelta T y a = []

/-- The table the specification writes for the epsilon expansion: `Delta'(q, a)`
is the union of `Delta(p, a)` over the states `p` of the epsilon-closure of
`q`. -/
def specExpandDelta (tr : NTrans) (q : String) (a : Rune) (y : String) : Prop :=
  ∃ p, EpsClosure tr (fun z => z = q) p ∧ y ∈ tableDelta tr p a

/-- Builder input of the machine `basic` of the tests. -/
def basicBuilder : nfaMachineBuilder :=
  { states := ["0", "1", "2", "3", "4"]
    chars := []
    startStates := ["0"]
    acceptStates := ["3", "4"]
    transitions :=
      [("0", [(48, ["1"])]), ("1", [(Epsilon, ["2"]), (49, ["1", "3"])]), ("2", [(48, ["4"])])] }

/-- The machine that `basicBuilder.Build` returns. -/
def basic : nfaMachine :=
  { states := ["0", "1", "2", "3", "4"]
    chars := []
    startStates := ["0"]
    acceptStates := ["3", "4"]
    transitions := firstTable
    currentStates := ["0"] }

/-- Builder input of a machine whose start state reaches the state `r` by two
epsilon transitions in a row: `s -eps-> p -eps-> r -a-> f`. -/
def chainBuilder : nfaMachineBuilder :=
  { states := ["s", "p", "r", "f"]
    chars := []
    startStates := ["s"]
    acceptStates := ["f"]
    transitions := [("s", [(Epsilon, ["p"])]), ("p", [(Epsilon, ["r"])]), ("r", [(97, ["f"])])] }

/-- The machine that `chainBuilder.Build` returns. -/
def chain : nfaMachine :=
  { states := ["s", "p", "r", "f"]
    chars := []
    startStates := ["s"]
    acceptStates := ["f"]
    transitions := [("s", [(Epsilon, ["p"])]), ("p", [(Epsilon, ["r"])]), ("r", [(97, ["f"])])]
    currentStates := ["s"] }

/-- The machine that `ApplyEpsilonExpansion` returns on the a(b|c)*d automaton
`abcd`. -/
def abcdExpanded : nfaMachine :=
  { states := ["a-start", "b-start", "c-start", "d-start", "d-end"]
    chars := []
    startStates := ["a-start"]
    acceptStates := ["d-end"]
    transitions :=
      [("a-start", [(97, ["d-start", "b-start", "c-start"])]),
       ("b-start", [(98, ["d-start", "b-start", "c-start"])]),
       ("c-start", [(99, ["d-start", "b-start", "c-start"])]),
       ("d-start", [(100, ["d-end"])])]
    currentStates := ["a-start"] }

/-- The success condition of NFA `Build` as the specification words it: start
and accept states are declared, the source and the destinations of every
transition with a non-empty destination list are declared, and with a non-empty
declared alphabet every transition symbol other than epsilon is in it. -/
def nfaMachineBuilder.specValid (b : nfaMachineBuilder) : Prop :=
  (∀ y ∈ b.startStates, y ∈ b.states) ∧ (∀ y ∈ b.acceptStates, y ∈ b.states) ∧
  (∀ e ∈ b.transitions, ∀ r ∈ e.2, r.2 ≠ [] → e.1 ∈ b.states ∧ ∀ y ∈ r.2, y ∈ b.states) ∧
  (b.chars ≠ [] → ∀ e ∈ b.transitions, ∀ r ∈ e.2, r.1 ≠ Epsilon → r.1 ∈ b.chars)

/-- Some source state of a row that has an entry, or some destination state, is
outside the declared states. -/
def nfaMachineBuilder.badStates (b : nfaMachineBuilder) : Prop :=
  ∃ e ∈ b.transitions, e.2 ≠ [] ∧ (e.1 ∉ b.states ∨ ∃ r ∈ e.2, ∃ y ∈ r.2, y ∉ b.states)

/-- The declared alphabet is not empty and the symbol of some transition with a
non-empty destination list, epsilon or not, is outside it. -/
def nfaMachineBuilder.badChars (b : nfaMachineBuilder) : Prop :=
  b.chars ≠ [] ∧ ∃ e ∈ b.transitions, ∃ r ∈ e.2, r.2 ≠ [] ∧ r.1 ∉ b.chars

/-- Builder input with the declared alphabet `{a}` and one epsilon transition
`s -eps-> p`. -/
def epsAlphabetBuilder : nfaMachineBuilder :=
  { states := ["s", "p"]
    chars := [97]
    startStates := ["s"]
    acceptStates := ["p"]
    transitions := [("s", [(Epsilon, ["p"])])] }

/-- Builder input whose only row belongs to the undeclared state `x` and holds
one entry with an empty destination list. -/
def emptyRowBuilder : nfaMachineBuilder :=
  { states := ["s"]
    chars := []
    startStates := ["s"]
    acceptStates := []
    transitions := [("x", [(97, [])])] }

/-- A run of an automaton with epsilon moves from `p` to `q` that reads `w`: an
edge on epsilon reads nothing, an edge on another symbol reads that symbol. -/
inductive EpsRun (tr : NTrans) : String → List Rune → String → Prop where
  | nil (p : String) : EpsRun tr p [] p
  | eps {p y q : String} {w : List Rune} :
      y ∈ tableDelta tr p Epsilon → EpsRun tr y w q → EpsRun tr p w q
  | sym {p y q : String} {x : Rune} {w : List Rune} :
      x ≠ Epsilon → y ∈ tableDelta tr p x → EpsRun tr y w q → EpsRun tr p (x :: w) q

/-- The language of a machine as an automaton with epsilon moves: every symbol
of `w` is admitted and some run from a start state to an accept state reads
`w`. -/
def nfaMachine.EpsLang (s : nfaMachine) (w : List Rune) : Prop :=
  (∀ x ∈ w, s.admits x) ∧
    ∃ p ∈ s.startStates, ∃ q ∈ s.acceptStates, EpsRun s.transitions p w q

/-- The DFA is complete: its alphabet is declared and every state has a
transition on every symbol of the alphabet. -/
def dfaMachine.Complete (s : dfaMachine) : Prop :=
  s.chars ≠ [] ∧ ∀ q ∈ s.states, ∀ a ∈ s.chars, ∃ y, s.delta q a = some y

/-- No row of the DFA table has the key epsilon. -/
def dfaMachine.NoEpsilonKey (s : dfaMachine) : Prop :=
  ∀ e ∈ s.transitions, ∀ r ∈ e.2, r.1 ≠ Epsilon

/-- Builder input of a DFA with the single transition `p -a-> q` and no
declared alphabet. -/
def halfBuilder : dfaMachineBuilder :=
  { states := ["p", "q"]
    chars := []
    startState := "p"
    acceptStates := ["q"]
    transitions := [("p", [(97, "q")])] }

/-- The machine that `halfBuilder.Build` returns. -/
def half : dfaMachine :=
  { states := ["p", "q"]
    chars := []
    startState := "p"
    acceptStates := ["q"]
    transitions := [("p", [(97, "q")])]
    currentState := "p" }

/-- Builder input of an NFA for which `StartStates` was never called. -/
def noStartBuilder : nfaMachineBuilder :=
  { states := ["s", "f"]
    chars := []
    startStates := []
    acceptStates := ["f"]
    transitions := [("s", [(97, ["f"])])] }

/-- The machine that `noStartBuilder.Build` returns. -/
def noStart : nfaMachine :=
  { states := ["s", "f"]
    chars := []
    startStates := []
    acceptStates := ["f"]
    transitions := [("s", [(97, ["f"])])]
    currentStates := [] }

/-- Builder input of a DFA with the single transition `p -eps-> q` and no
declared alphabet. -/
def epsDfaBuilder : dfaMachineBuilder :=
  { states := ["p", "q"]
    chars := []
    startState := "p"
    acceptStates := ["q"]
    transitions := [("p", [(Epsilon, "q")])] }

/-- The machine that `epsDfaBuilder.Build` returns. -/
def epsDfa : dfaMachine :=
  { states := ["p", "q"]
    chars := []
    startState := "p"
    acceptStates := ["q"]
    transitions := [("p", [(Epsilon, "q")])]
    currentState := "p" }

/-- Builder input of an NFA with the single transition `s -eps-> s` and no
declared alphabet. -/
def loopNfaBuilder : nfaMachineBuilder :=
  { states := ["s"]
    chars := []
    startStates := ["s"]
    acceptStates := ["s"]
    transitions := [("s", [(Epsilon, ["s"])])] }

/-- The machine that `loopNfaBuilder.Build` returns. -/
def loopNfa : nfaMachine :=
  { states := ["s"]
    chars := []
    startStates := ["s"]
    acceptStates := ["s"]
    transitions := [("s", [(Epsilon, ["s"])])]
    currentStates := ["s"] }

/-- Builder input of a complete DFA over the alphabet of epsilon and `a`:
`p -eps-> q`, `q -eps-> q`, `p -a-> p`, `q -a-> q`, with start and accept
state `p`. -/
def epsCompleteBuilder : dfaMachineBuilder :=
  { states := ["p", "q"]
    chars := [Epsilon, 97]
    startState := "p"
    acceptStates := ["p"]
    transitions := [("p", [(Epsilon, "q"), (97, "p")]), ("q", [(Epsilon, "q"), (97, "q")])] }

/-- The machine that `epsCompleteBuilder.Build` returns. -/
def epsComplete : dfaMachine :=
  { states := ["p", "q"]
    chars := [Epsilon, 97]
    startState := "p"
    acceptStates := ["p"]
    transitions := [("p", [(Epsilon, "q"), (97, "p")]), ("q", [(Epsilon, "q"), (97, "q")])]
    currentState := "p" }

/-- Builder input of an NFA whose epsilon transitions form a cycle:
`s -eps-> t`, `t -eps-> s`, `t -a-> t`, start state `s`, accept state `t`. -/
def cycleNfaBuilder : nfaMachineBuilder :=
  { states := ["s", "t"]
    chars := []
    startStates := ["s"]
    acceptStates := ["t"]
    transitions := [("s", [(Epsilon, ["t"])]), ("t", [(Epsilon, ["s"]), (97, ["t"])])] }

/-- The machine that `cycleNfaBuilder.Build` returns. -/
def cycleNfa : nfaMachine :=
  { states := ["s", "t"]
    chars := []
    startStates := ["s"]
    acceptStates := ["t"]
    transitions := [("s", [(Epsilon, ["t"])]), ("t", [(Epsilon, ["s"]), (97, ["t"])])]
    currentStates := ["s"] }

/-- Builder input of an NFA with two start states and an epsilon transition
from one to the other: `s -eps-> t`, `t -a-> f`, start states `s` and `t`. -/
def twoStartBuilder : nfaMachineBuilder :=
  { states := ["s", "t", "f"]
    chars := []
    startStates := ["s", "t"]
    acceptStates := ["f"]
    transitions := [("s", [(Epsilon, ["t"])]), ("t", [(97, ["f"])])] }

/-- The machine that `twoStartBuilder.Build` returns. -/
def twoStart : nfaMachine :=
  { states := ["s", "t", "f"]
    chars := []
    startStates := ["s", "t"]
    acceptStates := ["f"]
    transitions := [("s", [(Epsilon, ["t"])]), ("t", [(97, ["f"])])]
    currentStates := ["s", "t"] }

/-- The structural invariants of an NFA: the start states and the accept
states are states, and so are the source and the destination of every
transition. -/
def nfaMachine.WellFormed (s : nfaMachine) : Prop :=
  (∀ y ∈ s.startStates, y ∈ s.states) ∧ (∀ y ∈ s.acceptStates, y ∈ s.states) ∧
    ∀ p a q, q ∈ s.Delta p a → p ∈ s.states ∧ q ∈ s.states

/-- The subsets that the subset construction reaches: the set of start states,
and every non-empty set of destinations of a reached subset on a symbol of the
alphabet of the construction. -/
inductive SubsetReach (s : nfaMachine) : StringSet → Prop where
  | start : SubsetReach s s.startStates
  | step {t : StringSet} {c : Rune} : SubsetReach s t → c ∈ powersetChars s →
      powersetNext s.transitions t c ≠ [] → SubsetReach s (powersetNext s.transitions t c)

/-- The loop variables of `ApplyPowersetConstruction` before the loop. -/
def powersetVars0 (s : nfaMachine) : PowersetVars :=
  { states := NewStringSet []
    transitions := []
    acceptStates := NewStringSet []
    dfaStatesMap := [(stringSetToString s.startStates, "0")]
    q := [NewStringSet (GoSet.Unwrap s.startStates)] }

/-- Builder input of an NFA with one transition on the symbol U+00E9, a code
point whose UTF-8 text has two bytes: `s -é-> f`. -/
def accentNfaBuilder : nfaMachineBuilder :=
  { states := ["s", "f"]
    chars := []
    startStates := ["s"]
    acceptStates := ["f"]
    transitions := [("s", [(233, ["f"])])] }

/-- The machine that `accentNfaBuilder.Build` returns. -/
def accentNfa : nfaMachine :=
  { states := ["s", "f"]
    chars := []
    startStates := ["s"]
    acceptStates := ["f"]
    transitions := [("s", [(233, ["f"])])]
    currentStates := ["s"] }

/-- A JSON object of an NFA shell whose only transition key is the text of the
code point U+00E9. -/
def accentJson : NFAJson :=
  { states := ["s", "f"]
    chars := []
    start_states := ["s"]
    accept_states := ["f"]
    transitions := [("s", [("é", ["f"])])]
    current_states := none }

/-- Builder input of an NFA with one transition on the symbol U+0007:
`s -U+0007-> f`. -/
def bellNfaBuilder : nfaMachineBuilder :=
  { states := ["s", "f"]
    chars := []
    startStates := ["s"]
    acceptStates := ["f"]
    transitions := [("s", [(7, ["f"])])] }

/-- The machine that `bellNfaBuilder.Build` returns. -/
def bellNfa : nfaMachine :=
  { states := ["s", "f"]
    chars := []
    startStates := ["s"]
    acceptStates := ["f"]
    transitions := [("s", [(7, ["f"])])]
    currentStates := ["s"] }

/-! ## Specification-side definitions for machines with epsilon transitions -/

/-- A state that the closure loop of the simulator keeps in the current set: it
has no epsilon entry, or it is one of its own epsilon destinations. -/
def EpsKept (tr : NTrans) (y : String) : Prop :=
  tableGet tr y Epsilon = none ∨ y ∈ tableDelta tr y Epsilon

/-- The set that `applyEpsilon` leaves when it returns from the set `S`: the
kept states of the epsilon-closure of `S`. -/
def keptClosure (tr : NTrans) (S : String → Prop) (y : String) : Prop :=
  EpsKept tr y ∧ EpsClosure tr S y

/-- The set the simulator assigns to the current states after `Put(x)` from
`C`: the kept states of the epsilon-closure of the union of `Delta(q, x)` over
the kept states `q` of the epsilon-closure of `C`. -/
def keptPutSet (tr : NTrans) (C : StringSet) (x : Rune) : String → Prop :=
  keptClosure tr (fun z => ∃ q, keptClosure tr (fun p => p ∈ C) q ∧ z ∈ tableDelta tr q x)

/-- The epsilon transitions of the table form no cycle: some rank of the states
falls along every epsilon transition. -/
def EpsAcyclic (tr : NTrans) : Prop :=
  ∃ rank : String → Nat, ∀ p q, q ∈ tableDelta tr p Epsilon → rank q < rank p

/-- One more than the largest rank of a row key of the table. -/
def rankBound (rank : String → Nat) (tr : NTrans) : Nat :=
  (tr.map (fun e => rank e.1 + 1)).foldr max 0

/-- A state with an epsilon entry is a pure junction: it is not an accept state
and it has no transition on another symbol. -/
def nfaMachine.EpsStatesPure (s : nfaMachine) : Prop :=
  ∀ p, tableGet s.transitions p Epsilon ≠ none →
    p ∉ s.acceptStates ∧ ∀ a : Rune, a ≠ Epsilon → s.Delta p a = []

/-- One level of epsilon destinations closes the start states: an epsilon
destination of an epsilon destination of a start state is a start state or an
epsilon destination of a start state. -/
def nfaMachine.StartOneLevel (s : nfaMachine) : Prop :=
  ∀ p ∈ s.startStates, ∀ z ∈ s.Delta p Epsilon, ∀ y ∈ s.Delta z Epsilon,
    y ∈ s.startStates ∨ ∃ p1 ∈ s.startStates, y ∈ s.Delta p1 Epsilon

/-- Every start state with an epsilon entry has an epsilon destination of its
own: one that is not a start state and not an epsilon destination of another
start state.  The first pass of the start-state loop then adds a state at each
such start state, in whatever order it visits them. -/
def nfaMachine.StartAddsNew (s : nfaMachine) : Prop :=
  ∀ p ∈ s.startStates, tableGet s.transitions p Epsilon ≠ none →
    ∃ y ∈ s.Delta p Epsilon, y ∉ s.startStates ∧
      ∀ p1 ∈ s.startStates, p1 ≠ p → y ∉ s.Delta p1 Epsilon

/-- The empty word is read alike with and without epsilon moves: when an accept
state is reached from a start state by epsilon transitions alone, some start
state is an accept state. -/
def nfaMachine.EmptyWordAgrees (s : nfaMachine) : Prop :=
  (∃ p ∈ s.startStates, ∃ q ∈ s.acceptStates,
      EpsClosure s.transitions (fun z => z = p) q) →
    ∃ p ∈ s.startStates, p ∈ s.acceptStates

/-- A rank of the states of the `a(b|c)*d` machine that falls along every
epsilon transition. -/
def abcdRank (q : String) : Nat :=
  if q = "a-end" then 2
  else if q = "bc-end" then 2
  else if q = "b-end" then 3
  else if q = "c-end" then 3
  else if q = "bc-start" then 1
  else 0

/-- Builder input of a machine whose accept state has an epsilon entry:
`s -a-> f`, `f -eps-> g`, start state `s`, accept state `f`. -/
def acceptEpsBuilder : nfaMachineBuilder :=
  { states := ["s", "f", "g"]
    chars := []
    startStates := ["s"]
    acceptStates := ["f"]
    transitions := [("s", [(97, ["f"])]), ("f", [(Epsilon, ["g"])])] }

/-- The machine that `acceptEpsBuilder.Build` returns. -/
def acceptEps : nfaMachine :=
  { states := ["s", "f", "g"]
    chars := []
    startStates := ["s"]
    acceptStates := ["f"]
    transitions := [("s", [(97, ["f"])]), ("f", [(Epsilon, ["g"])])]
    currentStates := ["s"] }

/-- Builder input of a machine whose accept state is an epsilon destination of
its start state: `s -eps-> f`, `f -a-> f`, start state `s`, accept state `f`. -/
def epsStartBuilder : nfaMachineBuilder :=
  { states := ["s", "f"]
    chars := []
    startStates := ["s"]
    acceptStates := ["f"]
    transitions := [("s", [(Epsilon, ["f"])]), ("f", [(97, ["f"])])] }

/-- The machine that `epsStartBuilder.Build` returns. -/
def epsStart : nfaMachine :=
  { states := ["s", "f"]
    chars := []
    startStates := ["s"]
    acceptStates := ["f"]
    transitions := [("s", [(Epsilon, ["f"])]), ("f", [(97, ["f"])])]
    currentStates := ["s"] }

/-- Builder input of a machine whose epsilon transitions form a cycle away from
the start state, between two states that have no other transition:
`q -a-> s`, `s -eps-> t`, `t -eps-> s`, start and accept state `q`. -/
def ringNfaBuilder : nfaMachineBuilder :=
  { states := ["q", "s", "t"]
    chars := []
    startStates := ["q"]
    acceptStates := ["q"]
    transitions := [("q", [(97, ["s"])]), ("s", [(Epsilon, ["t"])]), ("t", [(Epsilon, ["s"])])] }

/-- The machine that `ringNfaBuilder.Build` returns. -/
def ringNfa : nfaMachine :=
  { states := ["q", "s", "t"]
    chars := []
    startStates := ["q"]
    acceptStates := ["q"]
    transitions := [("q", [(97, ["s"])]), ("s", [(Epsilon, ["t"])]), ("t", [(Epsilon, ["s"])])]
    currentStates := ["q"] }

/-- Builder input of a machine whose accept state is reached by two epsilon
transitions in a row: `s -a-> p`, `p -eps-> r`, `r -eps-> f`, start state `s`,
accept state `f`. -/
def tailChainBuilder : nfaMachineBuilder :=
  { states := ["s", "p", "r", "f"]
    chars := []
    startStates := ["s"]
    acceptStates := ["f"]
    transitions := [("s", [(97, ["p"])]), ("p", [(Epsilon, ["r"])]), ("r", [(Epsilon, ["f"])])] }

/-- The machine that `tailChainBuilder.Build` returns. -/
def tailChain : nfaMachine :=
  { states := ["s", "p", "r", "f"]
    chars := []
    startStates := ["s"]
    acceptStates := ["f"]
    transitions := [("s", [(97, ["p"])]), ("p", [(Epsilon, ["r"])]), ("r", [(Epsilon, ["f"])])]
    currentStates := ["s"] }

/-- Builder input of a machine with two accept states that are the epsilon
destinations of one state: `s -a-> z`, `z -eps-> f`, `z -eps-> g`, start state
`s`, accept states `f` and `g`. -/
def twoAcceptBuilder : nfaMachineBuilder :=
  { states := ["s", "z", "f", "g"]
    chars := []
    startStates := ["s"]
    acceptStates := ["f", "g"]
    transitions := [("s", [(97, ["z"])]), ("z", [(Epsilon, ["f", "g"])])] }

/-- The machine that `twoAcceptBuilder.Build` returns. -/
def twoAccept : nfaMachine :=
  { states := ["s", "z", "f", "g"]
    chars := []
    startStates := ["s"]
    acceptStates := ["f", "g"]
    transitions := [("s", [(97, ["z"])]), ("z", [(Epsilon, ["f", "g"])])]
    currentStates := ["s"] }

/-- Builder input of a machine with an epsilon self-loop away from the start
state: `s -a-> p`, `p -eps-> p`, `p -eps-> f`, start state `s`, accept state
`f`. -/
def selfLoopNfaBuilder : nfaMachineBuilder :=
  { states := ["s", "p", "f"]
    chars := []
    startStates := ["s"]
    acceptStates := ["f"]
    transitions := [("s", [(97, ["p"])]), ("p", [(Epsilon, ["p", "f"])])] }

/-- The machine that `selfLoopNfaBuilder.Build` returns. -/
def selfLoopNfa : nfaMachine :=
  { states := ["s", "p", "f"]
    chars := []
    startStates := ["s"]
    acceptStates := ["f"]
    transitions := [("s", [(97, ["p"])]), ("p", [(Epsilon, ["p", "f"])])]
    currentStates := ["s"] }

/-! ## Membership lemmas for the set primitives -/

section SetLemmas

variable {α : Type} [DecidableEq α]

theorem GoSet.mem_addOne (s : List α) (p y : α) : y ∈ GoSet.addOne s p ↔ y ∈ s ∨ y = p := by
  unfold GoSet.addOne
  by_cases h : p ∈ s
  · simp only [h, if_true]
    constructor
    · exact Or.inl
    · rintro (h1 | h1)
      · exact h1
      · exact h1 ▸ h
  · simp [h]

theorem GoSet.mem_Add (s x : List α) (y : α) : y ∈ GoSet.Add s x ↔ y ∈ s ∨ y ∈ x := by
  unfold GoSet.Add
  induction x generalizing s with
  | nil => simp
  | cons p x ih =>
    rw [List.foldl_cons, ih, GoSet.mem_addOne]
    simp only [List.mem_cons]
    tauto

theorem GoSet.mem_Add_single (s : List α) (p y : α) : y ∈ GoSet.Add s [p] ↔ y ∈ s ∨ y = p := by
  rw [GoSet.mem_Add, List.mem_singleton]

theorem GoSet.nodup_addOne (s : List α) (p : α) (h : s.Nodup) : (GoSet.addOne s p).Nodup := by
  unfold GoSet.addOne
  by_cases hp : p ∈ s
  · simpa [hp] using h
  · simp only [hp, if_false]
    rw [List.nodup_append]
    refine ⟨h, List.nodup_singleton p, ?_⟩
    intro a ha hb
    rw [List.mem_singleton] at hb
    exact hp (hb ▸ ha)

theorem GoSet.nodup_Add (s x : List α) (h : s.Nodup) : (GoSet.Add s x).Nodup := by
  unfold GoSet.Add
  induction x generalizing s with
  | nil => simpa using h
  | cons p x ih => exact ih _ (GoSet.nodup_addOne s p h)

theorem GoSet.mem_New (seed : List α) (y : α) : y ∈ GoSet.New seed ↔ y ∈ seed := by
  simp [GoSet.New, GoSet.mem_Add]

theorem GoSet.nodup_New (seed : List α) : (GoSet.New seed).Nodup :=
  GoSet.nodup_Add [] seed List.nodup_nil

theorem GoSet.mem_Clone (s : List α) (y : α) : y ∈ GoSet.Clone s ↔ y ∈ s := by
  simp [GoSet.Clone, GoSet.Unwrap, GoSet.mem_New]

theorem GoSet.mem_Del (s x : List α) (y : α) : y ∈ GoSet.Del s x ↔ y ∈ s ∧ y ∉ x := by
  unfold GoSet.Del
  induction x generalizing s with
  | nil => simp
  | cons p x ih =>
    rw [List.foldl_cons, ih]
    simp only [GoSet.delOne, List.mem_filter, List.mem_cons, decide_eq_true_eq]
    tauto

theorem GoSet.nodup_Del (s x : List α) (h : s.Nodup) : (GoSet.Del s x).Nodup := by
  unfold GoSet.Del
  induction x generalizing s with
  | nil => simpa using h
  | cons p x ih => exact ih _ (h.filter _)

theorem GoSet.In_iff (s x : List α) : GoSet.In s x = true ↔ ∀ p ∈ x, p ∈ s := by
  simp [GoSet.In, List.all_eq_true]

theorem GoSet.In_single (s : List α) (p : α) : GoSet.In s [p] = true ↔ p ∈ s := by
  simp [GoSet.In_iff]

theorem GoSet.mem_And (s x : List α) (y : α) : y ∈ GoSet.And s x ↔ y ∈ s ∧ y ∈ x := by
  unfold GoSet.And GoSet.Unwrap
  have key : ∀ (acc : List α), y ∈ x.foldl (fun p e => if GoSet.In s [e] then GoSet.Add p [e] else p) acc
      ↔ y ∈ acc ∨ (y ∈ s ∧ y ∈ x) := by
    induction x with
    | nil => intro acc; simp
    | cons e x ih =>
      intro acc
      rw [List.foldl_cons, ih]
      by_cases he : e ∈ s
      · have : GoSet.In s [e] = true := (GoSet.In_single s e).2 he
        simp only [this, if_true, GoSet.mem_Add, List.mem_cons, List.mem_singleton, List.not_mem_nil, or_false]
        constructor
        · rintro ((h | h) | h)
          · exact Or.inl h
          · exact Or.inr ⟨h ▸ he, Or.inl h⟩
          · exact Or.inr ⟨h.1, Or.inr h.2⟩
        · rintro (h | ⟨h1, h2 | h2⟩)
          · exact Or.inl (Or.inl h)
          · exact Or.inl (Or.inr h2)
          · exact Or.inr ⟨h1, h2⟩
      · have : GoSet.In s [e] = false := by
          rw [Bool.eq_false_iff]; intro h; exact he ((GoSet.In_single s e).1 h)
        simp only [this, Bool.false_eq_true, if_false, List.mem_cons]
        constructor
        · rintro (h | h)
          · exact Or.inl h
          · exact Or.inr ⟨h.1, Or.inr h.2⟩
        · rintro (h | ⟨h1, h2 | h2⟩)
          · exact Or.inl h
          · exact absurd (h2 ▸ h1) he
          · exact Or.inr ⟨h1, h2⟩
  rw [key]
  simp [GoSet.New, GoSet.Add]

omit [DecidableEq α] in
theorem GoSet.Len_pos_iff (s : List α) : GoSet.Len s > 0 ↔ ∃ y, y ∈ s := by
  unfold GoSet.Len
  cases s with
  | nil => simp
  | cons a l => simp

omit [DecidableEq α] in
theorem GoSet.Len_eq_zero_iff (s : List α) : GoSet.Len s = 0 ↔ s = [] := by
  unfold GoSet.Len
  exact List.length_eq_zero

end SetLemmas

/-! ## Association lists -/

section MapLemmas

variable {κ ν : Type} [DecidableEq κ]

theorem mapGet_mem {κ ν : Type} [DecidableEq κ] (m : GoMap κ ν) (k : κ) (v : ν)
    (h : mapGet m k = some v) : (k, v) ∈ m := by
  induction m with
  | nil => simp [mapGet] at h
  | cons e m ih =>
    obtain ⟨k1, v1⟩ := e
    unfold mapGet at h
    split at h
    · rename_i hk
      rw [Option.some.injEq] at h
      rw [hk, h]
      exact List.mem_cons_self _ _
    · exact List.mem_cons_of_mem _ (ih h)

theorem mapGet_cons (k1 : κ) (v1 : ν) (m : GoMap κ ν) (k : κ) :
    mapGet ((k1, v1) :: m) k = if k1 = k then some v1 else mapGet m k := by
  rw [mapGet]

theorem mapGet_none_iff (m : GoMap κ ν) (k : κ) :
    mapGet m k = none ↔ k ∉ m.map Prod.fst := by
  induction m with
  | nil => simp [mapGet]
  | cons e m ih =>
    obtain ⟨k1, v1⟩ := e
    rw [mapGet_cons]
    by_cases h : k1 = k
    · simp [h]
    · simp only [h, if_false, ih, List.map_cons, List.mem_cons]
      constructor
      · rintro h1 (h2 | h2)
        · exact h h2.symm
        · exact h1 h2
      · intro h1 h2
        exact h1 (Or.inr h2)

theorem mapHas_iff (m : GoMap κ ν) (k : κ) : mapHas m k = true ↔ k ∈ m.map Prod.fst := by
  unfold mapHas
  rw [Option.isSome_iff_ne_none, ne_eq, mapGet_none_iff, not_not]

theorem mapHas_false_iff (m : GoMap κ ν) (k : κ) : mapHas m k = false ↔ k ∉ m.map Prod.fst := by
  rw [← mapHas_iff, Bool.not_eq_true]

theorem mapGet_of_mem (m : GoMap κ ν) (h : NodupKeys m) (k : κ) (v : ν) (hm : (k, v) ∈ m) :
    mapGet m k = some v := by
  induction m with
  | nil => cases hm
  | cons e m ih =>
    obtain ⟨k1, v1⟩ := e
    rw [mapGet_cons]
    unfold NodupKeys at h
    rw [List.map_cons, List.nodup_cons] at h
    rcases List.mem_cons.1 hm with heq | hm
    · cases heq; simp
    · have hne : k1 ≠ k := by
        rintro rfl
        exact h.1 (List.mem_map.2 ⟨(k1, v), hm, rfl⟩)
      simp only [hne, if_false]
      exact ih h.2 hm

theorem mapGet_iff_mem (m : GoMap κ ν) (h : NodupKeys m) (k : κ) (v : ν) :
    mapGet m k = some v ↔ (k, v) ∈ m :=
  ⟨mapGet_mem m k v, mapGet_of_mem m h k v⟩

theorem mapGet_mapSet_same (m : GoMap κ ν) (k : κ) (v : ν) : mapGet (mapSet m k v) k = some v := by
  induction m with
  | nil => simp [mapSet, mapGet]
  | cons e m ih =>
    obtain ⟨k1, v1⟩ := e
    unfold mapSet
    by_cases h : k1 = k
    · simp [h, mapGet]
    · simp [h, mapGet, ih]

theorem mapGet_mapSet_other (m : GoMap κ ν) (k k2 : κ) (v : ν) (hne : k2 ≠ k) :
    mapGet (mapSet m k v) k2 = mapGet m k2 := by
  induction m with
  | nil => simp [mapSet, mapGet, hne.symm]
  | cons e m ih =>
    obtain ⟨k1, v1⟩ := e
    unfold mapSet
    by_cases h : k1 = k
    · have hk : ¬ k = k2 := fun h3 => hne h3.symm
      subst h
      simp [mapGet, hk]
    · simp only [h, if_false, mapGet_cons, ih]

theorem mapGet_mapSet (m : GoMap κ ν) (k k2 : κ) (v : ν) :
    mapGet (mapSet m k v) k2 = if k2 = k then some v else mapGet m k2 := by
  by_cases h : k2 = k
  · rw [if_pos h, h]; exact mapGet_mapSet_same m k v
  · rw [if_neg h]; exact mapGet_mapSet_other m k k2 v h

theorem keys_mapSet (m : GoMap κ ν) (k : κ) (v : ν) :
    (mapSet m k v).map Prod.fst =
      if k ∈ m.map Prod.fst then m.map Prod.fst else m.map Prod.fst ++ [k] := by
  induction m with
  | nil => simp [mapSet]
  | cons e m ih =>
    obtain ⟨k1, v1⟩ := e
    unfold mapSet
    by_cases h : k1 = k
    · simp [h]
    · have h2 : ¬ k = k1 := fun h3 => h h3.symm
      simp only [h, if_false, List.map_cons, ih, List.mem_cons, h2, false_or]
      split <;> simp

theorem mem_keys_mapSet (m : GoMap κ ν) (k k2 : κ) (v : ν) :
    k2 ∈ (mapSet m k v).map Prod.fst ↔ k2 ∈ m.map Prod.fst ∨ k2 = k := by
  rw [keys_mapSet]
  split
  · rename_i h
    constructor
    · exact Or.inl
    · rintro (h1 | h1)
      · exact h1
      · exact h1 ▸ h
  · simp

theorem NodupKeys_mapSet (m : GoMap κ ν) (k : κ) (v : ν) (h : NodupKeys m) :
    NodupKeys (mapSet m k v) := by
  unfold NodupKeys at h ⊢
  rw [keys_mapSet]
  split
  · exact h
  · rename_i hk
    rw [List.nodup_append]
    refine ⟨h, List.nodup_singleton k, ?_⟩
    intro a ha hb
    rw [List.mem_singleton] at hb
    exact hk (hb ▸ ha)

theorem length_mapSet (m : GoMap κ ν) (k : κ) (v : ν) :
    (mapSet m k v).length = if k ∈ m.map Prod.fst then m.length else m.length + 1 := by
  have h := congrArg List.length (keys_mapSet m k v)
  rw [List.length_map] at h
  rw [h]
  split <;> simp

theorem mapGet_mapEnsure_same (m : GoMap κ ν) (k : κ) (v : ν) :
    mapGet (mapEnsure m k v) k = some ((mapGet m k).getD v) := by
  unfold mapEnsure mapHas
  cases h : mapGet m k with
  | none => simp [mapGet_mapSet_same]
  | some a => simp [h]

theorem mapGet_mapEnsure_other (m : GoMap κ ν) (k k2 : κ) (v : ν) (hne : k2 ≠ k) :
    mapGet (mapEnsure m k v) k2 = mapGet m k2 := by
  unfold mapEnsure
  split
  · rfl
  · exact mapGet_mapSet_other m k k2 v hne

theorem NodupKeys_mapEnsure (m : GoMap κ ν) (k : κ) (v : ν) (h : NodupKeys m) :
    NodupKeys (mapEnsure m k v) := by
  unfold mapEnsure
  split
  · exact h
  · exact NodupKeys_mapSet m k v h

end MapLemmas

/-! ## DFA simulator -/

theorem dfaPut_invalid (s : dfaMachine) (x : Rune) (h : s.chars ≠ [] ∧ x ∉ s.chars) :
    s.Put x = (s, some FaError.ErrInvalidInputChar) := by
  unfold dfaMachine.Put
  have h1 : decide (GoSet.Len s.chars > 0) = true := by
    rw [decide_eq_true_eq, GoSet.Len]
    exact List.length_pos.2 h.1
  have h2 : GoSet.In s.chars [x] = false := by
    rw [Bool.eq_false_iff]; intro hc; exact h.2 ((GoSet.In_single _ _).1 hc)
  simp [h1, h2]

theorem dfaPut_valid (s : dfaMachine) (x : Rune) (h : ¬ (s.chars ≠ [] ∧ x ∉ s.chars)) :
    s.Put x = (match s.delta s.currentState x with
      | none => (s, some FaError.ErrOutOfTransition)
      | some q => ({ s with currentState := q }, none)) := by
  unfold dfaMachine.Put
  have h0 : (decide (GoSet.Len s.chars > 0) && !GoSet.In s.chars [x]) = false := by
    rw [Bool.eq_false_iff]
    intro hc
    rw [Bool.and_eq_true, decide_eq_true_eq, GoSet.Len, Bool.not_eq_true', Bool.eq_false_iff] at hc
    exact h ⟨List.length_pos.1 hc.1, fun hx => hc.2 ((GoSet.In_single _ _).2 hx)⟩
  rw [h0]
  simp only [Bool.false_eq_true, if_false, dfaMachine.delta]
  cases h1 : mapGet s.transitions s.currentState with
  | none => rfl
  | some t =>
    cases h2 : mapGet t x with
    | none => simp [h2]
    | some q => simp [h2]

/-- C7: `dfaMachine.Put` follows the three-step contract.  A symbol outside a
non-empty alphabet gives `ErrInvalidInputChar`; otherwise a missing transition
from the current state gives `ErrOutOfTransition`; otherwise there is no error
and the current state becomes `delta current x`.  Whenever an error is returned
the machine, hence its current state, is unchanged. -/
theorem dfa_put_contract (s : dfaMachine) (x : Rune) :
    ((s.chars ≠ [] ∧ x ∉ s.chars) → s.Put x = (s, some FaError.ErrInvalidInputChar)) ∧
    (¬ (s.chars ≠ [] ∧ x ∉ s.chars) → s.delta s.currentState x = none →
      s.Put x = (s, some FaError.ErrOutOfTransition)) ∧
    (¬ (s.chars ≠ [] ∧ x ∉ s.chars) → ∀ q, s.delta s.currentState x = some q →
      s.Put x = ({ s with currentState := q }, none)) ∧
    (∀ e, (s.Put x).2 = some e → (s.Put x).1 = s ∧ (s.Put x).1.currentState = s.currentState) := by
  refine ⟨dfaPut_invalid s x, ?_, ?_, ?_⟩
  · intro h hd
    rw [dfaPut_valid s x h, hd]
  · intro h q hd
    rw [dfaPut_valid s x h, hd]
  · intro e he
    by_cases h : s.chars ≠ [] ∧ x ∉ s.chars
    · rw [dfaPut_invalid s x h]; exact ⟨rfl, rfl⟩
    · rw [dfaPut_valid s x h] at he ⊢
      cases hd : s.delta s.currentState x with
      | none => exact ⟨rfl, rfl⟩
      | some q => rw [hd] at he; simp at he

/-- Witness for C7 on the parity DFA: the three outcomes of `Put`. -/
theorem dfa_put_contract_witness :
    parity.Put 88 = (parity, some FaError.ErrInvalidInputChar) ∧
    ({ parity with chars := [], currentState := "odd" } : dfaMachine).Put 88 =
      ({ parity with chars := [], currentState := "odd" }, some FaError.ErrOutOfTransition) ∧
    parity.Put 49 = ({ parity with currentState := "odd" }, none) :=
  ⟨(dfa_put_contract parity 88).1 (by decide),
   (dfa_put_contract { parity with chars := [], currentState := "odd" } 88).2.1
      (by decide) (by decide),
   (dfa_put_contract parity 49).2.2.1 (by decide) "odd" (by decide)⟩

/-! ## DFA builder -/

theorem dfaCollectRow_fst (acc : StringSet × RuneSet) (v : GoMap Rune String) (y : String) :
    y ∈ (dfaCollectRow acc v).1 ↔ y ∈ acc.1 ∨ ∃ r ∈ v, r.2 = y := by
  unfold dfaCollectRow
  induction v generalizing acc with
  | nil => simp
  | cons r v ih =>
    rw [List.foldl_cons, ih]
    simp only [GoSet.mem_Add_single, List.mem_cons, exists_eq_or_imp]
    constructor
    · rintro ((h | h) | h)
      · exact Or.inl h
      · exact Or.inr (Or.inl h.symm)
      · exact Or.inr (Or.inr h)
    · rintro (h | h | h)
      · exact Or.inl (Or.inl h)
      · exact Or.inl (Or.inr h.symm)
      · exact Or.inr h

theorem dfaCollectRow_snd (acc : StringSet × RuneSet) (v : GoMap Rune String) (c : Rune) :
    c ∈ (dfaCollectRow acc v).2 ↔ c ∈ acc.2 ∨ ∃ r ∈ v, r.1 = c := by
  unfold dfaCollectRow
  induction v generalizing acc with
  | nil => simp
  | cons r v ih =>
    rw [List.foldl_cons, ih]
    simp only [GoSet.mem_Add_single, List.mem_cons, exists_eq_or_imp]
    constructor
    · rintro ((h | h) | h)
      · exact Or.inl h
      · exact Or.inr (Or.inl h.symm)
      · exact Or.inr (Or.inr h)
    · rintro (h | h | h)
      · exact Or.inl (Or.inl h)
      · exact Or.inl (Or.inr h.symm)
      · exact Or.inr h

theorem dfaCollectFrom_fst (acc : StringSet × RuneSet)
    (tr : GoMap String (GoMap Rune String)) (y : String) :
    y ∈ (dfaCollectFrom acc tr).1 ↔
      y ∈ acc.1 ∨ ∃ e ∈ tr, e.2 ≠ [] ∧ (e.1 = y ∨ ∃ r ∈ e.2, r.2 = y) := by
  unfold dfaCollectFrom
  induction tr generalizing acc with
  | nil => simp
  | cons e tr ih =>
    rw [List.foldl_cons, ih]
    by_cases he : e.2 = []
    · simp [he]
    · have hl : ¬ e.2.length = 0 := fun h => he (List.length_eq_zero.1 h)
      simp only [hl, if_false, dfaCollectRow_fst, GoSet.mem_Add_single,
        List.mem_cons, exists_eq_or_imp, ne_eq, he, not_false_eq_true, true_and]
      constructor
      · rintro (((h | h) | h) | h)
        · exact Or.inl h
        · exact Or.inr (Or.inl (Or.inl h.symm))
        · exact Or.inr (Or.inl (Or.inr h))
        · exact Or.inr (Or.inr h)
      · rintro (h | (h | h) | h)
        · exact Or.inl (Or.inl (Or.inl h))
        · exact Or.inl (Or.inl (Or.inr h.symm))
        · exact Or.inl (Or.inr h)
        · exact Or.inr h

theorem dfaCollectFrom_snd (acc : StringSet × RuneSet)
    (tr : GoMap String (GoMap Rune String)) (c : Rune) :
    c ∈ (dfaCollectFrom acc tr).2 ↔ c ∈ acc.2 ∨ ∃ e ∈ tr, ∃ r ∈ e.2, r.1 = c := by
  unfold dfaCollectFrom
  induction tr generalizing acc with
  | nil => simp
  | cons e tr ih =>
    rw [List.foldl_cons, ih]
    by_cases he : e.2 = []
    · simp [he]
    · have hl : ¬ e.2.length = 0 := fun h => he (List.length_eq_zero.1 h)
      simp only [hl, if_false, dfaCollectRow_snd, List.mem_cons, exists_eq_or_imp]
      constructor
      · rintro ((h | h) | h)
        · exact Or.inl h
        · exact Or.inr (Or.inl h)
        · exact Or.inr (Or.inr h)
      · rintro (h | h | h)
        · exact Or.inl (Or.inl h)
        · exact Or.inl (Or.inr h)
        · exact Or.inr h

theorem dfaCollect_fst (tr : GoMap String (GoMap Rune String)) (y : String) :
    y ∈ (dfaCollect tr).1 ↔ ∃ e ∈ tr, e.2 ≠ [] ∧ (e.1 = y ∨ ∃ r ∈ e.2, r.2 = y) := by
  unfold dfaCollect
  rw [dfaCollectFrom_fst]
  simp [NewStringSet, GoSet.New, GoSet.Add]

theorem dfaCollect_snd (tr : GoMap String (GoMap Rune String)) (c : Rune) :
    c ∈ (dfaCollect tr).2 ↔ ∃ e ∈ tr, ∃ r ∈ e.2, r.1 = c := by
  unfold dfaCollect
  rw [dfaCollectFrom_snd]
  simp [NewRuneSet, GoSet.New, GoSet.Add]

theorem dfaBuild_statesCheck (b : dfaMachineBuilder) :
    GoSet.In (NewStringSet b.states) (GoSet.Unwrap (dfaCollect b.transitions).1) = true ↔
      ¬ b.badStates := by
  rw [GoSet.In_iff]
  unfold dfaMachineBuilder.badStates GoSet.Unwrap
  simp only [dfaCollect_fst, NewStringSet, GoSet.mem_New]
  constructor
  · rintro h ⟨e, he, hne, h1 | ⟨r, hr, h2⟩⟩
    · exact h1 (h e.1 ⟨e, he, hne, Or.inl rfl⟩)
    · exact h2 (h r.2 ⟨e, he, hne, Or.inr ⟨r, hr, rfl⟩⟩)
  · rintro h p ⟨e, he, hne, h1 | ⟨r, hr, h2⟩⟩
    · by_contra hp
      exact h ⟨e, he, hne, Or.inl (h1 ▸ hp)⟩
    · by_contra hp
      exact h ⟨e, he, hne, Or.inr ⟨r, hr, h2 ▸ hp⟩⟩

theorem dfaBuild_charsCheck (b : dfaMachineBuilder) :
    (decide (GoSet.Len (NewRuneSet b.chars) > 0) &&
      !GoSet.In (NewRuneSet b.chars) (GoSet.Unwrap (dfaCollect b.transitions).2)) = true ↔
      b.badChars := by
  rw [Bool.and_eq_true, decide_eq_true_eq, GoSet.Len_pos_iff, Bool.not_eq_true',
    ← Bool.not_eq_true, GoSet.In_iff]
  unfold dfaMachineBuilder.badChars GoSet.Unwrap
  simp only [dfaCollect_snd, NewRuneSet, GoSet.mem_New]
  constructor
  · rintro ⟨⟨y, hy⟩, h⟩
    refine ⟨List.ne_nil_of_mem hy, ?_⟩
    by_contra hc
    apply h
    rintro p ⟨e, he, r, hr, rfl⟩
    by_contra hp
    exact hc ⟨e, he, r, hr, hp⟩
  · rintro ⟨hne, e, he, r, hr, hc⟩
    refine ⟨List.exists_mem_of_ne_nil _ hne, ?_⟩
    intro h
    exact hc (h r.1 ⟨e, he, r, hr, rfl⟩)

/-- C10: `dfaMachineBuilder.Build` validates in a fixed order: the start state,
then the accept states, then the transitions (states of rows that have an entry,
destinations, and symbols against a non-empty alphabet); it succeeds exactly when
all three checks pass, and the machine built then sits in its start state. -/
theorem dfa_build_validation (b : dfaMachineBuilder) :
    (b.startState ∉ b.states → b.Build = Except.error FaError.ErrInvalidStartState) ∧
    (b.startState ∈ b.states → (∃ a ∈ b.acceptStates, a ∉ b.states) →
      b.Build = Except.error FaError.ErrInvalidAcceptStates) ∧
    (b.startState ∈ b.states → (∀ a ∈ b.acceptStates, a ∈ b.states) →
      (b.badStates ∨ b.badChars) → b.Build = Except.error FaError.ErrInvalidTransitions) ∧
    (b.startState ∈ b.states → (∀ a ∈ b.acceptStates, a ∈ b.states) →
      ¬ (b.badStates ∨ b.badChars) →
      ∃ m, b.Build = Except.ok m ∧ m.currentState = b.startState ∧
        m.startState = b.startState ∧ m.transitions = b.transitions) ∧
    ((∃ m, b.Build = Except.ok m) ↔
      (b.startState ∈ b.states ∧ (∀ a ∈ b.acceptStates, a ∈ b.states) ∧
        ¬ (b.badStates ∨ b.badChars))) := by
  have hs : GoSet.In (NewStringSet b.states) [b.startState] = true ↔ b.startState ∈ b.states := by
    rw [GoSet.In_single]; exact GoSet.mem_New _ _
  have ha : GoSet.In (NewStringSet b.states) b.acceptStates = true ↔
      ∀ a ∈ b.acceptStates, a ∈ b.states := by
    rw [GoSet.In_iff]
    constructor
    · intro h a ha; exact (GoSet.mem_New _ _).1 (h a ha)
    · intro h a ha; exact (GoSet.mem_New _ _).2 (h a ha)
  have c1 : b.startState ∉ b.states → b.Build = Except.error FaError.ErrInvalidStartState := by
    intro h
    have : GoSet.In (NewStringSet b.states) [b.startState] = false := by
      rw [Bool.eq_false_iff]; exact fun hc => h (hs.1 hc)
    simp [dfaMachineBuilder.Build, this]
  have c2 : b.startState ∈ b.states → (∃ a ∈ b.acceptStates, a ∉ b.states) →
      b.Build = Except.error FaError.ErrInvalidAcceptStates := by
    intro h1 ⟨a, haa, hna⟩
    have h2 : GoSet.In (NewStringSet b.states) b.acceptStates = false := by
      rw [Bool.eq_false_iff]; exact fun hc => hna (ha.1 hc a haa)
    simp [dfaMachineBuilder.Build, hs.2 h1, h2]
  have c3 : b.startState ∈ b.states → (∀ a ∈ b.acceptStates, a ∈ b.states) →
      (b.badStates ∨ b.badChars) → b.Build = Except.error FaError.ErrInvalidTransitions := by
    intro h1 h2 h3
    have h4 : (!GoSet.In (NewStringSet b.states) (GoSet.Unwrap (dfaCollect b.transitions).1)
        || (decide (GoSet.Len (NewRuneSet b.chars) > 0) &&
          !GoSet.In (NewRuneSet b.chars) (GoSet.Unwrap (dfaCollect b.transitions).2))) = true := by
      rw [Bool.or_eq_true, dfaBuild_charsCheck, Bool.not_eq_true', ← Bool.not_eq_true,
        dfaBuild_statesCheck, not_not]
      exact h3
    unfold dfaMachineBuilder.Build
    simp only [hs.2 h1, ha.2 h2, Bool.not_true, Bool.false_eq_true, if_false, h4, if_true]
  have c4 : b.startState ∈ b.states → (∀ a ∈ b.acceptStates, a ∈ b.states) →
      ¬ (b.badStates ∨ b.badChars) →
      ∃ m, b.Build = Except.ok m ∧ m.currentState = b.startState ∧
        m.startState = b.startState ∧ m.transitions = b.transitions := by
    intro h1 h2 h3
    have h4 : (!GoSet.In (NewStringSet b.states) (GoSet.Unwrap (dfaCollect b.transitions).1)
        || (decide (GoSet.Len (NewRuneSet b.chars) > 0) &&
          !GoSet.In (NewRuneSet b.chars) (GoSet.Unwrap (dfaCollect b.transitions).2))) = false := by
      rw [Bool.eq_false_iff, ne_eq, Bool.or_eq_true, dfaBuild_charsCheck, Bool.not_eq_true',
        ← Bool.not_eq_true, dfaBuild_statesCheck, not_not]
      exact h3
    refine ⟨{ states := NewStringSet b.states, chars := NewRuneSet b.chars,
              acceptStates := NewStringSet b.acceptStates, startState := b.startState,
              transitions := b.transitions, currentState := b.startState }, ?_, rfl, rfl, rfl⟩
    unfold dfaMachineBuilder.Build
    simp only [hs.2 h1, ha.2 h2, Bool.not_true, Bool.false_eq_true, if_false, h4]
  refine ⟨c1, c2, c3, c4, ?_⟩
  constructor
  · rintro ⟨m, hm⟩
    by_cases h1 : b.startState ∈ b.states
    · by_cases h2 : ∀ a ∈ b.acceptStates, a ∈ b.states
      · by_cases h3 : b.badStates ∨ b.badChars
        · rw [c3 h1 h2 h3] at hm; cases hm
        · exact ⟨h1, h2, h3⟩
      · push_neg at h2
        rw [c2 h1 h2] at hm; cases hm
    · rw [c1 h1] at hm; cases hm
  · rintro ⟨h1, h2, h3⟩
    obtain ⟨m, hm, _⟩ := c4 h1 h2 h3
    exact ⟨m, hm⟩

/-- Witness for C10: the parity builder passes every check and builds `parity`;
with an undeclared start state it is rejected. -/
theorem dfa_build_validation_witness :
    (∃ m, parityBuilder.Build = Except.ok m ∧ m.currentState = "even" ∧
        m.startState = "even" ∧ m.transitions = parityBuilder.transitions) ∧
    ({ parityBuilder with startState := "x" } : dfaMachineBuilder).Build =
      Except.error FaError.ErrInvalidStartState :=
  ⟨(dfa_build_validation parityBuilder).2.2.2.1 (by decide) (by decide)
      (by unfold dfaMachineBuilder.badStates dfaMachineBuilder.badChars; decide),
   (dfa_build_validation { parityBuilder with startState := "x" }).1 (by decide)⟩

/-! ## Fuel: more passes never change a result -/

theorem applyEpsilonLoop_mono (tr : NTrans) (n m : Nat) (h : n ≤ m) (c r : StringSet)
    (hr : applyEpsilonLoop tr n c = some r) : applyEpsilonLoop tr m c = some r := by
  induction n generalizing m c with
  | zero => simp [applyEpsilonLoop] at hr
  | succ n ih =>
    obtain ⟨m, rfl⟩ : ∃ m1, m = m1 + 1 := ⟨m - 1, by omega⟩
    simp only [applyEpsilonLoop] at hr ⊢
    split at hr
    · rename_i hmod
      rw [if_pos hmod]
      exact ih m (by omega) _ hr
    · rename_i hmod
      rw [if_neg hmod]
      exact hr

theorem nfaMachine.applyEpsilon_mono (n m : Nat) (h : n ≤ m) (s r : nfaMachine)
    (hr : s.applyEpsilon n = some r) : s.applyEpsilon m = some r := by
  unfold nfaMachine.applyEpsilon at hr ⊢
  cases hc : applyEpsilonLoop s.transitions n s.currentStates with
  | none => rw [hc] at hr; simp at hr
  | some c =>
    rw [hc] at hr
    rw [applyEpsilonLoop_mono s.transitions n m h _ _ hc]
    exact hr

theorem nfaMachine.closeIfEpsilon_mono (n m : Nat) (h : n ≤ m) (s r : nfaMachine)
    (hr : s.closeIfEpsilon n = some r) : s.closeIfEpsilon m = some r := by
  unfold nfaMachine.closeIfEpsilon at hr ⊢
  split
  · rename_i h1; rw [if_pos h1] at hr; exact nfaMachine.applyEpsilon_mono n m h s r hr
  · rename_i h1; rw [if_neg h1] at hr; exact hr

theorem nfaMachine.Put_mono (n m : Nat) (h : n ≤ m) (s : nfaMachine) (x : Rune)
    (r : nfaMachine × Option FaError) (hr : s.Put n x = some r) : s.Put m x = some r := by
  unfold nfaMachine.Put at hr ⊢
  split
  · rename_i h1; rw [if_pos h1] at hr; exact hr
  · rename_i h1
    rw [if_neg h1] at hr
    split
    · rename_i h2; rw [if_pos h2] at hr; exact hr
    · rename_i h2
      rw [if_neg h2] at hr
      cases h3 : s.closeIfEpsilon n with
      | none => rw [h3] at hr; simp at hr
      | some s1 =>
        rw [h3] at hr
        rw [nfaMachine.closeIfEpsilon_mono n m h s s1 h3]
        simp only at hr ⊢
        cases h4 : nfaMachine.closeIfEpsilon n
            { s1 with currentStates := putNext s1.transitions s1.currentStates x } with
        | none => rw [h4] at hr; simp at hr
        | some s3 =>
          rw [h4] at hr
          rw [nfaMachine.closeIfEpsilon_mono n m h _ s3 h4]
          exact hr

theorem nfaMachine.putAll_mono (n m : Nat) (h : n ≤ m) (w : List Rune) (s : nfaMachine)
    (r : Option nfaMachine) (hr : nfaMachine.putAll n s w = some r) :
    nfaMachine.putAll m s w = some r := by
  induction w generalizing s with
  | nil => simpa [nfaMachine.putAll] using hr
  | cons x w ih =>
    unfold nfaMachine.putAll at hr ⊢
    cases hp : s.Put n x with
    | none => rw [hp] at hr; simp at hr
    | some p =>
      rw [hp] at hr
      rw [nfaMachine.Put_mono n m h s x p hp]
      obtain ⟨s1, e⟩ := p
      cases e with
      | none => simp only at hr ⊢; exact ih s1 hr
      | some e => simp only at hr ⊢; exact hr

theorem nfaMachine.accepts_mono (n m : Nat) (h : n ≤ m) (s : nfaMachine) (w : List Rune)
    (b : Bool) (hr : s.accepts n w = some b) : s.accepts m w = some b := by
  unfold nfaMachine.accepts at hr ⊢
  cases hp : nfaMachine.putAll n s.Reset w with
  | none => rw [hp] at hr; simp at hr
  | some r =>
    rw [hp] at hr
    rw [nfaMachine.putAll_mono n m h w _ r hp]
    exact hr

/-! ## The `a(b|c)*d` scenario -/

/-- C6: the `a(b|c)*d` machine of the test suite, run from `Reset` with any
fuel of at least 4 passes: after `Put('a')` the current states are exactly
`b-start`, `c-start`, `d-start`; on "ad", "abcd" and "accd" every `Put` succeeds
and `IsAccepted` is true; on "", "a" and "ab" every `Put` succeeds and
`IsAccepted` is false; `Put('x')` from the start returns `ErrEmptyStates` and
leaves no current state. -/
theorem abcd_scenario (fuel : Nat) (hf : 4 ≤ fuel) :
    abcdBuilder.Build = Except.ok abcd ∧
    (∃ m, abcd.Reset.Put fuel 97 = some (m, none) ∧
      sortStrings m.currentStates = ["b-start", "c-start", "d-start"]) ∧
    (∃ m, nfaMachine.putAll fuel abcd.Reset (runes "ad") = some (some m) ∧ m.IsAccepted = true) ∧
    (∃ m, nfaMachine.putAll fuel abcd.Reset (runes "abcd") = some (some m) ∧
      m.IsAccepted = true) ∧
    (∃ m, nfaMachine.putAll fuel abcd.Reset (runes "accd") = some (some m) ∧
      m.IsAccepted = true) ∧
    (∃ m, nfaMachine.putAll fuel abcd.Reset (runes "") = some (some m) ∧ m.IsAccepted = false) ∧
    (∃ m, nfaMachine.putAll fuel abcd.Reset (runes "a") = some (some m) ∧ m.IsAccepted = false) ∧
    (∃ m, nfaMachine.putAll fuel abcd.Reset (runes "ab") = some (some m) ∧
      m.IsAccepted = false) ∧
    (∃ m, abcd.Reset.Put fuel 120 = some (m, some FaError.ErrEmptyStates) ∧
      m.currentStates = []) := by
  have run : ∀ (w : List Rune) (r : Option nfaMachine),
      nfaMachine.putAll 4 abcd.Reset w = some r → nfaMachine.putAll fuel abcd.Reset w = some r :=
    fun w r h => nfaMachine.putAll_mono 4 fuel hf w _ r h
  have put : ∀ (x : Rune) (r : nfaMachine × Option FaError),
      abcd.Reset.Put 4 x = some r → abcd.Reset.Put fuel x = some r :=
    fun x r h => nfaMachine.Put_mono 4 fuel hf _ x r h
  refine ⟨rfl, ?_, ?_, ?_, ?_, ?_, ?_, ?_, ?_⟩
  · exact ⟨{ abcd with currentStates := ["d-start", "b-start", "c-start"] },
      put 97 _ (by decide), by decide⟩
  · exact ⟨{ abcd with currentStates := ["d-end"] }, run _ _ (by decide), by decide⟩
  · exact ⟨{ abcd with currentStates := ["d-end"] }, run _ _ (by decide), by decide⟩
  · exact ⟨{ abcd with currentStates := ["d-end"] }, run _ _ (by decide), by decide⟩
  · exact ⟨{ abcd with currentStates := ["a-start"] }, run _ _ (by decide), by decide⟩
  · exact ⟨{ abcd with currentStates := ["d-start", "b-start", "c-start"] },
      run _ _ (by decide), by decide⟩
  · exact ⟨{ abcd with currentStates := ["d-start", "b-start", "c-start"] },
      run _ _ (by decide), by decide⟩
  · exact ⟨{ abcd with currentStates := [] }, put 120 _ (by decide), by decide⟩

/-- Witness for C6 at fuel 4. -/
theorem abcd_scenario_witness :
    ∃ m, abcd.Reset.Put 4 97 = some (m, none) ∧
      sortStrings m.currentStates = ["b-start", "c-start", "d-start"] :=
  (abcd_scenario 4 (by decide)).2.1

/-! ## NFA simulator without epsilon transitions -/

theorem mem_foldl_Add (l : List StringSet) (acc : StringSet) (y : String) :
    y ∈ l.foldl (fun nextStates cs => GoSet.Add nextStates (GoSet.Unwrap cs)) acc ↔
      y ∈ acc ∨ ∃ cs ∈ l, y ∈ cs := by
  induction l generalizing acc with
  | nil => simp
  | cons c l ih =>
    rw [List.foldl_cons, ih, GoSet.mem_Add]
    simp only [GoSet.Unwrap, List.mem_cons, exists_eq_or_imp]
    tauto

theorem nodup_foldl_Add (l : List StringSet) (acc : StringSet) (h : acc.Nodup) :
    (l.foldl (fun nextStates cs => GoSet.Add nextStates (GoSet.Unwrap cs)) acc).Nodup := by
  induction l generalizing acc with
  | nil => simpa using h
  | cons c l ih => exact ih _ (GoSet.nodup_Add _ _ h)

theorem mem_putNext (tr : NTrans) (cur : StringSet) (x : Rune) (y : String) :
    y ∈ putNext tr cur x ↔ ∃ q ∈ cur, y ∈ tableDelta tr q x := by
  unfold putNext
  rw [mem_foldl_Add]
  have hcell : ∀ q : String, (y ∈ (match tableGet tr q x with
      | none => NewStringSet []
      | some u => GoSet.Add (NewStringSet []) (GoSet.Unwrap u))) ↔ y ∈ tableDelta tr q x := by
    intro q
    unfold tableDelta
    cases h1 : tableGet tr q x with
    | none => simp [NewStringSet, GoSet.New, GoSet.Add]
    | some u =>
      simp only [GoSet.mem_Add, GoSet.Unwrap]
      simp [NewStringSet, GoSet.New, GoSet.Add]
  have hnil : y ∉ NewStringSet [] := by simp [NewStringSet, GoSet.New, GoSet.Add]
  simp only [GoSet.Unwrap, List.mem_map]
  constructor
  · rintro (h | ⟨cs, ⟨q, hq, rfl⟩, hy⟩)
    · exact absurd h hnil
    · exact ⟨q, hq, (hcell q).1 hy⟩
  · rintro ⟨q, hq, hy⟩
    exact Or.inr ⟨_, ⟨q, hq, rfl⟩, (hcell q).2 hy⟩

theorem nodup_putNext (tr : NTrans) (cur : StringSet) (x : Rune) : (putNext tr cur x).Nodup := by
  unfold putNext
  exact nodup_foldl_Add _ _ (GoSet.nodup_New _)

theorem nfaPut_invalid (fuel : Nat) (s : nfaMachine) (x : Rune)
    (h : s.chars ≠ [] ∧ x ∉ s.chars) :
    s.Put fuel x = some (s, some FaError.ErrInvalidInputChar) := by
  unfold nfaMachine.Put
  have h1 : decide (GoSet.Len s.chars > 0) = true := by
    rw [decide_eq_true_eq, GoSet.Len]
    exact List.length_pos.2 h.1
  have h2 : GoSet.In s.chars [x] = false := by
    rw [Bool.eq_false_iff]; intro hc; exact h.2 ((GoSet.In_single _ _).1 hc)
  simp [h1, h2]

theorem nfaPut_charCheck_false (s : nfaMachine) (x : Rune)
    (h : ¬ (s.chars ≠ [] ∧ x ∉ s.chars)) :
    (decide (GoSet.Len s.chars > 0) && !GoSet.In s.chars [x]) = false := by
  rw [Bool.eq_false_iff]
  intro hc
  rw [Bool.and_eq_true, decide_eq_true_eq, GoSet.Len, Bool.not_eq_true', Bool.eq_false_iff] at hc
  exact h ⟨List.length_pos.1 hc.1, fun hx => hc.2 ((GoSet.In_single _ _).2 hx)⟩

theorem nfaPut_dead (fuel : Nat) (s : nfaMachine) (x : Rune)
    (h : ¬ (s.chars ≠ [] ∧ x ∉ s.chars)) (hc : s.currentStates = []) :
    s.Put fuel x = some (s, some FaError.ErrEmptyStates) := by
  unfold nfaMachine.Put
  rw [nfaPut_charCheck_false s x h]
  simp [hc, GoSet.Len]

theorem nfaPut_epsfree (fuel : Nat) (s : nfaMachine) (x : Rune)
    (he : s.HasEpsilon = false) (h : ¬ (s.chars ≠ [] ∧ x ∉ s.chars))
    (hc : s.currentStates ≠ []) :
    s.Put fuel x = some ({ s with currentStates := putNext s.transitions s.currentStates x },
      if putNext s.transitions s.currentStates x = [] then some FaError.ErrEmptyStates
      else none) := by
  unfold nfaMachine.Put
  rw [nfaPut_charCheck_false s x h]
  have hl : ¬ GoSet.Len s.currentStates = 0 := fun h0 => hc ((GoSet.Len_eq_zero_iff _).1 h0)
  have he2 : nfaMachine.HasEpsilon
      { s with currentStates := putNext s.transitions s.currentStates x } = false := he
  simp only [Bool.false_eq_true, if_false, hl, nfaMachine.closeIfEpsilon, he, he2,
    GoSet.Len_eq_zero_iff]
  split <;> rfl

/-- C8: `Put` on an NFA without epsilon transitions.  A symbol outside a
non-empty alphabet gives `ErrInvalidInputChar` and leaves the machine as it was;
otherwise an empty current set gives `ErrEmptyStates`; otherwise the current set
becomes exactly the union of `Delta q x` over the current states `q`, and the
call returns `ErrEmptyStates` when that union is empty and no error otherwise. -/
theorem nfa_put_epsilon_free (fuel : Nat) (s : nfaMachine) (x : Rune)
    (he : s.HasEpsilon = false) :
    ((s.chars ≠ [] ∧ x ∉ s.chars) → s.Put fuel x = some (s, some FaError.ErrInvalidInputChar)) ∧
    (¬ (s.chars ≠ [] ∧ x ∉ s.chars) → s.currentStates = [] →
      s.Put fuel x = some (s, some FaError.ErrEmptyStates)) ∧
    (¬ (s.chars ≠ [] ∧ x ∉ s.chars) → s.currentStates ≠ [] →
      ∃ c : StringSet,
        s.Put fuel x = some ({ s with currentStates := c },
          if c = [] then some FaError.ErrEmptyStates else none) ∧
        c.Nodup ∧
        ∀ y, y ∈ c ↔ ∃ q ∈ s.currentStates, y ∈ s.Delta q x) := by
  refine ⟨nfaPut_invalid fuel s x, nfaPut_dead fuel s x, ?_⟩
  intro h hc
  exact ⟨putNext s.transitions s.currentStates x, nfaPut_epsfree fuel s x he h hc,
    nodup_putNext _ _ _, fun y => mem_putNext _ _ _ _⟩

/-- Witness for C8: one epsilon-free row of the `a(b|c)*d` example, stepped on `a`. -/
theorem nfa_put_epsilon_free_witness :
    ∃ c : StringSet,
      nfaMachine.Put 0
          { abcd with transitions := [("a-start", [(97, ["a-end", "d-start"])])] } 97 =
        some ({ abcd with transitions := [("a-start", [(97, ["a-end", "d-start"])])],
                          currentStates := c },
          if c = [] then some FaError.ErrEmptyStates else none) ∧
      c.Nodup ∧
      ∀ y, y ∈ c ↔ ∃ q ∈ ["a-start"], y ∈ nfaMachine.Delta
        { abcd with transitions := [("a-start", [(97, ["a-end", "d-start"])])] } q 97 :=
  (nfa_put_epsilon_free 0
    { abcd with transitions := [("a-start", [(97, ["a-end", "d-start"])])] } 97
    (by decide)).2.2 (by decide) (by decide)

/-! ## The closure loop of the NFA simulator -/

theorem insertSorted_perm (a : String) (l : List String) : (insertSorted a l).Perm (a :: l) := by
  induction l with
  | nil => exact List.Perm.refl _
  | cons b l ih =>
    unfold insertSorted
    split
    · exact ((List.Perm.cons b ih).trans (List.Perm.swap a b l))
    · exact List.Perm.refl _

theorem sortStrings_perm (l : List String) : (sortStrings l).Perm l := by
  induction l with
  | nil => exact List.Perm.refl _
  | cons a l ih =>
    unfold sortStrings
    exact (insertSorted_perm a _).trans (List.Perm.cons a ih)

theorem StringSet_Equal_mem (s x : StringSet) (h : StringSet.Equal s x = true) (y : String) :
    y ∈ s ↔ y ∈ x := by
  unfold StringSet.Equal GoSet.Unwrap at h
  simp only [ne_eq, ite_not] at h
  split at h
  · rw [decide_eq_true_eq] at h
    have hp : s.Perm x := (sortStrings_perm s).symm.trans (h ▸ sortStrings_perm x)
    exact hp.mem_iff
  · simp at h

theorem StringSet_Equal_self (s : StringSet) : StringSet.Equal s s = true := by
  simp [StringSet.Equal]

theorem tableDelta_of_get (tr : NTrans) (p : String) (x : Rune) (u : StringSet)
    (h : tableGet tr p x = some u) : tableDelta tr p x = u := by
  simp [tableDelta, h]

theorem EpsClosure_mono (tr : NTrans) (S T : String → Prop) (h : ∀ y, S y → T y) (y : String)
    (hy : EpsClosure tr S y) : EpsClosure tr T y := by
  induction hy with
  | base hs => exact EpsClosure.base (h _ hs)
  | step _ hd ih => exact EpsClosure.step ih hd

theorem EpsClosure_idem (tr : NTrans) (S : String → Prop) (y : String)
    (hy : EpsClosure tr (EpsClosure tr S) y) : EpsClosure tr S y := by
  induction hy with
  | base hs => exact hs
  | step _ hd ih => exact EpsClosure.step ih hd

theorem applyEpsilonPass_sound (tr : NTrans) (P : String → Prop)
    (hP : ∀ p y, P p → y ∈ tableDelta tr p Epsilon → P y)
    (snap : List String) (cur : StringSet) (modified : Bool)
    (hsnap : ∀ y ∈ snap, P y) (hcur : ∀ y ∈ cur, P y) :
    ∀ y ∈ (applyEpsilonPass tr snap cur modified).1, P y := by
  induction snap generalizing cur modified with
  | nil => simpa [applyEpsilonPass] using hcur
  | cons state rest ih =>
    have hrest : ∀ y ∈ rest, P y := fun y hy => hsnap y (List.mem_cons_of_mem _ hy)
    unfold applyEpsilonPass
    cases h1 : tableGet tr state Epsilon with
    | none => exact ih cur modified hrest hcur
    | some u =>
      simp only
      apply ih _ _ hrest
      intro y hy
      rw [GoSet.mem_Add, GoSet.mem_Del] at hy
      rcases hy with hy | hy
      · exact hcur y hy.1
      · refine hP state y (hsnap state (List.mem_cons_self _ _)) ?_
        rw [tableDelta_of_get tr state Epsilon u h1]
        exact hy

theorem applyEpsilonLoop_sound (tr : NTrans) (P : String → Prop)
    (hP : ∀ p y, P p → y ∈ tableDelta tr p Epsilon → P y)
    (fuel : Nat) (cur r : StringSet) (hcur : ∀ y ∈ cur, P y)
    (hr : applyEpsilonLoop tr fuel cur = some r) : ∀ y ∈ r, P y := by
  induction fuel generalizing cur with
  | zero => simp [applyEpsilonLoop] at hr
  | succ n ih =>
    simp only [applyEpsilonLoop] at hr
    have hpass := applyEpsilonPass_sound tr P hP (GoSet.Unwrap cur) cur false hcur hcur
    split at hr
    · exact ih _ hpass hr
    · rw [Option.some.injEq] at hr
      exact hr ▸ hpass

theorem applyEpsilonPass_modified (tr : NTrans) (snap : List String) (cur : StringSet) :
    (applyEpsilonPass tr snap cur true).2 = true := by
  induction snap generalizing cur with
  | nil => rfl
  | cons state rest ih =>
    unfold applyEpsilonPass
    cases h1 : tableGet tr state Epsilon with
    | none => exact ih cur
    | some u => exact ih _

theorem applyEpsilonPass_quiet (tr : NTrans) (snap : List String) (cur : StringSet)
    (h : (applyEpsilonPass tr snap cur false).2 = false) :
    (∀ y, y ∈ (applyEpsilonPass tr snap cur false).1 ↔ y ∈ cur) ∧
    ∀ p ∈ snap, ∀ u, tableGet tr p Epsilon = some u →
      (p ∈ cur → p ∈ u) ∧ ∀ y ∈ u, y ∈ cur := by
  induction snap generalizing cur with
  | nil => simp [applyEpsilonPass]
  | cons state rest ih =>
    unfold applyEpsilonPass at h ⊢
    cases h1 : tableGet tr state Epsilon with
    | none =>
      rw [h1] at h
      simp only at h ⊢
      obtain ⟨ha, hb⟩ := ih cur h
      refine ⟨ha, ?_⟩
      intro p hp u hp1
      rcases List.mem_cons.1 hp with rfl | hp
      · rw [h1] at hp1; cases hp1
      · exact hb p hp u hp1
    | some u =>
      rw [h1] at h
      simp only [Bool.not_false, if_true] at h ⊢
      cases he : StringSet.Equal (NewStringSet (GoSet.Unwrap cur))
          (GoSet.Add (GoSet.Del cur [state]) (GoSet.Unwrap u)) with
      | false =>
        rw [he] at h
        simp only [Bool.not_false] at h
        rw [applyEpsilonPass_modified] at h
        cases h
      | true =>
        rw [he] at h
        simp only [Bool.not_true] at h ⊢
        obtain ⟨ha, hb⟩ := ih _ h
        have hsame : ∀ y, y ∈ cur ↔
            y ∈ GoSet.Add (GoSet.Del cur [state]) (GoSet.Unwrap u) := by
          intro y
          rw [← StringSet_Equal_mem _ _ he y]
          exact (GoSet.mem_New _ _).symm
        have hu : ∀ y ∈ u, y ∈ cur := fun y hy =>
          (hsame y).2 ((GoSet.mem_Add _ _ _).2 (Or.inr hy))
        refine ⟨fun y => (ha y).trans (hsame y).symm, ?_⟩
        intro p hp u1 hp1
        rcases List.mem_cons.1 hp with rfl | hp
        · rw [h1] at hp1; cases hp1
          refine ⟨?_, hu⟩
          intro hpc
          have := (hsame p).1 hpc
          rw [GoSet.mem_Add, GoSet.mem_Del] at this
          rcases this with ⟨_, hne⟩ | hin
          · exact absurd (List.mem_singleton_self p) hne
          · exact hin
        · obtain ⟨hb1, hb2⟩ := hb p hp u1 hp1
          exact ⟨fun hpc => hb1 ((hsame p).1 hpc), fun y hy => (hsame y).2 (hb2 y hy)⟩

theorem applyEpsilonLoop_stable (tr : NTrans) (fuel : Nat) (cur r : StringSet)
    (hr : applyEpsilonLoop tr fuel cur = some r) : EpsStable tr r := by
  induction fuel generalizing cur with
  | zero => simp [applyEpsilonLoop] at hr
  | succ n ih =>
    simp only [applyEpsilonLoop] at hr
    split at hr
    · exact ih _ hr
    · rename_i hq
      rw [Bool.not_eq_true] at hq
      rw [Option.some.injEq] at hr
      obtain ⟨ha, hb⟩ := applyEpsilonPass_quiet tr (GoSet.Unwrap cur) cur hq
      rw [hr] at ha
      intro p hp u hp1
      have hpc : p ∈ cur := (ha p).1 hp
      obtain ⟨hb1, hb2⟩ := hb p hpc u hp1
      exact ⟨hb1 hpc, fun y hy => (ha y).2 (hb2 y hy)⟩

theorem tableGet_eps_none (s : nfaMachine) (he : s.HasEpsilon = false) (p : String) :
    tableGet s.transitions p Epsilon = none := by
  cases h : tableGet s.transitions p Epsilon with
  | none => rfl
  | some u =>
    exfalso
    unfold tableGet at h
    cases h1 : mapGet s.transitions p with
    | none => rw [h1] at h; cases h
    | some t =>
      rw [h1] at h
      simp only at h
      have hmem := mapGet_mem _ _ _ h1
      have : s.HasEpsilon = true := by
        unfold nfaMachine.HasEpsilon
        rw [List.any_eq_true]
        exact ⟨(p, t), hmem, by simp [mapHas, h]⟩
      rw [he] at this
      cases this

/-! ## Acceptance of an epsilon-free machine is the existence of a run -/

theorem nfaIsAccepted_iff (m : nfaMachine) :
    m.IsAccepted = true ↔ ∃ y, y ∈ m.currentStates ∧ y ∈ m.acceptStates := by
  unfold nfaMachine.IsAccepted
  rw [decide_eq_true_eq, GoSet.Len_pos_iff]
  simp only [GoSet.mem_And]

theorem nfaPut_epsfree_cases (fuel : Nat) (s : nfaMachine) (x : Rune)
    (he : s.HasEpsilon = false) :
    (s.Put fuel x = some ({ s with currentStates := putNext s.transitions s.currentStates x },
        none) ∧ s.admits x ∧ putNext s.transitions s.currentStates x ≠ []) ∨
    ((∃ r e, s.Put fuel x = some (r, some e)) ∧
      (¬ s.admits x ∨ putNext s.transitions s.currentStates x = [])) := by
  by_cases h : s.chars ≠ [] ∧ x ∉ s.chars
  · right
    refine ⟨⟨_, _, nfaPut_invalid fuel s x h⟩, Or.inl ?_⟩
    rintro (h1 | h1)
    · exact h.1 h1
    · exact h.2 h1
  · have hadm : s.admits x := by
      unfold nfaMachine.admits
      by_contra hc
      push_neg at hc
      exact h hc
    by_cases hc : s.currentStates = []
    · right
      refine ⟨⟨_, _, nfaPut_dead fuel s x h hc⟩, Or.inr ?_⟩
      rw [hc]
      rfl
    · have hp := nfaPut_epsfree fuel s x he h hc
      by_cases hn : putNext s.transitions s.currentStates x = []
      · right
        rw [if_pos hn] at hp
        exact ⟨⟨_, _, hp⟩, Or.inr hn⟩
      · left
        rw [if_neg hn] at hp
        exact ⟨hp, hadm, hn⟩

theorem putAll_epsfree (fuel : Nat) (s : nfaMachine) (he : s.HasEpsilon = false)
    (w : List Rune) :
    ∃ r, nfaMachine.putAll fuel s w = some r ∧
      ((∃ m, r = some m ∧ m.IsAccepted = true) ↔
        ((∀ x ∈ w, s.admits x) ∧
          ∃ p ∈ s.currentStates, ∃ q ∈ s.acceptStates, Path s.transitions p w q)) := by
  induction w generalizing s with
  | nil =>
    refine ⟨some s, rfl, ?_⟩
    constructor
    · rintro ⟨m, hm, hacc⟩
      cases hm
      obtain ⟨y, hy1, hy2⟩ := (nfaIsAccepted_iff s).1 hacc
      exact ⟨by simp, y, hy1, y, hy2, Path.nil y⟩
    · rintro ⟨_, p, hp, q, hq, hpath⟩
      cases hpath
      exact ⟨s, rfl, (nfaIsAccepted_iff s).2 ⟨p, hp, hq⟩⟩
  | cons x w ih =>
    rcases nfaPut_epsfree_cases fuel s x he with ⟨hput, hadm, hne⟩ | ⟨⟨r, e, hput⟩, hbad⟩
    · obtain ⟨r, hr, hiff⟩ := ih { s with currentStates := putNext s.transitions s.currentStates x } he
      refine ⟨r, ?_, ?_⟩
      · unfold nfaMachine.putAll
        rw [hput]
        exact hr
      · rw [hiff]
        simp only
        constructor
        · rintro ⟨hall, p, hp, q, hq, hpath⟩
          rw [mem_putNext] at hp
          obtain ⟨p0, hp0, hstep⟩ := hp
          refine ⟨?_, p0, hp0, q, hq, Path.cons hstep hpath⟩
          intro z hz
          rcases List.mem_cons.1 hz with rfl | hz
          · exact hadm
          · exact hall z hz
        · rintro ⟨hall, p, hp, q, hq, hpath⟩
          cases hpath with
          | cons hstep hrest =>
            exact ⟨fun z hz => hall z (List.mem_cons_of_mem _ hz), _,
              (mem_putNext _ _ _ _).2 ⟨p, hp, hstep⟩, q, hq, hrest⟩
    · refine ⟨none, ?_, ?_⟩
      · unfold nfaMachine.putAll
        rw [hput]
      · constructor
        · rintro ⟨m, hm, _⟩
          cases hm
        · rintro ⟨hall, p, hp, q, hq, hpath⟩
          exfalso
          rcases hbad with hbad | hbad
          · exact hbad (hall x (List.mem_cons_self _ _))
          · cases hpath with
            | cons hstep hrest =>
              have := (mem_putNext s.transitions s.currentStates x _).2 ⟨p, hp, hstep⟩
              rw [hbad] at this
              cases this

theorem accepts_epsfree (fuel : Nat) (s : nfaMachine) (he : s.HasEpsilon = false)
    (w : List Rune) :
    ∃ b, s.accepts fuel w = some b ∧ (b = true ↔ s.Lang w) := by
  obtain ⟨r, hr, hiff⟩ := putAll_epsfree fuel s.Reset he w
  unfold nfaMachine.accepts
  rw [hr]
  refine ⟨_, rfl, ?_⟩
  have hR : ((∀ x ∈ w, s.Reset.admits x) ∧
      ∃ p ∈ s.Reset.currentStates, ∃ q ∈ s.Reset.acceptStates,
        Path s.Reset.transitions p w q) ↔ s.Lang w := by
    unfold nfaMachine.Lang nfaMachine.Reset nfaMachine.admits
    simp only [NewStringSet, GoSet.Unwrap, GoSet.mem_New]
  rw [← hR, ← hiff]
  cases r with
  | none => simp
  | some m => simp

/-! ## Tables built by the loops -/

theorem mem_mapSet_elim {κ ν : Type} [DecidableEq κ] (m : GoMap κ ν) (k : κ) (v : ν) (e : κ × ν)
    (he : e ∈ mapSet m k v) : e = (k, v) ∨ e ∈ m := by
  induction m with
  | nil =>
    simp only [mapSet, List.mem_singleton] at he
    exact Or.inl he
  | cons e1 m ih =>
    obtain ⟨k1, v1⟩ := e1
    unfold mapSet at he
    by_cases h : k1 = k
    · simp only [h, if_true, List.mem_cons] at he
      rcases he with he | he
      · exact Or.inl he
      · exact Or.inr (List.mem_cons_of_mem _ he)
    · simp only [h, if_false, List.mem_cons] at he
      rcases he with he | he
      · exact Or.inr (he ▸ List.mem_cons_self _ _)
      · rcases ih he with h1 | h1
        · exact Or.inl h1
        · exact Or.inr (List.mem_cons_of_mem _ h1)

theorem TableOK_nil : TableOK [] := by
  refine ⟨?_, ?_⟩
  · unfold NodupKeys; simp
  · intro e he; cases he

theorem TableOK_mapSet (tr : NTrans) (k : String) (row : GoMap Rune StringSet)
    (h : TableOK tr) (hrow : NodupKeys row) : TableOK (mapSet tr k row) := by
  refine ⟨NodupKeys_mapSet tr k row h.1, ?_⟩
  intro e he
  rcases mem_mapSet_elim tr k row e he with rfl | h1
  · exact hrow
  · exact h.2 e h1

theorem tableGet_of_TableOK_mem (tr : NTrans) (h : TableOK tr) (q : String)
    (row : GoMap Rune StringSet) (hq : (q, row) ∈ tr) (c : Rune) :
    tableGet tr q c = mapGet row c := by
  unfold tableGet
  rw [mapGet_of_mem tr h.1 q row hq]

theorem mapGet_nil_iff {κ ν : Type} [DecidableEq κ] (m : GoMap κ ν) :
    m = [] ↔ ∀ k, mapGet m k = none := by
  constructor
  · rintro rfl k; rfl
  · intro h
    cases m with
    | nil => rfl
    | cons e m =>
      obtain ⟨k1, v1⟩ := e
      have := h k1
      simp [mapGet] at this

theorem mapGet_mapValues {κ ν μ : Type} [DecidableEq κ] (f : κ × ν → μ) (m : GoMap κ ν) (k : κ) :
    mapGet (m.map (fun e => (e.1, f e))) k = (mapGet m k).map (fun v => f (k, v)) := by
  induction m with
  | nil => rfl
  | cons e m ih =>
    obtain ⟨k1, v1⟩ := e
    simp only [List.map_cons, mapGet_cons, ih]
    by_cases h : k1 = k
    · simp [h]
    · simp [h]

theorem keys_mapValues {κ ν μ : Type} (f : κ × ν → μ) (m : GoMap κ ν) :
    (m.map (fun e => (e.1, f e))).map Prod.fst = m.map Prod.fst := by
  simp [List.map_map, Function.comp]

/-! ### The extraction loop of `ExpandEpsilon` -/

/-- The entry that the first loop of `ExpandEpsilon` keeps for symbol `c`. -/
theorem expandRoutes_from (v acc : GoMap Rune StringSet) (hv : NodupKeys v) (c : Rune) :
    mapGet (v.foldl (fun routes e =>
        if e.1 = Epsilon ∨ GoSet.Len e.2 = 0 then routes
        else mapSet routes e.1 (NewStringSet (GoSet.Unwrap e.2))) acc) c =
      match mapGet v c with
      | some u =>
        if c = Epsilon ∨ GoSet.Len u = 0 then mapGet acc c
        else some (NewStringSet (GoSet.Unwrap u))
      | none => mapGet acc c := by
  induction v generalizing acc with
  | nil => rfl
  | cons e v ih =>
    obtain ⟨k1, u1⟩ := e
    unfold NodupKeys at hv
    rw [List.map_cons, List.nodup_cons] at hv
    rw [List.foldl_cons, ih _ hv.2, mapGet_cons]
    by_cases hk : k1 = c
    · subst hk
      have hnone : mapGet v k1 = none := (mapGet_none_iff v k1).2 hv.1
      simp only [hnone, if_true]
      by_cases hs : k1 = Epsilon ∨ GoSet.Len u1 = 0
      · simp [hs]
      · simp [hs, mapGet_mapSet_same]
    · simp only [hk, if_false]
      have hacc : mapGet (if k1 = Epsilon ∨ GoSet.Len u1 = 0 then acc
          else mapSet acc k1 (NewStringSet (GoSet.Unwrap u1))) c = mapGet acc c := by
        split
        · rfl
        · exact mapGet_mapSet_other acc k1 c _ (fun h => hk h.symm)
      rw [hacc]

theorem expandRoutes_get (v : GoMap Rune StringSet) (hv : NodupKeys v) (c : Rune) :
    mapGet (expandRoutes v) c =
      (mapGet v c).bind (fun u =>
        if c = Epsilon ∨ GoSet.Len u = 0 then none else some (NewStringSet (GoSet.Unwrap u))) := by
  unfold expandRoutes
  rw [expandRoutes_from v [] hv c]
  cases mapGet v c with
  | none => rfl
  | some u => rfl

theorem NodupKeys_foldl_mapSet {κ ν ι : Type} [DecidableEq κ] (l : List ι)
    (skip : ι → Prop) [DecidablePred skip] (key : ι → κ) (val : ι → ν) (acc : GoMap κ ν)
    (h : NodupKeys acc) :
    NodupKeys (l.foldl (fun m e => if skip e then m else mapSet m (key e) (val e)) acc) := by
  induction l generalizing acc with
  | nil => exact h
  | cons e l ih =>
    rw [List.foldl_cons]
    apply ih
    split
    · exact h
    · exact NodupKeys_mapSet _ _ _ h

theorem NodupKeys_expandRoutes (v : GoMap Rune StringSet) : NodupKeys (expandRoutes v) := by
  unfold expandRoutes
  exact NodupKeys_foldl_mapSet v (fun e => e.1 = Epsilon ∨ GoSet.Len e.2 = 0) (fun e => e.1)
    (fun e => NewStringSet (GoSet.Unwrap e.2)) [] (by unfold NodupKeys; simp)

theorem expandExtract_from (tr acc : NTrans) (htr : NodupKeys tr) (q : String) :
    mapGet (tr.foldl (fun ts e =>
        let routes := expandRoutes e.2
        if routes.length = 0 then ts else mapSet ts e.1 routes) acc) q =
      match mapGet tr q with
      | some v => if (expandRoutes v).length = 0 then mapGet acc q else some (expandRoutes v)
      | none => mapGet acc q := by
  induction tr generalizing acc with
  | nil => rfl
  | cons e tr ih =>
    obtain ⟨k1, v1⟩ := e
    unfold NodupKeys at htr
    rw [List.map_cons, List.nodup_cons] at htr
    rw [List.foldl_cons, ih _ htr.2, mapGet_cons]
    by_cases hk : k1 = q
    · subst hk
      have hnone : mapGet tr k1 = none := (mapGet_none_iff tr k1).2 htr.1
      simp only [hnone, if_true]
      by_cases hs : (expandRoutes v1).length = 0
      · simp [hs]
      · simp [hs, mapGet_mapSet_same]
    · simp only [hk, if_false]
      have hacc : mapGet (if (expandRoutes v1).length = 0 then acc
          else mapSet acc k1 (expandRoutes v1)) q = mapGet acc q := by
        split
        · rfl
        · exact mapGet_mapSet_other acc k1 q _ (fun h => hk h.symm)
      simp only [hacc]

theorem expandExtract_get (tr : NTrans) (htr : NodupKeys tr) (q : String) :
    mapGet (expandExtract tr) q =
      (mapGet tr q).bind (fun v =>
        if (expandRoutes v).length = 0 then none else some (expandRoutes v)) := by
  unfold expandExtract
  rw [expandExtract_from tr [] htr q]
  cases mapGet tr q with
  | none => rfl
  | some u => rfl

theorem tableGet_expandExtract (tr : NTrans) (h : TableOK tr) (q : String) (c : Rune) :
    tableGet (expandExtract tr) q c =
      (tableGet tr q c).bind (fun u =>
        if c = Epsilon ∨ GoSet.Len u = 0 then none else some (NewStringSet (GoSet.Unwrap u))) := by
  unfold tableGet
  rw [expandExtract_get tr h.1 q]
  cases hq : mapGet tr q with
  | none => rfl
  | some v =>
    have hv : NodupKeys v := h.2 (q, v) (mapGet_mem tr q v hq)
    simp only [Option.bind]
    by_cases hl : (expandRoutes v).length = 0
    · simp only [hl, if_true]
      have hnil : expandRoutes v = [] := List.length_eq_zero.1 hl
      have := (mapGet_nil_iff (expandRoutes v)).1 hnil c
      rw [expandRoutes_get v hv c] at this
      exact this.symm
    · simp only [hl, if_false]
      exact expandRoutes_get v hv c

theorem mapHas_expandExtract (tr : NTrans) (h : TableOK tr) (q : String) :
    mapHas (expandExtract tr) q = true ↔
      ∃ c u, tableGet tr q c = some u ∧ c ≠ Epsilon ∧ u ≠ [] := by
  unfold mapHas
  rw [expandExtract_get tr h.1 q, Option.isSome_iff_exists]
  unfold tableGet
  cases hq : mapGet tr q with
  | none => simp
  | some v =>
    have hv : NodupKeys v := h.2 (q, v) (mapGet_mem tr q v hq)
    simp only [Option.bind]
    constructor
    · rintro ⟨a, ha⟩
      split at ha
      · cases ha
      · rename_i hl
        have hne : expandRoutes v ≠ [] := fun h0 => hl (List.length_eq_zero.2 h0)
        rw [ne_eq, mapGet_nil_iff] at hne
        push_neg at hne
        obtain ⟨c, hc⟩ := hne
        rw [expandRoutes_get v hv c] at hc
        cases hu : mapGet v c with
        | none => rw [hu] at hc; exact absurd rfl hc
        | some u =>
          rw [hu] at hc
          simp only [Option.bind] at hc
          refine ⟨c, u, hu, ?_⟩
          by_cases hs : c = Epsilon ∨ GoSet.Len u = 0
          · simp [hs] at hc
          · push_neg at hs
            exact ⟨hs.1, fun h0 => hs.2 (by simp [GoSet.Len, h0])⟩
    · rintro ⟨c, u, hcu, hce, hune⟩
      have hget := expandRoutes_get v hv c
      rw [hcu] at hget
      have hs : ¬ (c = Epsilon ∨ GoSet.Len u = 0) := by
        rintro (h1 | h1)
        · exact hce h1
        · exact hune ((GoSet.Len_eq_zero_iff u).1 h1)
      simp only [Option.bind, hs, if_false] at hget
      have hl : ¬ (expandRoutes v).length = 0 := by
        intro h0
        have := (mapGet_nil_iff _).1 (List.length_eq_zero.1 h0) c
        rw [hget] at this
        cases this
      exact ⟨expandRoutes v, by simp only [hl, if_false]⟩

/-! ## Epsilon expansion of a machine without epsilon transitions -/

theorem GoSet_Add_append {α : Type} [DecidableEq α] (acc l : List α) (h : (acc ++ l).Nodup) :
    GoSet.Add acc l = acc ++ l := by
  unfold GoSet.Add
  induction l generalizing acc with
  | nil => simp
  | cons a l ih =>
    rw [List.foldl_cons]
    have ha : a ∉ acc := by
      intro hc
      rw [List.nodup_append] at h
      exact h.2.2 hc (List.mem_cons_self _ _)
    have h1 : GoSet.addOne acc a = acc ++ [a] := by simp [GoSet.addOne, ha]
    rw [h1, ih]
    · simp
    · simpa using h

theorem GoSet_New_of_nodup {α : Type} [DecidableEq α] (l : List α) (h : l.Nodup) :
    GoSet.New l = l := by
  unfold GoSet.New
  rw [GoSet_Add_append [] l (by simpa using h)]
  simp

theorem foldl_mapSet_all {κ ν ι : Type} [DecidableEq κ] (P : κ × ν → Prop) (l : List ι)
    (skip : ι → Prop) [DecidablePred skip] (key : ι → κ) (val : ι → ν) (acc : GoMap κ ν)
    (hacc : ∀ e ∈ acc, P e) (hl : ∀ i ∈ l, ¬ skip i → P (key i, val i)) :
    ∀ e ∈ l.foldl (fun m e => if skip e then m else mapSet m (key e) (val e)) acc, P e := by
  induction l generalizing acc with
  | nil => exact hacc
  | cons i l ih =>
    rw [List.foldl_cons]
    apply ih
    · split
      · exact hacc
      · rename_i hs
        intro e he
        rcases mem_mapSet_elim _ _ _ _ he with rfl | h1
        · exact hl i (List.mem_cons_self _ _) hs
        · exact hacc e h1
    · exact fun j hj => hl j (List.mem_cons_of_mem _ hj)

theorem expandRoutes_all (P : Rune × StringSet → Prop) (v : GoMap Rune StringSet)
    (h : ∀ c u, c ≠ Epsilon → P (c, NewStringSet (GoSet.Unwrap u))) :
    ∀ e ∈ expandRoutes v, P e := by
  unfold expandRoutes
  apply foldl_mapSet_all P v (fun e => e.1 = Epsilon ∨ GoSet.Len e.2 = 0) (fun e => e.1)
    (fun e => NewStringSet (GoSet.Unwrap e.2)) []
  · intro e he; cases he
  · intro i _ hs
    push_neg at hs
    exact h i.1 i.2 hs.1

theorem expandExtract_all (P : String × GoMap Rune StringSet → Prop) (tr : NTrans)
    (h : ∀ q v, P (q, expandRoutes v)) : ∀ e ∈ expandExtract tr, P e := by
  unfold expandExtract
  apply foldl_mapSet_all P tr (fun e => (expandRoutes e.2).length = 0) (fun e => e.1)
    (fun e => expandRoutes e.2) []
  · intro e he; cases he
  · intro i _ _
    exact h i.1 i.2

theorem TableOK_expandExtract (tr : NTrans) : TableOK (expandExtract tr) := by
  refine ⟨?_, ?_⟩
  · unfold expandExtract
    exact NodupKeys_foldl_mapSet tr (fun e => (expandRoutes e.2).length = 0) (fun e => e.1)
      (fun e => expandRoutes e.2) [] (by unfold NodupKeys; simp)
  · exact expandExtract_all (fun e => NodupKeys e.2) tr (fun _ v => NodupKeys_expandRoutes v)

theorem expandPass_epsfree (tr : NTrans) (h : ∀ q, tableGet tr q Epsilon = none)
    (snap : List String) (l : StringSet) : expandPass tr snap l = l := by
  unfold expandPass
  induction snap with
  | nil => rfl
  | cons a snap ih =>
    rw [List.foldl_cons, h a]
    exact ih

theorem expandClosure_epsfree (tr : NTrans) (h : ∀ q, tableGet tr q Epsilon = none)
    (fuel : Nat) (l : StringSet) (hl : l.Nodup) : expandClosure tr (fuel + 1) l = some l := by
  unfold expandClosure
  simp only [expandPass_epsfree tr h, GoSet.Unwrap, NewStringSet, GoSet_New_of_nodup l hl,
    StringSet_Equal_self, Bool.not_true, Bool.false_eq_true, if_false]

theorem mapValuesM_id {κ ν : Type} (f : ν → Option ν) (m : GoMap κ ν)
    (h : ∀ e ∈ m, f e.2 = some e.2) : mapValuesM f m = some m := by
  induction m with
  | nil => rfl
  | cons e m ih =>
    obtain ⟨k, v⟩ := e
    unfold mapValuesM
    have h1 : f v = some v := h (k, v) (List.mem_cons_self _ _)
    rw [h1, ih (fun e he => h e (List.mem_cons_of_mem _ he))]

theorem ExpandEpsilon_epsfree (tr : NTrans) (h : ∀ q, tableGet tr q Epsilon = none)
    (fuel : Nat) : ExpandEpsilon (fuel + 1) tr = some (expandExtract tr) := by
  unfold ExpandEpsilon
  apply mapValuesM_id
  apply expandExtract_all
  intro q v
  apply mapValuesM_id
  apply expandRoutes_all
  intro c u _
  exact expandClosure_epsfree tr h fuel _ (GoSet.nodup_New _)

theorem startPass_epsfree (tr : NTrans) (h : ∀ q, tableGet tr q Epsilon = none)
    (snap : List String) (st : StringSet) (b : Bool) : startPass tr snap st b = (st, b) := by
  induction snap with
  | nil => rfl
  | cons a snap ih =>
    unfold startPass
    rw [h a]
    exact ih

theorem startLoop_epsfree (tr : NTrans) (h : ∀ q, tableGet tr q Epsilon = none)
    (fuel : Nat) (st : StringSet) : startLoop tr (fuel + 1) st = some st := by
  unfold startLoop
  simp [startPass_epsfree tr h]

theorem mem_uselessOf (s : nfaMachine) (t : NTrans) (y : String) :
    y ∈ uselessOf s t ↔ y ∈ s.states ∧ y ∉ s.acceptStates ∧ mapHas t y = false := by
  unfold uselessOf GoSet.Unwrap
  have key : ∀ (l acc : List String),
      y ∈ l.foldl (fun u state =>
        if GoSet.In s.acceptStates [state] then u
        else if mapHas t state then u
        else GoSet.Add u [state]) acc ↔
      y ∈ acc ∨ (y ∈ l ∧ y ∉ s.acceptStates ∧ mapHas t y = false) := by
    intro l
    induction l with
    | nil => intro acc; simp
    | cons a l ih =>
      intro acc
      rw [List.foldl_cons, ih]
      by_cases ha : a ∈ s.acceptStates
      · have h1 : GoSet.In s.acceptStates [a] = true := (GoSet.In_single _ _).2 ha
        simp only [h1, if_true, List.mem_cons]
        constructor
        · rintro (h | h)
          · exact Or.inl h
          · exact Or.inr ⟨Or.inr h.1, h.2⟩
        · rintro (h | ⟨h2 | h2, h3, h4⟩)
          · exact Or.inl h
          · exact absurd (h2 ▸ ha) h3
          · exact Or.inr ⟨h2, h3, h4⟩
      · have h1 : GoSet.In s.acceptStates [a] = false := by
          rw [Bool.eq_false_iff]; exact fun hc => ha ((GoSet.In_single _ _).1 hc)
        cases hm : mapHas t a with
        | true =>
          simp only [h1, Bool.false_eq_true, if_false, if_true, List.mem_cons]
          constructor
          · rintro (h | h)
            · exact Or.inl h
            · exact Or.inr ⟨Or.inr h.1, h.2⟩
          · rintro (h | ⟨h2 | h2, h3, h4⟩)
            · exact Or.inl h
            · rw [h2, hm] at h4; cases h4
            · exact Or.inr ⟨h2, h3, h4⟩
        | false =>
          simp only [h1, Bool.false_eq_true, if_false, GoSet.mem_Add_single, List.mem_cons]
          constructor
          · rintro ((h | h) | h)
            · exact Or.inl h
            · exact Or.inr ⟨Or.inl h, h ▸ ha, h ▸ hm⟩
            · exact Or.inr ⟨Or.inr h.1, h.2⟩
          · rintro (h | ⟨h2 | h2, h3, h4⟩)
            · exact Or.inl (Or.inl h)
            · exact Or.inl (Or.inr h2)
            · exact Or.inr ⟨h2, h3, h4⟩
  rw [key]
  simp [NewStringSet, GoSet.New, GoSet.Add]

theorem tableGet_purge (t : NTrans) (u : StringSet) (q : String) (c : Rune) :
    tableGet (purgeTransitions t u) q c =
      (tableGet t q c).map (fun d => GoSet.Del d (GoSet.Unwrap u)) := by
  unfold tableGet purgeTransitions
  rw [mapGet_mapValues (fun e => e.2.map (fun r => (r.1, GoSet.Del r.2 (GoSet.Unwrap u)))) t q]
  cases mapGet t q with
  | none => rfl
  | some row =>
    simp only [Option.map]
    exact mapGet_mapValues (fun r => GoSet.Del r.2 (GoSet.Unwrap u)) row c

theorem TableOK_purge (t : NTrans) (u : StringSet) (h : TableOK t) :
    TableOK (purgeTransitions t u) := by
  unfold purgeTransitions
  refine ⟨?_, ?_⟩
  · unfold NodupKeys
    rw [keys_mapValues (fun e => e.2.map (fun r => (r.1, GoSet.Del r.2 (GoSet.Unwrap u)))) t]
    exact h.1
  · intro e he
    rw [List.mem_map] at he
    obtain ⟨e0, he0, rfl⟩ := he
    unfold NodupKeys
    rw [keys_mapValues (fun r => GoSet.Del r.2 (GoSet.Unwrap u)) e0.2]
    exact h.2 e0 he0

theorem HasEpsilon_false_of_get (s : nfaMachine) (h : TableOK s.transitions)
    (hg : ∀ q, tableGet s.transitions q Epsilon = none) : s.HasEpsilon = false := by
  unfold nfaMachine.HasEpsilon
  rw [Bool.eq_false_iff, ne_eq, List.any_eq_true]
  rintro ⟨e, he, hm⟩
  obtain ⟨q, row⟩ := e
  have := hg q
  rw [tableGet_of_TableOK_mem _ h q row he] at this
  simp [mapHas, this] at hm

theorem tableGet_eps_none_iff (s : nfaMachine) (h : TableOK s.transitions) :
    s.HasEpsilon = false ↔ ∀ q, tableGet s.transitions q Epsilon = none :=
  ⟨fun he q => tableGet_eps_none s he q, HasEpsilon_false_of_get s h⟩

theorem mem_tableDelta (tr : NTrans) (q : String) (c : Rune) (y : String) :
    y ∈ tableDelta tr q c ↔ ∃ u, tableGet tr q c = some u ∧ y ∈ u := by
  unfold tableDelta
  cases tableGet tr q c with
  | none => simp
  | some u => simp

theorem ApplyEpsilonExpansion_epsfree (s : nfaMachine) (he : s.HasEpsilon = false)
    (fuel : Nat) :
    s.ApplyEpsilonExpansion (fuel + 1) = some
      { states := GoSet.Del (GoSet.Clone s.states)
          (GoSet.Unwrap (uselessOf s (expandExtract s.transitions)))
        chars := GoSet.Clone s.chars
        startStates := GoSet.Del (GoSet.Clone s.startStates)
          (GoSet.Unwrap (uselessOf s (expandExtract s.transitions)))
        acceptStates := GoSet.Clone s.acceptStates
        currentStates := GoSet.Clone s.currentStates
        transitions := purgeTransitions (expandExtract s.transitions)
          (uselessOf s (expandExtract s.transitions)) } := by
  have hg := tableGet_eps_none s he
  unfold nfaMachine.ApplyEpsilonExpansion nfaMachine.applyEpsilonToStartStates
  rw [ExpandEpsilon_epsfree s.transitions hg fuel, startLoop_epsfree s.transitions hg fuel]

theorem mem_tableDelta_expanded (s : nfaMachine) (hT : TableOK s.transitions)
    (he : s.HasEpsilon = false) (q : String) (c : Rune) (y : String) :
    y ∈ tableDelta (purgeTransitions (expandExtract s.transitions)
        (uselessOf s (expandExtract s.transitions))) q c ↔
      y ∈ tableDelta s.transitions q c ∧ y ∉ uselessOf s (expandExtract s.transitions) := by
  rw [mem_tableDelta, mem_tableDelta, tableGet_purge, tableGet_expandExtract _ hT]
  cases hq : tableGet s.transitions q c with
  | none => simp
  | some u =>
    have hc : c ≠ Epsilon := by
      rintro rfl
      rw [tableGet_eps_none s he q] at hq
      cases hq
    by_cases hu : GoSet.Len u = 0
    · have : u = [] := (GoSet.Len_eq_zero_iff u).1 hu
      subst this
      simp [GoSet.Len]
    · simp only [Option.bind, hc, hu, or_self, if_false, Option.map, Option.some.injEq,
        exists_eq_left', GoSet.mem_Del, GoSet.Unwrap, NewStringSet, GoSet.mem_New]

theorem expanded_HasEpsilon (s : nfaMachine) (hT : TableOK s.transitions) (m : nfaMachine)
    (hm : m.transitions = purgeTransitions (expandExtract s.transitions)
      (uselessOf s (expandExtract s.transitions))) : m.HasEpsilon = false := by
  apply HasEpsilon_false_of_get
  · rw [hm]; exact TableOK_purge _ _ (TableOK_expandExtract _)
  · intro q
    rw [hm, tableGet_purge, tableGet_expandExtract _ hT]
    cases tableGet s.transitions q Epsilon with
    | none => rfl
    | some u => simp

theorem GoSet_Clone_eq_nil {α : Type} [DecidableEq α] (l : List α) :
    GoSet.Clone l = [] ↔ l = [] := by
  constructor
  · intro h
    cases l with
    | nil => rfl
    | cons a l =>
      have : a ∈ GoSet.Clone (a :: l) := (GoSet.mem_Clone _ _).2 (List.mem_cons_self _ _)
      rw [h] at this
      cases this
  · rintro rfl; rfl

theorem Lang_expanded (s : nfaMachine) (hT : TableOK s.transitions)
    (he : s.HasEpsilon = false) (m : nfaMachine)
    (hm : m.transitions = purgeTransitions (expandExtract s.transitions)
      (uselessOf s (expandExtract s.transitions)))
    (hstart : m.startStates = GoSet.Del (GoSet.Clone s.startStates)
      (GoSet.Unwrap (uselessOf s (expandExtract s.transitions))))
    (hacc : m.acceptStates = GoSet.Clone s.acceptStates)
    (hchars : m.chars = GoSet.Clone s.chars) (w : List Rune) :
    m.Lang w ↔ s.Lang w := by
  have hadm : ∀ x, m.admits x ↔ s.admits x := by
    intro x
    unfold nfaMachine.admits
    rw [hchars, GoSet_Clone_eq_nil, GoSet.mem_Clone]
  have hfwd : ∀ p q v, Path m.transitions p v q → Path s.transitions p v q := by
    intro p q v hp
    induction hp with
    | nil p => exact Path.nil p
    | cons hstep _ ih =>
      rw [hm] at hstep
      exact Path.cons ((mem_tableDelta_expanded s hT he _ _ _).1 hstep).1 ih
  have hbwd : ∀ p q v, Path s.transitions p v q → q ∈ s.acceptStates →
      p ∉ uselessOf s (expandExtract s.transitions) ∧ Path m.transitions p v q := by
    intro p q v hp hq
    induction hp with
    | nil p =>
      refine ⟨?_, Path.nil p⟩
      intro hu
      exact ((mem_uselessOf _ _ _).1 hu).2.1 hq
    | @cons p y q x v hstep _ ih =>
      obtain ⟨hy, hrest⟩ := ih hq
      refine ⟨?_, Path.cons ?_ hrest⟩
      · intro hu
        have hno := ((mem_uselessOf _ _ _).1 hu).2.2
        have hhas : mapHas (expandExtract s.transitions) p = true := by
          rw [mapHas_expandExtract _ hT]
          obtain ⟨u, hu1, hu2⟩ := (mem_tableDelta _ _ _ _).1 hstep
          refine ⟨x, u, hu1, ?_, List.ne_nil_of_mem hu2⟩
          rintro rfl
          rw [tableGet_eps_none s he p] at hu1
          cases hu1
        rw [hhas] at hno
        cases hno
      · rw [hm]
        exact (mem_tableDelta_expanded s hT he _ _ _).2 ⟨hstep, hy⟩
  unfold nfaMachine.Lang
  constructor
  · rintro ⟨hall, p, hp, q, hq, hpath⟩
    rw [hstart, GoSet.mem_Del, GoSet.mem_Clone] at hp
    rw [hacc, GoSet.mem_Clone] at hq
    exact ⟨fun x hx => (hadm x).1 (hall x hx), p, hp.1, q, hq, hfwd p q w hpath⟩
  · rintro ⟨hall, p, hp, q, hq, hpath⟩
    obtain ⟨hpu, hpath2⟩ := hbwd p q w hpath hq
    refine ⟨fun x hx => (hadm x).2 (hall x hx), p, ?_, q, ?_, hpath2⟩
    · rw [hstart, GoSet.mem_Del, GoSet.mem_Clone]
      exact ⟨hp, hpu⟩
    · rw [hacc, GoSet.mem_Clone]
      exact hq

/-! ## Machines returned by the NFA builder -/

theorem nfaCollectRow_TableOK (state : String) (acc : NfaCollect) (v : GoMap Rune (List String))
    (h : TableOK acc.transitions) : TableOK (nfaCollectRow state acc v).transitions := by
  unfold nfaCollectRow
  induction v generalizing acc with
  | nil => exact h
  | cons e v ih =>
    rw [List.foldl_cons]
    apply ih
    split
    · exact h
    · simp only
      apply TableOK_mapSet _ _ _ h
      apply NodupKeys_mapSet
      cases hg : mapGet acc.transitions state with
      | none => simp [NodupKeys]
      | some r => exact h.2 (state, r) (mapGet_mem _ _ _ hg)

theorem nfaCollect_TableOK (tr : GoMap String (GoMap Rune (List String))) :
    TableOK (nfaCollect tr).transitions := by
  unfold nfaCollect
  have key : ∀ (acc : NfaCollect), TableOK acc.transitions →
      TableOK (tr.foldl (fun acc e =>
        if e.2.length = 0 then acc
        else
          nfaCollectRow e.1
            { acc with
              tStates := GoSet.Add acc.tStates [e.1]
              transitions := mapSet acc.transitions e.1 [] } e.2) acc).transitions := by
    induction tr with
    | nil => intro acc h; exact h
    | cons e tr ih =>
      intro acc h
      rw [List.foldl_cons]
      apply ih
      split
      · exact h
      · apply nfaCollectRow_TableOK
        exact TableOK_mapSet _ _ _ h (by simp [NodupKeys])
  exact key _ TableOK_nil

theorem nfaBuild_inv (b : nfaMachineBuilder) (m : nfaMachine) (h : b.Build = Except.ok m) :
    m.transitions = (nfaCollect b.transitions).transitions ∧
    m.states = NewStringSet b.states ∧ m.chars = NewRuneSet b.chars ∧
    m.startStates = NewStringSet b.startStates ∧
    m.acceptStates = NewStringSet b.acceptStates ∧
    m.currentStates = NewStringSet b.startStates := by
  unfold nfaMachineBuilder.Build at h
  simp only at h
  split at h
  · cases h
  · split at h
    · cases h
    · split at h
      · cases h
      · cases h
        exact ⟨rfl, rfl, rfl, rfl, rfl, rfl⟩

theorem nfaBuild_TableOK (b : nfaMachineBuilder) (m : nfaMachine) (h : b.Build = Except.ok m) :
    TableOK m.transitions := by
  rw [(nfaBuild_inv b m h).1]
  exact nfaCollect_TableOK _

theorem accepts_eq_of_Lang (f1 f2 : Nat) (s1 s2 : nfaMachine) (h1 : s1.HasEpsilon = false)
    (h2 : s2.HasEpsilon = false) (w : List Rune) (h : s1.Lang w ↔ s2.Lang w) :
    s1.accepts f1 w = s2.accepts f2 w ∧ ∃ b, s2.accepts f2 w = some b := by
  obtain ⟨b1, hb1, hi1⟩ := accepts_epsfree f1 s1 h1 w
  obtain ⟨b2, hb2, hi2⟩ := accepts_epsfree f2 s2 h2 w
  refine ⟨?_, b2, hb2⟩
  rw [hb1, hb2]
  have : b1 = true ↔ b2 = true := hi1.trans (h.trans hi2.symm)
  cases b1 <;> cases b2 <;> simp_all

/-! ## Decimal numerals and joined names -/

theorem digitChar_val : ∀ k, k < 10 → (Nat.digitChar k).toNat - 48 = k := by
  decide

theorem digitChar_ne_sep : ∀ k, k < 10 → Nat.digitChar k ≠ '_' := by
  decide

theorem toDigitsCore_acc (fuel n : Nat) (ds : List Char) :
    Nat.toDigitsCore 10 fuel n ds = Nat.toDigitsCore 10 fuel n [] ++ ds := by
  induction fuel generalizing n ds with
  | zero => simp [Nat.toDigitsCore]
  | succ f ih =>
    simp only [Nat.toDigitsCore]
    split
    · simp
    · rw [ih (n / 10) (Nat.digitChar (n % 10) :: ds), ih (n / 10) [Nat.digitChar (n % 10)]]
      simp

theorem toDigitsCore_value (fuel n : Nat) (h : n < fuel) :
    (Nat.toDigitsCore 10 fuel n []).foldl (fun acc c => acc * 10 + (c.toNat - 48)) 0 = n := by
  induction fuel generalizing n with
  | zero => omega
  | succ f ih =>
    simp only [Nat.toDigitsCore]
    split
    · rename_i h0
      simp only [List.foldl_cons, List.foldl_nil, Nat.zero_mul, Nat.zero_add]
      rw [digitChar_val _ (Nat.mod_lt _ (by decide))]
      omega
    · rename_i h0
      rw [toDigitsCore_acc, List.foldl_append, ih (n / 10) (by omega)]
      simp only [List.foldl_cons, List.foldl_nil]
      rw [digitChar_val _ (Nat.mod_lt _ (by decide))]
      omega

theorem toDigitsCore_chars (fuel n : Nat) (ds : List Char) (c : Char)
    (hc : c ∈ Nat.toDigitsCore 10 fuel n ds) : c ∈ ds ∨ ∃ k, k < 10 ∧ c = Nat.digitChar k := by
  induction fuel generalizing n ds with
  | zero => left; simpa [Nat.toDigitsCore] using hc
  | succ f ih =>
    simp only [Nat.toDigitsCore] at hc
    split at hc
    · rcases List.mem_cons.1 hc with h | h
      · exact Or.inr ⟨n % 10, Nat.mod_lt _ (by decide), h⟩
      · exact Or.inl h
    · rcases ih _ _ hc with h | h
      · rcases List.mem_cons.1 h with h | h
        · exact Or.inr ⟨n % 10, Nat.mod_lt _ (by decide), h⟩
        · exact Or.inl h
      · exact Or.inr h

theorem toDigitsCore_ne_nil (fuel n : Nat) (ds : List Char) (h : 0 < fuel) :
    Nat.toDigitsCore 10 fuel n ds ≠ [] := by
  induction fuel generalizing n ds with
  | zero => omega
  | succ f ih =>
    simp only [Nat.toDigitsCore]
    split
    · simp
    · rw [toDigitsCore_acc]
      simp

theorem natToString_data (n : Nat) : (toString n).data = Nat.toDigits 10 n := rfl

theorem natToString_injective (a b : Nat) (h : toString a = toString b) : a = b := by
  have hd : Nat.toDigits 10 a = Nat.toDigits 10 b := by
    rw [← natToString_data, ← natToString_data, h]
  have ha := toDigitsCore_value (a + 1) a (by omega)
  have hb := toDigitsCore_value (b + 1) b (by omega)
  unfold Nat.toDigits at hd
  rw [hd] at ha
  rw [ha] at hb
  exact hb

theorem natToString_good (n : Nat) : GoodName (toString n) := by
  constructor
  · intro h
    have h1 : (toString n).data = [] := by rw [h]
    rw [natToString_data] at h1
    exact toDigitsCore_ne_nil (n + 1) n [] (by omega) h1
  · intro h
    rw [natToString_data] at h
    rcases toDigitsCore_chars _ _ _ _ h with h1 | ⟨k, hk, h1⟩
    · cases h1
    · exact digitChar_ne_sep k hk h1.symm

/-! ### `strings.Join` is injective on good names -/

theorem stringsJoin_data_cons2 (a b : String) (rest : List String) :
    (stringsJoin (a :: b :: rest) "_").data = a.data ++ '_' :: (stringsJoin (b :: rest) "_").data := by
  simp [stringsJoin, String.data_append]

theorem append_sep_inj (a b x y : List Char) (ha : '_' ∉ a) (hb : '_' ∉ b)
    (h : a ++ '_' :: x = b ++ '_' :: y) : a = b ∧ x = y := by
  induction a generalizing b with
  | nil =>
    cases b with
    | nil => simpa using h
    | cons c b =>
      simp only [List.nil_append, List.cons_append, List.cons.injEq] at h
      exact absurd (h.1 ▸ List.mem_cons_self _ _) hb
  | cons c a ih =>
    cases b with
    | nil =>
      simp only [List.nil_append, List.cons_append, List.cons.injEq] at h
      exact absurd (h.1 ▸ List.mem_cons_self _ _) ha
    | cons d b =>
      simp only [List.cons_append, List.cons.injEq] at h
      obtain ⟨h1, h2⟩ := ih b (fun hc => ha (List.mem_cons_of_mem _ hc))
        (fun hc => hb (List.mem_cons_of_mem _ hc)) h.2
      exact ⟨by rw [h.1, h1], h2⟩

theorem stringsJoin_sep_mem (a b : String) (rest : List String) :
    '_' ∈ (stringsJoin (a :: b :: rest) "_").data := by
  rw [stringsJoin_data_cons2]
  simp

theorem stringsJoin_injective (l1 l2 : List String) (h1 : ∀ n ∈ l1, GoodName n)
    (h2 : ∀ n ∈ l2, GoodName n) (h : stringsJoin l1 "_" = stringsJoin l2 "_") : l1 = l2 := by
  induction l1 generalizing l2 with
  | nil =>
    cases l2 with
    | nil => rfl
    | cons b l2 =>
      exfalso
      cases l2 with
      | nil =>
        simp only [stringsJoin] at h
        exact (h2 b (List.mem_cons_self _ _)).1 h.symm
      | cons b2 r2 =>
        have := stringsJoin_sep_mem b b2 r2
        rw [← h] at this
        simp [stringsJoin] at this
  | cons a l1 ih =>
    have ha := h1 a (List.mem_cons_self _ _)
    cases l2 with
    | nil =>
      exfalso
      cases l1 with
      | nil =>
        simp only [stringsJoin] at h
        exact ha.1 h
      | cons a2 r1 =>
        have := stringsJoin_sep_mem a a2 r1
        rw [h] at this
        simp [stringsJoin] at this
    | cons b l2 =>
      have hb := h2 b (List.mem_cons_self _ _)
      cases l1 with
      | nil =>
        cases l2 with
        | nil =>
          simp only [stringsJoin] at h
          rw [h]
        | cons b2 r2 =>
          exfalso
          have := stringsJoin_sep_mem b b2 r2
          rw [← h] at this
          simp only [stringsJoin] at this
          exact ha.2 this
      | cons a2 r1 =>
        cases l2 with
        | nil =>
          exfalso
          have := stringsJoin_sep_mem a a2 r1
          rw [h] at this
          simp only [stringsJoin] at this
          exact hb.2 this
        | cons b2 r2 =>
          have hd := congrArg String.data h
          rw [stringsJoin_data_cons2, stringsJoin_data_cons2] at hd
          obtain ⟨e1, e2⟩ := append_sep_inj _ _ _ _ ha.2 hb.2 hd
          have hab : a = b := String.ext e1
          have hrest : stringsJoin (a2 :: r1) "_" = stringsJoin (b2 :: r2) "_" := String.ext e2
          rw [hab, ih (b2 :: r2) (fun n hn => h1 n (List.mem_cons_of_mem _ hn))
            (fun n hn => h2 n (List.mem_cons_of_mem _ hn)) hrest]

theorem stringSetToString_mem (t1 t2 : StringSet) (h1 : ∀ n ∈ t1, GoodName n)
    (h2 : ∀ n ∈ t2, GoodName n) (h : stringSetToString t1 = stringSetToString t2) (y : String) :
    y ∈ t1 ↔ y ∈ t2 := by
  unfold stringSetToString GoSet.Unwrap at h
  have hs := stringsJoin_injective _ _
    (fun n hn => h1 n ((sortStrings_perm t1).mem_iff.1 hn))
    (fun n hn => h2 n ((sortStrings_perm t2).mem_iff.1 hn)) h
  have hp : t1.Perm t2 := (sortStrings_perm t1).symm.trans (hs ▸ sortStrings_perm t2)
  exact hp.mem_iff

/-! ### `sort.Strings` gives one arrangement per set -/

theorem lessChars_irrefl (a : List Char) : lessChars a a = false := by
  induction a with
  | nil => rfl
  | cons c a ih => simp [lessChars, ih]

theorem lessChars_eq_of_not (a b : List Char) (h1 : lessChars a b = false)
    (h2 : lessChars b a = false) : a = b := by
  induction a generalizing b with
  | nil =>
    cases b with
    | nil => rfl
    | cons d b => simp [lessChars] at h1
  | cons c a ih =>
    cases b with
    | nil => simp [lessChars] at h2
    | cons d b =>
      simp only [lessChars] at h1 h2
      by_cases hcd : c.toNat < d.toNat
      · simp [hcd] at h1
      · by_cases hdc : d.toNat < c.toNat
        · simp [hdc] at h2
        · simp only [hcd, hdc, if_false] at h1 h2
          have hn : c.toNat = d.toNat := by omega
          have hc : c = d := by
            apply Char.ext
            apply UInt32.ext
            exact hn
          rw [hc, ih b h1 h2]

theorem lessChars_trans (a b c : List Char) (h1 : lessChars a b = true)
    (h2 : lessChars b c = true) : lessChars a c = true := by
  induction a generalizing b c with
  | nil =>
    cases c with
    | nil =>
      cases b with
      | nil => simp [lessChars] at h1
      | cons _ _ => simp [lessChars] at h2
    | cons _ _ => rfl
  | cons x a ih =>
    cases b with
    | nil => simp [lessChars] at h1
    | cons y b =>
      cases c with
      | nil => simp [lessChars] at h2
      | cons z c =>
        simp only [lessChars] at h1 h2 ⊢
        by_cases hxy : x.toNat < y.toNat
        · by_cases hyz : y.toNat < z.toNat
          · have : x.toNat < z.toNat := by omega
            simp [this]
          · by_cases hzy : z.toNat < y.toNat
            · simp [hyz, hzy] at h2
            · have : x.toNat < z.toNat := by omega
              simp [this]
        · by_cases hyx : y.toNat < x.toNat
          · simp [hxy, hyx] at h1
          · simp only [hxy, hyx, if_false] at h1
            by_cases hyz : y.toNat < z.toNat
            · have : x.toNat < z.toNat := by omega
              simp [this]
            · by_cases hzy : z.toNat < y.toNat
              · simp [hyz, hzy] at h2
              · simp only [hyz, hzy, if_false] at h2
                have h3 : ¬ x.toNat < z.toNat := by omega
                have h4 : ¬ z.toNat < x.toNat := by omega
                simp only [h3, h4, if_false]
                exact ih b c h1 h2

theorem lessChars_total (a b : List Char) (h : lessChars a b = false) (hne : a ≠ b) :
    lessChars b a = true := by
  by_contra hc
  rw [Bool.not_eq_true] at hc
  exact hne (lessChars_eq_of_not a b h hc)

/-- The order `a ≤ b` of Go strings: not `b < a`. -/
theorem stringLe_trans (a b c : String) (h1 : stringLess b a = false)
    (h2 : stringLess c b = false) : stringLess c a = false := by
  unfold stringLess at h1 h2 ⊢
  by_contra hc
  rw [Bool.not_eq_false] at hc
  by_cases hab : a.data = b.data
  · rw [hab] at hc; rw [hc] at h2; cases h2
  · have hlt : lessChars a.data b.data = true := lessChars_total _ _ h1 (fun h => hab h.symm)
    have := lessChars_trans _ _ _ hc hlt
    rw [this] at h2
    cases h2

theorem stringLe_antisymm (a b : String) (h1 : stringLess b a = false)
    (h2 : stringLess a b = false) : a = b :=
  String.ext (lessChars_eq_of_not _ _ h2 h1)

theorem stringLe_total (a b : String) : stringLess b a = false ∨ stringLess a b = false := by
  unfold stringLess
  by_cases h : lessChars b.data a.data = false
  · exact Or.inl h
  · right
    rw [Bool.not_eq_false] at h
    by_contra hc
    rw [Bool.not_eq_false] at hc
    have := lessChars_trans _ _ _ h hc
    rw [lessChars_irrefl] at this
    cases this

theorem insertSorted_sorted (a : String) (l : List String)
    (h : l.Sorted (fun x y => stringLess y x = false)) :
    (insertSorted a l).Sorted (fun x y => stringLess y x = false) := by
  induction l with
  | nil => simp [insertSorted]
  | cons b l ih =>
    unfold insertSorted
    have hb := List.sorted_cons.1 h
    split
    · rename_i hlt
      apply List.sorted_cons.2
      refine ⟨?_, ih hb.2⟩
      intro y hy
      rcases List.mem_cons.1 ((insertSorted_perm a l).mem_iff.1 hy) with rfl | hy
      · rcases stringLe_total b y with h1 | h1
        · exact h1
        · rw [hlt] at h1; cases h1
      · exact hb.1 y hy
    · rename_i hlt
      rw [Bool.not_eq_true] at hlt
      apply List.sorted_cons.2
      refine ⟨?_, h⟩
      intro y hy
      rcases List.mem_cons.1 hy with rfl | hy
      · exact hlt
      · exact stringLe_trans _ _ _ hlt (hb.1 y hy)

theorem sortStrings_sorted (l : List String) :
    (sortStrings l).Sorted (fun x y => stringLess y x = false) := by
  induction l with
  | nil => simp [sortStrings]
  | cons a l ih => exact insertSorted_sorted a _ ih

theorem sortStrings_eq_of_perm (l1 l2 : List String) (h : l1.Perm l2) :
    sortStrings l1 = sortStrings l2 := by
  have hp : (sortStrings l1).Perm (sortStrings l2) :=
    (sortStrings_perm l1).trans (h.trans (sortStrings_perm l2).symm)
  haveI : IsAntisymm String (fun x y => stringLess y x = false) :=
    ⟨fun a b h1 h2 => stringLe_antisymm a b h1 h2⟩
  exact List.eq_of_perm_of_sorted hp (sortStrings_sorted l1) (sortStrings_sorted l2)

theorem stringSetToString_of_mem (t1 t2 : StringSet) (h1 : t1.Nodup) (h2 : t2.Nodup)
    (h : ∀ y, y ∈ t1 ↔ y ∈ t2) : stringSetToString t1 = stringSetToString t2 := by
  unfold stringSetToString GoSet.Unwrap
  rw [sortStrings_eq_of_perm t1 t2 ((List.perm_ext_iff_of_nodup h1 h2).2 h)]

theorem StringSet_Equal_of_mem (t1 t2 : StringSet) (h1 : t1.Nodup) (h2 : t2.Nodup)
    (h : ∀ y, y ∈ t1 ↔ y ∈ t2) : StringSet.Equal t1 t2 = true := by
  have hp : t1.Perm t2 := (List.perm_ext_iff_of_nodup h1 h2).2 h
  unfold StringSet.Equal GoSet.Unwrap
  simp [hp.length_eq, sortStrings_eq_of_perm t1 t2 hp]

/-! ## Powerset construction: bookkeeping of the loop -/

theorem mapSet_absent {κ ν : Type} [DecidableEq κ] (m : GoMap κ ν) (k : κ) (v : ν)
    (h : k ∉ m.map Prod.fst) : mapSet m k v = m ++ [(k, v)] := by
  induction m with
  | nil => rfl
  | cons e m ih =>
    obtain ⟨k1, v1⟩ := e
    simp only [List.map_cons, List.mem_cons, not_or] at h
    unfold mapSet
    have hne : ¬ k1 = k := fun hc => h.1 hc.symm
    simp only [hne, if_false, List.cons_append, ih h.2]

theorem nameFrom_keys (k : Nat) (sets : List StringSet) :
    (nameFrom k sets).map Prod.fst = sets.map stringSetToString := by
  induction sets generalizing k with
  | nil => rfl
  | cons t l ih => simp [nameFrom, ih]

theorem nameFrom_length (k : Nat) (sets : List StringSet) :
    (nameFrom k sets).length = sets.length := by
  induction sets generalizing k with
  | nil => rfl
  | cons t l ih => simp [nameFrom, ih]

theorem nameFrom_append (k : Nat) (sets : List StringSet) (t : StringSet) :
    nameFrom k (sets ++ [t]) =
      nameFrom k sets ++ [(stringSetToString t, toString (k + sets.length))] := by
  induction sets generalizing k with
  | nil => simp [nameFrom]
  | cons t1 l ih =>
    have e : k + 1 + l.length = k + (t1 :: l).length := by
      rw [List.length_cons]; omega
    rw [List.cons_append, nameFrom, ih (k + 1), e]
    rfl

theorem nameFrom_get (k : Nat) (sets : List StringSet)
    (h : (sets.map stringSetToString).Nodup) (j : Nat) (t : StringSet)
    (hj : sets[j]? = some t) :
    mapGet (nameFrom k sets) (stringSetToString t) = some (toString (k + j)) := by
  induction sets generalizing k j with
  | nil => simp at hj
  | cons t1 l ih =>
    rw [List.map_cons, List.nodup_cons] at h
    unfold nameFrom
    rw [mapGet_cons]
    cases j with
    | zero =>
      simp only [List.getElem?_cons_zero, Option.some.injEq] at hj
      subst hj
      simp
    | succ j =>
      simp only [List.getElem?_cons_succ] at hj
      have hmem : t ∈ l := List.getElem?_mem hj
      have hne : ¬ stringSetToString t1 = stringSetToString t := by
        intro hc
        exact h.1 (hc ▸ List.mem_map_of_mem _ hmem)
      simp only [hne, if_false]
      rw [ih (k + 1) h.2 j hj]
      congr 2
      omega

theorem nameFrom_has (k : Nat) (sets : List StringSet) (key : String) :
    mapHas (nameFrom k sets) key = true ↔
      ∃ (j : Nat) (u : StringSet), sets[j]? = some u ∧ stringSetToString u = key := by
  rw [mapHas_iff, nameFrom_keys, List.mem_map]
  constructor
  · rintro ⟨u, hu, rfl⟩
    obtain ⟨j, hj⟩ := List.getElem?_of_mem hu
    exact ⟨j, u, hj, rfl⟩
  · rintro ⟨j, u, hj, rfl⟩
    exact ⟨u, List.getElem?_mem hj, rfl⟩

theorem dtGet_update (dt : GoMap String (GoMap Rune String)) (k : String) (c : Rune)
    (m : String) (n : String) (c2 : Rune) :
    dtGet (dtUpdate dt k c m) n c2 = if n = k ∧ c2 = c then some m else dtGet dt n c2 := by
  unfold dtGet dtUpdate
  simp only
  rw [mapGet_mapSet]
  by_cases hn : n = k
  · subst hn
    simp only [if_true, true_and, mapGet_mapEnsure_same, Option.getD, mapGet_mapSet]
    cases mapGet dt n with
    | none => simp [mapGet]
    | some row => rfl
  · simp only [hn, if_false, false_and, mapGet_mapEnsure_other _ _ _ _ hn]

theorem dtOK_update (dt : GoMap String (GoMap Rune String)) (k : String) (c : Rune) (m : String)
    (h : NodupKeys dt ∧ ∀ e ∈ dt, NodupKeys e.2) :
    NodupKeys (dtUpdate dt k c m) ∧ ∀ e ∈ dtUpdate dt k c m, NodupKeys e.2 := by
  unfold dtUpdate
  simp only
  have h1 : NodupKeys (mapEnsure dt k []) ∧ ∀ e ∈ mapEnsure dt k [], NodupKeys e.2 := by
    refine ⟨NodupKeys_mapEnsure _ _ _ h.1, ?_⟩
    unfold mapEnsure
    split
    · exact h.2
    · intro e he
      rcases mem_mapSet_elim _ _ _ _ he with rfl | he
      · simp [NodupKeys]
      · exact h.2 e he
  refine ⟨NodupKeys_mapSet _ _ _ h1.1, ?_⟩
  intro e he
  rcases mem_mapSet_elim _ _ _ _ he with rfl | he
  · apply NodupKeys_mapSet
    cases hg : mapGet (mapEnsure dt k []) k with
    | none => simp [NodupKeys]
    | some row => exact h1.2 (k, row) (mapGet_mem _ _ _ hg)
  · exact h1.2 e he

theorem mem_powersetNext (tr : NTrans) (t : StringSet) (c : Rune) (y : String) :
    y ∈ powersetNext tr t c ↔ ∃ p ∈ t, y ∈ tableDelta tr p c := by
  unfold powersetNext GoSet.Unwrap
  have key : ∀ (l acc : List String),
      y ∈ l.foldl (fun dNext x =>
        match tableGet tr x c with
        | none => dNext
        | some z => GoSet.Add dNext z) acc ↔ y ∈ acc ∨ ∃ p ∈ l, y ∈ tableDelta tr p c := by
    intro l
    induction l with
    | nil => intro acc; simp
    | cons a l ih =>
      intro acc
      rw [List.foldl_cons, ih]
      simp only [List.mem_cons, exists_eq_or_imp]
      unfold tableDelta
      cases tableGet tr a c with
      | none => simp
      | some z =>
        simp only [GoSet.mem_Add, Option.getD]
        tauto
  rw [key]
  simp [NewStringSet, GoSet.New, GoSet.Add]

theorem nodup_powersetNext (tr : NTrans) (t : StringSet) (c : Rune) :
    (powersetNext tr t c).Nodup := by
  unfold powersetNext GoSet.Unwrap
  have key : ∀ (l acc : List String), acc.Nodup →
      (l.foldl (fun dNext x =>
        match tableGet tr x c with
        | none => dNext
        | some z => GoSet.Add dNext z) acc).Nodup := by
    intro l
    induction l with
    | nil => intro acc h; exact h
    | cons a l ih =>
      intro acc h
      rw [List.foldl_cons]
      apply ih
      cases tableGet tr a c with
      | none => exact h
      | some z => exact GoSet.nodup_Add _ _ h
  exact key _ _ (GoSet.nodup_New _)

/-! ## Powerset construction: the loop invariant -/

theorem getElem?_append_left_some {α : Type} (l ext : List α) (i : Nat) (t : α)
    (h : l[i]? = some t) : (l ++ ext)[i]? = some t := by
  have hi : i < l.length := by
    by_contra hc
    rw [List.getElem?_eq_none (by omega)] at h
    cases h
  rw [List.getElem?_append_left hi]
  exact h

theorem getElem?_lt {α : Type} (l : List α) (i : Nat) (t : α) (h : l[i]? = some t) :
    i < l.length := by
  by_contra hc
  rw [List.getElem?_eq_none (by omega)] at h
  cases h

theorem keys_index_unique (sets : List StringSet) (h : (sets.map stringSetToString).Nodup)
    (i j : Nat) (t u : StringSet) (hi : sets[i]? = some t) (hj : sets[j]? = some u)
    (hk : stringSetToString t = stringSetToString u) : i = j := by
  have h1 := nameFrom_get 0 sets h i t hi
  have h2 := nameFrom_get 0 sets h j u hj
  rw [hk, h2] at h1
  have := natToString_injective _ _ (Option.some.inj h1)
  omega

theorem psInv_init (s : nfaMachine) (chars : RuneSet) (hs : s.startStates.Nodup) :
    PowersetInv s chars [NewStringSet (GoSet.Unwrap s.startStates)] 0 [] 0
      { states := NewStringSet []
        transitions := []
        acceptStates := NewStringSet []
        dfaStatesMap := [(stringSetToString s.startStates, "0")]
        q := [NewStringSet (GoSet.Unwrap s.startStates)] } := by
  have hnew : NewStringSet (GoSet.Unwrap s.startStates) = s.startStates :=
    GoSet_New_of_nodup _ hs
  rw [hnew]
  refine
    { hq := rfl
      hreg := by simp
      hmap := rfl
      hkeys := by simp
      hstates := ?_
      hstatesNodup := GoSet.nodup_New _
      haccept := ?_
      hacceptNodup := GoSet.nodup_New _
      hedge := ?_
      honly := ?_
      htableOK := ⟨by simp [NodupKeys], by intro e he; cases he⟩
      hreach := ?_
      hnodup := ?_
      hfrom := ?_ }
  · intro n
    simp [NewStringSet, GoSet.New, GoSet.Add]
  · intro n
    simp [NewStringSet, GoSet.New, GoSet.Add]
  · intro i t c _ hh
    rcases hh with ⟨h1, _⟩ | ⟨_, h2⟩
    · omega
    · cases h2
  · intro n c m h
    simp [dtGet, mapGet] at h
  · intro j u hj hu
    have := getElem?_lt _ _ _ hu
    simp at this
    omega
  · intro t ht
    rw [List.mem_singleton] at ht
    rw [ht]
    exact hs
  · intro j u hj hu
    have := getElem?_lt _ _ _ hu
    simp at this
    omega

theorem psInv_pop (s : nfaMachine) (chars : RuneSet) (sets : List StringSet) (d : Nat)
    (v : PowersetVars) (dState : StringSet) (rest : List StringSet)
    (h : PowersetInv s chars sets d [] d v) (hq : v.q = dState :: rest) :
    sets[d]? = some dState ∧
    PowersetInv s chars sets d [] (d + 1)
      { v with
        q := rest
        states := GoSet.Add v.states [mapGetD v.dfaStatesMap (stringSetToString dState)]
        acceptStates :=
          if GoSet.Len (GoSet.And dState s.acceptStates) > 0 then
            GoSet.Add v.acceptStates [mapGetD v.dfaStatesMap (stringSetToString dState)]
          else v.acceptStates } := by
  have hdrop : sets.drop d = dState :: rest := by rw [← h.hq, hq]
  have hd : sets[d]? = some dState := by
    have := congrArg (fun l => l[0]?) hdrop
    simpa [List.getElem?_drop] using this
  have hlt : d < sets.length := getElem?_lt _ _ _ hd
  have hname : mapGetD v.dfaStatesMap (stringSetToString dState) = toString d := by
    unfold mapGetD
    rw [h.hmap, nameFrom_get 0 sets h.hkeys d dState hd]
    simp
  refine ⟨hd, ?_⟩
  refine
    { hq := ?_
      hreg := hlt
      hmap := h.hmap
      hkeys := h.hkeys
      hstates := ?_
      hstatesNodup := GoSet.nodup_Add _ _ h.hstatesNodup
      haccept := ?_
      hacceptNodup := ?_
      hedge := h.hedge
      honly := h.honly
      htableOK := h.htableOK
      hreach := h.hreach
      hnodup := h.hnodup
      hfrom := h.hfrom }
  · show rest = sets.drop (d + 1)
    have := congrArg List.tail hdrop
    simpa [List.tail_drop] using this.symm
  · intro n
    simp only [hname, GoSet.mem_Add_single, h.hstates]
    constructor
    · rintro (⟨i, hi, rfl⟩ | rfl)
      · exact ⟨i, by omega, rfl⟩
      · exact ⟨d, by omega, rfl⟩
    · rintro ⟨i, hi, rfl⟩
      by_cases hid : i = d
      · exact Or.inr (by rw [hid])
      · exact Or.inl ⟨i, by omega, rfl⟩
  · intro n
    have hlen : GoSet.Len (GoSet.And dState s.acceptStates) > 0 ↔
        ∃ y ∈ dState, y ∈ s.acceptStates := by
      rw [GoSet.Len_pos_iff]
      simp only [GoSet.mem_And]
    by_cases hacc : GoSet.Len (GoSet.And dState s.acceptStates) > 0
    · simp only [hacc, if_true, hname, GoSet.mem_Add_single, h.haccept]
      constructor
      · rintro (⟨i, t, hi, ht, rfl, hy⟩ | rfl)
        · exact ⟨i, t, by omega, ht, rfl, hy⟩
        · exact ⟨d, dState, by omega, hd, rfl, hlen.1 hacc⟩
      · rintro ⟨i, t, hi, ht, rfl, hy⟩
        by_cases hid : i = d
        · exact Or.inr (by rw [hid])
        · exact Or.inl ⟨i, t, by omega, ht, rfl, hy⟩
    · simp only [hacc, if_false, h.haccept]
      constructor
      · rintro ⟨i, t, hi, ht, rfl, hy⟩
        exact ⟨i, t, by omega, ht, rfl, hy⟩
      · rintro ⟨i, t, hi, ht, rfl, hy⟩
        by_cases hid : i = d
        · subst hid
          rw [hd] at ht
          cases ht
          exact absurd (hlen.2 hy) hacc
        · exact ⟨i, t, by omega, ht, rfl, hy⟩
  · show (if GoSet.Len (GoSet.And dState s.acceptStates) > 0 then _ else _ : StringSet).Nodup
    split
    · exact GoSet.nodup_Add _ _ h.hacceptNodup
    · exact h.hacceptNodup

theorem psInv_close (s : nfaMachine) (chars : RuneSet) (sets : List StringSet) (d : Nat)
    (cs : List Rune) (v : PowersetVars) (h : PowersetInv s chars sets d cs (d + 1) v)
    (hcs : ∀ c, c ∈ cs ↔ c ∈ chars) : PowersetInv s chars sets (d + 1) [] (d + 1) v := by
  have hiff : ∀ i c, psHandled chars (d + 1) [] i c ↔ psHandled chars d cs i c := by
    intro i c
    unfold psHandled
    rw [hcs]
    constructor
    · rintro (⟨h1, h2⟩ | ⟨_, h2⟩)
      · by_cases hid : i = d
        · exact Or.inr ⟨hid, h2⟩
        · exact Or.inl ⟨by omega, h2⟩
      · cases h2
    · rintro (⟨h1, h2⟩ | ⟨h1, h2⟩)
      · exact Or.inl ⟨by omega, h2⟩
      · exact Or.inl ⟨by omega, h2⟩
  exact
    { hq := h.hq
      hreg := h.hreg
      hmap := h.hmap
      hkeys := h.hkeys
      hstates := h.hstates
      hstatesNodup := h.hstatesNodup
      haccept := h.haccept
      hacceptNodup := h.hacceptNodup
      hedge := fun i t c ht hh hn => h.hedge i t c ht ((hiff i c).1 hh) hn
      honly := fun n c m hm => by
        obtain ⟨i, t, h1, h2, h3, h4⟩ := h.honly n c m hm
        exact ⟨i, t, h1, h2, (hiff i c).2 h3, h4⟩
      htableOK := h.htableOK
      hreach := h.hreach
      hnodup := h.hnodup
      hfrom := h.hfrom }

theorem powersetStep_empty (tr : NTrans) (dState : StringSet) (v : PowersetVars) (c : Rune)
    (h : powersetNext tr dState c = []) : powersetStep tr dState v c = v := by
  unfold powersetStep
  simp [h, GoSet.Len]

theorem powersetStep_known (tr : NTrans) (dState : StringSet) (v : PowersetVars) (c : Rune)
    (h : powersetNext tr dState c ≠ [])
    (hk : mapHas v.dfaStatesMap (stringSetToString (powersetNext tr dState c)) = true) :
    powersetStep tr dState v c =
      { v with
        transitions := dtUpdate v.transitions (mapGetD v.dfaStatesMap (stringSetToString dState))
          c (mapGetD v.dfaStatesMap (stringSetToString (powersetNext tr dState c))) } := by
  unfold powersetStep
  have hl : ¬ GoSet.Len (powersetNext tr dState c) = 0 :=
    fun h0 => h ((GoSet.Len_eq_zero_iff _).1 h0)
  simp only [hl, if_false, hk, if_true]

theorem powersetStep_new (tr : NTrans) (dState : StringSet) (v : PowersetVars) (c : Rune)
    (h : powersetNext tr dState c ≠ [])
    (hk : mapHas v.dfaStatesMap (stringSetToString (powersetNext tr dState c)) = false) :
    powersetStep tr dState v c =
      { v with
        q := v.q ++ [powersetNext tr dState c]
        dfaStatesMap := mapSet v.dfaStatesMap (stringSetToString (powersetNext tr dState c))
          (toString v.dfaStatesMap.length)
        transitions := dtUpdate v.transitions
          (mapGetD (mapSet v.dfaStatesMap (stringSetToString (powersetNext tr dState c))
            (toString v.dfaStatesMap.length)) (stringSetToString dState))
          c
          (mapGetD (mapSet v.dfaStatesMap (stringSetToString (powersetNext tr dState c))
            (toString v.dfaStatesMap.length))
            (stringSetToString (powersetNext tr dState c))) } := by
  unfold powersetStep
  have hl : ¬ GoSet.Len (powersetNext tr dState c) = 0 :=
    fun h0 => h ((GoSet.Len_eq_zero_iff _).1 h0)
  simp only [hl, if_false, hk, Bool.false_eq_true]

theorem psHandled_snoc (chars : RuneSet) (d : Nat) (cs : List Rune) (c : Rune) (i : Nat)
    (c2 : Rune) :
    psHandled chars d (cs ++ [c]) i c2 ↔ psHandled chars d cs i c2 ∨ (i = d ∧ c2 = c) := by
  unfold psHandled
  simp only [List.mem_append, List.mem_singleton]
  tauto

theorem psInv_edge (s : nfaMachine) (chars : RuneSet) (sets ext : List StringSet) (d : Nat)
    (cs : List Rune) (v v2 : PowersetVars) (dState : StringSet) (c : Rune) (j : Nat)
    (u : StringSet)
    (h : PowersetInv s chars sets d cs (d + 1) v) (hd : sets[d]? = some dState)
    (hc : c ∉ cs) (hne : powersetNext s.transitions dState c ≠ [])
    (hkeys : ((sets ++ ext).map stringSetToString).Nodup)
    (hj : (sets ++ ext)[j]? = some u)
    (hju : stringSetToString u = stringSetToString (powersetNext s.transitions dState c))
    (hdj : j < sets.length ∨ d < j)
    (hq : v2.q = (sets ++ ext).drop (d + 1))
    (hmap : v2.dfaStatesMap = nameFrom 0 (sets ++ ext))
    (hstates : v2.states = v.states) (hacc : v2.acceptStates = v.acceptStates)
    (htr : v2.transitions = dtUpdate v.transitions (toString d) c (toString j))
    (hext : ∀ t ∈ ext, t = powersetNext s.transitions dState c) :
    PowersetInv s chars (sets ++ ext) d (cs ++ [c]) (d + 1) v2 := by
  have hnoold : ∀ m, dtGet v.transitions (toString d) c ≠ some m := by
    intro m hm
    obtain ⟨i, t, _, h2, h3, _⟩ := h.honly _ _ _ hm
    have hid := natToString_injective _ _ h2
    rcases h3 with ⟨h4, _⟩ | ⟨_, h4⟩
    · omega
    · exact hc h4
  have hget : ∀ n c2, dtGet v2.transitions n c2 =
      if n = toString d ∧ c2 = c then some (toString j) else dtGet v.transitions n c2 := by
    intro n c2
    rw [htr, dtGet_update]
  refine
    { hq := hq
      hreg := by rw [List.length_append]; have := h.hreg; omega
      hmap := hmap
      hkeys := hkeys
      hstates := by rw [hstates]; exact h.hstates
      hstatesNodup := by rw [hstates]; exact h.hstatesNodup
      haccept := ?_
      hacceptNodup := by rw [hacc]; exact h.hacceptNodup
      hedge := ?_
      honly := ?_
      htableOK := by rw [htr]; exact dtOK_update _ _ _ _ h.htableOK
      hreach := ?_
      hnodup := ?_
      hfrom := ?_ }
  · intro n
    rw [hacc, h.haccept]
    constructor
    · rintro ⟨i, t, hi, ht, hn, hy⟩
      exact ⟨i, t, hi, getElem?_append_left_some _ _ _ _ ht, hn, hy⟩
    · rintro ⟨i, t, hi, ht, hn, hy⟩
      have hlt : i < sets.length := by have := h.hreg; omega
      rw [List.getElem?_append_left hlt] at ht
      exact ⟨i, t, hi, ht, hn, hy⟩
  · intro i t c2 ht hh hn
    have hlt : i < sets.length := by
      have := h.hreg
      rcases hh with ⟨h1, _⟩ | ⟨h1, _⟩ <;> omega
    rw [List.getElem?_append_left hlt] at ht
    rw [psHandled_snoc] at hh
    by_cases hnew : i = d ∧ c2 = c
    · obtain ⟨rfl, rfl⟩ := hnew
      rw [hd] at ht
      cases ht
      refine ⟨j, u, hj, hju, ?_⟩
      rw [hget]
      simp
    · have hold : psHandled chars d cs i c2 := by
        rcases hh with hh | hh
        · exact hh
        · exact absurd hh hnew
      obtain ⟨j2, u2, hj2, hk2, hg2⟩ := h.hedge i t c2 ht hold hn
      refine ⟨j2, u2, getElem?_append_left_some _ _ _ _ hj2, hk2, ?_⟩
      rw [hget]
      have : ¬ (toString i = toString d ∧ c2 = c) := by
        rintro ⟨h1, h2⟩
        exact hnew ⟨natToString_injective _ _ h1, h2⟩
      simp only [this, if_false]
      exact hg2
  · intro n c2 m hm
    rw [hget] at hm
    by_cases hnew : n = toString d ∧ c2 = c
    · obtain ⟨rfl, rfl⟩ := hnew
      exact ⟨d, dState, getElem?_append_left_some _ _ _ _ hd, rfl,
        (psHandled_snoc _ _ _ _ _ _).2 (Or.inr ⟨rfl, rfl⟩), hne⟩
    · simp only [hnew, if_false] at hm
      obtain ⟨i, t, h1, h2, h3, h4⟩ := h.honly n c2 m hm
      exact ⟨i, t, getElem?_append_left_some _ _ _ _ h1, h2,
        (psHandled_snoc _ _ _ _ _ _).2 (Or.inl h3), h4⟩
  · intro j2 u2 hpos hu2
    by_cases hlt : j2 < sets.length
    · rw [List.getElem?_append_left hlt] at hu2
      obtain ⟨i, c2, hi, hg⟩ := h.hreach j2 u2 hpos hu2
      refine ⟨i, c2, hi, ?_⟩
      rw [hget]
      have : ¬ (toString i = toString d ∧ c2 = c) := by
        rintro ⟨h1, h2⟩
        have hid := natToString_injective _ _ h1
        subst hid
        subst h2
        exact hnoold _ hg
      simp only [this, if_false]
      exact hg
    · have hmem : u2 ∈ ext := by
        rw [List.getElem?_append_right (by omega)] at hu2
        exact List.getElem?_mem hu2
      have hu2e := hext u2 hmem
      have hjj : j = j2 := by
        apply keys_index_unique (sets ++ ext) hkeys j j2 u u2 hj hu2
        rw [hju, hu2e]
      subst hjj
      refine ⟨d, c, by omega, ?_⟩
      rw [hget]
      simp
  · intro t ht
    rcases List.mem_append.1 ht with h1 | h1
    · exact h.hnodup t h1
    · rw [hext t h1]
      exact nodup_powersetNext _ _ _
  · intro j2 u2 hpos hu2
    by_cases hlt : j2 < sets.length
    · rw [List.getElem?_append_left hlt] at hu2
      exact h.hfrom j2 u2 hpos hu2
    · have hmem : u2 ∈ ext := by
        rw [List.getElem?_append_right (by omega)] at hu2
        exact List.getElem?_mem hu2
      have hu2e := hext u2 hmem
      exact ⟨dState, c, hu2e, hu2e ▸ hne⟩

theorem psInv_step (s : nfaMachine) (chars : RuneSet) (sets : List StringSet) (d : Nat)
    (cs : List Rune) (v : PowersetVars) (dState : StringSet) (c : Rune)
    (h : PowersetInv s chars sets d cs (d + 1) v) (hd : sets[d]? = some dState)
    (hc : c ∉ cs) :
    ∃ ext, PowersetInv s chars (sets ++ ext) d (cs ++ [c]) (d + 1)
      (powersetStep s.transitions dState v c) := by
  have hreg := h.hreg
  have hnameD : ∀ ext, ((sets ++ ext).map stringSetToString).Nodup →
      mapGetD (nameFrom 0 (sets ++ ext)) (stringSetToString dState) = toString d := by
    intro ext hk
    unfold mapGetD
    rw [nameFrom_get 0 _ hk d dState (getElem?_append_left_some _ _ _ _ hd)]
    simp
  by_cases hne : powersetNext s.transitions dState c = []
  · refine ⟨[], ?_⟩
    rw [powersetStep_empty _ _ _ _ hne, List.append_nil]
    exact
      { hq := h.hq
        hreg := h.hreg
        hmap := h.hmap
        hkeys := h.hkeys
        hstates := h.hstates
        hstatesNodup := h.hstatesNodup
        haccept := h.haccept
        hacceptNodup := h.hacceptNodup
        hedge := fun i t c2 ht hh hn => by
          rw [psHandled_snoc] at hh
          rcases hh with hh | ⟨rfl, rfl⟩
          · exact h.hedge i t c2 ht hh hn
          · rw [hd] at ht
            cases ht
            exact absurd hne hn
        honly := fun n c2 m hm => by
          obtain ⟨i, t, h1, h2, h3, h4⟩ := h.honly n c2 m hm
          exact ⟨i, t, h1, h2, (psHandled_snoc _ _ _ _ _ _).2 (Or.inl h3), h4⟩
        htableOK := h.htableOK
        hreach := h.hreach
        hnodup := h.hnodup
        hfrom := h.hfrom }
  · cases hk : mapHas v.dfaStatesMap (stringSetToString (powersetNext s.transitions dState c)) with
    | true =>
      refine ⟨[], ?_⟩
      rw [powersetStep_known _ _ _ _ hne hk]
      have hk2 := hk
      rw [h.hmap, nameFrom_has] at hk2
      obtain ⟨j, u, hj, hju⟩ := hk2
      have hkeys : ((sets ++ []).map stringSetToString).Nodup := by
        rw [List.append_nil]; exact h.hkeys
      have hnameJ : mapGetD v.dfaStatesMap
          (stringSetToString (powersetNext s.transitions dState c)) = toString j := by
        unfold mapGetD
        rw [h.hmap, ← hju, nameFrom_get 0 sets h.hkeys j u hj]
        simp
      have hnameD2 : mapGetD v.dfaStatesMap (stringSetToString dState) = toString d := by
        have := hnameD [] hkeys
        rw [List.append_nil] at this
        rw [h.hmap]
        exact this
      apply psInv_edge s chars sets [] d cs v _ dState c j u h hd hc hne hkeys
        (by rw [List.append_nil]; exact hj) hju (Or.inl (getElem?_lt _ _ _ hj))
      · rw [List.append_nil]; exact h.hq
      · rw [List.append_nil]; exact h.hmap
      · rfl
      · rfl
      · show dtUpdate _ _ _ _ = _
        rw [hnameD2, hnameJ]
      · intro t ht; cases ht
    | false =>
      refine ⟨[powersetNext s.transitions dState c], ?_⟩
      rw [powersetStep_new _ _ _ _ hne hk]
      have hk2 := hk
      rw [mapHas_false_iff, h.hmap, nameFrom_keys] at hk2
      have hkeys : ((sets ++ [powersetNext s.transitions dState c]).map
          stringSetToString).Nodup := by
        rw [List.map_append, List.nodup_append]
        refine ⟨h.hkeys, by simp, ?_⟩
        intro a ha hb
        simp only [List.map_cons, List.map_nil, List.mem_singleton] at hb
        exact hk2 (hb ▸ ha)
      have hmapNew : mapSet v.dfaStatesMap
          (stringSetToString (powersetNext s.transitions dState c))
          (toString v.dfaStatesMap.length) =
          nameFrom 0 (sets ++ [powersetNext s.transitions dState c]) := by
        rw [mapSet_absent _ _ _ (by rw [h.hmap, nameFrom_keys]; exact hk2), h.hmap,
          nameFrom_append, nameFrom_length, Nat.zero_add]
      have hj : (sets ++ [powersetNext s.transitions dState c])[sets.length]? =
          some (powersetNext s.transitions dState c) := by
        rw [List.getElem?_append_right (Nat.le_refl _)]
        simp
      have hnameJ : mapGetD (nameFrom 0 (sets ++ [powersetNext s.transitions dState c]))
          (stringSetToString (powersetNext s.transitions dState c)) = toString sets.length := by
        unfold mapGetD
        rw [nameFrom_get 0 _ hkeys sets.length _ hj]
        simp
      apply psInv_edge s chars sets [powersetNext s.transitions dState c] d cs v _ dState c
        sets.length (powersetNext s.transitions dState c) h hd hc hne hkeys hj rfl
        (Or.inr (by omega))
      · show v.q ++ [_] = _
        rw [h.hq, List.drop_append_of_le_length (by omega)]
      · exact hmapNew
      · rfl
      · rfl
      · show dtUpdate _ _ _ _ = _
        rw [hmapNew, hnameD _ hkeys, hnameJ]
      · intro t ht
        rw [List.mem_singleton] at ht
        exact ht

theorem psInv_fold (s : nfaMachine) (chars : RuneSet) (d : Nat) (dState : StringSet)
    (rem : List Rune) (cs : List Rune) (sets : List StringSet) (v : PowersetVars)
    (h : PowersetInv s chars sets d cs (d + 1) v) (hd : sets[d]? = some dState)
    (hnd : (cs ++ rem).Nodup) :
    ∃ ext, PowersetInv s chars (sets ++ ext) d (cs ++ rem) (d + 1)
      (rem.foldl (powersetStep s.transitions dState) v) := by
  induction rem generalizing cs sets v with
  | nil =>
    refine ⟨[], ?_⟩
    simpa using h
  | cons c rem ih =>
    have hc : c ∉ cs := by
      intro hc
      rw [List.nodup_append] at hnd
      exact hnd.2.2 hc (List.mem_cons_self _ _)
    obtain ⟨ext1, h1⟩ := psInv_step s chars sets d cs v dState c h hd hc
    have hnd2 : ((cs ++ [c]) ++ rem).Nodup := by simpa using hnd
    obtain ⟨ext2, h2⟩ := ih (cs ++ [c]) (sets ++ ext1) _ h1
      (getElem?_append_left_some _ _ _ _ hd) hnd2
    refine ⟨ext1 ++ ext2, ?_⟩
    rw [List.foldl_cons]
    simpa [List.append_assoc] using h2

/-! ## Powerset construction: the loop ends -/

theorem mem_tableDests (tr : NTrans) (q : String) (c : Rune) (y : String)
    (h : y ∈ tableDelta tr q c) : y ∈ tableDests tr := by
  obtain ⟨u, hu, hy⟩ := (mem_tableDelta _ _ _ _).1 h
  unfold tableGet at hu
  cases hq : mapGet tr q with
  | none => rw [hq] at hu; cases hu
  | some row =>
    rw [hq] at hu
    simp only at hu
    unfold tableDests
    rw [List.mem_flatMap]
    refine ⟨(q, row), mapGet_mem _ _ _ hq, ?_⟩
    rw [List.mem_flatMap]
    exact ⟨(c, u), mapGet_mem _ _ _ hu, hy⟩

theorem key_mem_sublists (tr : NTrans) (t : StringSet) (c : Rune) :
    stringSetToString (powersetNext tr t c) ∈
      ((tableDests tr).dedup.sublists.map stringSetToString) := by
  have hnd := nodup_powersetNext tr t c
  have hsub : powersetNext tr t c ⊆ (tableDests tr).dedup := by
    intro y hy
    rw [mem_powersetNext] at hy
    obtain ⟨p, _, hp⟩ := hy
    exact List.mem_dedup.2 (mem_tableDests _ _ _ _ hp)
  obtain ⟨l, hl1, hl2⟩ := List.subperm_of_subset hnd hsub
  rw [List.mem_map]
  refine ⟨l, List.mem_sublists.2 hl2, ?_⟩
  unfold stringSetToString GoSet.Unwrap
  rw [sortStrings_eq_of_perm _ _ hl1]

theorem psInv_bound (s : nfaMachine) (chars : RuneSet) (sets : List StringSet) (d : Nat)
    (cs : List Rune) (reg : Nat) (v : PowersetVars) (h : PowersetInv s chars sets d cs reg v) :
    sets.length ≤ powersetBound s := by
  unfold powersetBound
  cases hs : sets with
  | nil => simp
  | cons t0 tail =>
    have hk := h.hkeys
    rw [hs, List.map_cons, List.nodup_cons] at hk
    have hsub : tail.map stringSetToString ⊆
        (tableDests s.transitions).dedup.sublists.map stringSetToString := by
      intro k hk1
      rw [List.mem_map] at hk1
      obtain ⟨u, hu, rfl⟩ := hk1
      obtain ⟨j, hj⟩ := List.getElem?_of_mem hu
      have hj2 : sets[j + 1]? = some u := by rw [hs]; simpa using hj
      obtain ⟨t, c, hu2, _⟩ := h.hfrom (j + 1) u (by omega) hj2
      rw [hu2]
      exact key_mem_sublists _ _ _
    have hlen := (List.subperm_of_subset hk.2 hsub).length_le
    rw [List.length_map, List.length_map, List.length_sublists] at hlen
    rw [List.length_cons]
    omega

theorem psInv_round (s : nfaMachine) (chars : RuneSet) (hchars : chars.Nodup)
    (sets : List StringSet) (d : Nat) (v : PowersetVars) (dState : StringSet)
    (rest : List StringSet) (h : PowersetInv s chars sets d [] d v)
    (hq : v.q = dState :: rest) :
    ∃ ext, PowersetInv s chars (sets ++ ext) (d + 1) [] (d + 1)
      ((GoSet.Unwrap chars).foldl (powersetStep s.transitions dState)
        { v with
          q := rest
          states := GoSet.Add v.states [mapGetD v.dfaStatesMap (stringSetToString dState)]
          acceptStates :=
            if GoSet.Len (GoSet.And dState s.acceptStates) > 0 then
              GoSet.Add v.acceptStates [mapGetD v.dfaStatesMap (stringSetToString dState)]
            else v.acceptStates }) := by
  obtain ⟨hd, h1⟩ := psInv_pop s chars sets d v dState rest h hq
  obtain ⟨ext, h2⟩ := psInv_fold s chars d dState (GoSet.Unwrap chars) [] sets _ h1 hd
    (by simpa [GoSet.Unwrap] using hchars)
  refine ⟨ext, psInv_close s chars _ d _ _ h2 ?_⟩
  intro c
  simp [GoSet.Unwrap]

theorem psInv_loop (s : nfaMachine) (chars : RuneSet) (hchars : chars.Nodup) (fuel : Nat)
    (sets : List StringSet) (d : Nat) (v r : PowersetVars)
    (h : PowersetInv s chars sets d [] d v) (hr : powersetLoop s chars fuel v = some r) :
    ∃ ext, PowersetInv s chars (sets ++ ext) (sets ++ ext).length [] (sets ++ ext).length r := by
  have hdone : v.q = [] → PowersetInv s chars (sets ++ []) (sets ++ []).length []
      (sets ++ []).length v := by
    intro hq0
    have hq := h.hq
    rw [hq0] at hq
    have hlen : sets.length ≤ d := List.drop_eq_nil_iff.1 hq.symm
    have hreg := h.hreg
    have hd : d = sets.length := by omega
    rw [List.append_nil, ← hd]
    exact h
  induction fuel generalizing sets d v with
  | zero =>
    unfold powersetLoop at hr
    split at hr
    · cases hr
    · rename_i hl
      cases hr
      exact ⟨[], hdone (List.length_eq_zero.1 (by omega))⟩
  | succ n ih =>
    unfold powersetLoop at hr
    cases hq : v.q with
    | nil =>
      rw [hq] at hr
      cases hr
      exact ⟨[], hdone hq⟩
    | cons dState rest =>
      rw [hq] at hr
      simp only at hr
      obtain ⟨ext1, h1⟩ := psInv_round s chars hchars sets d v dState rest h hq
      have hdone2 : ∀ (sets2 : List StringSet) (d2 : Nat) (v2 : PowersetVars),
          PowersetInv s chars sets2 d2 [] d2 v2 → v2.q = [] →
          PowersetInv s chars (sets2 ++ []) (sets2 ++ []).length [] (sets2 ++ []).length v2 := by
        intro sets2 d2 v2 hi hq0
        have hq2 := hi.hq
        rw [hq0] at hq2
        have hlen : sets2.length ≤ d2 := List.drop_eq_nil_iff.1 hq2.symm
        have hreg := hi.hreg
        have hd : d2 = sets2.length := by omega
        rw [List.append_nil, ← hd]
        exact hi
      obtain ⟨ext2, h2⟩ := ih (sets ++ ext1) (d + 1) _ h1 hr (hdone2 _ _ _ h1)
      refine ⟨ext1 ++ ext2, ?_⟩
      rw [← List.append_assoc]
      exact h2

theorem powersetLoop_total (s : nfaMachine) (chars : RuneSet) (hchars : chars.Nodup)
    (fuel : Nat) (sets : List StringSet) (d : Nat) (v : PowersetVars)
    (h : PowersetInv s chars sets d [] d v) (hf : powersetBound s ≤ fuel + d) :
    ∃ r, powersetLoop s chars fuel v = some r := by
  induction fuel generalizing sets d v with
  | zero =>
    have hb := psInv_bound s chars sets d [] d v h
    have hreg := h.hreg
    have hd : d = sets.length := by omega
    have hq := h.hq
    rw [hd, List.drop_length] at hq
    unfold powersetLoop
    simp [hq]
  | succ n ih =>
    unfold powersetLoop
    cases hq : v.q with
    | nil => exact ⟨v, rfl⟩
    | cons dState rest =>
      simp only
      obtain ⟨ext1, h1⟩ := psInv_round s chars hchars sets d v dState rest h hq
      exact ih (sets ++ ext1) (d + 1) _ h1 (by omega)

/-! ## Powerset construction: the machine returned -/

theorem mem_powersetChars_declared (s : nfaMachine) (h : s.chars ≠ []) (x : Rune) :
    x ∈ powersetChars s ↔ x ∈ s.chars := by
  unfold powersetChars
  have hl : GoSet.Len s.chars > 0 := List.length_pos.2 h
  simp only [hl, if_true, GoSet.mem_Add, GoSet.Unwrap]
  simp [NewRuneSet, GoSet.New, GoSet.Add]

theorem mem_powersetChars_used (s : nfaMachine) (h : s.chars = []) (x : Rune) :
    x ∈ powersetChars s ↔ ∃ e ∈ s.transitions, ∃ r ∈ e.2, r.1 = x := by
  unfold powersetChars
  have hl : ¬ GoSet.Len s.chars > 0 := by simp [h, GoSet.Len]
  simp only [hl, if_false]
  have inner : ∀ (row : GoMap Rune StringSet) (acc : RuneSet),
      x ∈ row.foldl (fun cs1 r => GoSet.Add cs1 [r.1]) acc ↔ x ∈ acc ∨ ∃ r ∈ row, r.1 = x := by
    intro row
    induction row with
    | nil => intro acc; simp
    | cons r row ih =>
      intro acc
      rw [List.foldl_cons, ih, GoSet.mem_Add_single]
      simp only [List.mem_cons, exists_eq_or_imp]
      constructor
      · rintro ((h1 | h1) | h1)
        · exact Or.inl h1
        · exact Or.inr (Or.inl h1.symm)
        · exact Or.inr (Or.inr h1)
      · rintro (h1 | h1 | h1)
        · exact Or.inl (Or.inl h1)
        · exact Or.inl (Or.inr h1.symm)
        · exact Or.inr h1
  have outer : ∀ (tr : NTrans) (acc : RuneSet),
      x ∈ tr.foldl (fun cs e => e.2.foldl (fun cs1 r => GoSet.Add cs1 [r.1]) cs) acc ↔
        x ∈ acc ∨ ∃ e ∈ tr, ∃ r ∈ e.2, r.1 = x := by
    intro tr
    induction tr with
    | nil => intro acc; simp
    | cons e tr ih =>
      intro acc
      rw [List.foldl_cons, ih, inner]
      simp only [List.mem_cons, exists_eq_or_imp]
      constructor
      · rintro ((h1 | h1) | h1)
        · exact Or.inl h1
        · exact Or.inr (Or.inl h1)
        · exact Or.inr (Or.inr h1)
      · rintro (h1 | h1 | h1)
        · exact Or.inl (Or.inl h1)
        · exact Or.inl (Or.inr h1)
        · exact Or.inr h1
  rw [outer]
  simp [NewRuneSet, GoSet.New, GoSet.Add]

theorem nodup_powersetChars (s : nfaMachine) : (powersetChars s).Nodup := by
  unfold powersetChars
  split
  · exact GoSet.nodup_Add _ _ (GoSet.nodup_New _)
  · have inner : ∀ (row : GoMap Rune StringSet) (acc : RuneSet), acc.Nodup →
        (row.foldl (fun cs1 r => GoSet.Add cs1 [r.1]) acc).Nodup := by
      intro row
      induction row with
      | nil => intro acc h; exact h
      | cons r row ih => intro acc h; exact ih _ (GoSet.nodup_Add _ _ h)
    have outer : ∀ (tr : NTrans) (acc : RuneSet), acc.Nodup →
        (tr.foldl (fun cs e => e.2.foldl (fun cs1 r => GoSet.Add cs1 [r.1]) cs) acc).Nodup := by
      intro tr
      induction tr with
      | nil => intro acc h; exact h
      | cons e tr ih => intro acc h; exact ih _ (inner _ _ h)
    exact outer _ _ (GoSet.nodup_New _)

theorem tableGet_singletonTable (dt : GoMap String (GoMap Rune String)) (n : String) (c : Rune) :
    tableGet (singletonTable dt) n c = (dtGet dt n c).map (fun m => NewStringSet [m]) := by
  unfold tableGet singletonTable dtGet
  rw [mapGet_mapValues (fun e => e.2.map (fun r => (r.1, NewStringSet [r.2]))) dt n]
  cases mapGet dt n with
  | none => rfl
  | some row =>
    simp only [Option.map]
    exact mapGet_mapValues (fun r => NewStringSet [r.2]) row c

theorem mem_tableDelta_singleton (dt : GoMap String (GoMap Rune String)) (n : String) (c : Rune)
    (y : String) : y ∈ tableDelta (singletonTable dt) n c ↔ dtGet dt n c = some y := by
  rw [mem_tableDelta, tableGet_singletonTable]
  cases dtGet dt n c with
  | none => simp
  | some m =>
    simp only [Option.map, Option.some.injEq, exists_eq_left', NewStringSet, GoSet.mem_New,
      List.mem_singleton]
    exact eq_comm

theorem TableOK_singletonTable (dt : GoMap String (GoMap Rune String))
    (h : NodupKeys dt ∧ ∀ e ∈ dt, NodupKeys e.2) : TableOK (singletonTable dt) := by
  unfold singletonTable
  refine ⟨?_, ?_⟩
  · unfold NodupKeys
    rw [keys_mapValues (fun e => e.2.map (fun r => (r.1, NewStringSet [r.2]))) dt]
    exact h.1
  · intro e he
    rw [List.mem_map] at he
    obtain ⟨e0, he0, rfl⟩ := he
    unfold NodupKeys
    rw [keys_mapValues (fun r => NewStringSet [r.2]) e0.2]
    exact h.2 e0 he0

theorem powerset_inv (s : nfaMachine) (hs : s.startStates.Nodup) (fuel : Nat) (D : nfaMachine)
    (h : s.ApplyPowersetConstruction fuel = some (Except.ok D)) :
    s.HasEpsilon = false ∧
    ∃ (sets : List StringSet) (v : PowersetVars),
      PowersetInv s (powersetChars s) sets sets.length [] sets.length v ∧
      sets[0]? = some s.startStates ∧
      D = { states := v.states
            chars := powersetChars s
            startStates := NewStringSet ["0"]
            acceptStates := v.acceptStates
            transitions := singletonTable v.transitions
            currentStates := NewStringSet ["0"] } := by
  unfold nfaMachine.ApplyPowersetConstruction at h
  cases he : s.HasEpsilon with
  | true => rw [he] at h; simp at h
  | false =>
    refine ⟨rfl, ?_⟩
    rw [he] at h
    simp only [Bool.false_eq_true, if_false] at h
    have h0 := psInv_init s (powersetChars s) hs
    cases hl : powersetLoop s (powersetChars s) fuel
        { states := NewStringSet []
          transitions := []
          acceptStates := NewStringSet []
          dfaStatesMap := [(stringSetToString s.startStates, "0")]
          q := [NewStringSet (GoSet.Unwrap s.startStates)] } with
    | none => rw [hl] at h; cases h
    | some v =>
      rw [hl] at h
      simp only [Option.some.injEq, Except.ok.injEq] at h
      obtain ⟨ext, hi⟩ := psInv_loop s (powersetChars s) (nodup_powersetChars s) fuel _ 0 _ v
        h0 hl
      refine ⟨_, v, hi, ?_, h.symm⟩
      have hnew : NewStringSet (GoSet.Unwrap s.startStates) = s.startStates :=
        GoSet_New_of_nodup _ hs
      rw [hnew]
      simp

theorem powerset_total (s : nfaMachine) (hs : s.startStates.Nodup) (he : s.HasEpsilon = false)
    (fuel : Nat) (hf : powersetBound s ≤ fuel) :
    ∃ D, s.ApplyPowersetConstruction fuel = some (Except.ok D) := by
  unfold nfaMachine.ApplyPowersetConstruction
  rw [he]
  simp only [Bool.false_eq_true, if_false]
  obtain ⟨r, hr⟩ := powersetLoop_total s (powersetChars s) (nodup_powersetChars s) fuel _ 0 _
    (psInv_init s (powersetChars s) hs) (by omega)
  rw [hr]
  exact ⟨_, rfl⟩

/-! ## Powerset construction: the subsets simulate the machine -/

theorem psFinal_handled (chars : RuneSet) (n i : Nat) (c : Rune) :
    psHandled chars n [] i c ↔ i < n ∧ c ∈ chars := by
  unfold psHandled
  simp

theorem psFinal_good (s : nfaMachine) (chars : RuneSet) (sets : List StringSet) (d : Nat)
    (cs : List Rune) (reg : Nat) (v : PowersetVars) (h : PowersetInv s chars sets d cs reg v)
    (h0 : sets[0]? = some s.startStates) (hg : GoodNames s) (i : Nat) (t : StringSet)
    (ht : sets[i]? = some t) : ∀ y ∈ t, GoodName y := by
  intro y hy
  cases i with
  | zero =>
    rw [h0] at ht
    cases ht
    exact hg y (Or.inl hy)
  | succ i =>
    obtain ⟨t0, c, hu, _⟩ := h.hfrom (i + 1) t (by omega) ht
    rw [hu, mem_powersetNext] at hy
    obtain ⟨p, _, hp⟩ := hy
    exact hg y (Or.inr (mem_tableDests _ _ _ _ hp))

theorem good_powersetNext (s : nfaMachine) (hg : GoodNames s) (t : StringSet) (c : Rune) :
    ∀ y ∈ powersetNext s.transitions t c, GoodName y := by
  intro y hy
  rw [mem_powersetNext] at hy
  obtain ⟨p, _, hp⟩ := hy
  exact hg y (Or.inr (mem_tableDests _ _ _ _ hp))

theorem psFinal_fwd (s : nfaMachine) (chars : RuneSet) (sets : List StringSet)
    (v : PowersetVars) (h : PowersetInv s chars sets sets.length [] sets.length v)
    (h0 : sets[0]? = some s.startStates) (hg : GoodNames s) (w : List Rune) (n q : String)
    (hp : Path (singletonTable v.transitions) n w q) (hq : q ∈ v.acceptStates) :
    ∀ (i : Nat) (t : StringSet), sets[i]? = some t → n = toString i →
      (∀ x ∈ w, x ∈ chars) ∧ ∃ p ∈ t, ∃ q2 ∈ s.acceptStates, Path s.transitions p w q2 := by
  induction hp with
  | nil p =>
    intro i t ht hn
    subst hn
    obtain ⟨i2, t2, _, ht2, hn2, y, hy1, hy2⟩ := (h.haccept _).1 hq
    have hi := natToString_injective _ _ hn2
    subst hi
    rw [ht] at ht2
    cases ht2
    exact ⟨by simp, y, hy1, y, hy2, Path.nil y⟩
  | @cons p y q x w hstep _ ih =>
    intro i t ht hn
    subst hn
    rw [mem_tableDelta_singleton] at hstep
    obtain ⟨i2, t2, ht2, hn2, hh, hne⟩ := h.honly _ _ _ hstep
    have hi := natToString_injective _ _ hn2
    subst hi
    rw [ht] at ht2
    cases ht2
    obtain ⟨j, u, hj, hju, hget⟩ := h.hedge i t x ht hh hne
    rw [hstep] at hget
    cases hget
    obtain ⟨hall, p2, hp2, q2, hq2, hpath⟩ := ih hq j u hj rfl
    have hmem := (stringSetToString_mem u _ (psFinal_good s chars sets _ _ _ v h h0 hg j u hj)
      (good_powersetNext s hg t x) hju p2).1 hp2
    rw [mem_powersetNext] at hmem
    obtain ⟨p0, hp0, hstep0⟩ := hmem
    refine ⟨?_, p0, hp0, q2, hq2, Path.cons hstep0 hpath⟩
    intro z hz
    rcases List.mem_cons.1 hz with rfl | hz
    · exact ((psFinal_handled _ _ _ _).1 hh).2
    · exact hall z hz

theorem psFinal_bwd (s : nfaMachine) (chars : RuneSet) (sets : List StringSet)
    (v : PowersetVars) (h : PowersetInv s chars sets sets.length [] sets.length v)
    (h0 : sets[0]? = some s.startStates) (hg : GoodNames s) (w : List Rune) (p q : String)
    (hp : Path s.transitions p w q) (hq : q ∈ s.acceptStates) (hw : ∀ x ∈ w, x ∈ chars) :
    ∀ (i : Nat) (t : StringSet), sets[i]? = some t → p ∈ t →
      ∃ q2 ∈ v.acceptStates, Path (singletonTable v.transitions) (toString i) w q2 := by
  induction hp with
  | nil p =>
    intro i t ht hpt
    refine ⟨toString i, ?_, Path.nil _⟩
    exact (h.haccept _).2 ⟨i, t, getElem?_lt _ _ _ ht, ht, rfl, p, hpt, hq⟩
  | @cons p y q x w hstep _ ih =>
    intro i t ht hpt
    have hne : powersetNext s.transitions t x ≠ [] := by
      intro hc
      have : y ∈ powersetNext s.transitions t x := (mem_powersetNext _ _ _ _).2 ⟨p, hpt, hstep⟩
      rw [hc] at this
      cases this
    have hh : psHandled chars sets.length [] i x :=
      (psFinal_handled _ _ _ _).2 ⟨getElem?_lt _ _ _ ht, hw x (List.mem_cons_self _ _)⟩
    obtain ⟨j, u, hj, hju, hget⟩ := h.hedge i t x ht hh hne
    have hyu : y ∈ u :=
      (stringSetToString_mem u _ (psFinal_good s chars sets _ _ _ v h h0 hg j u hj)
        (good_powersetNext s hg t x) hju y).2 ((mem_powersetNext _ _ _ _).2 ⟨p, hpt, hstep⟩)
    obtain ⟨q2, hq2, hpath⟩ := ih hq (fun z hz => hw z (List.mem_cons_of_mem _ hz)) j u hj hyu
    exact ⟨q2, hq2, Path.cons ((mem_tableDelta_singleton _ _ _ _).2 hget) hpath⟩

theorem Path_symbols (tr : NTrans) (p q : String) (w : List Rune) (hp : Path tr p w q) :
    ∀ x ∈ w, ∃ e ∈ tr, ∃ r ∈ e.2, r.1 = x := by
  induction hp with
  | nil p => intro x hx; cases hx
  | @cons p y q x w hstep _ ih =>
    intro z hz
    rcases List.mem_cons.1 hz with rfl | hz
    · obtain ⟨u, hu, _⟩ := (mem_tableDelta _ _ _ _).1 hstep
      unfold tableGet at hu
      cases hq : mapGet tr p with
      | none => rw [hq] at hu; cases hu
      | some row =>
        rw [hq] at hu
        exact ⟨(p, row), mapGet_mem _ _ _ hq, (z, u), mapGet_mem _ _ _ hu, rfl⟩
    · exact ih z hz

theorem powerset_HasEpsilon (s : nfaMachine) (he : s.HasEpsilon = false) (chars : RuneSet)
    (sets : List StringSet) (d : Nat) (cs : List Rune) (reg : Nat) (v : PowersetVars)
    (h : PowersetInv s chars sets d cs reg v) (D : nfaMachine)
    (hD : D.transitions = singletonTable v.transitions) : D.HasEpsilon = false := by
  apply HasEpsilon_false_of_get
  · rw [hD]; exact TableOK_singletonTable _ h.htableOK
  · intro q
    rw [hD, tableGet_singletonTable]
    cases hg : dtGet v.transitions q Epsilon with
    | none => rfl
    | some m =>
      exfalso
      obtain ⟨i, t, _, _, _, hne⟩ := h.honly _ _ _ hg
      apply hne
      cases hn : powersetNext s.transitions t Epsilon with
      | nil => rfl
      | cons y l =>
        have : y ∈ powersetNext s.transitions t Epsilon := by rw [hn]; exact List.mem_cons_self _ _
        rw [mem_powersetNext] at this
        obtain ⟨p, _, hp⟩ := this
        obtain ⟨u, hu, _⟩ := (mem_tableDelta _ _ _ _).1 hp
        rw [tableGet_eps_none s he p] at hu
        cases hu

theorem powerset_Lang (s : nfaMachine) (sets : List StringSet) (v : PowersetVars)
    (h : PowersetInv s (powersetChars s) sets sets.length [] sets.length v)
    (h0 : sets[0]? = some s.startStates) (hg : GoodNames s) (D : nfaMachine)
    (hD : D = { states := v.states
                chars := powersetChars s
                startStates := NewStringSet ["0"]
                acceptStates := v.acceptStates
                transitions := singletonTable v.transitions
                currentStates := NewStringSet ["0"] }) (w : List Rune) :
    D.Lang w ↔ s.Lang w := by
  subst hD
  unfold nfaMachine.Lang nfaMachine.admits
  simp only [NewStringSet, GoSet.mem_New, List.mem_singleton, exists_eq_left]
  constructor
  · rintro ⟨hadm, q, hq, hpath⟩
    obtain ⟨hall, p, hp, q2, hq2, hpath2⟩ :=
      psFinal_fwd s _ sets v h h0 hg w "0" q hpath hq 0 _ h0 rfl
    refine ⟨?_, p, hp, q2, hq2, hpath2⟩
    intro x hx
    by_cases hc : s.chars = []
    · exact Or.inl hc
    · exact Or.inr ((mem_powersetChars_declared s hc x).1 (hall x hx))
  · rintro ⟨hadm, p, hp, q, hq, hpath⟩
    have hw : ∀ x ∈ w, x ∈ powersetChars s := by
      intro x hx
      by_cases hc : s.chars = []
      · exact (mem_powersetChars_used s hc x).2 (Path_symbols _ _ _ _ hpath x hx)
      · rcases hadm x hx with h1 | h1
        · exact absurd h1 hc
        · exact (mem_powersetChars_declared s hc x).2 h1
    obtain ⟨q2, hq2, hpath2⟩ := psFinal_bwd s _ sets v h h0 hg w p q hpath hq hw 0 _ h0 hp
    exact ⟨fun x hx => Or.inr (hw x hx), q2, hq2, hpath2⟩

/-- C2, as the code has it: for every NFA `N` without epsilon transitions whose
start and destination state names are not empty and contain no `_`, the
powerset construction returns a machine `D` once the fuel covers
`powersetBound N` subsets, and `D` and `N` give the same verdict on every word.
The states of `D` are the numerals of the discovered subsets, the start subset
is number 0, a subset state is accepting exactly when the subset meets the accept
states of `N`, and an edge on `c` leads to the subset of all `c`-successors. -/
theorem powerset_equivalent_good_names (N : nfaMachine) (he : N.HasEpsilon = false)
    (hs : N.startStates.Nodup) (hg : GoodNames N) (fuel : Nat) (hf : powersetBound N ≤ fuel) :
    ∃ D, N.ApplyPowersetConstruction fuel = some (Except.ok D) ∧
      (∀ (w : List Rune) (f1 f2 : Nat),
        D.accepts f1 w = N.accepts f2 w ∧ ∃ b, N.accepts f2 w = some b) ∧
      ∃ sets : List StringSet, sets[0]? = some N.startStates ∧
        (∀ n, n ∈ D.states ↔ ∃ i, i < sets.length ∧ n = toString i) ∧
        (∀ (i : Nat) (t : StringSet), sets[i]? = some t →
          (toString i ∈ D.acceptStates ↔ ∃ y ∈ t, y ∈ N.acceptStates)) ∧
        (∀ (i : Nat) (t : StringSet) (c : Rune) (m : String), sets[i]? = some t →
          m ∈ D.Delta (toString i) c →
          ∃ (j : Nat) (u : StringSet), sets[j]? = some u ∧ m = toString j ∧
            ∀ y, y ∈ u ↔ ∃ p ∈ t, y ∈ N.Delta p c) := by
  obtain ⟨D, hD⟩ := powerset_total N hs he fuel hf
  obtain ⟨_, sets, v, hi, h0, hDeq⟩ := powerset_inv N hs fuel D hD
  have heD : D.HasEpsilon = false :=
    powerset_HasEpsilon N he _ sets _ _ _ v hi D (by rw [hDeq])
  refine ⟨D, hD, ?_, sets, h0, ?_, ?_, ?_⟩
  · intro w f1 f2
    exact accepts_eq_of_Lang f1 f2 D N heD he w (powerset_Lang N sets v hi h0 hg D hDeq w)
  · intro n
    rw [hDeq]
    exact hi.hstates n
  · intro i t ht
    rw [hDeq]
    simp only
    rw [hi.haccept]
    constructor
    · rintro ⟨i2, t2, _, ht2, hn2, hy⟩
      have := natToString_injective _ _ hn2
      subst this
      rw [ht] at ht2
      cases ht2
      exact hy
    · intro hy
      exact ⟨i, t, getElem?_lt _ _ _ ht, ht, rfl, hy⟩
  · intro i t c m ht hm
    rw [hDeq] at hm
    unfold nfaMachine.Delta at hm
    simp only at hm
    rw [mem_tableDelta_singleton] at hm
    obtain ⟨i2, t2, ht2, hn2, hh, hne⟩ := hi.honly _ _ _ hm
    have := natToString_injective _ _ hn2
    subst this
    rw [ht] at ht2
    cases ht2
    obtain ⟨j, u, hj, hju, hget⟩ := hi.hedge i t c ht hh hne
    rw [hm] at hget
    cases hget
    refine ⟨j, u, hj, rfl, ?_⟩
    intro y
    rw [stringSetToString_mem u _ (psFinal_good N _ sets _ _ _ v hi h0 hg j u hj)
      (good_powersetNext N hg t c) hju y, mem_powersetNext]
    rfl

theorem parityNfa_GoodNames : GoodNames parityNfa := by
  intro n hn
  have hmem : n ∈ ["even", "odd"] := by
    rcases hn with h | h
    · have hn : n = "even" := by simpa [parityNfa] using h
      simp [hn]
    · revert h
      simp only [parityNfa, tableDests, List.flatMap_cons, List.flatMap_nil, List.append_nil,
        List.mem_append, List.mem_cons, List.mem_singleton, List.not_mem_nil, or_false, List.mem_cons]
      tauto
  simp only [List.mem_cons, List.mem_singleton, List.not_mem_nil, or_false] at hmem
  rcases hmem with rfl | rfl
  · exact ⟨by decide, by decide⟩
  · exact ⟨by decide, by decide⟩

/-- Witness for C2 (amended): the parity automaton as an NFA, with fuel 5. -/
theorem powerset_equivalent_good_names_witness :
    ∃ D, parityNfa.ApplyPowersetConstruction 5 = some (Except.ok D) ∧
      (∀ (w : List Rune) (f1 f2 : Nat),
        D.accepts f1 w = parityNfa.accepts f2 w ∧ ∃ b, parityNfa.accepts f2 w = some b) ∧
      ∃ sets : List StringSet, sets[0]? = some parityNfa.startStates ∧
        (∀ n, n ∈ D.states ↔ ∃ i, i < sets.length ∧ n = toString i) ∧
        (∀ (i : Nat) (t : StringSet), sets[i]? = some t →
          (toString i ∈ D.acceptStates ↔ ∃ y ∈ t, y ∈ parityNfa.acceptStates)) ∧
        (∀ (i : Nat) (t : StringSet) (c : Rune) (m : String), sets[i]? = some t →
          m ∈ D.Delta (toString i) c →
          ∃ (j : Nat) (u : StringSet), sets[j]? = some u ∧ m = toString j ∧
            ∀ y, y ∈ u ↔ ∃ p ∈ t, y ∈ parityNfa.Delta p c) :=
  powerset_equivalent_good_names parityNfa (by decide) (by decide) parityNfa_GoodNames 5
    (by decide)

/-- C2 fails as stated: `clash` is returned by the builder and has no epsilon
transition.  It accepts "xy" (from `a` on `x` to `a_b`, then on `y` to `f`).
The subset `{a_b}` reached on `x` has the same canonical string `a_b` as the
start subset `{a, b}`, so the construction takes it for the start subset: the
result has the single state 0 with a loop on `x`, no accept state, and does not
accept "xy". -/
theorem powerset_equivalent_counterexample :
    clashBuilder.Build = Except.ok clash ∧ clash.HasEpsilon = false ∧
    clash.accepts 1 [120, 121] = some true ∧
    ∃ D, clash.ApplyPowersetConstruction 5 = some (Except.ok D) ∧
      D.accepts 1 [120, 121] = some false :=
  ⟨rfl, by decide, by decide,
    { states := ["0"], chars := [120, 121], startStates := ["0"], acceptStates := [],
      transitions := [("0", [(120, ["0"])])], currentStates := ["0"] }, rfl, by decide⟩

/-! ## Reverse -/

theorem tableGet_reverseEdge (f : String) (c : Rune) (acc : NTrans) (t : String) (q : String)
    (c2 : Rune) :
    tableGet (reverseEdge f c acc t) q c2 =
      if q = t ∧ c2 = c then
        some (GoSet.Add ((tableGet acc t c).getD (NewStringSet [])) [f])
      else tableGet acc q c2 := by
  unfold reverseEdge tableGet
  simp only
  rw [mapGet_mapSet]
  by_cases hq : q = t
  · subst hq
    simp only [if_true, true_and, mapGet_mapEnsure_same, Option.getD_some, mapGet_mapSet]
    by_cases hcc : c2 = c
    · subst hcc
      simp only [if_true]
      cases mapGet acc q with
      | none => simp [mapGet]
      | some row => simp only [Option.getD_some]
    · simp only [hcc, if_false, mapGet_mapEnsure_other _ _ _ _ hcc]
      cases mapGet acc q with
      | none => simp [mapGet]
      | some row => rfl
  · simp only [hq, if_false, false_and, mapGet_mapEnsure_other _ _ _ _ hq]

theorem TableOK_mapEnsure (tr : NTrans) (k : String) (h : TableOK tr) :
    TableOK (mapEnsure tr k []) := by
  unfold mapEnsure
  split
  · exact h
  · exact TableOK_mapSet _ _ _ h (by simp [NodupKeys])

theorem TableOK_reverseEdge (f : String) (c : Rune) (acc : NTrans) (t : String)
    (h : TableOK acc) : TableOK (reverseEdge f c acc t) := by
  unfold reverseEdge
  simp only
  have h1 := TableOK_mapEnsure acc t h
  apply TableOK_mapSet _ _ _ h1
  apply NodupKeys_mapSet
  apply NodupKeys_mapEnsure
  cases hg : mapGet (mapEnsure acc t []) t with
  | none => simp [NodupKeys]
  | some row => exact h1.2 (t, row) (mapGet_mem _ _ _ hg)

theorem reverseEdge_cells (f : String) (c : Rune) (acc : NTrans) (t : String)
    (h : ∀ q c2 u, tableGet acc q c2 = some u → u ≠ []) :
    ∀ q c2 u, tableGet (reverseEdge f c acc t) q c2 = some u → u ≠ [] := by
  intro q c2 u hu
  rw [tableGet_reverseEdge] at hu
  split at hu
  · cases hu
    intro hc
    have : f ∈ GoSet.Add ((tableGet acc t c).getD (NewStringSet [])) [f] :=
      (GoSet.mem_Add_single _ _ _).2 (Or.inr rfl)
    rw [hc] at this
    cases this
  · exact h q c2 u hu

theorem mem_tableDelta_reverseEdge (f : String) (c : Rune) (acc : NTrans) (t : String)
    (q : String) (c2 : Rune) (y : String) :
    y ∈ tableDelta (reverseEdge f c acc t) q c2 ↔
      y ∈ tableDelta acc q c2 ∨ (q = t ∧ c2 = c ∧ y = f) := by
  unfold tableDelta
  rw [tableGet_reverseEdge]
  by_cases h : q = t ∧ c2 = c
  · obtain ⟨rfl, rfl⟩ := h
    simp only [and_self, if_true, Option.getD, GoSet.mem_Add_single, true_and]
    cases tableGet acc q c2 with
    | none => simp [NewStringSet, GoSet.New, GoSet.Add]
    | some u => simp
  · simp only [h, if_false]
    constructor
    · exact Or.inl
    · rintro (h1 | ⟨h1, h2, _⟩)
      · exact h1
      · exact absurd ⟨h1, h2⟩ h

theorem reverse_inner (f : String) (c : Rune) (l : List String) (acc : NTrans)
    (h : TableOK acc ∧ ∀ q c2 u, tableGet acc q c2 = some u → u ≠ []) :
    (TableOK (l.foldl (reverseEdge f c) acc) ∧
      ∀ q c2 u, tableGet (l.foldl (reverseEdge f c) acc) q c2 = some u → u ≠ []) ∧
    ∀ q c2 y, y ∈ tableDelta (l.foldl (reverseEdge f c) acc) q c2 ↔
      y ∈ tableDelta acc q c2 ∨ (q ∈ l ∧ c2 = c ∧ y = f) := by
  induction l generalizing acc with
  | nil => exact ⟨h, by simp⟩
  | cons t l ih =>
    rw [List.foldl_cons]
    obtain ⟨h1, h2⟩ := ih (reverseEdge f c acc t)
      ⟨TableOK_reverseEdge f c acc t h.1, reverseEdge_cells f c acc t h.2⟩
    refine ⟨h1, ?_⟩
    intro q c2 y
    rw [h2, mem_tableDelta_reverseEdge]
    simp only [List.mem_cons]
    constructor
    · rintro ((h3 | ⟨h3, h4, h5⟩) | ⟨h3, h4, h5⟩)
      · exact Or.inl h3
      · exact Or.inr ⟨Or.inl h3, h4, h5⟩
      · exact Or.inr ⟨Or.inr h3, h4, h5⟩
    · rintro (h3 | ⟨h3 | h3, h4, h5⟩)
      · exact Or.inl (Or.inl h3)
      · exact Or.inl (Or.inr ⟨h3, h4, h5⟩)
      · exact Or.inr ⟨h3, h4, h5⟩

theorem reverse_row (f : String) (row : GoMap Rune StringSet) (acc : NTrans)
    (h : TableOK acc ∧ ∀ q c2 u, tableGet acc q c2 = some u → u ≠ []) :
    (TableOK (row.foldl (fun acc1 r => (GoSet.Unwrap r.2).foldl (reverseEdge f r.1) acc1) acc) ∧
      ∀ q c2 u, tableGet
        (row.foldl (fun acc1 r => (GoSet.Unwrap r.2).foldl (reverseEdge f r.1) acc1) acc)
        q c2 = some u → u ≠ []) ∧
    ∀ q c2 y, y ∈ tableDelta
        (row.foldl (fun acc1 r => (GoSet.Unwrap r.2).foldl (reverseEdge f r.1) acc1) acc) q c2 ↔
      y ∈ tableDelta acc q c2 ∨ (∃ r ∈ row, q ∈ r.2 ∧ c2 = r.1 ∧ y = f) := by
  induction row generalizing acc with
  | nil => exact ⟨h, by simp⟩
  | cons r row ih =>
    rw [List.foldl_cons]
    obtain ⟨g1, g2⟩ := reverse_inner f r.1 (GoSet.Unwrap r.2) acc h
    obtain ⟨h1, h2⟩ := ih _ g1
    refine ⟨h1, ?_⟩
    intro q c2 y
    rw [h2, g2]
    simp only [List.mem_cons, exists_eq_or_imp, GoSet.Unwrap]
    constructor
    · rintro ((h3 | h3) | h3)
      · exact Or.inl h3
      · exact Or.inr (Or.inl h3)
      · exact Or.inr (Or.inr h3)
    · rintro (h3 | h3 | h3)
      · exact Or.inl (Or.inl h3)
      · exact Or.inl (Or.inr h3)
      · exact Or.inr h3

theorem reverse_table (tr : NTrans) (acc : NTrans)
    (h : TableOK acc ∧ ∀ q c2 u, tableGet acc q c2 = some u → u ≠ []) :
    (TableOK (tr.foldl (fun acc e =>
        e.2.foldl (fun acc1 r => (GoSet.Unwrap r.2).foldl (reverseEdge e.1 r.1) acc1) acc) acc) ∧
      ∀ q c2 u, tableGet (tr.foldl (fun acc e =>
        e.2.foldl (fun acc1 r => (GoSet.Unwrap r.2).foldl (reverseEdge e.1 r.1) acc1) acc) acc)
        q c2 = some u → u ≠ []) ∧
    ∀ q c2 y, y ∈ tableDelta (tr.foldl (fun acc e =>
        e.2.foldl (fun acc1 r => (GoSet.Unwrap r.2).foldl (reverseEdge e.1 r.1) acc1) acc) acc)
        q c2 ↔
      y ∈ tableDelta acc q c2 ∨ (∃ e ∈ tr, ∃ r ∈ e.2, q ∈ r.2 ∧ c2 = r.1 ∧ y = e.1) := by
  induction tr generalizing acc with
  | nil => exact ⟨h, by simp⟩
  | cons e tr ih =>
    rw [List.foldl_cons]
    obtain ⟨g1, g2⟩ := reverse_row e.1 e.2 acc h
    obtain ⟨h1, h2⟩ := ih _ g1
    refine ⟨h1, ?_⟩
    intro q c2 y
    rw [h2, g2]
    simp only [List.mem_cons, exists_eq_or_imp]
    constructor
    · rintro ((h3 | h3) | h3)
      · exact Or.inl h3
      · exact Or.inr (Or.inl h3)
      · exact Or.inr (Or.inr h3)
    · rintro (h3 | h3 | h3)
      · exact Or.inl (Or.inl h3)
      · exact Or.inl (Or.inr h3)
      · exact Or.inr h3

theorem TableOK_reverse (tr : NTrans) : TableOK (reverseTransitions tr) :=
  (reverse_table tr [] ⟨TableOK_nil, by intro q c u h; simp [tableGet, mapGet] at h⟩).1.1

theorem reverse_cells (tr : NTrans) (q : String) (c : Rune) (u : StringSet)
    (h : tableGet (reverseTransitions tr) q c = some u) : u ≠ [] :=
  (reverse_table tr [] ⟨TableOK_nil, by intro q c u h; simp [tableGet, mapGet] at h⟩).1.2 q c u h

theorem tableGet_iff_mem (tr : NTrans) (h : TableOK tr) (p : String) (c : Rune) (u : StringSet) :
    tableGet tr p c = some u ↔ ∃ e ∈ tr, ∃ r ∈ e.2, e.1 = p ∧ r.1 = c ∧ r.2 = u := by
  constructor
  · intro hg
    unfold tableGet at hg
    cases hq : mapGet tr p with
    | none => rw [hq] at hg; cases hg
    | some row =>
      rw [hq] at hg
      exact ⟨(p, row), mapGet_mem _ _ _ hq, (c, u), mapGet_mem _ _ _ hg, rfl, rfl, rfl⟩
  · rintro ⟨e, he, r, hr, rfl, rfl, rfl⟩
    rw [tableGet_of_TableOK_mem tr h e.1 e.2 he]
    exact mapGet_of_mem _ (h.2 e he) _ _ hr

theorem mem_tableDelta_reverse (tr : NTrans) (h : TableOK tr) (q : String) (c : Rune)
    (y : String) : y ∈ tableDelta (reverseTransitions tr) q c ↔ q ∈ tableDelta tr y c := by
  unfold reverseTransitions
  rw [(reverse_table tr [] ⟨TableOK_nil, by intro q c u h; simp [tableGet, mapGet] at h⟩).2]
  rw [mem_tableDelta tr y c q]
  simp only [tableGet_iff_mem tr h]
  constructor
  · rintro (h1 | ⟨e, he, r, hr, hq, rfl, rfl⟩)
    · simp [tableDelta, tableGet, mapGet] at h1
    · exact ⟨r.2, ⟨e, he, r, hr, rfl, rfl, rfl⟩, hq⟩
  · rintro ⟨u, ⟨e, he, r, hr, rfl, rfl, rfl⟩, hq⟩
    exact Or.inr ⟨e, he, r, hr, hq, rfl, rfl⟩

theorem Path_snoc (tr : NTrans) (p y q : String) (w : List Rune) (x : Rune)
    (hp : Path tr p w y) (hs : q ∈ tableDelta tr y x) : Path tr p (w ++ [x]) q := by
  induction hp with
  | nil p => exact Path.cons hs (Path.nil q)
  | cons hstep _ ih => exact Path.cons hstep (ih hs)

theorem Path_reverse (tr tr2 : NTrans)
    (h : ∀ q c y, q ∈ tableDelta tr y c → y ∈ tableDelta tr2 q c) (p q : String)
    (w : List Rune) (hp : Path tr p w q) : Path tr2 q w.reverse p := by
  induction hp with
  | nil p => exact Path.nil p
  | @cons p y q x w hstep _ ih =>
    rw [List.reverse_cons]
    exact Path_snoc tr2 q y p w.reverse x ih (h y x p hstep)

theorem Lang_Reverse (s : nfaMachine) (h : TableOK s.transitions) (w : List Rune) :
    s.Reverse.Lang w ↔ s.Lang w.reverse := by
  unfold nfaMachine.Lang nfaMachine.admits nfaMachine.Reverse
  simp only [GoSet.mem_Clone, GoSet_Clone_eq_nil, List.mem_reverse]
  constructor
  · rintro ⟨hall, p, hp, q, hq, hpath⟩
    refine ⟨hall, q, hq, p, hp, ?_⟩
    exact Path_reverse _ _ (fun q c y hy => (mem_tableDelta_reverse _ h _ _ _).1 hy) _ _ _ hpath
  · rintro ⟨hall, p, hp, q, hq, hpath⟩
    refine ⟨hall, q, hq, p, hp, ?_⟩
    have := Path_reverse _ (reverseTransitions s.transitions)
      (fun q c y hy => (mem_tableDelta_reverse _ h _ _ _).2 hy) _ _ _ hpath
    rwa [List.reverse_reverse] at this

theorem Reverse_HasEpsilon (s : nfaMachine) (h : TableOK s.transitions)
    (he : s.HasEpsilon = false) : s.Reverse.HasEpsilon = false := by
  apply HasEpsilon_false_of_get
  · exact TableOK_reverse _
  · intro q
    cases hg : tableGet s.Reverse.transitions q Epsilon with
    | none => rfl
    | some u =>
      exfalso
      have hne := reverse_cells _ _ _ _ hg
      obtain ⟨y, hy⟩ := List.exists_mem_of_ne_nil u hne
      have hmem : y ∈ tableDelta (reverseTransitions s.transitions) q Epsilon :=
        (mem_tableDelta _ _ _ _).2 ⟨u, hg, hy⟩
      rw [mem_tableDelta_reverse _ h] at hmem
      obtain ⟨u2, hu2, _⟩ := (mem_tableDelta _ _ _ _).1 hmem
      rw [tableGet_eps_none s he y] at hu2
      cases hu2

/-! ## Minimize on machines without epsilon transitions -/

theorem powersetLoop_mono (s : nfaMachine) (chars : RuneSet) (n m : Nat) (h : n ≤ m)
    (v r : PowersetVars) (hr : powersetLoop s chars n v = some r) :
    powersetLoop s chars m v = some r := by
  induction n generalizing m v with
  | zero =>
    unfold powersetLoop at hr
    split at hr
    · cases hr
    · rename_i hl
      rw [Option.some.injEq] at hr
      have hq : v.q = [] := List.length_eq_zero.1 (by omega)
      subst hr
      cases m with
      | zero => unfold powersetLoop; simp [hq]
      | succ m => unfold powersetLoop; simp [hq]
  | succ n ih =>
    obtain ⟨m, rfl⟩ : ∃ m1, m = m1 + 1 := ⟨m - 1, by omega⟩
    unfold powersetLoop at hr ⊢
    cases hq : v.q with
    | nil => rw [hq] at hr; exact hr
    | cons dState rest =>
      rw [hq] at hr
      simp only at hr ⊢
      exact ih m (by omega) _ hr

theorem ApplyPowersetConstruction_mono (s : nfaMachine) (n m : Nat) (h : n ≤ m)
    (r : Except FaError nfaMachine) (hr : s.ApplyPowersetConstruction n = some r) :
    s.ApplyPowersetConstruction m = some r := by
  unfold nfaMachine.ApplyPowersetConstruction at hr ⊢
  split
  · rename_i he; rw [if_pos he] at hr; exact hr
  · rename_i he
    rw [if_neg he] at hr
    simp only at hr ⊢
    cases hl : powersetLoop s (powersetChars s) n
        { states := NewStringSet []
          transitions := []
          acceptStates := NewStringSet []
          dfaStatesMap := [(stringSetToString s.startStates, "0")]
          q := [NewStringSet (GoSet.Unwrap s.startStates)] } with
    | none => rw [hl] at hr; cases hr
    | some v =>
      rw [hl] at hr
      rw [powersetLoop_mono s _ n m h _ v hl]
      exact hr

theorem ApplyEpsilonExpansion_expandedOf (s : nfaMachine) (he : s.HasEpsilon = false)
    (fuel : Nat) (hf : 1 ≤ fuel) : s.ApplyEpsilonExpansion fuel = some (expandedOf s) := by
  obtain ⟨n, rfl⟩ : ∃ n, fuel = n + 1 := ⟨fuel - 1, by omega⟩
  exact ApplyEpsilonExpansion_epsfree s he n

theorem expandedOf_HasEpsilon (s : nfaMachine) (hT : TableOK s.transitions) :
    (expandedOf s).HasEpsilon = false :=
  expanded_HasEpsilon s hT _ rfl

theorem expandedOf_TableOK (s : nfaMachine) : TableOK (expandedOf s).transitions :=
  TableOK_purge _ _ (TableOK_expandExtract _)

theorem expandedOf_Lang (s : nfaMachine) (hT : TableOK s.transitions)
    (he : s.HasEpsilon = false) (w : List Rune) : (expandedOf s).Lang w ↔ s.Lang w :=
  Lang_expanded s hT he _ rfl rfl rfl rfl w

theorem expandedOf_start_nodup (s : nfaMachine) : (expandedOf s).startStates.Nodup :=
  GoSet.nodup_Del _ _ (GoSet.nodup_New _)

theorem mem_tableDests_iff (tr : NTrans) (h : TableOK tr) (n : String) :
    n ∈ tableDests tr ↔ ∃ q c, n ∈ tableDelta tr q c := by
  constructor
  · intro hn
    unfold tableDests at hn
    rw [List.mem_flatMap] at hn
    obtain ⟨e, he, hn⟩ := hn
    rw [List.mem_flatMap] at hn
    obtain ⟨r, hr, hn⟩ := hn
    refine ⟨e.1, r.1, (mem_tableDelta _ _ _ _).2 ⟨r.2, ?_, hn⟩⟩
    exact (tableGet_iff_mem tr h _ _ _).2 ⟨e, he, r, hr, rfl, rfl, rfl⟩
  · rintro ⟨q, c, hn⟩
    exact mem_tableDests _ _ _ _ hn

theorem GoodNames_expanded_reverse (s : nfaMachine) (hT : TableOK s.transitions)
    (he : s.HasEpsilon = false) (hg : SourceNamesGood s) :
    GoodNames (expandedOf s.Reverse) := by
  intro n hn
  rcases hn with hn | hn
  · apply hg n
    left
    have : n ∈ GoSet.Del (GoSet.Clone s.Reverse.startStates)
        (GoSet.Unwrap (uselessOf s.Reverse (expandExtract s.Reverse.transitions))) := hn
    rw [GoSet.mem_Del, GoSet.mem_Clone] at this
    exact (GoSet.mem_Clone _ _).1 this.1
  · rw [mem_tableDests_iff _ (expandedOf_TableOK _)] at hn
    obtain ⟨q, c, hn⟩ := hn
    have h1 := ((mem_tableDelta_expanded s.Reverse (TableOK_reverse _)
      (Reverse_HasEpsilon s hT he) q c n).1 hn).1
    have h2 : q ∈ tableDelta s.transitions n c := (mem_tableDelta_reverse _ hT _ _ _).1 h1
    exact hg n (Or.inr ⟨c, q, h2⟩)

theorem halfMinimize_spec (s : nfaMachine) (hT : TableOK s.transitions)
    (he : s.HasEpsilon = false) (hg : SourceNamesGood s) :
    ∃ D, (∀ fuel, max 1 (powersetBound (expandedOf s.Reverse)) ≤ fuel →
        halfMinimize fuel s = some (Except.ok D)) ∧
      D.HasEpsilon = false ∧ TableOK D.transitions ∧ SourceNamesGood D ∧
      ∀ w, D.Lang w ↔ s.Lang w.reverse := by
  have heR := Reverse_HasEpsilon s hT he
  have hTR : TableOK s.Reverse.transitions := TableOK_reverse _
  have heE := expandedOf_HasEpsilon s.Reverse hTR
  have hgE := GoodNames_expanded_reverse s hT he hg
  have hsE := expandedOf_start_nodup s.Reverse
  obtain ⟨D, hD⟩ := powerset_total (expandedOf s.Reverse) hsE heE
    (powersetBound (expandedOf s.Reverse)) (Nat.le_refl _)
  obtain ⟨_, sets, v, hi, h0, hDeq⟩ := powerset_inv _ hsE _ D hD
  refine ⟨D, ?_, ?_, ?_, ?_, ?_⟩
  · intro fuel hf
    unfold halfMinimize
    rw [ApplyEpsilonExpansion_expandedOf s.Reverse heR fuel (by omega)]
    exact ApplyPowersetConstruction_mono _ _ fuel (by omega) _ hD
  · exact powerset_HasEpsilon _ heE _ sets _ _ _ v hi D (by rw [hDeq])
  · rw [hDeq]
    exact TableOK_singletonTable _ hi.htableOK
  · intro n hn
    rw [hDeq] at hn
    simp only at hn
    rcases hn with hn | ⟨c, y, hn⟩
    · obtain ⟨i, _, _, _, rfl, _⟩ := (hi.haccept n).1 hn
      exact natToString_good i
    · rw [mem_tableDelta_singleton] at hn
      obtain ⟨i, _, _, rfl, _, _⟩ := hi.honly _ _ _ hn
      exact natToString_good i
  · intro w
    rw [powerset_Lang _ sets v hi h0 hgE D hDeq w, expandedOf_Lang _ hTR heR, Lang_Reverse s hT]

theorem Minimize_eq_half (fuel : Nat) (s : nfaMachine) :
    s.Minimize fuel =
      match halfMinimize fuel s with
      | none => none
      | some (Except.error err) => some (Except.error err)
      | some (Except.ok m) => halfMinimize fuel m := by
  unfold nfaMachine.Minimize halfMinimize
  cases s.Reverse.ApplyEpsilonExpansion fuel with
  | none => rfl
  | some e1 =>
    cases e1.ApplyPowersetConstruction fuel with
    | none => rfl
    | some r => cases r <;> rfl

theorem Minimize_spec (s : nfaMachine) (hT : TableOK s.transitions)
    (he : s.HasEpsilon = false) (hg : SourceNamesGood s) :
    ∃ fuel0 D, (∀ fuel, fuel0 ≤ fuel → s.Minimize fuel = some (Except.ok D)) ∧
      D.HasEpsilon = false ∧ TableOK D.transitions ∧ SourceNamesGood D ∧
      ∀ w, D.Lang w ↔ s.Lang w := by
  obtain ⟨D1, hD1, he1, hT1, hg1, hL1⟩ := halfMinimize_spec s hT he hg
  obtain ⟨D2, hD2, he2, hT2, hg2, hL2⟩ := halfMinimize_spec D1 hT1 he1 hg1
  refine ⟨max (max 1 (powersetBound (expandedOf s.Reverse)))
    (max 1 (powersetBound (expandedOf D1.Reverse))), D2, ?_, he2, hT2, hg2, ?_⟩
  · intro fuel hf
    rw [Minimize_eq_half, hD1 fuel (by omega)]
    exact hD2 fuel (by omega)
  · intro w
    rw [hL2, hL1, List.reverse_reverse]

/-! ## The machine returned by `Minimize` is reduced -/

theorem startPass_nodup (tr : NTrans) (snap : List String) (st : StringSet) (b : Bool)
    (h : st.Nodup) : (startPass tr snap st b).1.Nodup := by
  induction snap generalizing st b with
  | nil => exact h
  | cons a snap ih =>
    unfold startPass
    cases tableGet tr a Epsilon with
    | none => exact ih st b h
    | some u => exact ih _ _ (GoSet.nodup_Add _ _ h)

theorem startLoop_nodup (tr : NTrans) (fuel : Nat) (st r : StringSet) (h : st.Nodup)
    (hr : startLoop tr fuel st = some r) : r.Nodup := by
  induction fuel generalizing st with
  | zero => simp [startLoop] at hr
  | succ n ih =>
    simp only [startLoop] at hr
    have hp := startPass_nodup tr (GoSet.Unwrap st) st false h
    split at hr
    · exact ih _ hp hr
    · rw [Option.some.injEq] at hr
      exact hr ▸ hp

theorem ApplyEpsilonExpansion_start_nodup (fuel : Nat) (s e : nfaMachine)
    (h : s.ApplyEpsilonExpansion fuel = some e) : e.startStates.Nodup ∧ 1 ≤ fuel := by
  unfold nfaMachine.ApplyEpsilonExpansion at h
  cases h1 : ExpandEpsilon fuel s.transitions with
  | none => rw [h1] at h; cases h
  | some t =>
    rw [h1] at h
    simp only at h
    cases h2 : s.applyEpsilonToStartStates fuel with
    | none => rw [h2] at h; cases h
    | some st =>
      rw [h2] at h
      simp only [Option.some.injEq] at h
      subst h
      unfold nfaMachine.applyEpsilonToStartStates at h2
      refine ⟨GoSet.nodup_Del _ _ (startLoop_nodup _ _ _ _ (GoSet.nodup_New _) h2), ?_⟩
      cases fuel with
      | zero => simp [startLoop] at h2
      | succ n => omega

theorem Minimize_inv (fuel : Nat) (M D : nfaMachine)
    (h : M.Minimize fuel = some (Except.ok D)) :
    ∃ (e1 D1 : nfaMachine), e1.startStates.Nodup ∧
      e1.ApplyPowersetConstruction fuel = some (Except.ok D1) ∧
      halfMinimize fuel D1 = some (Except.ok D) ∧ 1 ≤ fuel := by
  rw [Minimize_eq_half] at h
  cases h1 : halfMinimize fuel M with
  | none => rw [h1] at h; cases h
  | some r =>
    rw [h1] at h
    cases r with
    | error err => cases h
    | ok D1 =>
      simp only at h
      unfold halfMinimize at h1
      cases h2 : M.Reverse.ApplyEpsilonExpansion fuel with
      | none => rw [h2] at h1; cases h1
      | some e1 =>
        rw [h2] at h1
        obtain ⟨hnd, hf⟩ := ApplyEpsilonExpansion_start_nodup fuel _ e1 h2
        exact ⟨e1, D1, hnd, h1, h, hf⟩

theorem zero_name : toString (0 : Nat) = "0" := rfl

theorem psFinal_reach (s : nfaMachine) (chars : RuneSet) (sets : List StringSet) (d : Nat)
    (cs : List Rune) (reg : Nat) (v : PowersetVars) (h : PowersetInv s chars sets d cs reg v)
    (j : Nat) (hj : j < sets.length) :
    ∃ w, Path (singletonTable v.transitions) "0" w (toString j) := by
  induction j using Nat.strong_induction_on with
  | _ j ih =>
    by_cases h0 : j = 0
    · subst h0
      exact ⟨[], Path.nil _⟩
    · obtain ⟨u, hu⟩ : ∃ u, sets[j]? = some u := ⟨sets[j], List.getElem?_eq_getElem hj⟩
      obtain ⟨i, c, hi, hg⟩ := h.hreach j u (by omega) hu
      obtain ⟨w, hw⟩ := ih i hi (by omega)
      exact ⟨w ++ [c], Path_snoc _ _ _ _ _ _ hw ((mem_tableDelta_singleton _ _ _ _).2 hg)⟩

theorem singleton_det (dt : GoMap String (GoMap Rune String)) (n : String) (c : Rune)
    (y1 y2 : String) (h1 : y1 ∈ tableDelta (singletonTable dt) n c)
    (h2 : y2 ∈ tableDelta (singletonTable dt) n c) : y1 = y2 := by
  rw [mem_tableDelta_singleton] at h1 h2
  rw [h1] at h2
  exact Option.some.inj h2

theorem Path_det (dt : GoMap String (GoMap Rune String)) (p q1 q2 : String) (w : List Rune)
    (h1 : Path (singletonTable dt) p w q1) (h2 : Path (singletonTable dt) p w q2) : q1 = q2 := by
  induction h1 with
  | nil p => cases h2; rfl
  | cons hstep _ ih =>
    cases h2 with
    | cons hstep2 hrest2 =>
      have := singleton_det _ _ _ _ _ hstep hstep2
      subst this
      exact ih hrest2

theorem Reverse_TableOK (X : nfaMachine) : TableOK X.Reverse.transitions :=
  TableOK_reverse X.transitions

theorem mem_tableDelta_Reverse (X : nfaMachine) (hT : TableOK X.transitions) (q : String)
    (c : Rune) (y : String) :
    y ∈ tableDelta X.Reverse.transitions q c ↔ q ∈ tableDelta X.transitions y c :=
  mem_tableDelta_reverse X.transitions hT q c y

theorem expRev_edge (X : nfaMachine) (hT : TableOK X.transitions) (he : X.HasEpsilon = false)
    (q : String) (c : Rune) (y : String) :
    y ∈ tableDelta (expandedOf X.Reverse).transitions q c ↔
      q ∈ tableDelta X.transitions y c ∧
        y ∉ uselessOf X.Reverse (expandExtract X.Reverse.transitions) := by
  have h := mem_tableDelta_expanded X.Reverse (Reverse_TableOK X) (Reverse_HasEpsilon X hT he) q c y
  rw [← mem_tableDelta_Reverse X hT]
  exact h

theorem expRev_target_kept (X : nfaMachine) (hT : TableOK X.transitions)
    (he : X.HasEpsilon = false) (p y : String) (x : Rune) (h : y ∈ tableDelta X.transitions p x) :
    y ∉ uselessOf X.Reverse (expandExtract X.Reverse.transitions) := by
  intro hu
  have hno := ((mem_uselessOf _ _ _).1 hu).2.2
  have hhas : mapHas (expandExtract X.Reverse.transitions) y = true := by
    rw [mapHas_expandExtract _ (Reverse_TableOK X)]
    have hrev : p ∈ tableDelta X.Reverse.transitions y x := (mem_tableDelta_Reverse X hT _ _ _).2 h
    obtain ⟨u, hu1, hu2⟩ := (mem_tableDelta _ _ _ _).1 hrev
    refine ⟨x, u, hu1, ?_, List.ne_nil_of_mem hu2⟩
    rintro rfl
    rw [tableGet_eps_none _ (Reverse_HasEpsilon X hT he) y] at hu1
    cases hu1
  rw [hhas] at hno
  cases hno

theorem expRev_path_back (X : nfaMachine) (hT : TableOK X.transitions)
    (he : X.HasEpsilon = false) (p d : String) (u : List Rune)
    (hp : Path X.transitions p u d)
    (hpu : p ∉ uselessOf X.Reverse (expandExtract X.Reverse.transitions)) :
    Path (expandedOf X.Reverse).transitions d u.reverse p := by
  induction hp with
  | nil p => exact Path.nil p
  | @cons p y q x w hstep _ ih =>
    rw [List.reverse_cons]
    have hy := expRev_target_kept X hT he p y x hstep
    exact Path_snoc _ _ _ _ _ _ (ih hy) ((expRev_edge X hT he y x p).2 ⟨hstep, hpu⟩)

theorem expRev_path_fwd (X : nfaMachine) (hT : TableOK X.transitions)
    (he : X.HasEpsilon = false) (a b : String) (z : List Rune)
    (hp : Path (expandedOf X.Reverse).transitions a z b) :
    Path X.transitions b z.reverse a :=
  Path_reverse _ _ (fun q c y hy => ((expRev_edge X hT he y c q).1 hy).1) _ _ _ hp

theorem powerset_IsSubsetMachine (s : nfaMachine) (hs : s.startStates.Nodup) (fuel : Nat)
    (D : nfaMachine) (h : s.ApplyPowersetConstruction fuel = some (Except.ok D)) :
    IsSubsetMachine D := by
  obtain ⟨he, sets, v, hi, h0, hD⟩ := powerset_inv s hs fuel D h
  subst hD
  have hsrc : ∀ n c y, y ∈ tableDelta (singletonTable v.transitions) n c →
      ∃ i, i < sets.length ∧ n = toString i ∧ c ∈ powersetChars s := by
    intro n c y hy
    rw [mem_tableDelta_singleton] at hy
    obtain ⟨i, t, ht, hn, hh, _⟩ := hi.honly _ _ _ hy
    exact ⟨i, getElem?_lt _ _ _ ht, hn, ((psFinal_handled _ _ _ _).1 hh).2⟩
  exact
    { eps := powerset_HasEpsilon s he _ sets _ _ _ v hi _ rfl
      table := TableOK_singletonTable _ hi.htableOK
      start := rfl
      det := fun n c y1 y2 h1 h2 => singleton_det _ _ _ _ _ h1 h2
      reach := by
        intro n hn
        have hnum : ∃ i, i < sets.length ∧ n = toString i := by
          rcases hn with hn | ⟨c, y, hn⟩ | hn
          · obtain ⟨i, t, hi1, _, hi2, _⟩ := (hi.haccept n).1 hn
            exact ⟨i, hi1, hi2⟩
          · obtain ⟨i, hi1, hi2, _⟩ := hsrc n c y hn
            exact ⟨i, hi1, hi2⟩
          · exact (hi.hstates n).1 hn
        obtain ⟨i, hi1, rfl⟩ := hnum
        exact psFinal_reach s _ sets _ _ _ v hi i hi1
      labels := fun n c y hy => by
        obtain ⟨_, _, _, hc⟩ := hsrc n c y hy
        exact hc
      names := by
        intro n hn
        rcases hn with hn | ⟨c, y, hn⟩
        · obtain ⟨i, _, _, _, rfl, _⟩ := (hi.haccept n).1 hn
          exact natToString_good i
        · obtain ⟨i, _, rfl, _⟩ := hsrc n c y hn
          exact natToString_good i
      statesNodup := hi.hstatesNodup }

theorem Path_det_of (X : nfaMachine) (hX : IsSubsetMachine X) (p q1 q2 : String)
    (w : List Rune) (h1 : Path X.transitions p w q1) (h2 : Path X.transitions p w q2) :
    q1 = q2 := by
  induction h1 with
  | nil p => cases h2; rfl
  | cons hstep _ ih =>
    cases h2 with
    | cons hstep2 hrest2 =>
      have := hX.det _ _ _ _ hstep hstep2
      subst this
      exact ih hrest2

theorem Path_labels (X : nfaMachine) (hX : IsSubsetMachine X) (p q : String) (w : List Rune)
    (h : Path X.transitions p w q) : ∀ x ∈ w, x ∈ X.chars := by
  induction h with
  | nil p => intro x hx; cases hx
  | cons hstep _ ih =>
    intro x hx
    rcases List.mem_cons.1 hx with rfl | hx
    · exact hX.labels _ _ _ hstep
    · exact ih x hx

theorem min_member_reached (X : nfaMachine) (hX : IsSubsetMachine X) (sets : List StringSet)
    (v : PowersetVars) (chars : RuneSet) (d : Nat) (cs : List Rune) (reg : Nat)
    (hi : PowersetInv (expandedOf X.Reverse) chars sets d cs reg v)
    (h0 : sets[0]? = some (expandedOf X.Reverse).startStates) (i : Nat) (t : StringSet)
    (ht : sets[i]? = some t) (y : String) (hy : y ∈ t) : ∃ u, Path X.transitions "0" u y := by
  cases i with
  | zero =>
    rw [h0] at ht
    cases ht
    have : y ∈ GoSet.Del (GoSet.Clone X.Reverse.startStates)
        (GoSet.Unwrap (uselessOf X.Reverse (expandExtract X.Reverse.transitions))) := hy
    rw [GoSet.mem_Del, GoSet.mem_Clone] at this
    have hacc : y ∈ X.acceptStates := (GoSet.mem_Clone _ _).1 this.1
    exact hX.reach y (Or.inl hacc)
  | succ i =>
    obtain ⟨t0, c, hu, _⟩ := hi.hfrom (i + 1) t (by omega) ht
    rw [hu, mem_powersetNext] at hy
    obtain ⟨p, _, hp⟩ := hy
    have hsrc := ((expRev_edge X hX.table hX.eps p c y).1 hp).1
    exact hX.reach y (Or.inr (Or.inl ⟨c, p, hsrc⟩))

theorem zero_not_useless (X : nfaMachine) (hX : IsSubsetMachine X) :
    "0" ∉ uselessOf X.Reverse (expandExtract X.Reverse.transitions) := by
  intro hu
  apply ((mem_uselessOf _ _ _).1 hu).2.1
  show "0" ∈ GoSet.Clone X.startStates
  rw [GoSet.mem_Clone, hX.start]
  exact List.mem_singleton_self _

theorem expRev_accept (X : nfaMachine) (hX : IsSubsetMachine X) (q : String) :
    q ∈ (expandedOf X.Reverse).acceptStates ↔ q = "0" := by
  show q ∈ GoSet.Clone (GoSet.Clone X.startStates) ↔ q = "0"
  rw [GoSet.mem_Clone, GoSet.mem_Clone, hX.start, List.mem_singleton]

theorem expRev_chars (X : nfaMachine) (hX : IsSubsetMachine X) (a b : String) (z : List Rune)
    (hp : Path (expandedOf X.Reverse).transitions a z b) :
    ∀ x ∈ z, x ∈ powersetChars (expandedOf X.Reverse) := by
  intro x hx
  by_cases hc : (expandedOf X.Reverse).chars = []
  · exact (mem_powersetChars_used _ hc x).2 (Path_symbols _ _ _ _ hp x hx)
  · rw [mem_powersetChars_declared _ hc]
    show x ∈ GoSet.Clone (GoSet.Clone X.chars)
    rw [GoSet.mem_Clone, GoSet.mem_Clone]
    have hback := expRev_path_fwd X hX.table hX.eps a b z hp
    exact Path_labels X hX _ _ _ hback x (List.mem_reverse.2 hx)

theorem min_separate (X : nfaMachine) (hX : IsSubsetMachine X) (sets : List StringSet)
    (v : PowersetVars)
    (hi : PowersetInv (expandedOf X.Reverse) (powersetChars (expandedOf X.Reverse)) sets
      sets.length [] sets.length v)
    (h0 : sets[0]? = some (expandedOf X.Reverse).startStates) (D : nfaMachine)
    (hDt : D.transitions = singletonTable v.transitions) (hDa : D.acceptStates = v.acceptStates)
    (i1 : Nat) (t1 : StringSet) (ht1 : sets[i1]? = some t1) (y : String) (hy1 : y ∈ t1) :
    ∃ z, LeadsToAccept D (toString i1) z ∧
      ∀ (i2 : Nat) (t2 : StringSet), sets[i2]? = some t2 → y ∉ t2 →
        ¬ LeadsToAccept D (toString i2) z := by
  have hg := GoodNames_expanded_reverse X hX.table hX.eps hX.names
  obtain ⟨u, hu⟩ := min_member_reached X hX sets v _ _ _ _ hi h0 i1 t1 ht1 y hy1
  have hback := expRev_path_back X hX.table hX.eps "0" y u hu (zero_not_useless X hX)
  refine ⟨u.reverse, ?_, ?_⟩
  · unfold LeadsToAccept
    rw [hDt, hDa]
    exact psFinal_bwd _ _ sets v hi h0 hg u.reverse y "0" hback
      ((expRev_accept X hX "0").2 rfl) (expRev_chars X hX _ _ _ hback) i1 t1 ht1 hy1
  · rintro i2 t2 ht2 hy2 ⟨q, hq, hpath⟩
    rw [hDt] at hpath
    rw [hDa] at hq
    obtain ⟨_, p, hp, q2, hq2, hpath2⟩ :=
      psFinal_fwd _ _ sets v hi h0 hg u.reverse (toString i2) q hpath hq i2 t2 ht2 rfl
    rw [expRev_accept X hX] at hq2
    subst hq2
    have hfwd := expRev_path_fwd X hX.table hX.eps p "0" u.reverse hpath2
    rw [List.reverse_reverse] at hfwd
    have := Path_det_of X hX _ _ _ _ hu hfwd
    subst this
    exact hy2 hp

theorem min_distinguish (X : nfaMachine) (hX : IsSubsetMachine X) (sets : List StringSet)
    (v : PowersetVars)
    (hi : PowersetInv (expandedOf X.Reverse) (powersetChars (expandedOf X.Reverse)) sets
      sets.length [] sets.length v)
    (h0 : sets[0]? = some (expandedOf X.Reverse).startStates) (D : nfaMachine)
    (hDt : D.transitions = singletonTable v.transitions) (hDa : D.acceptStates = v.acceptStates)
    (i1 i2 : Nat) (t1 t2 : StringSet) (ht1 : sets[i1]? = some t1) (ht2 : sets[i2]? = some t2)
    (hne : i1 ≠ i2) :
    ∃ z, (LeadsToAccept D (toString i1) z ∧ ¬ LeadsToAccept D (toString i2) z) ∨
      (LeadsToAccept D (toString i2) z ∧ ¬ LeadsToAccept D (toString i1) z) := by
  have hk : stringSetToString t1 ≠ stringSetToString t2 :=
    fun hc => hne (keys_index_unique sets hi.hkeys i1 i2 t1 t2 ht1 ht2 hc)
  have hmem : ¬ ∀ y, y ∈ t1 ↔ y ∈ t2 := fun hc =>
    hk (stringSetToString_of_mem t1 t2 (hi.hnodup t1 (List.getElem?_mem ht1))
      (hi.hnodup t2 (List.getElem?_mem ht2)) hc)
  push_neg at hmem
  obtain ⟨y, hy⟩ := hmem
  rcases hy with ⟨hy1, hy2⟩ | ⟨hy1, hy2⟩
  · obtain ⟨z, hz1, hz2⟩ := min_separate X hX sets v hi h0 D hDt hDa i1 t1 ht1 y hy1
    exact ⟨z, Or.inl ⟨hz1, hz2 i2 t2 ht2 hy2⟩⟩
  · obtain ⟨z, hz1, hz2⟩ := min_separate X hX sets v hi h0 D hDt hDa i2 t2 ht2 y hy2
    exact ⟨z, Or.inr ⟨hz1, hz2 i1 t1 ht1 hy1⟩⟩

theorem min_coaccessible (X : nfaMachine) (hX : IsSubsetMachine X) (sets : List StringSet)
    (v : PowersetVars)
    (hi : PowersetInv (expandedOf X.Reverse) (powersetChars (expandedOf X.Reverse)) sets
      sets.length [] sets.length v)
    (h0 : sets[0]? = some (expandedOf X.Reverse).startStates) (D : nfaMachine)
    (hDt : D.transitions = singletonTable v.transitions) (hDa : D.acceptStates = v.acceptStates)
    (i : Nat) (t : StringSet) (ht : sets[i]? = some t) (hne : t ≠ []) :
    ∃ z, LeadsToAccept D (toString i) z := by
  obtain ⟨y, hy⟩ := List.exists_mem_of_ne_nil t hne
  obtain ⟨z, hz, _⟩ := min_separate X hX sets v hi h0 D hDt hDa i t ht y hy
  exact ⟨z, hz⟩

/-! ## Counting states against any deterministic recogniser -/

theorem nerode_bound (L : List Rune → Prop) (S T : List String) (hS : S.Nodup)
    (u : String → List Rune) (Res : String → List Rune → Prop) (cls : List Rune → Option String)
    (h1 : ∀ n ∈ S, ∀ z, L (u n ++ z) ↔ Res n z)
    (h2 : ∀ n1 ∈ S, ∀ n2 ∈ S, n1 ≠ n2 → ∃ z, ¬ (Res n1 z ↔ Res n2 z))
    (h3 : (∀ n ∈ S, ∃ z, Res n z) ∨ S.length ≤ 1)
    (y1 : ∀ w a, cls w = some a → a ∈ T)
    (y2 : ∀ w1 w2 a, cls w1 = some a → cls w2 = some a → ∀ z, L (w1 ++ z) ↔ L (w2 ++ z))
    (y3 : ∀ w z, L (w ++ z) → ∃ a, cls w = some a)
    (y4 : ∃ a, cls [] = some a) : S.length ≤ T.length := by
  rcases h3 with h3 | h3
  · have hdef : ∀ n ∈ S, ∃ a, cls (u n) = some a := by
      intro n hn
      obtain ⟨z, hz⟩ := h3 n hn
      exact y3 (u n) z ((h1 n hn z).2 hz)
    have hinj : ∀ n1 ∈ S, ∀ n2 ∈ S,
        (cls (u n1)).getD "" = (cls (u n2)).getD "" → n1 = n2 := by
      intro n1 hn1 n2 hn2 heq
      by_contra hne
      obtain ⟨a1, ha1⟩ := hdef n1 hn1
      obtain ⟨a2, ha2⟩ := hdef n2 hn2
      rw [ha1, ha2] at heq
      simp only [Option.getD_some] at heq
      subst heq
      obtain ⟨z, hz⟩ := h2 n1 hn1 n2 hn2 hne
      apply hz
      rw [← h1 n1 hn1 z, ← h1 n2 hn2 z]
      exact y2 _ _ _ ha1 ha2 z
    have hnd : (S.map (fun n => (cls (u n)).getD "")).Nodup :=
      List.Nodup.map_on (fun n1 hn1 n2 hn2 h => hinj n1 hn1 n2 hn2 h) hS
    have hsub : S.map (fun n => (cls (u n)).getD "") ⊆ T := by
      intro a ha
      rw [List.mem_map] at ha
      obtain ⟨n, hn, rfl⟩ := ha
      obtain ⟨a, ha⟩ := hdef n hn
      rw [ha]
      exact y1 _ _ ha
    have := (List.subperm_of_subset hnd hsub).length_le
    rwa [List.length_map] at this
  · obtain ⟨a, ha⟩ := y4
    have hT : 0 < T.length := List.length_pos_of_mem (y1 _ _ ha)
    omega

theorem Path_append (tr : NTrans) (p m q : String) (w z : List Rune) (h1 : Path tr p w m)
    (h2 : Path tr m z q) : Path tr p (w ++ z) q := by
  induction h1 with
  | nil p => exact h2
  | cons hstep _ ih => exact Path.cons hstep (ih h2)

theorem Path_split (tr : NTrans) (p q : String) (w z : List Rune)
    (h : Path tr p (w ++ z) q) : ∃ m, Path tr p w m ∧ Path tr m z q := by
  induction w generalizing p with
  | nil => exact ⟨p, Path.nil p, h⟩
  | cons x w ih =>
    cases h with
    | cons hstep hrest =>
      obtain ⟨m, h1, h2⟩ := ih _ hrest
      exact ⟨m, Path.cons hstep h1, h2⟩

theorem Lang_iff_leads (X : nfaMachine) (hX : IsSubsetMachine X) (w : List Rune) :
    X.Lang w ↔ LeadsToAccept X "0" w := by
  unfold nfaMachine.Lang LeadsToAccept
  rw [hX.start]
  simp only [List.mem_singleton, exists_eq_left]
  constructor
  · exact fun h => h.2
  · rintro ⟨q, hq, hp⟩
    exact ⟨fun x hx => Or.inr (Path_labels X hX _ _ _ hp x hx), q, hq, hp⟩

theorem leads_after (X : nfaMachine) (hX : IsSubsetMachine X) (n : String) (u z : List Rune)
    (hu : Path X.transitions "0" u n) : X.Lang (u ++ z) ↔ LeadsToAccept X n z := by
  rw [Lang_iff_leads X hX]
  unfold LeadsToAccept
  constructor
  · rintro ⟨q, hq, hp⟩
    obtain ⟨m, h1, h2⟩ := Path_split _ _ _ _ _ hp
    have := Path_det_of X hX _ _ _ _ hu h1
    subst this
    exact ⟨q, hq, h2⟩
  · rintro ⟨q, hq, hp⟩
    exact ⟨q, hq, Path_append _ _ _ _ _ _ hu hp⟩

theorem psFinal_only_start (s : nfaMachine) (chars : RuneSet) (sets : List StringSet)
    (v : PowersetVars) (hi : PowersetInv s chars sets sets.length [] sets.length v)
    (h0 : sets[0]? = some []) : sets.length ≤ 1 := by
  have key : ∀ j, 0 < j → sets.length ≤ j := by
    intro j
    induction j using Nat.strong_induction_on with
    | _ j ih =>
      intro hj
      by_contra hlt
      have hj2 : j < sets.length := by omega
      obtain ⟨u, hu⟩ : ∃ u, sets[j]? = some u := ⟨sets[j], List.getElem?_eq_getElem hj2⟩
      obtain ⟨i, c, hij, hedge⟩ := hi.hreach j u hj hu
      obtain ⟨i2, t, ht, hn, _, hne⟩ := hi.honly _ _ _ hedge
      have := natToString_injective _ _ hn
      subst this
      by_cases hi0 : i = 0
      · subst hi0
        rw [h0] at ht
        cases ht
        exact hne rfl
      · have := ih i hij (by omega)
        have := getElem?_lt _ _ _ ht
        omega
  have := key 1 (by omega)
  omega

theorem states_length_of_numerals (l : List String) (n : Nat) (hnd : l.Nodup)
    (h : ∀ x, x ∈ l ↔ ∃ i : Nat, i < n ∧ x = toString i) : l.length = n := by
  have hnd2 : ((List.range n).map (fun i : Nat => toString i)).Nodup :=
    List.Nodup.map (fun a b hab => natToString_injective a b hab) (List.nodup_range n)
  have hp : l.Perm ((List.range n).map (fun i : Nat => toString i)) := by
    rw [List.perm_ext_iff_of_nodup hnd hnd2]
    intro x
    rw [h x, List.mem_map]
    constructor
    · rintro ⟨i, hi, rfl⟩
      exact ⟨i, List.mem_range.2 hi, rfl⟩
    · rintro ⟨i, hi, rfl⟩
      exact ⟨i, List.mem_range.1 hi, rfl⟩
  rw [hp.length_eq, List.length_map, List.length_range]

theorem Minimize_reduced (fuel : Nat) (M D : nfaMachine)
    (h : M.Minimize fuel = some (Except.ok D)) : IsReduced D := by
  obtain ⟨e1, X, he1, hps1, hhalf, hf⟩ := Minimize_inv fuel M D h
  have hX := powerset_IsSubsetMachine e1 he1 fuel X hps1
  unfold halfMinimize at hhalf
  rw [ApplyEpsilonExpansion_expandedOf X.Reverse (Reverse_HasEpsilon X hX.table hX.eps) fuel hf]
    at hhalf
  simp only at hhalf
  have hsE := expandedOf_start_nodup X.Reverse
  have hD := powerset_IsSubsetMachine _ hsE fuel D hhalf
  obtain ⟨_, sets, v, hi, h0, hDeq⟩ := powerset_inv _ hsE fuel D hhalf
  have hDt : D.transitions = singletonTable v.transitions := by rw [hDeq]
  have hDa : D.acceptStates = v.acceptStates := by rw [hDeq]
  have hDs : D.states = v.states := by rw [hDeq]
  have hlen : 0 < sets.length := getElem?_lt _ _ _ h0
  have hnum : ∀ n ∈ D.states, ∃ (i : Nat) (t : StringSet), sets[i]? = some t ∧ n = toString i := by
    intro n hn
    rw [hDs] at hn
    obtain ⟨i, hi1, hi2⟩ := (hi.hstates n).1 hn
    exact ⟨i, sets[i], List.getElem?_eq_getElem hi1, hi2⟩
  refine
    { sub := hD
      cur := by rw [hDeq]; rfl
      start0 := ?_
      closed := ?_
      distinct := ?_
      coacc := ?_ }
  · rw [hDs, hi.hstates]
    exact ⟨0, hlen, rfl⟩
  · intro n c y hy
    rw [hDt, mem_tableDelta_singleton] at hy
    obtain ⟨i, t, ht, hn, hh, hne⟩ := hi.honly _ _ _ hy
    obtain ⟨j, u, hu, _, hj⟩ := hi.hedge i t c ht hh hne
    rw [← hn, hy] at hj
    rw [hDs, hi.hstates]
    exact ⟨j, getElem?_lt _ _ _ hu, Option.some.inj hj⟩
  · intro n1 hn1 n2 hn2 hne
    obtain ⟨i1, t1, ht1, rfl⟩ := hnum n1 hn1
    obtain ⟨i2, t2, ht2, rfl⟩ := hnum n2 hn2
    exact min_distinguish X hX sets v hi h0 D hDt hDa i1 i2 t1 t2 ht1 ht2
      (fun hc => hne (by rw [hc]))
  · by_cases hs : (expandedOf X.Reverse).startStates = []
    · right
      rw [hs] at h0
      have h1 := psFinal_only_start _ _ sets v hi h0
      rw [hDs, states_length_of_numerals v.states sets.length hi.hstatesNodup hi.hstates]
      exact h1
    · left
      intro n hn
      obtain ⟨i, t, ht, rfl⟩ := hnum n hn
      have hne : t ≠ [] := by
        by_cases hi0 : i = 0
        · subst hi0
          rw [h0] at ht
          cases ht
          exact hs
        · obtain ⟨_, _, _, hne⟩ := hi.hfrom i t (by omega) ht
          exact hne
      exact min_coaccessible X hX sets v hi h0 D hDt hDa i t ht hne

theorem reduced_le (D : nfaMachine) (hD : IsReduced D) (T : List String)
    (cls : List Rune → Option String)
    (y1 : ∀ w a, cls w = some a → a ∈ T)
    (y2 : ∀ w1 w2 a, cls w1 = some a → cls w2 = some a →
      ∀ z, D.Lang (w1 ++ z) ↔ D.Lang (w2 ++ z))
    (y3 : ∀ w z, D.Lang (w ++ z) → ∃ a, cls w = some a)
    (y4 : ∃ a, cls [] = some a) : D.states.length ≤ T.length := by
  classical
  have hacc : ∀ n, ∃ u, n ∈ D.states → Path D.transitions "0" u n := by
    intro n
    by_cases hn : n ∈ D.states
    · obtain ⟨u, hu⟩ := hD.sub.reach n (Or.inr (Or.inr hn))
      exact ⟨u, fun _ => hu⟩
    · exact ⟨[], fun h => absurd h hn⟩
  choose u hu using hacc
  refine nerode_bound D.Lang D.states T hD.sub.statesNodup u (LeadsToAccept D) cls ?_ ?_
    hD.coacc y1 y2 y3 y4
  · intro n hn z
    exact leads_after D hD.sub n (u n) z (hu n hn)
  · intro n1 hn1 n2 hn2 hne
    obtain ⟨z, hz⟩ := hD.distinct n1 hn1 n2 hn2 hne
    refine ⟨z, fun hiff => ?_⟩
    rcases hz with ⟨ha, hb⟩ | ⟨ha, hb⟩
    · exact hb (hiff.1 ha)
    · exact hb (hiff.2 ha)

theorem Path_closed (D : nfaMachine) (hD : IsReduced D) (p q : String) (w : List Rune)
    (hp : p ∈ D.states) (h : Path D.transitions p w q) : q ∈ D.states := by
  induction h with
  | nil p => exact hp
  | cons hstep _ ih => exact ih (hD.closed _ _ _ hstep)

theorem reduced_le_reduced (D E : nfaMachine) (hD : IsReduced D) (hE : IsReduced E)
    (hL : ∀ w, D.Lang w ↔ E.Lang w) : D.states.length ≤ E.states.length := by
  classical
  refine reduced_le D hD E.states
    (fun w => if h : ∃ q, Path E.transitions "0" w q then some (Classical.choose h) else none)
    ?_ ?_ ?_ ?_
  · intro w a ha
    beta_reduce at ha
    by_cases h : ∃ q, Path E.transitions "0" w q
    · rw [dif_pos h] at ha
      cases ha
      exact Path_closed E hE _ _ _ hE.start0 (Classical.choose_spec h)
    · rw [dif_neg h] at ha
      cases ha
  · intro w1 w2 a h1 h2 z
    beta_reduce at h1 h2
    by_cases c1 : ∃ q, Path E.transitions "0" w1 q
    · by_cases c2 : ∃ q, Path E.transitions "0" w2 q
      · rw [dif_pos c1] at h1
        rw [dif_pos c2] at h2
        have p1 := Classical.choose_spec c1
        have p2 := Classical.choose_spec c2
        rw [Option.some.inj h1] at p1
        rw [Option.some.inj h2] at p2
        rw [hL, hL, leads_after E hE.sub a w1 z p1, leads_after E hE.sub a w2 z p2]
      · rw [dif_neg c2] at h2
        cases h2
    · rw [dif_neg c1] at h1
      cases h1
  · intro w z hw
    rw [hL, Lang_iff_leads E hE.sub] at hw
    obtain ⟨q, _, hp⟩ := hw
    obtain ⟨m, hm, _⟩ := Path_split _ _ _ _ _ hp
    exact ⟨_, dif_pos ⟨m, hm⟩⟩
  · exact ⟨_, dif_pos ⟨"0", Path.nil _⟩⟩

theorem reduced_same_size (D E : nfaMachine) (hD : IsReduced D) (hE : IsReduced E)
    (hL : ∀ w, D.Lang w ↔ E.Lang w) : D.states.length = E.states.length :=
  Nat.le_antisymm (reduced_le_reduced D E hD hE hL)
    (reduced_le_reduced E D hE hD (fun w => (hL w).symm))

theorem dfaPut_ok (s s1 : dfaMachine) (x : Rune) (h : s.Put x = (s1, none)) :
    ∃ q, s.delta s.currentState x = some q ∧ s1 = { s with currentState := q } := by
  by_cases hc : s.chars ≠ [] ∧ x ∉ s.chars
  · rw [dfaPut_invalid s x hc] at h
    cases h
  · rw [dfaPut_valid s x hc] at h
    cases hd : s.delta s.currentState x with
    | none => rw [hd] at h; cases h
    | some q =>
      rw [hd] at h
      simp only [Prod.mk.injEq, and_true] at h
      exact ⟨q, rfl, h.symm⟩

theorem dfaPutAll_append (s : dfaMachine) (w z : List Rune) :
    dfaMachine.putAll s (w ++ z) = (dfaMachine.putAll s w).bind (fun m => dfaMachine.putAll m z) := by
  induction w generalizing s with
  | nil => rfl
  | cons x w ih =>
    simp only [List.cons_append, dfaMachine.putAll]
    rcases hp : s.Put x with ⟨s1, _ | e⟩
    · exact ih s1
    · rfl

theorem dfaPutAll_shape (s m : dfaMachine) (w : List Rune)
    (hcl : ∀ p c q, s.delta p c = some q → q ∈ s.states) (h0 : s.currentState ∈ s.states)
    (h : dfaMachine.putAll s w = some m) :
    m = { s with currentState := m.currentState } ∧ m.currentState ∈ s.states := by
  induction w generalizing s with
  | nil =>
    simp only [dfaMachine.putAll, Option.some.injEq] at h
    subst h
    exact ⟨rfl, h0⟩
  | cons x w ih =>
    simp only [dfaMachine.putAll] at h
    rcases hp : s.Put x with ⟨s1, _ | e⟩
    · rw [hp] at h
      obtain ⟨q, hq, rfl⟩ := dfaPut_ok s s1 x hp
      have := ih { s with currentState := q } hcl (hcl _ _ _ hq) h
      exact this
    · rw [hp] at h
      cases h

theorem dfaBuild_closed (b : dfaMachineBuilder) (A : dfaMachine) (h : b.Build = Except.ok A) :
    A.startState ∈ A.states ∧ ∀ p c q, A.delta p c = some q → q ∈ A.states := by
  unfold dfaMachineBuilder.Build at h
  simp only at h
  split at h
  · cases h
  · rename_i h1
    split at h
    · cases h
    · split at h
      · cases h
      · rename_i h3
        rw [Bool.or_eq_true, not_or, Bool.not_eq_true', Bool.not_eq_false] at h3
        have hbad := (dfaBuild_statesCheck b).1 h3.1
        rw [Bool.not_eq_true', Bool.not_eq_false, GoSet.In_single] at h1
        cases h
        refine ⟨h1, ?_⟩
        intro p c q hd
        show q ∈ NewStringSet b.states
        unfold dfaMachine.delta at hd
        change (mapGet b.transitions p).bind (fun t => mapGet t c) = some q at hd
        cases ht : mapGet b.transitions p with
        | none => rw [ht] at hd; cases hd
        | some t =>
          rw [ht] at hd
          change mapGet t c = some q at hd
          have hm1 := mapGet_mem _ _ _ ht
          have hm2 := mapGet_mem _ _ _ hd
          by_contra hq
          apply hbad
          refine ⟨(p, t), hm1, List.ne_nil_of_mem hm2, Or.inr ⟨(c, q), hm2, ?_⟩⟩
          exact fun hc => hq ((GoSet.mem_New _ _).2 hc)

theorem reduced_le_dfa (D : nfaMachine) (hD : IsReduced D) (b : dfaMachineBuilder)
    (A : dfaMachine) (hb : b.Build = Except.ok A)
    (hL : ∀ w, A.accepts w = true ↔ D.Lang w) : D.states.length ≤ A.states.length := by
  obtain ⟨hst, hcl⟩ := dfaBuild_closed b A hb
  have hshape : ∀ w m, dfaMachine.putAll A.Reset w = some m →
      m = { A with currentState := m.currentState } ∧ m.currentState ∈ A.states := by
    intro w m hm
    exact dfaPutAll_shape A.Reset m w hcl hst hm
  refine reduced_le D hD A.states
    (fun w => (dfaMachine.putAll A.Reset w).map (fun m => m.currentState)) ?_ ?_ ?_ ?_
  · intro w a ha
    beta_reduce at ha
    cases hm : dfaMachine.putAll A.Reset w with
    | none => rw [hm] at ha; cases ha
    | some m =>
      rw [hm] at ha
      cases ha
      exact (hshape w m hm).2
  · intro w1 w2 a h1 h2 z
    beta_reduce at h1 h2
    cases hm1 : dfaMachine.putAll A.Reset w1 with
    | none => rw [hm1] at h1; cases h1
    | some m1 =>
      cases hm2 : dfaMachine.putAll A.Reset w2 with
      | none => rw [hm2] at h2; cases h2
      | some m2 =>
        rw [hm1] at h1
        rw [hm2] at h2
        simp only [Option.map_some', Option.some.injEq] at h1 h2
        have e1 := (hshape w1 m1 hm1).1
        have e2 := (hshape w2 m2 hm2).1
        rw [h1] at e1
        rw [h2] at e2
        have e : m1 = m2 := by rw [e1, e2]
        rw [← hL, ← hL]
        unfold dfaMachine.accepts
        rw [dfaPutAll_append, dfaPutAll_append, hm1, hm2, e]
  · intro w z hw
    rw [← hL] at hw
    unfold dfaMachine.accepts at hw
    rw [dfaPutAll_append] at hw
    cases hm : dfaMachine.putAll A.Reset w with
    | none =>
      rw [hm] at hw
      simp at hw
    | some m =>
      refine ⟨m.currentState, ?_⟩
      beta_reduce
      rw [hm]
      rfl
  · exact ⟨A.startState, rfl⟩

theorem singleton_of_all_eq (l : List String) (y : String) (hnd : l.Nodup) (hy : y ∈ l)
    (hall : ∀ z ∈ l, z = y) : l = [y] := by
  cases l with
  | nil => cases hy
  | cons a l =>
    have ha : a = y := hall a (List.mem_cons_self _ _)
    subst ha
    cases l with
    | nil => rfl
    | cons b l =>
      exfalso
      have hb : b = a := hall b (List.mem_cons_of_mem _ (List.mem_cons_self _ _))
      subst hb
      exact (List.nodup_cons.1 hnd).1 (List.mem_cons_self _ _)

theorem det_putNext (D : nfaMachine) (hD : IsSubsetMachine D) (p y : String) (x : Rune)
    (h : y ∈ tableDelta D.transitions p x) : putNext D.transitions [p] x = [y] := by
  apply singleton_of_all_eq _ _ (nodup_putNext _ _ _)
  · rw [mem_putNext]
    exact ⟨p, List.mem_singleton_self _, h⟩
  · intro z hz
    rw [mem_putNext] at hz
    obtain ⟨q, hq, hz⟩ := hz
    rw [List.mem_singleton] at hq
    subst hq
    exact hD.det _ _ _ _ hz h

theorem det_putAll (D : nfaMachine) (hD : IsSubsetMachine D) (fuel : Nat) (p q : String)
    (w : List Rune) (h : Path D.transitions p w q) :
    nfaMachine.putAll fuel { D with currentStates := [p] } w =
      some (some { D with currentStates := [q] }) := by
  induction h with
  | nil p => rfl
  | @cons p y q x w hstep _ ih =>
    have hput := nfaPut_epsfree fuel { D with currentStates := [p] } x hD.eps
      (fun hc => hc.2 (hD.labels _ _ _ hstep)) (by simp)
    have hn : putNext D.transitions [p] x = [y] := det_putNext D hD p y x hstep
    simp only [hn] at hput
    unfold nfaMachine.putAll
    rw [hput]
    exact ih

theorem Reset_reduced (D : nfaMachine) (hD : IsSubsetMachine D) :
    D.Reset = { D with currentStates := ["0"] } := by
  unfold nfaMachine.Reset
  rw [hD.start]
  rfl

theorem reach_code (D : nfaMachine) (hD : IsReduced D) (n : String) (hn : n ∈ D.states) :
    ∃ u, ∀ fuel, ∃ m, nfaMachine.putAll fuel D.Reset u = some (some m) ∧ m.States = [n] := by
  obtain ⟨u, hu⟩ := hD.sub.reach n (Or.inr (Or.inr hn))
  refine ⟨u, fun fuel => ⟨{ D with currentStates := [n] }, ?_, rfl⟩⟩
  rw [Reset_reduced D hD.sub]
  exact det_putAll D hD.sub fuel _ _ _ hu

theorem acceptsFrom_iff (D : nfaMachine) (hD : IsSubsetMachine D) (fuel : Nat) (n : String)
    (hn : n ∈ D.states) (z : List Rune) :
    ∃ v, D.acceptsFrom fuel n z = some v ∧ (v = true ↔ LeadsToAccept D n z) := by
  have hset : D.SetStates [n] = ({ D with currentStates := [n] }, none) := by
    unfold nfaMachine.SetStates
    have hin : GoSet.In D.states (GoSet.Unwrap (NewStringSet [n])) = true := by
      rw [GoSet.In_iff]
      intro y hy
      have : y = n := by simpa [NewStringSet, GoSet.Unwrap, GoSet.mem_New] using hy
      rw [this]
      exact hn
    simp only [hin, Bool.not_true, Bool.false_eq_true, if_false]
    rfl
  obtain ⟨r, hr, hiff⟩ := putAll_epsfree fuel { D with currentStates := [n] } hD.eps z
  unfold nfaMachine.acceptsFrom
  rw [hset]
  simp only [hr, Option.map_some']
  refine ⟨_, rfl, ?_⟩
  have hR : ((∀ x ∈ z, nfaMachine.admits { D with currentStates := [n] } x) ∧
      ∃ p ∈ [n], ∃ q ∈ D.acceptStates, Path D.transitions p z q) ↔ LeadsToAccept D n z := by
    unfold LeadsToAccept
    simp only [List.mem_singleton, exists_eq_left]
    constructor
    · exact fun h => h.2
    · rintro ⟨q, hq, hp⟩
      exact ⟨fun x hx => Or.inr (Path_labels D hD _ _ _ hp x hx), q, hq, hp⟩
  rw [← hR, ← hiff]
  cases r with
  | none => simp
  | some m => simp

theorem distinguish_code (D : nfaMachine) (hD : IsReduced D) (n1 n2 : String)
    (h1 : n1 ∈ D.states) (h2 : n2 ∈ D.states) (hne : n1 ≠ n2) :
    ∃ z, ∀ fuel, ∃ v, D.acceptsFrom fuel n1 z = some v ∧ D.acceptsFrom fuel n2 z = some (!v) := by
  obtain ⟨z, hz⟩ := hD.distinct n1 h1 n2 h2 hne
  refine ⟨z, fun fuel => ?_⟩
  obtain ⟨v1, hv1, hi1⟩ := acceptsFrom_iff D hD.sub fuel n1 h1 z
  obtain ⟨v2, hv2, hi2⟩ := acceptsFrom_iff D hD.sub fuel n2 h2 z
  refine ⟨v1, hv1, ?_⟩
  rw [hv2]
  congr 1
  rcases hz with ⟨ha, hb⟩ | ⟨ha, hb⟩
  · have e1 : v1 = true := hi1.2 ha
    have e2 : v2 = false := by
      cases v2 with
      | false => rfl
      | true => exact absurd (hi2.1 rfl) hb
    rw [e1, e2]; rfl
  · have e2 : v2 = true := hi2.2 ha
    have e1 : v1 = false := by
      cases v1 with
      | false => rfl
      | true => exact absurd (hi1.1 rfl) hb
    rw [e1, e2]; rfl

theorem accepts_iff_Lang (D : nfaMachine) (he : D.HasEpsilon = false) (fuel : Nat)
    (w : List Rune) (v : Bool) (h : D.accepts fuel w = some v) : v = true ↔ D.Lang w := by
  obtain ⟨b, hb, hiff⟩ := accepts_epsfree fuel D he w
  rw [hb] at h
  cases h
  exact hiff

theorem IsDFA_singletonTable (D : nfaMachine) (he : D.HasEpsilon = false)
    (hs : D.startStates = ["0"]) (dt : GoMap String (GoMap Rune String))
    (ht : D.transitions = singletonTable dt) : D.IsDFA = true := by
  unfold nfaMachine.IsDFA
  rw [he, hs, ht]
  simp only [GoSet.Len, List.length_singleton, ne_eq, not_true_eq_false, decide_False,
    Bool.or_self, Bool.false_eq_true, if_false, singletonTable, List.all_map, List.all_eq_true,
    Function.comp_apply, decide_eq_true_eq]
  intro e he2 r hr
  rw [List.mem_map] at he2
  obtain ⟨e0, _, rfl⟩ := he2
  rw [List.mem_map] at hr
  obtain ⟨r0, _, rfl⟩ := hr
  rfl

theorem nfaCollectRow_CollectOK (state : String) (acc : NfaCollect)
    (v : GoMap Rune (List String)) (h : CollectOK acc) :
    CollectOK (nfaCollectRow state acc v) := by
  unfold nfaCollectRow
  induction v generalizing acc with
  | nil => exact h
  | cons e v ih =>
    rw [List.foldl_cons]
    apply ih
    split
    · exact h
    · intro e1 he1 r hr
      simp only at he1 ⊢
      have hold : ∀ r ∈ (mapGet acc.transitions state).getD [],
          r.1 ∈ acc.tChars ∧ ∀ y ∈ r.2, y ∈ acc.tStates := by
        intro r hr
        cases hg : mapGet acc.transitions state with
        | none => rw [hg] at hr; cases hr
        | some row =>
          rw [hg] at hr
          exact h (state, row) (mapGet_mem _ _ _ hg) r hr
      have hmono : ∀ r : Rune × StringSet, (r.1 ∈ acc.tChars ∧ ∀ y ∈ r.2, y ∈ acc.tStates) →
          (r.1 ∈ GoSet.Add acc.tChars [e.1] ∧ ∀ y ∈ r.2, y ∈ GoSet.Add acc.tStates e.2) := by
        intro r hr
        exact ⟨(GoSet.mem_Add _ _ _).2 (Or.inl hr.1),
          fun y hy => (GoSet.mem_Add _ _ _).2 (Or.inl (hr.2 y hy))⟩
      rcases mem_mapSet_elim _ _ _ _ he1 with rfl | he1
      · rcases mem_mapSet_elim _ _ _ _ hr with rfl | hr
        · refine ⟨(GoSet.mem_Add _ _ _).2 (Or.inr (List.mem_singleton_self _)), ?_⟩
          intro y hy
          exact (GoSet.mem_Add _ _ _).2 (Or.inr ((GoSet.mem_New _ _).1 hy))
        · exact hmono r (hold r hr)
      · exact hmono r (h e1 he1 r hr)

theorem nfaCollect_CollectOK (tr : GoMap String (GoMap Rune (List String))) :
    CollectOK (nfaCollect tr) := by
  unfold nfaCollect
  have key : ∀ (acc : NfaCollect), CollectOK acc →
      CollectOK (tr.foldl (fun acc e =>
        if e.2.length = 0 then acc
        else
          nfaCollectRow e.1
            { acc with
              tStates := GoSet.Add acc.tStates [e.1]
              transitions := mapSet acc.transitions e.1 [] } e.2) acc) := by
    induction tr with
    | nil => intro acc h; exact h
    | cons e tr ih =>
      intro acc h
      rw [List.foldl_cons]
      apply ih
      split
      · exact h
      · apply nfaCollectRow_CollectOK
        intro e1 he1 r hr
        rcases mem_mapSet_elim _ _ _ _ he1 with rfl | he1
        · cases hr
        · have := h e1 he1 r hr
          exact ⟨this.1, fun y hy => (GoSet.mem_Add _ _ _).2 (Or.inl (this.2 y hy))⟩
  exact key _ (fun e he => by cases he)

theorem nfaBuild_checks (b : nfaMachineBuilder) (m : nfaMachine) (h : b.Build = Except.ok m) :
    (∀ y ∈ m.startStates, y ∈ m.states) ∧
    (∀ y ∈ m.acceptStates, y ∈ m.states) ∧
    (∀ q c y, y ∈ tableDelta m.transitions q c → y ∈ m.states ∧ m.admits c) := by
  unfold nfaMachineBuilder.Build at h
  simp only at h
  split at h
  · cases h
  · rename_i h1
    split at h
    · cases h
    · rename_i h2
      split at h
      · cases h
      · rename_i h3
        rw [Bool.not_eq_true', Bool.not_eq_false, GoSet.In_iff] at h1 h2
        rw [Bool.or_eq_true, not_or, Bool.not_eq_true', Bool.not_eq_false, GoSet.In_iff] at h3
        have hc := nfaCollect_CollectOK b.transitions
        cases h
        refine ⟨?_, ?_, ?_⟩
        · intro y hy
          exact h1 y ((GoSet.mem_New _ _).1 hy)
        · intro y hy
          exact h2 y ((GoSet.mem_New _ _).1 hy)
        · intro q c y hy
          rw [mem_tableDelta] at hy
          obtain ⟨u, hu, hyu⟩ := hy
          unfold tableGet at hu
          simp only at hu
          cases hrow : mapGet (nfaCollect b.transitions).transitions q with
          | none => rw [hrow] at hu; cases hu
          | some row =>
            rw [hrow] at hu
            have hcell := hc (q, row) (mapGet_mem _ _ _ hrow) (c, u) (mapGet_mem _ _ _ hu)
            refine ⟨h3.1 y (hcell.2 y hyu), ?_⟩
            unfold nfaMachine.admits
            simp only
            by_cases hne : NewRuneSet b.chars = []
            · exact Or.inl hne
            · right
              have h4 := h3.2
              rw [Bool.and_eq_true, not_and, decide_eq_true_eq, Bool.not_eq_true',
                Bool.not_eq_false, GoSet.In_iff] at h4
              exact h4 (by
                unfold GoSet.Len
                exact List.length_pos.2 hne) c hcell.1

theorem Path_det_gen (tr : NTrans)
    (hdet : ∀ n c y1 y2, y1 ∈ tableDelta tr n c → y2 ∈ tableDelta tr n c → y1 = y2)
    (p q1 q2 : String) (w : List Rune) (h1 : Path tr p w q1) (h2 : Path tr p w q2) :
    q1 = q2 := by
  induction h1 with
  | nil p => cases h2; rfl
  | cons hstep _ ih =>
    cases h2 with
    | cons hstep2 hrest2 =>
      have := hdet _ _ _ _ hstep hstep2
      subst this
      exact ih hrest2

theorem Path_inv_gen (E : nfaMachine)
    (hcl : ∀ q c y, y ∈ tableDelta E.transitions q c → y ∈ E.states ∧ E.admits c)
    (p q : String) (w : List Rune) (hp : p ∈ E.states) (h : Path E.transitions p w q) :
    q ∈ E.states ∧ ∀ x ∈ w, E.admits x := by
  induction h with
  | nil p => exact ⟨hp, fun x hx => by cases hx⟩
  | cons hstep _ ih =>
    have h1 := hcl _ _ _ hstep
    have h2 := ih h1.1
    refine ⟨h2.1, ?_⟩
    intro x hx
    rcases List.mem_cons.1 hx with rfl | hx
    · exact h1.2
    · exact h2.2 x hx

theorem Lang_after_gen (E : nfaMachine) (s0 : String) (hs : E.startStates = [s0])
    (h0 : s0 ∈ E.states)
    (hdet : ∀ n c y1 y2, y1 ∈ tableDelta E.transitions n c →
      y2 ∈ tableDelta E.transitions n c → y1 = y2)
    (hcl : ∀ q c y, y ∈ tableDelta E.transitions q c → y ∈ E.states ∧ E.admits c)
    (a : String) (u z : List Rune) (hu : Path E.transitions s0 u a) :
    E.Lang (u ++ z) ↔ ((∀ x ∈ z, E.admits x) ∧ ∃ q ∈ E.acceptStates, Path E.transitions a z q) := by
  unfold nfaMachine.Lang
  rw [hs]
  simp only [List.mem_singleton, exists_eq_left, List.mem_append]
  have hadm := (Path_inv_gen E hcl _ _ _ h0 hu).2
  constructor
  · rintro ⟨h1, q, hq, hp⟩
    obtain ⟨m, hm1, hm2⟩ := Path_split _ _ _ _ _ hp
    have := Path_det_gen _ hdet _ _ _ _ hu hm1
    subst this
    exact ⟨fun x hx => h1 x (Or.inr hx), q, hq, hm2⟩
  · rintro ⟨h1, q, hq, hp⟩
    refine ⟨?_, q, hq, Path_append _ _ _ _ _ _ hu hp⟩
    rintro x (hx | hx)
    · exact hadm x hx
    · exact h1 x hx

theorem reduced_le_det (D E : nfaMachine) (hD : IsReduced D) (s0 : String)
    (hs : E.startStates = [s0]) (h0 : s0 ∈ E.states)
    (hdet : ∀ n c y1 y2, y1 ∈ tableDelta E.transitions n c →
      y2 ∈ tableDelta E.transitions n c → y1 = y2)
    (hcl : ∀ q c y, y ∈ tableDelta E.transitions q c → y ∈ E.states ∧ E.admits c)
    (hL : ∀ w, D.Lang w ↔ E.Lang w) : D.states.length ≤ E.states.length := by
  classical
  refine reduced_le D hD E.states
    (fun w => if h : ∃ q, Path E.transitions s0 w q then some (Classical.choose h) else none)
    ?_ ?_ ?_ ?_
  · intro w a ha
    beta_reduce at ha
    by_cases h : ∃ q, Path E.transitions s0 w q
    · rw [dif_pos h] at ha
      cases ha
      exact (Path_inv_gen E hcl _ _ _ h0 (Classical.choose_spec h)).1
    · rw [dif_neg h] at ha
      cases ha
  · intro w1 w2 a h1 h2 z
    beta_reduce at h1 h2
    by_cases c1 : ∃ q, Path E.transitions s0 w1 q
    · by_cases c2 : ∃ q, Path E.transitions s0 w2 q
      · rw [dif_pos c1] at h1
        rw [dif_pos c2] at h2
        have p1 := Classical.choose_spec c1
        have p2 := Classical.choose_spec c2
        rw [Option.some.inj h1] at p1
        rw [Option.some.inj h2] at p2
        rw [hL, hL, Lang_after_gen E s0 hs h0 hdet hcl a w1 z p1,
          Lang_after_gen E s0 hs h0 hdet hcl a w2 z p2]
      · rw [dif_neg c2] at h2
        cases h2
    · rw [dif_neg c1] at h1
      cases h1
  · intro w z hw
    rw [hL] at hw
    obtain ⟨_, p, hp, q, _, hpath⟩ := hw
    rw [hs, List.mem_singleton] at hp
    subst hp
    obtain ⟨m, hm, _⟩ := Path_split _ _ _ _ _ hpath
    exact ⟨_, dif_pos ⟨m, hm⟩⟩
  · exact ⟨_, dif_pos ⟨s0, Path.nil _⟩⟩

theorem IsDFA_parts (E : nfaMachine) (h : E.IsDFA = true) :
    E.HasEpsilon = false ∧ (∃ s0, E.startStates = [s0]) ∧
    ∀ n c y1 y2, y1 ∈ tableDelta E.transitions n c →
      y2 ∈ tableDelta E.transitions n c → y1 = y2 := by
  unfold nfaMachine.IsDFA at h
  split at h
  · cases h
  · rename_i hc
    rw [Bool.or_eq_true, not_or, Bool.not_eq_true, decide_eq_true_eq, not_not] at hc
    refine ⟨hc.1, ?_, ?_⟩
    · have hl : E.startStates.length = 1 := hc.2
      match hE : E.startStates, hl with
      | [s0], _ => exact ⟨s0, rfl⟩
    · intro n c y1 y2 h1 h2
      rw [mem_tableDelta] at h1 h2
      obtain ⟨u, hu, hy1⟩ := h1
      obtain ⟨u2, hu2, hy2⟩ := h2
      rw [hu] at hu2
      cases hu2
      unfold tableGet at hu
      cases hrow : mapGet E.transitions n with
      | none => rw [hrow] at hu; cases hu
      | some row =>
        rw [hrow] at hu
        simp only at hu
        rw [List.all_eq_true] at h
        have h1 := h (n, row) (mapGet_mem _ _ _ hrow)
        rw [List.all_eq_true] at h1
        have h2 := h1 (c, u) (mapGet_mem _ _ _ hu)
        rw [decide_eq_true_eq] at h2
        have hl : u.length = 1 := h2
        match u, hl, hy1, hy2 with
        | [a], _, hy1, hy2 =>
          rw [List.mem_singleton] at hy1 hy2
          rw [hy1, hy2]

theorem reduced_le_nfa (D : nfaMachine) (hD : IsReduced D) (b : nfaMachineBuilder)
    (E : nfaMachine) (hb : b.Build = Except.ok E) (hdfa : E.IsDFA = true)
    (hL : ∀ w, D.Lang w ↔ E.Lang w) : D.states.length ≤ E.states.length := by
  obtain ⟨_, ⟨s0, hs⟩, hdet⟩ := IsDFA_parts E hdfa
  obtain ⟨hst, _, hcl⟩ := nfaBuild_checks b E hb
  exact reduced_le_det D E hD s0 hs (hst s0 (by rw [hs]; exact List.mem_singleton_self _))
    hdet hcl hL

theorem Minimize_IsDFA (fuel : Nat) (M D : nfaMachine)
    (h : M.Minimize fuel = some (Except.ok D)) : D.IsDFA = true := by
  obtain ⟨e1, X, he1, hps1, hhalf, hf⟩ := Minimize_inv fuel M D h
  have hX := powerset_IsSubsetMachine e1 he1 fuel X hps1
  unfold halfMinimize at hhalf
  rw [ApplyEpsilonExpansion_expandedOf X.Reverse (Reverse_HasEpsilon X hX.table hX.eps) fuel hf]
    at hhalf
  simp only at hhalf
  have hsE := expandedOf_start_nodup X.Reverse
  have hD := powerset_IsSubsetMachine _ hsE fuel D hhalf
  obtain ⟨_, sets, v, _, _, hDeq⟩ := powerset_inv _ hsE fuel D hhalf
  exact IsDFA_singletonTable D hD.eps hD.start v.transitions (by rw [hDeq])

/-- C4: every machine `D` that `Minimize` returns is a minimal DFA for its own
language.  `D` is a DFA with the single start state `0`; every state of `D` is
the current state after some word read from the `Reset` configuration; any two
distinct states are told apart by some word (read from one of them the run ends
accepted, read from the other it does not); and every deterministic machine
that accepts exactly the words `D` accepts, be it a DFA made by the DFA builder
or an NFA made by the NFA builder on which `IsDFA` holds, has at least as many
states as `D`. -/
theorem minimize_minimal (fuel : Nat) (M D : nfaMachine)
    (h : M.Minimize fuel = some (Except.ok D)) :
    D.IsDFA = true ∧ D.startStates = ["0"] ∧ D.states.Nodup ∧
    (∀ n ∈ D.states, ∃ u, ∀ f, ∃ m,
      nfaMachine.putAll f D.Reset u = some (some m) ∧ m.States = [n]) ∧
    (∀ n1 ∈ D.states, ∀ n2 ∈ D.states, n1 ≠ n2 →
      ∃ z, ∀ f, ∃ v, D.acceptsFrom f n1 z = some v ∧ D.acceptsFrom f n2 z = some (!v)) ∧
    (∀ (b : dfaMachineBuilder) (A : dfaMachine), b.Build = Except.ok A →
      ∀ f, (∀ w, D.accepts f w = some (A.accepts w)) → D.states.length ≤ A.states.length) ∧
    (∀ (b : nfaMachineBuilder) (E : nfaMachine), b.Build = Except.ok E → E.IsDFA = true →
      ∀ f g, (∀ w, D.accepts f w = E.accepts g w) → D.states.length ≤ E.states.length) := by
  have hD := Minimize_reduced fuel M D h
  refine ⟨Minimize_IsDFA fuel M D h, hD.sub.start, hD.sub.statesNodup,
    fun n hn => reach_code D hD n hn,
    fun n1 h1 n2 h2 hne => distinguish_code D hD n1 n2 h1 h2 hne, ?_, ?_⟩
  · intro b A hb f hsame
    apply reduced_le_dfa D hD b A hb
    intro w
    exact accepts_iff_Lang D hD.sub.eps f w (A.accepts w) (hsame w)
  · intro b E hb hdfa f g hsame
    apply reduced_le_nfa D hD b E hb hdfa
    intro w
    obtain ⟨v, hv, hiff⟩ := accepts_epsfree g E (IsDFA_parts E hdfa).1 w
    rw [← hiff]
    exact (accepts_iff_Lang D hD.sub.eps f w v ((hsame w).trans hv)).symm

/-- Witness for C4: the a(b|c)*d automaton of the tests, minimized to the three
states of `abcdMin`. -/
theorem minimize_minimal_witness :
    abcd.Minimize 9 = some (Except.ok abcdMin) ∧
    abcdMin.IsDFA = true ∧ abcdMin.startStates = ["0"] ∧ abcdMin.states.Nodup ∧
    (∀ n ∈ abcdMin.states, ∃ u, ∀ f, ∃ m,
      nfaMachine.putAll f abcdMin.Reset u = some (some m) ∧ m.States = [n]) ∧
    (∀ n1 ∈ abcdMin.states, ∀ n2 ∈ abcdMin.states, n1 ≠ n2 →
      ∃ z, ∀ f, ∃ v,
        abcdMin.acceptsFrom f n1 z = some v ∧ abcdMin.acceptsFrom f n2 z = some (!v)) ∧
    (∀ (b : dfaMachineBuilder) (A : dfaMachine), b.Build = Except.ok A →
      ∀ f, (∀ w, abcdMin.accepts f w = some (A.accepts w)) →
        abcdMin.states.length ≤ A.states.length) ∧
    (∀ (b : nfaMachineBuilder) (E : nfaMachine), b.Build = Except.ok E → E.IsDFA = true →
      ∀ f g, (∀ w, abcdMin.accepts f w = E.accepts g w) →
        abcdMin.states.length ≤ E.states.length) :=
  ⟨rfl, minimize_minimal 9 abcd abcdMin rfl⟩

/-- C5: minimization is idempotent up to renaming.  When `Minimize` returns `D`
on `M`, `Minimize` on `D` returns a machine `D2` (the same one for every
sufficient fuel) that has as many states as `D` and gives on every word the
verdict that `D` gives. -/
theorem minimize_idempotent (fuel : Nat) (M D : nfaMachine)
    (h : M.Minimize fuel = some (Except.ok D)) :
    ∃ fuel0 D2, (∀ f, fuel0 ≤ f → D.Minimize f = some (Except.ok D2)) ∧
      D2.states.length = D.states.length ∧ D2.states.Nodup ∧ D.states.Nodup ∧
      ∀ (w : List Rune) (f1 f2 : Nat),
        D2.accepts f1 w = D.accepts f2 w ∧ ∃ v, D.accepts f2 w = some v := by
  have hD := Minimize_reduced fuel M D h
  obtain ⟨fuel0, D2, hD2, he2, _, _, hL⟩ :=
    Minimize_spec D hD.sub.table hD.sub.eps hD.sub.names
  have hR2 := Minimize_reduced fuel0 D D2 (hD2 fuel0 (Nat.le_refl _))
  exact ⟨fuel0, D2, hD2, reduced_same_size D2 D hR2 hD hL, hR2.sub.statesNodup,
    hD.sub.statesNodup, fun w f1 f2 => accepts_eq_of_Lang f1 f2 D2 D he2 hD.sub.eps w (hL w)⟩

/-- Witness for C5: the minimized a(b|c)*d automaton `abcdMin`. -/
theorem minimize_idempotent_witness :
    abcd.Minimize 9 = some (Except.ok abcdMin) ∧
    ∃ fuel0 D2, (∀ f, fuel0 ≤ f → abcdMin.Minimize f = some (Except.ok D2)) ∧
      D2.states.length = abcdMin.states.length ∧ D2.states.Nodup ∧ abcdMin.states.Nodup ∧
      ∀ (w : List Rune) (f1 f2 : Nat),
        D2.accepts f1 w = abcdMin.accepts f2 w ∧ ∃ v, abcdMin.accepts f2 w = some v :=
  ⟨rfl, minimize_idempotent 9 abcd abcdMin rfl⟩

/-- C20: `Reverse` flips every edge and swaps starts with accepts.  For all
states `p`, `q` and every symbol `a`, epsilon included, `p` is a destination of
`q` on `a` in the reversed machine exactly when `q` is a destination of `p` on
`a` in the machine; the start states of the reversed machine are the accept
states, its accept states are the start states, its states and alphabet are
those of the machine, and its current states are its new start states. -/
theorem reverse_flips_edges (M : nfaMachine) (hT : TableOK M.transitions) :
    (∀ (p q : String) (a : Rune), p ∈ M.Reverse.Delta q a ↔ q ∈ M.Delta p a) ∧
    (∀ y, y ∈ M.Reverse.startStates ↔ y ∈ M.acceptStates) ∧
    (∀ y, y ∈ M.Reverse.acceptStates ↔ y ∈ M.startStates) ∧
    (∀ y, y ∈ M.Reverse.states ↔ y ∈ M.states) ∧
    (∀ c, c ∈ M.Reverse.chars ↔ c ∈ M.chars) ∧
    M.Reverse.currentStates = M.Reverse.startStates ∧
    M.Reverse.startStates.Nodup ∧ M.Reverse.acceptStates.Nodup ∧
    M.Reverse.states.Nodup ∧ M.Reverse.chars.Nodup := by
  refine ⟨?_, ?_, ?_, ?_, ?_, rfl, ?_, ?_, ?_, ?_⟩
  · intro p q a
    exact mem_tableDelta_reverse M.transitions hT q a p
  · intro y; exact GoSet.mem_Clone _ _
  · intro y; exact GoSet.mem_Clone _ _
  · intro y; exact GoSet.mem_Clone _ _
  · intro c; exact GoSet.mem_Clone _ _
  · exact GoSet.nodup_New _
  · exact GoSet.nodup_New _
  · exact GoSet.nodup_New _
  · exact GoSet.nodup_New _

/-- Witness for C20: the a(b|c)*d automaton of the tests. -/
theorem reverse_flips_edges_witness :
    TableOK abcd.transitions ∧
    (∀ (p q : String) (a : Rune), p ∈ abcd.Reverse.Delta q a ↔ q ∈ abcd.Delta p a) ∧
    (∀ y, y ∈ abcd.Reverse.startStates ↔ y ∈ abcd.acceptStates) ∧
    (∀ y, y ∈ abcd.Reverse.acceptStates ↔ y ∈ abcd.startStates) ∧
    (∀ y, y ∈ abcd.Reverse.states ↔ y ∈ abcd.states) ∧
    (∀ c, c ∈ abcd.Reverse.chars ↔ c ∈ abcd.chars) ∧
    abcd.Reverse.currentStates = abcd.Reverse.startStates ∧
    abcd.Reverse.startStates.Nodup ∧ abcd.Reverse.acceptStates.Nodup ∧
    abcd.Reverse.states.Nodup ∧ abcd.Reverse.chars.Nodup :=
  ⟨nfaBuild_TableOK abcdBuilder abcd rfl,
    reverse_flips_edges abcd (nfaBuild_TableOK abcdBuilder abcd rfl)⟩

/-! ## The closure loop of `ExpandEpsilon` -/

theorem mem_expandPass (tr : NTrans) (snap : List String) (l : StringSet) (y : String) :
    y ∈ expandPass tr snap l ↔ y ∈ l ∨ ∃ p ∈ snap, y ∈ tableDelta tr p Epsilon := by
  unfold expandPass
  induction snap generalizing l with
  | nil => simp
  | cons p snap ih =>
    rw [List.foldl_cons, ih]
    cases hg : tableGet tr p Epsilon with
    | none =>
      have hd : tableDelta tr p Epsilon = [] := by unfold tableDelta; rw [hg]; rfl
      simp only [List.mem_cons, exists_eq_or_imp, hd, List.not_mem_nil, false_or]
    | some u =>
      have hd : tableDelta tr p Epsilon = u := tableDelta_of_get tr p Epsilon u hg
      simp only [GoSet.mem_Add, GoSet.Unwrap, List.mem_cons, exists_eq_or_imp, hd]
      constructor
      · rintro ((h | h) | h)
        · exact Or.inl h
        · exact Or.inr (Or.inl h)
        · exact Or.inr (Or.inr h)
      · rintro (h | h | h)
        · exact Or.inl (Or.inl h)
        · exact Or.inl (Or.inr h)
        · exact Or.inr h

theorem nodup_expandPass (tr : NTrans) (snap : List String) (l : StringSet) (hl : l.Nodup) :
    (expandPass tr snap l).Nodup := by
  unfold expandPass
  induction snap generalizing l with
  | nil => exact hl
  | cons p snap ih =>
    rw [List.foldl_cons]
    apply ih
    cases tableGet tr p Epsilon with
    | none => exact hl
    | some u => exact GoSet.nodup_Add _ _ hl

theorem expandClosure_mono (tr : NTrans) (n m : Nat) (h : n ≤ m) (l r : StringSet)
    (hr : expandClosure tr n l = some r) : expandClosure tr m l = some r := by
  induction n generalizing m l with
  | zero => cases hr
  | succ n ih =>
    obtain ⟨m, rfl⟩ : ∃ k, m = k + 1 := ⟨m - 1, by omega⟩
    unfold expandClosure at hr ⊢
    simp only at hr ⊢
    split
    · rename_i hc
      rw [if_pos hc] at hr
      exact ih m (by omega) _ hr
    · rename_i hc
      rw [if_neg hc] at hr
      exact hr

/-- The result of the closure loop is the least superset of the set it started
from that is closed under the epsilon transitions of the table. -/
theorem expandClosure_spec (tr : NTrans) (fuel : Nat) (l r : StringSet) (hl : l.Nodup)
    (hr : expandClosure tr fuel l = some r) :
    r.Nodup ∧ ∀ y, y ∈ r ↔ EpsClosure tr (fun p => p ∈ l) y := by
  have key : ∀ (fuel : Nat) (cur : StringSet), cur.Nodup →
      (∀ y, y ∈ l → y ∈ cur) → (∀ y ∈ cur, EpsClosure tr (fun p => p ∈ l) y) →
      expandClosure tr fuel cur = some r →
      r.Nodup ∧ ∀ y, y ∈ r ↔ EpsClosure tr (fun p => p ∈ l) y := by
    intro fuel
    induction fuel with
    | zero => intro cur _ _ _ h; cases h
    | succ n ih =>
      intro cur hnd hsup hsound h
      unfold expandClosure at h
      simp only at h
      have hnd2 := nodup_expandPass tr (GoSet.Unwrap cur) cur hnd
      have hsound2 : ∀ y ∈ expandPass tr (GoSet.Unwrap cur) cur,
          EpsClosure tr (fun p => p ∈ l) y := by
        intro y hy
        rw [mem_expandPass] at hy
        rcases hy with hy | ⟨p, hp, hy⟩
        · exact hsound y hy
        · exact EpsClosure.step (hsound p hp) hy
      have hsup2 : ∀ y, y ∈ l → y ∈ expandPass tr (GoSet.Unwrap cur) cur := by
        intro y hy
        rw [mem_expandPass]
        exact Or.inl (hsup y hy)
      split at h
      · exact ih _ hnd2 hsup2 hsound2 h
      · rename_i hc
        rw [Bool.not_eq_true, Bool.not_eq_false'] at hc
        cases h
        refine ⟨hnd2, fun y => ⟨hsound2 y, ?_⟩⟩
        have heq := StringSet_Equal_mem _ _ hc
        have hclosed : ∀ p y, p ∈ expandPass tr (GoSet.Unwrap cur) cur →
            y ∈ tableDelta tr p Epsilon → y ∈ expandPass tr (GoSet.Unwrap cur) cur := by
          intro p y hp hy
          have hp1 : p ∈ cur := (GoSet.mem_New _ _).1 ((heq p).2 hp)
          rw [mem_expandPass]
          exact Or.inr ⟨p, hp1, hy⟩
        intro hcl
        induction hcl with
        | base hy => exact hsup2 _ hy
        | step _ hy ih2 => exact hclosed _ _ ih2 hy
  exact key fuel l hl (fun y hy => hy) (fun y hy => EpsClosure.base hy) hr

theorem filter_notMem_le (L A B : List String) (hAB : ∀ y, y ∈ A → y ∈ B) :
    (L.filter (fun y => decide (y ∉ B))).length ≤ (L.filter (fun y => decide (y ∉ A))).length := by
  induction L with
  | nil => simp
  | cons a L ih =>
    by_cases hB : a ∈ B
    · by_cases hA : a ∈ A
      · simpa [List.filter_cons, hA, hB] using ih
      · simp only [List.filter_cons, hA, hB, not_true_eq_false, decide_False, not_false_eq_true,
          decide_True, if_true, List.length_cons, Bool.false_eq_true, if_false]
        omega
    · have hA : a ∉ A := fun h => hB (hAB a h)
      simpa [List.filter_cons, hA, hB] using ih

theorem filter_notMem_lt (L A B : List String) (hAB : ∀ y, y ∈ A → y ∈ B) (z : String)
    (hz : z ∈ L) (hzB : z ∈ B) (hzA : z ∉ A) :
    (L.filter (fun y => decide (y ∉ B))).length < (L.filter (fun y => decide (y ∉ A))).length := by
  induction L with
  | nil => cases hz
  | cons a L ih =>
    rcases List.mem_cons.1 hz with rfl | hz
    · have := filter_notMem_le L A B hAB
      simp only [List.filter_cons, hzA, hzB, not_true_eq_false, decide_False, not_false_eq_true,
        decide_True, if_true, List.length_cons, Bool.false_eq_true, if_false]
      omega
    · have := ih hz
      by_cases hB : a ∈ B
      · by_cases hA : a ∈ A
        · simpa [List.filter_cons, hA, hB] using this
        · simp only [List.filter_cons, hA, hB, not_true_eq_false, decide_False, not_false_eq_true,
            decide_True, if_true, List.length_cons, Bool.false_eq_true, if_false]
          omega
      · have hA : a ∉ A := fun h => hB (hAB a h)
        simpa [List.filter_cons, hA, hB] using this

theorem expandClosure_total (tr : NTrans) (fuel : Nat) (cur : StringSet) (hnd : cur.Nodup)
    (hf : ((tableDests tr).dedup.filter (fun y => decide (y ∉ cur))).length < fuel) :
    ∃ r, expandClosure tr fuel cur = some r := by
  induction fuel generalizing cur with
  | zero => omega
  | succ n ih =>
    unfold expandClosure
    simp only
    have hnd2 := nodup_expandPass tr (GoSet.Unwrap cur) cur hnd
    split
    · rename_i hc
      rw [Bool.not_eq_true', ← Bool.not_eq_true] at hc
      have hex : ∃ z, z ∈ expandPass tr (GoSet.Unwrap cur) cur ∧ z ∉ cur := by
        by_contra hno
        rw [not_exists] at hno
        apply hc
        apply StringSet_Equal_of_mem _ _ (GoSet.nodup_New _) hnd2
        intro y
        constructor
        · intro hy
          rw [mem_expandPass]
          exact Or.inl ((GoSet.mem_New _ _).1 hy)
        · intro hy
          by_contra hy2
          exact hno y ⟨hy, fun h => hy2 ((GoSet.mem_New _ _).2 h)⟩
      obtain ⟨z, hz1, hz2⟩ := hex
      have hz3 : z ∈ (tableDests tr).dedup := by
        rw [List.mem_dedup]
        rw [mem_expandPass] at hz1
        rcases hz1 with h | ⟨p, _, hp⟩
        · exact absurd h hz2
        · exact mem_tableDests _ _ _ _ hp
      apply ih _ hnd2
      have := filter_notMem_lt (tableDests tr).dedup cur (expandPass tr (GoSet.Unwrap cur) cur)
        (fun y hy => (mem_expandPass _ _ _ _).2 (Or.inl hy)) z hz3 hz1 hz2
      omega
    · exact ⟨_, rfl⟩

theorem expandClosure_bound (tr : NTrans) (fuel : Nat) (hf : expandBound tr ≤ fuel)
    (cur : StringSet) (hnd : cur.Nodup) : ∃ r, expandClosure tr fuel cur = some r := by
  apply expandClosure_total tr fuel cur hnd
  have := List.length_filter_le (fun y => decide (y ∉ cur)) (tableDests tr).dedup
  unfold expandBound at hf
  omega

/-! ## `ExpandEpsilon` as a whole -/

theorem mapValuesM_get {κ ν μ : Type} [DecidableEq κ] (f : ν → Option μ) (m : GoMap κ ν)
    (m1 : GoMap κ μ) (h : mapValuesM f m = some m1) (k : κ) :
    mapGet m1 k = (mapGet m k).bind f := by
  induction m generalizing m1 with
  | nil =>
    simp only [mapValuesM, Option.some.injEq] at h
    subst h
    rfl
  | cons e m ih =>
    obtain ⟨k1, v⟩ := e
    simp only [mapValuesM] at h
    cases hv : f v with
    | none => rw [hv] at h; cases h
    | some v1 =>
      rw [hv] at h
      simp only at h
      cases hrest : mapValuesM f m with
      | none => rw [hrest] at h; cases h
      | some rest1 =>
        rw [hrest] at h
        simp only [Option.some.injEq] at h
        subst h
        simp only [mapGet]
        by_cases hk : k1 = k
        · rw [if_pos hk, if_pos hk]
          exact hv.symm
        · rw [if_neg hk, if_neg hk]
          exact ih rest1 hrest

theorem mapValuesM_keys {κ ν μ : Type} (f : ν → Option μ) (m : GoMap κ ν)
    (m1 : GoMap κ μ) (h : mapValuesM f m = some m1) : m1.map Prod.fst = m.map Prod.fst := by
  induction m generalizing m1 with
  | nil =>
    simp only [mapValuesM, Option.some.injEq] at h
    subst h
    rfl
  | cons e m ih =>
    obtain ⟨k1, v⟩ := e
    simp only [mapValuesM] at h
    cases hv : f v with
    | none => rw [hv] at h; cases h
    | some v1 =>
      rw [hv] at h
      simp only at h
      cases hrest : mapValuesM f m with
      | none => rw [hrest] at h; cases h
      | some rest1 =>
        rw [hrest] at h
        simp only [Option.some.injEq] at h
        subst h
        simp only [List.map_cons, ih rest1 hrest]

theorem mapValuesM_mem {κ ν μ : Type} (f : ν → Option μ) (m : GoMap κ ν)
    (m1 : GoMap κ μ) (h : mapValuesM f m = some m1) (e1 : κ × μ) (he : e1 ∈ m1) :
    ∃ e ∈ m, e.1 = e1.1 ∧ f e.2 = some e1.2 := by
  induction m generalizing m1 with
  | nil =>
    simp only [mapValuesM, Option.some.injEq] at h
    subst h
    cases he
  | cons e m ih =>
    obtain ⟨k1, v⟩ := e
    simp only [mapValuesM] at h
    cases hv : f v with
    | none => rw [hv] at h; cases h
    | some v1 =>
      rw [hv] at h
      simp only at h
      cases hrest : mapValuesM f m with
      | none => rw [hrest] at h; cases h
      | some rest1 =>
        rw [hrest] at h
        simp only [Option.some.injEq] at h
        subst h
        rcases List.mem_cons.1 he with rfl | he
        · exact ⟨(k1, v), List.mem_cons_self _ _, rfl, hv⟩
        · obtain ⟨e, hem, h1, h2⟩ := ih rest1 hrest he
          exact ⟨e, List.mem_cons_of_mem _ hem, h1, h2⟩

theorem mapValuesM_defined {κ ν μ : Type} (f : ν → Option μ) (m : GoMap κ ν)
    (m1 : GoMap κ μ) (h : mapValuesM f m = some m1) : ∀ e ∈ m, ∃ r, f e.2 = some r := by
  induction m generalizing m1 with
  | nil => intro e he; cases he
  | cons e m ih =>
    obtain ⟨k1, v⟩ := e
    simp only [mapValuesM] at h
    cases hv : f v with
    | none => rw [hv] at h; cases h
    | some v1 =>
      rw [hv] at h
      simp only at h
      cases hrest : mapValuesM f m with
      | none => rw [hrest] at h; cases h
      | some rest1 =>
        intro e he
        rcases List.mem_cons.1 he with rfl | he
        · exact ⟨v1, hv⟩
        · exact ih rest1 hrest e he

theorem mapValuesM_total {κ ν μ : Type} (f : ν → Option μ) (m : GoMap κ ν)
    (h : ∀ e ∈ m, ∃ r, f e.2 = some r) : ∃ m1, mapValuesM f m = some m1 := by
  induction m with
  | nil => exact ⟨[], rfl⟩
  | cons e m ih =>
    obtain ⟨k1, v⟩ := e
    obtain ⟨r, hr⟩ := h (k1, v) (List.mem_cons_self _ _)
    obtain ⟨m1, hm1⟩ := ih (fun e he => h e (List.mem_cons_of_mem _ he))
    refine ⟨(k1, r) :: m1, ?_⟩
    simp only [mapValuesM]
    simp only at hr
    rw [hr]
    simp only
    rw [hm1]

theorem mapValuesM_congr {κ ν μ : Type} (f g : ν → Option μ) (m : GoMap κ ν)
    (m1 : GoMap κ μ) (hfg : ∀ e ∈ m, ∀ r, f e.2 = some r → g e.2 = some r)
    (h : mapValuesM f m = some m1) : mapValuesM g m = some m1 := by
  induction m generalizing m1 with
  | nil => exact h
  | cons e m ih =>
    obtain ⟨k1, v⟩ := e
    simp only [mapValuesM] at h ⊢
    cases hv : f v with
    | none => rw [hv] at h; cases h
    | some v1 =>
      rw [hv] at h
      simp only at h
      cases hrest : mapValuesM f m with
      | none => rw [hrest] at h; cases h
      | some rest1 =>
        rw [hrest] at h
        rw [hfg (k1, v) (List.mem_cons_self _ _) v1 hv]
        simp only
        rw [ih rest1 (fun e he => hfg e (List.mem_cons_of_mem _ he)) hrest]
        exact h

theorem ExpandEpsilon_mono (tr : NTrans) (n m : Nat) (h : n ≤ m) (T : NTrans)
    (hT : ExpandEpsilon n tr = some T) : ExpandEpsilon m tr = some T := by
  unfold ExpandEpsilon at hT ⊢
  apply mapValuesM_congr _ _ _ _ _ hT
  intro e _ r hr
  apply mapValuesM_congr _ _ _ _ _ hr
  intro e2 _ r2 hr2
  exact expandClosure_mono tr n m h _ _ hr2

theorem expandExtract_cells_nodup (tr : NTrans) :
    ∀ e ∈ expandExtract tr, ∀ r ∈ e.2, r.2.Nodup := by
  apply expandExtract_all (fun e => ∀ r ∈ e.2, r.2.Nodup)
  intro q v
  apply expandRoutes_all (fun r => r.2.Nodup)
  intro c u _
  exact GoSet.nodup_New _

theorem ExpandEpsilon_total (tr : NTrans) (fuel : Nat) (hf : expandBound tr ≤ fuel) :
    ∃ T, ExpandEpsilon fuel tr = some T := by
  unfold ExpandEpsilon
  apply mapValuesM_total
  intro e he
  apply mapValuesM_total
  intro r hr
  exact expandClosure_bound tr fuel hf r.2 (expandExtract_cells_nodup tr e he r hr)

theorem tableGet_ExpandEpsilon (tr : NTrans) (fuel : Nat) (T : NTrans)
    (hT : ExpandEpsilon fuel tr = some T) (q : String) (c : Rune) :
    tableGet T q c = (tableGet (expandExtract tr) q c).bind (expandClosure tr fuel) := by
  unfold ExpandEpsilon at hT
  unfold tableGet
  rw [mapValuesM_get _ _ _ hT q]
  cases hq : mapGet (expandExtract tr) q with
  | none => rfl
  | some v =>
    obtain ⟨row, hrow⟩ := mapValuesM_defined _ _ _ hT (q, v) (mapGet_mem _ _ _ hq)
    simp only at hrow
    show (match mapValuesM (expandClosure tr fuel) v with
      | none => none
      | some t => mapGet t c) = _
    rw [hrow]
    exact mapValuesM_get _ _ _ hrow c

theorem mapHas_ExpandEpsilon (tr : NTrans) (fuel : Nat) (T : NTrans)
    (hT : ExpandEpsilon fuel tr = some T) (q : String) :
    mapHas T q = mapHas (expandExtract tr) q := by
  unfold ExpandEpsilon at hT
  have hk := mapValuesM_keys _ _ _ hT
  cases h1 : mapHas (expandExtract tr) q with
  | true =>
    rw [mapHas_iff] at h1 ⊢
    rw [hk]; exact h1
  | false =>
    rw [mapHas_false_iff] at h1 ⊢
    rw [hk]; exact h1

theorem expandExtract_rows (tr : NTrans) :
    ∀ e ∈ expandExtract tr, e.2 ≠ [] ∧ ∀ r ∈ e.2, r.1 ≠ Epsilon := by
  unfold expandExtract
  apply foldl_mapSet_all (fun e => e.2 ≠ [] ∧ ∀ r ∈ e.2, r.1 ≠ Epsilon) tr
    (fun e => (expandRoutes e.2).length = 0) (fun e => e.1) (fun e => expandRoutes e.2) []
  · intro e he; cases he
  · intro i _ hs
    refine ⟨fun h => hs (by
      have h2 : expandRoutes i.2 = [] := h
      rw [h2]; rfl), ?_⟩
    exact expandRoutes_all (fun r => r.1 ≠ Epsilon) i.2 (fun c u hc => hc)

theorem ExpandEpsilon_keys (tr : NTrans) (fuel : Nat) (T : NTrans)
    (hT : ExpandEpsilon fuel tr = some T) :
    ∀ e ∈ T, e.2 ≠ [] ∧ ∀ r ∈ e.2, r.1 ≠ Epsilon := by
  unfold ExpandEpsilon at hT
  intro e he
  obtain ⟨e0, he0, _, hrow⟩ := mapValuesM_mem _ _ _ hT e he
  have hk := mapValuesM_keys _ _ _ hrow
  obtain ⟨h1, h2⟩ := expandExtract_rows tr e0 he0
  refine ⟨?_, ?_⟩
  · intro hnil
    rw [hnil] at hk
    apply h1
    simpa using hk.symm
  · intro r hr
    have : r.1 ∈ e0.2.map Prod.fst := by
      rw [← hk]
      exact List.mem_map_of_mem _ hr
    obtain ⟨r0, hr0, hr1⟩ := List.mem_map.1 this
    rw [← hr1]
    exact h2 r0 hr0

theorem ExpandEpsilon_cell (tr : NTrans) (hT : TableOK tr) (fuel : Nat) (T : NTrans)
    (h : ExpandEpsilon fuel tr = some T) (q : String) (a : Rune) :
    (a ≠ Epsilon → tableDelta tr q a ≠ [] →
      ∃ u, tableGet T q a = some u ∧ u.Nodup ∧
        ∀ y, y ∈ u ↔ EpsClosure tr (fun p => p ∈ tableDelta tr q a) y) ∧
    ((a = Epsilon ∨ tableDelta tr q a = []) → tableGet T q a = none) := by
  have hget := tableGet_ExpandEpsilon tr fuel T h q a
  rw [tableGet_expandExtract tr hT] at hget
  constructor
  · intro ha hne
    cases hg : tableGet tr q a with
    | none =>
      exfalso
      apply hne
      unfold tableDelta
      rw [hg]
      rfl
    | some u0 =>
      have hd : tableDelta tr q a = u0 := tableDelta_of_get tr q a u0 hg
      rw [hd] at hne
      have hcond : ¬ (a = Epsilon ∨ GoSet.Len u0 = 0) := by
        rintro (h1 | h1)
        · exact ha h1
        · exact hne ((GoSet.Len_eq_zero_iff _).1 h1)
      rw [hg] at hget
      simp only [Option.some_bind, if_neg hcond] at hget
      -- the cell of the extracted table is defined, so the closure returned
      have hcell : tableGet (expandExtract tr) q a = some (NewStringSet (GoSet.Unwrap u0)) := by
        rw [tableGet_expandExtract tr hT, hg]
        simp only [Option.some_bind, if_neg hcond]
      have hdef : ∃ r, expandClosure tr fuel (NewStringSet (GoSet.Unwrap u0)) = some r := by
        unfold ExpandEpsilon at h
        unfold tableGet at hcell
        cases hrow : mapGet (expandExtract tr) q with
        | none => rw [hrow] at hcell; cases hcell
        | some row =>
          rw [hrow] at hcell
          simp only at hcell
          obtain ⟨row1, hrow1⟩ := mapValuesM_defined _ _ _ h (q, row) (mapGet_mem _ _ _ hrow)
          exact mapValuesM_defined _ _ _ hrow1 (a, _) (mapGet_mem _ _ _ hcell)
      obtain ⟨r, hr⟩ := hdef
      rw [hr] at hget
      obtain ⟨hnd, hmem⟩ := expandClosure_spec tr fuel _ r (GoSet.nodup_New _) hr
      refine ⟨r, hget, hnd, ?_⟩
      intro y
      rw [hmem, hd]
      constructor
      · intro hc
        exact EpsClosure_mono tr _ _ (fun z hz => (GoSet.mem_New _ _).1 hz) y hc
      · intro hc
        exact EpsClosure_mono tr _ _ (fun z hz => (GoSet.mem_New _ _).2 hz) y hc
  · intro hor
    rw [hget]
    cases hg : tableGet tr q a with
    | none => rfl
    | some u0 =>
      have hd : tableDelta tr q a = u0 := tableDelta_of_get tr q a u0 hg
      have hcond : a = Epsilon ∨ GoSet.Len u0 = 0 := by
        rcases hor with h1 | h1
        · exact Or.inl h1
        · right
          rw [hd] at h1
          rw [h1]; rfl
      simp only [Option.some_bind, if_pos hcond]
      rfl

theorem ExpandEpsilon_row (tr : NTrans) (hT : TableOK tr) (fuel : Nat) (T : NTrans)
    (h : ExpandEpsilon fuel tr = some T) (q : String) :
    mapHas T q = true ↔ ∃ a, a ≠ Epsilon ∧ tableDelta tr q a ≠ [] := by
  rw [mapHas_ExpandEpsilon tr fuel T h, mapHas_expandExtract tr hT]
  constructor
  · rintro ⟨c, u, hg, hc, hu⟩
    exact ⟨c, hc, by rw [tableDelta_of_get tr q c u hg]; exact hu⟩
  · rintro ⟨a, ha, hne⟩
    cases hg : tableGet tr q a with
    | none =>
      exfalso
      apply hne
      unfold tableDelta
      rw [hg]
      rfl
    | some u =>
      refine ⟨a, u, hg, ha, ?_⟩
      rw [tableDelta_of_get tr q a u hg] at hne
      exact hne

/-- C16: `ExpandEpsilon` computes closure after step.  For every transition
table (a Go map of maps) the function returns one table `T` once the fuel
covers `expandBound` passes.  For every state `q` and every symbol `a` other
than epsilon with `Delta(q, a)` not empty, `T` maps `(q, a)` to the least
superset of `Delta(q, a)` closed under the epsilon transitions of the input
table: it contains `Delta(q, a)`, it is closed, and it lies inside every closed
superset.  `T` has no entry for any other `(q, a)`, no row for a state without
such a transition, and no epsilon key. -/
theorem expand_epsilon_closure_after_step (tr : NTrans) (hT : TableOK tr) :
    ∃ T, (∀ fuel, expandBound tr ≤ fuel → ExpandEpsilon fuel tr = some T) ∧
      (∀ fuel T2, ExpandEpsilon fuel tr = some T2 → T2 = T) ∧
      (∀ (q : String) (a : Rune), a ≠ Epsilon → tableDelta tr q a ≠ [] →
        ∃ u, tableGet T q a = some u ∧
          (∀ y ∈ tableDelta tr q a, y ∈ u) ∧
          (∀ p ∈ u, ∀ y ∈ tableDelta tr p Epsilon, y ∈ u) ∧
          (∀ X : String → Prop, (∀ y ∈ tableDelta tr q a, X y) →
            (∀ p y, X p → y ∈ tableDelta tr p Epsilon → X y) → ∀ y ∈ u, X y)) ∧
      (∀ (q : String) (a : Rune), (a = Epsilon ∨ tableDelta tr q a = []) →
        tableGet T q a = none) ∧
      (∀ q : String, (∀ a : Rune, a = Epsilon ∨ tableDelta tr q a = []) → mapGet T q = none) ∧
      (∀ e ∈ T, ∀ r ∈ e.2, r.1 ≠ Epsilon) := by
  obtain ⟨T, hTe⟩ := ExpandEpsilon_total tr (expandBound tr) (Nat.le_refl _)
  refine ⟨T, ?_, ?_, ?_, ?_, ?_, ?_⟩
  · intro fuel hf
    exact ExpandEpsilon_mono tr _ fuel hf T hTe
  · intro fuel T2 h2
    have h3 := ExpandEpsilon_mono tr fuel (max fuel (expandBound tr)) (Nat.le_max_left _ _) T2 h2
    have h4 := ExpandEpsilon_mono tr _ (max fuel (expandBound tr)) (Nat.le_max_right _ _) T hTe
    rw [h3] at h4
    exact Option.some.inj h4
  · intro q a ha hne
    obtain ⟨u, hu, _, hmem⟩ := (ExpandEpsilon_cell tr hT _ T hTe q a).1 ha hne
    refine ⟨u, hu, ?_, ?_, ?_⟩
    · intro y hy
      exact (hmem y).2 (EpsClosure.base hy)
    · intro p hp y hy
      exact (hmem y).2 (EpsClosure.step ((hmem p).1 hp) hy)
    · intro X hbase hstep y hy
      have key : ∀ z, EpsClosure tr (fun p => p ∈ tableDelta tr q a) z → X z := by
        intro z hz
        induction hz with
        | base h => exact hbase _ h
        | step _ h2 ih => exact hstep _ _ ih h2
      exact key y ((hmem y).1 hy)
  · intro q a hor
    exact (ExpandEpsilon_cell tr hT _ T hTe q a).2 hor
  · intro q hall
    have hrow := ExpandEpsilon_row tr hT _ T hTe q
    cases hm : mapGet T q with
    | none => rfl
    | some row =>
      exfalso
      have : mapHas T q = true := by unfold mapHas; rw [hm]; rfl
      obtain ⟨a, ha, hne⟩ := hrow.1 this
      rcases hall a with h | h
      · exact ha h
      · exact hne h
  · intro e he
    exact (ExpandEpsilon_keys tr _ T hTe e he).2

theorem firstTable_OK : TableOK firstTable := by
  unfold TableOK NodupKeys firstTable
  decide

/-- Witness for C16: the case `first` of `TestExpandEpsilon`, with the table the
test expects. -/
theorem expand_epsilon_closure_after_step_witness :
    TableOK firstTable ∧
    ExpandEpsilon 5 firstTable =
      some [("0", [(48, ["1", "2"])]), ("1", [(49, ["1", "3", "2"])]), ("2", [(48, ["4"])])] ∧
    ∃ T, (∀ fuel, expandBound firstTable ≤ fuel → ExpandEpsilon fuel firstTable = some T) ∧
      (∀ fuel T2, ExpandEpsilon fuel firstTable = some T2 → T2 = T) ∧
      (∀ (q : String) (a : Rune), a ≠ Epsilon → tableDelta firstTable q a ≠ [] →
        ∃ u, tableGet T q a = some u ∧
          (∀ y ∈ tableDelta firstTable q a, y ∈ u) ∧
          (∀ p ∈ u, ∀ y ∈ tableDelta firstTable p Epsilon, y ∈ u) ∧
          (∀ X : String → Prop, (∀ y ∈ tableDelta firstTable q a, X y) →
            (∀ p y, X p → y ∈ tableDelta firstTable p Epsilon → X y) → ∀ y ∈ u, X y)) ∧
      (∀ (q : String) (a : Rune), (a = Epsilon ∨ tableDelta firstTable q a = []) →
        tableGet T q a = none) ∧
      (∀ q : String, (∀ a : Rune, a = Epsilon ∨ tableDelta firstTable q a = []) →
        mapGet T q = none) ∧
      (∀ e ∈ T, ∀ r ∈ e.2, r.1 ≠ Epsilon) :=
  ⟨firstTable_OK, rfl, expand_epsilon_closure_after_step firstTable firstTable_OK⟩

/-! ## The start-state loop of `ApplyEpsilonExpansion` -/

theorem mem_startPass (tr : NTrans) (snap : List String) (cur : StringSet) (b : Bool)
    (y : String) :
    y ∈ (startPass tr snap cur b).1 ↔ y ∈ cur ∨ ∃ p ∈ snap, y ∈ tableDelta tr p Epsilon := by
  induction snap generalizing cur b with
  | nil => simp [startPass]
  | cons p snap ih =>
    unfold startPass
    cases hg : tableGet tr p Epsilon with
    | none =>
      have hd : tableDelta tr p Epsilon = [] := by unfold tableDelta; rw [hg]; rfl
      simp only [ih, List.mem_cons, exists_eq_or_imp, hd, List.not_mem_nil, false_or]
    | some u =>
      have hd : tableDelta tr p Epsilon = u := tableDelta_of_get tr p Epsilon u hg
      simp only [ih, GoSet.mem_Add, GoSet.Unwrap, List.mem_cons, exists_eq_or_imp, hd]
      constructor
      · rintro ((h | h) | h)
        · exact Or.inl h
        · exact Or.inr (Or.inl h)
        · exact Or.inr (Or.inr h)
      · rintro (h | h | h)
        · exact Or.inl (Or.inl h)
        · exact Or.inl (Or.inr h)
        · exact Or.inr h

theorem startPass_flag_true (tr : NTrans) (snap : List String) (cur : StringSet) :
    (startPass tr snap cur true).2 = true := by
  induction snap generalizing cur with
  | nil => rfl
  | cons p snap ih =>
    unfold startPass
    cases tableGet tr p Epsilon with
    | none => exact ih cur
    | some u => exact ih _

theorem GoSet_Add_of_subset {α : Type} [DecidableEq α] (s x : List α) (h : ∀ y ∈ x, y ∈ s) :
    GoSet.Add s x = s := by
  unfold GoSet.Add
  induction x generalizing s with
  | nil => rfl
  | cons a x ih =>
    rw [List.foldl_cons]
    have ha : GoSet.addOne s a = s := by
      unfold GoSet.addOne
      simp [h a (List.mem_cons_self _ _)]
    rw [ha]
    exact ih s (fun y hy => h y (List.mem_cons_of_mem _ hy))

/-- A start state whose epsilon destinations are all in the set already sets
the flag `modified`, whatever happened before in the pass. -/
theorem startPass_flag_of (tr : NTrans) (snap : List String) (cur : StringSet) (b : Bool)
    (hnd : cur.Nodup)
    (h : ∃ p ∈ snap, ∃ u, tableGet tr p Epsilon = some u ∧ ∀ y ∈ u, y ∈ cur) :
    (startPass tr snap cur b).2 = true := by
  induction snap generalizing cur b with
  | nil =>
    obtain ⟨p, hp, _⟩ := h
    cases hp
  | cons q snap ih =>
    obtain ⟨p, hp, u, hu, hsub⟩ := h
    unfold startPass
    cases hg : tableGet tr q Epsilon with
    | none =>
      simp only
      apply ih cur b hnd
      rcases List.mem_cons.1 hp with rfl | hp
      · rw [hg] at hu; cases hu
      · exact ⟨p, hp, u, hu, hsub⟩
    | some v =>
      simp only
      rcases List.mem_cons.1 hp with rfl | hp
      · rw [hg] at hu
        cases hu
        have hadd : GoSet.Add cur (GoSet.Unwrap u) = cur := GoSet_Add_of_subset cur u hsub
        rw [hadd]
        have hclone : GoSet.Clone cur = cur := GoSet_New_of_nodup cur hnd
        rw [hclone, StringSet_Equal_self]
        cases b
        · exact startPass_flag_true tr snap cur
        · exact startPass_flag_true tr snap cur
      · apply ih _ _ (GoSet.nodup_Add _ _ hnd)
        exact ⟨p, hp, u, hu, fun y hy => (GoSet.mem_Add _ _ _).2 (Or.inl (hsub y hy))⟩

/-- When a pass ends with the flag `modified` set, some state of the snapshot
has an epsilon entry with all its destinations in the set the pass returns. -/
theorem startPass_flag_elim (tr : NTrans) (snap : List String) (cur : StringSet)
    (h : (startPass tr snap cur false).2 = true) :
    ∃ p ∈ snap, ∃ u, tableGet tr p Epsilon = some u ∧
      ∀ y ∈ u, y ∈ (startPass tr snap cur false).1 := by
  induction snap generalizing cur with
  | nil => cases h
  | cons q snap ih =>
    unfold startPass at h ⊢
    cases hg : tableGet tr q Epsilon with
    | none =>
      rw [hg] at h
      simp only at h ⊢
      obtain ⟨p, hp, u, hu, hsub⟩ := ih cur h
      exact ⟨p, List.mem_cons_of_mem _ hp, u, hu, hsub⟩
    | some v =>
      rw [hg] at h
      simp only [Bool.not_false, if_true] at h ⊢
      cases heq : StringSet.Equal (GoSet.Clone cur) (GoSet.Add cur (GoSet.Unwrap v)) with
      | true =>
        refine ⟨q, List.mem_cons_self _ _, v, hg, ?_⟩
        intro y hy
        rw [mem_startPass]
        exact Or.inl ((GoSet.mem_Add _ _ _).2 (Or.inr hy))
      | false =>
        rw [heq] at h
        obtain ⟨p, hp, u, hu, hsub⟩ := ih _ h
        exact ⟨p, List.mem_cons_of_mem _ hp, u, hu, hsub⟩

/-- The loop never returns from a set in which some state has an epsilon entry
with all its destinations in the set. -/
theorem startLoop_diverges (tr : NTrans) (fuel : Nat) (cur : StringSet) (hnd : cur.Nodup)
    (h : ∃ p ∈ cur, ∃ u, tableGet tr p Epsilon = some u ∧ ∀ y ∈ u, y ∈ cur) :
    startLoop tr fuel cur = none := by
  induction fuel generalizing cur with
  | zero => rfl
  | succ n ih =>
    unfold startLoop
    simp only
    rw [startPass_flag_of tr (GoSet.Unwrap cur) cur false hnd h]
    simp only [if_true]
    apply ih _ (startPass_nodup tr _ cur false hnd)
    obtain ⟨p, hp, u, hu, hsub⟩ := h
    exact ⟨p, (mem_startPass _ _ _ _ _).2 (Or.inl hp), u, hu,
      fun y hy => (mem_startPass _ _ _ _ _).2 (Or.inl (hsub y hy))⟩

/-- The loop returns exactly when its first pass leaves the flag `modified`
unset, and then it returns the set of that pass. -/
theorem startLoop_cases (tr : NTrans) (cur : StringSet) (hnd : cur.Nodup) :
    ((startPass tr (GoSet.Unwrap cur) cur false).2 = false ∧
      ∀ fuel, 1 ≤ fuel →
        startLoop tr fuel cur = some (startPass tr (GoSet.Unwrap cur) cur false).1) ∨
    ((startPass tr (GoSet.Unwrap cur) cur false).2 = true ∧
      ∀ fuel, startLoop tr fuel cur = none) := by
  cases hflag : (startPass tr (GoSet.Unwrap cur) cur false).2 with
  | false =>
    left
    refine ⟨rfl, ?_⟩
    intro fuel hf
    obtain ⟨n, rfl⟩ : ∃ n, fuel = n + 1 := ⟨fuel - 1, by omega⟩
    unfold startLoop
    simp only [hflag, Bool.false_eq_true, if_false]
  | true =>
    right
    refine ⟨rfl, ?_⟩
    intro fuel
    cases fuel with
    | zero => rfl
    | succ n =>
      unfold startLoop
      simp only [hflag, if_true]
      obtain ⟨p, hp, u, hu, hsub⟩ := startPass_flag_elim tr _ cur hflag
      apply startLoop_diverges tr n _ (startPass_nodup tr _ cur false hnd)
      exact ⟨p, (mem_startPass _ _ _ _ _).2 (Or.inl hp), u, hu, hsub⟩

/-! ## `ApplyEpsilonExpansion` on any machine -/

/-- What a returned expansion is made of: the expanded table `T`, and the start
set of the single pass that the start-state loop makes when it returns. -/
theorem ApplyEpsilonExpansion_some (fuel : Nat) (s E : nfaMachine)
    (h : s.ApplyEpsilonExpansion fuel = some E) :
    ∃ T, ExpandEpsilon fuel s.transitions = some T ∧ s.startQuiet = true ∧ 1 ≤ fuel ∧
      E = { states := GoSet.Del (GoSet.Clone s.states) (GoSet.Unwrap (uselessOf s T))
            chars := GoSet.Clone s.chars
            startStates := GoSet.Del
              (startPass s.transitions (GoSet.Unwrap (GoSet.Clone s.startStates))
                (GoSet.Clone s.startStates) false).1 (GoSet.Unwrap (uselessOf s T))
            acceptStates := GoSet.Clone s.acceptStates
            currentStates := GoSet.Clone s.currentStates
            transitions := purgeTransitions T (uselessOf s T) } := by
  unfold nfaMachine.ApplyEpsilonExpansion at h
  cases h1 : ExpandEpsilon fuel s.transitions with
  | none => rw [h1] at h; cases h
  | some T =>
    rw [h1] at h
    simp only at h
    cases h2 : s.applyEpsilonToStartStates fuel with
    | none => rw [h2] at h; cases h
    | some st =>
      rw [h2] at h
      simp only [Option.some.injEq] at h
      subst h
      unfold nfaMachine.applyEpsilonToStartStates at h2
      have hf : 1 ≤ fuel := by
        cases fuel with
        | zero => simp [startLoop] at h2
        | succ n => omega
      rcases startLoop_cases s.transitions (GoSet.Clone s.startStates) (GoSet.nodup_New _) with
        ⟨hq, hr⟩ | ⟨_, hr⟩
      · rw [hr fuel hf] at h2
        cases h2
        refine ⟨T, rfl, ?_, hf, rfl⟩
        unfold nfaMachine.startQuiet
        rw [hq]
        rfl
      · rw [hr fuel] at h2
        cases h2

/-- The expansion returns, for every sufficient fuel, when the first pass of
the start-state loop leaves `modified` unset. -/
theorem ApplyEpsilonExpansion_returns (s : nfaMachine) (hq : s.startQuiet = true) :
    ∃ E, ∀ fuel, max 1 (expandBound s.transitions) ≤ fuel →
      s.ApplyEpsilonExpansion fuel = some E := by
  obtain ⟨T, hT⟩ := ExpandEpsilon_total s.transitions (expandBound s.transitions) (Nat.le_refl _)
  unfold nfaMachine.startQuiet at hq
  rw [Bool.not_eq_true'] at hq
  rcases startLoop_cases s.transitions (GoSet.Clone s.startStates) (GoSet.nodup_New _) with
    ⟨_, hr⟩ | ⟨hq2, _⟩
  · refine ⟨{ states := GoSet.Del (GoSet.Clone s.states) (GoSet.Unwrap (uselessOf s T))
              chars := GoSet.Clone s.chars
              startStates := GoSet.Del
                (startPass s.transitions (GoSet.Unwrap (GoSet.Clone s.startStates))
                  (GoSet.Clone s.startStates) false).1 (GoSet.Unwrap (uselessOf s T))
              acceptStates := GoSet.Clone s.acceptStates
              currentStates := GoSet.Clone s.currentStates
              transitions := purgeTransitions T (uselessOf s T) }, fun fuel hf => ?_⟩
    unfold nfaMachine.ApplyEpsilonExpansion nfaMachine.applyEpsilonToStartStates
    rw [ExpandEpsilon_mono s.transitions _ fuel (by omega) T hT, hr fuel (by omega)]
  · rw [hq] at hq2
    cases hq2

/-- The expansion never returns when the first pass of the start-state loop
sets `modified`. -/
theorem ApplyEpsilonExpansion_diverges (s : nfaMachine) (hq : s.startQuiet = false)
    (fuel : Nat) : s.ApplyEpsilonExpansion fuel = none := by
  cases h : s.ApplyEpsilonExpansion fuel with
  | none => rfl
  | some E =>
    obtain ⟨_, _, hq2, _⟩ := ApplyEpsilonExpansion_some fuel s E h
    rw [hq] at hq2
    cases hq2

theorem ApplyEpsilonExpansion_mono (s : nfaMachine) (n m : Nat) (h : n ≤ m) (E : nfaMachine)
    (hE : s.ApplyEpsilonExpansion n = some E) : s.ApplyEpsilonExpansion m = some E := by
  obtain ⟨T, hT, hq, hf, hEq⟩ := ApplyEpsilonExpansion_some n s E hE
  unfold nfaMachine.startQuiet at hq
  rw [Bool.not_eq_true'] at hq
  rcases startLoop_cases s.transitions (GoSet.Clone s.startStates) (GoSet.nodup_New _) with
    ⟨_, hr⟩ | ⟨hq2, _⟩
  · unfold nfaMachine.ApplyEpsilonExpansion nfaMachine.applyEpsilonToStartStates
    rw [ExpandEpsilon_mono s.transitions n m h T hT, hr m (by omega), hEq]
  · rw [hq] at hq2
    cases hq2

theorem purge_keys (T : NTrans) (U : StringSet) :
    ∀ e ∈ purgeTransitions T U, ∃ e0 ∈ T, e.1 = e0.1 ∧ e.2.map Prod.fst = e0.2.map Prod.fst := by
  intro e he
  unfold purgeTransitions at he
  rw [List.mem_map] at he
  obtain ⟨e0, he0, rfl⟩ := he
  refine ⟨e0, he0, rfl, ?_⟩
  simp only [List.map_map]
  rfl

theorem ApplyEpsilonExpansion_noEps (fuel : Nat) (s E : nfaMachine)
    (h : s.ApplyEpsilonExpansion fuel = some E) :
    E.HasEpsilon = false ∧ ∀ e ∈ E.transitions, ∀ r ∈ e.2, r.1 ≠ Epsilon := by
  obtain ⟨T, hT, _, _, hEq⟩ := ApplyEpsilonExpansion_some fuel s E h
  have hkeys : ∀ e ∈ E.transitions, ∀ r ∈ e.2, r.1 ≠ Epsilon := by
    intro e he r hr
    rw [hEq] at he
    obtain ⟨e0, he0, _, hk⟩ := purge_keys T _ e he
    have : r.1 ∈ e0.2.map Prod.fst := by
      rw [← hk]
      exact List.mem_map_of_mem _ hr
    obtain ⟨r0, hr0, hr1⟩ := List.mem_map.1 this
    rw [← hr1]
    exact (ExpandEpsilon_keys s.transitions fuel T hT e0 he0).2 r0 hr0
  refine ⟨?_, hkeys⟩
  unfold nfaMachine.HasEpsilon
  rw [Bool.eq_false_iff, ne_eq, List.any_eq_true]
  rintro ⟨e, he, hhas⟩
  rw [mapHas_iff] at hhas
  obtain ⟨r, hr, hr1⟩ := List.mem_map.1 hhas
  exact hkeys e he r hr hr1

theorem powerset_error (s : nfaMachine) (fuel : Nat) (e : FaError)
    (h : s.ApplyPowersetConstruction fuel = some (Except.error e)) :
    s.HasEpsilon = true ∧ e = FaError.ErrEpsilonExists := by
  unfold nfaMachine.ApplyPowersetConstruction at h
  split at h
  · rename_i he
    simp only [Option.some.injEq, Except.error.injEq] at h
    exact ⟨he, h.symm⟩
  · simp only at h
    split at h
    · cases h
    · simp only [Option.some.injEq] at h
      cases h

theorem powerset_of_epsilon (s : nfaMachine) (fuel : Nat) (he : s.HasEpsilon = true) :
    s.ApplyPowersetConstruction fuel = some (Except.error FaError.ErrEpsilonExists) := by
  unfold nfaMachine.ApplyPowersetConstruction
  rw [if_pos he]

theorem IsDFA_iff (s : nfaMachine) :
    s.IsDFA = true ↔
      s.HasEpsilon = false ∧ GoSet.Len s.startStates = 1 ∧
        ∀ e ∈ s.transitions, ∀ r ∈ e.2, GoSet.Len r.2 = 1 := by
  unfold nfaMachine.IsDFA
  constructor
  · intro h
    split at h
    · cases h
    · rename_i hc
      rw [Bool.or_eq_true, not_or, Bool.not_eq_true, decide_eq_true_eq, not_not] at hc
      refine ⟨hc.1, hc.2, ?_⟩
      intro e he r hr
      rw [List.all_eq_true] at h
      have h1 := h e he
      rw [List.all_eq_true] at h1
      have h2 := h1 r hr
      rwa [decide_eq_true_eq] at h2
  · rintro ⟨h1, h2, h3⟩
    rw [h1, h2]
    simp only [ne_eq, not_true_eq_false, decide_False, Bool.or_self, Bool.false_eq_true,
      if_false, List.all_eq_true, decide_eq_true_eq]
    exact h3

/-- C14: `ApplyPowersetConstruction` returns the error `ErrEpsilonExists`
exactly when the machine has an epsilon transition; on a machine without one it
returns a machine and no error, for every fuel that covers `powersetBound`
dequeued subsets, and no run returns any other error. -/
theorem powerset_epsilon_exists (N : nfaMachine) (hs : N.startStates.Nodup) :
    (N.HasEpsilon = true →
      ∀ fuel, N.ApplyPowersetConstruction fuel = some (Except.error FaError.ErrEpsilonExists)) ∧
    (N.HasEpsilon = false →
      ∃ D, ∀ fuel, powersetBound N ≤ fuel →
        N.ApplyPowersetConstruction fuel = some (Except.ok D)) ∧
    (∀ fuel e, N.ApplyPowersetConstruction fuel = some (Except.error e) →
      e = FaError.ErrEpsilonExists ∧ N.HasEpsilon = true) := by
  refine ⟨fun he fuel => powerset_of_epsilon N fuel he, ?_, ?_⟩
  · intro he
    obtain ⟨D, hD⟩ := powerset_total N hs he (powersetBound N) (Nat.le_refl _)
    exact ⟨D, fun fuel hf => ApplyPowersetConstruction_mono N _ fuel hf _ hD⟩
  · intro fuel e h
    obtain ⟨h1, h2⟩ := powerset_error N fuel e h
    exact ⟨h2, h1⟩

/-- Witness for C14: the a(b|c)*d automaton, which has epsilon transitions. -/
theorem powerset_epsilon_exists_witness :
    abcd.startStates.Nodup ∧ abcd.HasEpsilon = true ∧
    (abcd.HasEpsilon = true →
      ∀ fuel, abcd.ApplyPowersetConstruction fuel =
        some (Except.error FaError.ErrEpsilonExists)) ∧
    (abcd.HasEpsilon = false →
      ∃ D, ∀ fuel, powersetBound abcd ≤ fuel →
        abcd.ApplyPowersetConstruction fuel = some (Except.ok D)) ∧
    (∀ fuel e, abcd.ApplyPowersetConstruction fuel = some (Except.error e) →
      e = FaError.ErrEpsilonExists ∧ abcd.HasEpsilon = true) :=
  ⟨by decide, by decide, powerset_epsilon_exists abcd (by decide)⟩

/-- C13: the powerset construction returns a DFA.  For every NFA `N` without
epsilon transitions it returns one machine `D` (for every fuel that covers
`powersetBound` dequeued subsets) on which `IsDFA` holds: `D` has no epsilon
transition, exactly one start state, and every transition has exactly one
destination.  The same holds for every machine that `Minimize` returns. -/
theorem powerset_returns_dfa (N : nfaMachine) (hs : N.startStates.Nodup)
    (he : N.HasEpsilon = false) :
    (∃ D, (∀ fuel, powersetBound N ≤ fuel →
        N.ApplyPowersetConstruction fuel = some (Except.ok D)) ∧
      (∀ fuel D2, N.ApplyPowersetConstruction fuel = some (Except.ok D2) → D2 = D) ∧
      D.IsDFA = true ∧ D.HasEpsilon = false ∧ GoSet.Len D.startStates = 1 ∧
      ∀ e ∈ D.transitions, ∀ r ∈ e.2, GoSet.Len r.2 = 1) ∧
    (∀ (fuel : Nat) (M D : nfaMachine), M.Minimize fuel = some (Except.ok D) →
      D.IsDFA = true ∧ D.HasEpsilon = false ∧ GoSet.Len D.startStates = 1 ∧
      ∀ e ∈ D.transitions, ∀ r ∈ e.2, GoSet.Len r.2 = 1) := by
  constructor
  · obtain ⟨D, hD⟩ := powerset_total N hs he (powersetBound N) (Nat.le_refl _)
    obtain ⟨_, sets, v, _, _, hDeq⟩ := powerset_inv N hs _ D hD
    have hX := powerset_IsSubsetMachine N hs _ D hD
    have hdfa : D.IsDFA = true :=
      IsDFA_singletonTable D hX.eps hX.start v.transitions (by rw [hDeq])
    refine ⟨D, fun fuel hf => ApplyPowersetConstruction_mono N _ fuel hf _ hD, ?_, hdfa,
      (IsDFA_iff D).1 hdfa⟩
    intro fuel D2 h2
    have h3 := ApplyPowersetConstruction_mono N fuel (max fuel (powersetBound N))
      (Nat.le_max_left _ _) _ h2
    have h4 := ApplyPowersetConstruction_mono N _ (max fuel (powersetBound N))
      (Nat.le_max_right _ _) _ hD
    rw [h3] at h4
    simp only [Option.some.injEq, Except.ok.injEq] at h4
    exact h4
  · intro fuel M D h
    have hdfa := Minimize_IsDFA fuel M D h
    exact ⟨hdfa, (IsDFA_iff D).1 hdfa⟩

/-- Witness for C13: the parity automaton as an NFA. -/
theorem powerset_returns_dfa_witness :
    parityNfa.startStates.Nodup ∧ parityNfa.HasEpsilon = false ∧
    (∃ D, (∀ fuel, powersetBound parityNfa ≤ fuel →
        parityNfa.ApplyPowersetConstruction fuel = some (Except.ok D)) ∧
      (∀ fuel D2, parityNfa.ApplyPowersetConstruction fuel = some (Except.ok D2) → D2 = D) ∧
      D.IsDFA = true ∧ D.HasEpsilon = false ∧ GoSet.Len D.startStates = 1 ∧
      ∀ e ∈ D.transitions, ∀ r ∈ e.2, GoSet.Len r.2 = 1) ∧
    (∀ (fuel : Nat) (M D : nfaMachine), M.Minimize fuel = some (Except.ok D) →
      D.IsDFA = true ∧ D.HasEpsilon = false ∧ GoSet.Len D.startStates = 1 ∧
      ∀ e ∈ D.transitions, ∀ r ∈ e.2, GoSet.Len r.2 = 1) :=
  ⟨by decide, by decide, powerset_returns_dfa parityNfa (by decide) (by decide)⟩

/-- C15: `Minimize` never fails.  Whenever the pipeline returns on a machine
`M`, with or without epsilon transitions, it returns a machine and no error:
each subset construction runs on the output of an epsilon expansion, which has
no epsilon transition. -/
theorem minimize_never_fails (fuel : Nat) (M : nfaMachine) (r : Except FaError nfaMachine)
    (h : M.Minimize fuel = some r) : ∃ D, r = Except.ok D := by
  unfold nfaMachine.Minimize at h
  cases h1 : M.Reverse.ApplyEpsilonExpansion fuel with
  | none => rw [h1] at h; cases h
  | some e1 =>
    rw [h1] at h
    simp only at h
    have he1 := (ApplyEpsilonExpansion_noEps fuel _ e1 h1).1
    cases h2 : e1.ApplyPowersetConstruction fuel with
    | none => rw [h2] at h; cases h
    | some r1 =>
      rw [h2] at h
      cases r1 with
      | error err =>
        have := (powerset_error e1 fuel err h2).1
        rw [he1] at this
        cases this
      | ok m =>
        simp only at h
        cases h3 : m.Reverse.ApplyEpsilonExpansion fuel with
        | none => rw [h3] at h; cases h
        | some e2 =>
          rw [h3] at h
          simp only at h
          have he2 := (ApplyEpsilonExpansion_noEps fuel _ e2 h3).1
          cases r with
          | error err =>
            have := (powerset_error e2 fuel err h).1
            rw [he2] at this
            cases this
          | ok D => exact ⟨D, rfl⟩

/-- Witness for C15: the a(b|c)*d automaton, which has epsilon transitions. -/
theorem minimize_never_fails_witness :
    abcd.Minimize 9 = some (Except.ok abcdMin) ∧
    ∃ D, (Except.ok abcdMin : Except FaError nfaMachine) = Except.ok D :=
  ⟨rfl, minimize_never_fails 9 abcd _ rfl⟩

/-- C12: the machine that `ApplyEpsilonExpansion` returns has no epsilon
transition: `HasEpsilon` is false on it and no symbol key of its table is
epsilon.  The expansion returns, for every sufficient fuel, whenever the first
pass of the start-state loop leaves its flag unset. -/
theorem expansion_has_no_epsilon (M : nfaMachine) :
    (∀ fuel E, M.ApplyEpsilonExpansion fuel = some E →
      E.HasEpsilon = false ∧ ∀ e ∈ E.transitions, ∀ r ∈ e.2, r.1 ≠ Epsilon) ∧
    (M.startQuiet = true →
      ∃ E, ∀ fuel, max 1 (expandBound M.transitions) ≤ fuel →
        M.ApplyEpsilonExpansion fuel = some E) :=
  ⟨fun fuel E h => ApplyEpsilonExpansion_noEps fuel M E h,
    fun hq => ApplyEpsilonExpansion_returns M hq⟩

/-- Witness for C12: the a(b|c)*d automaton and its expansion. -/
theorem expansion_has_no_epsilon_witness :
    abcd.HasEpsilon = true ∧ abcd.ApplyEpsilonExpansion 5 = some abcdExpanded ∧
    abcdExpanded.HasEpsilon = false ∧
    ∀ e ∈ abcdExpanded.transitions, ∀ r ∈ e.2, r.1 ≠ Epsilon :=
  ⟨by decide, rfl, (expansion_has_no_epsilon abcd).1 5 abcdExpanded rfl⟩

/-! ## NFA builder: what the loop gathers -/

theorem nfaCollectRow_tStates (state : String) (acc : NfaCollect)
    (v : GoMap Rune (List String)) (y : String) :
    y ∈ (nfaCollectRow state acc v).tStates ↔ y ∈ acc.tStates ∨ ∃ r ∈ v, y ∈ r.2 := by
  unfold nfaCollectRow
  induction v generalizing acc with
  | nil => simp
  | cons r v ih =>
    rw [List.foldl_cons, ih]
    by_cases hr : r.2.length = 0
    · have hnil : r.2 = [] := List.length_eq_zero.1 hr
      simp [hr, hnil]
    · simp only [hr, if_false, GoSet.mem_Add, List.mem_cons, exists_eq_or_imp]
      constructor
      · rintro ((h | h) | h)
        · exact Or.inl h
        · exact Or.inr (Or.inl h)
        · exact Or.inr (Or.inr h)
      · rintro (h | h | h)
        · exact Or.inl (Or.inl h)
        · exact Or.inl (Or.inr h)
        · exact Or.inr h

theorem nfaCollectRow_tChars (state : String) (acc : NfaCollect)
    (v : GoMap Rune (List String)) (c : Rune) :
    c ∈ (nfaCollectRow state acc v).tChars ↔
      c ∈ acc.tChars ∨ ∃ r ∈ v, r.2 ≠ [] ∧ r.1 = c := by
  unfold nfaCollectRow
  induction v generalizing acc with
  | nil => simp
  | cons r v ih =>
    rw [List.foldl_cons, ih]
    by_cases hr : r.2.length = 0
    · have hnil : r.2 = [] := List.length_eq_zero.1 hr
      simp [hr, hnil]
    · have hne : r.2 ≠ [] := fun h => hr (by rw [h]; rfl)
      simp only [hr, if_false, GoSet.mem_Add_single, List.mem_cons, exists_eq_or_imp, ne_eq,
        hne, not_false_eq_true, true_and]
      constructor
      · rintro ((h | h) | h)
        · exact Or.inl h
        · exact Or.inr (Or.inl h.symm)
        · exact Or.inr (Or.inr h)
      · rintro (h | h | h)
        · exact Or.inl (Or.inl h)
        · exact Or.inl (Or.inr h.symm)
        · exact Or.inr h

theorem nfaCollect_tStates (tr : GoMap String (GoMap Rune (List String))) (y : String) :
    y ∈ (nfaCollect tr).tStates ↔
      ∃ e ∈ tr, e.2 ≠ [] ∧ (e.1 = y ∨ ∃ r ∈ e.2, y ∈ r.2) := by
  unfold nfaCollect
  have key : ∀ (acc : NfaCollect),
      y ∈ (tr.foldl (fun acc e =>
        if e.2.length = 0 then acc
        else
          nfaCollectRow e.1
            { acc with
              tStates := GoSet.Add acc.tStates [e.1]
              transitions := mapSet acc.transitions e.1 [] } e.2) acc).tStates ↔
      y ∈ acc.tStates ∨ ∃ e ∈ tr, e.2 ≠ [] ∧ (e.1 = y ∨ ∃ r ∈ e.2, y ∈ r.2) := by
    induction tr with
    | nil => intro acc; simp
    | cons e tr ih =>
      intro acc
      rw [List.foldl_cons, ih]
      by_cases he : e.2 = []
      · simp [he]
      · have hl : ¬ e.2.length = 0 := fun h => he (List.length_eq_zero.1 h)
        simp only [hl, if_false, nfaCollectRow_tStates, GoSet.mem_Add_single, List.mem_cons,
          exists_eq_or_imp, ne_eq, he, not_false_eq_true, true_and]
        constructor
        · rintro (((h | h) | h) | h)
          · exact Or.inl h
          · exact Or.inr (Or.inl (Or.inl h.symm))
          · exact Or.inr (Or.inl (Or.inr h))
          · exact Or.inr (Or.inr h)
        · rintro (h | (h | h) | h)
          · exact Or.inl (Or.inl (Or.inl h))
          · exact Or.inl (Or.inl (Or.inr h.symm))
          · exact Or.inl (Or.inr h)
          · exact Or.inr h
  rw [key]
  simp [NewStringSet, GoSet.New, GoSet.Add]

theorem nfaCollect_tChars (tr : GoMap String (GoMap Rune (List String))) (c : Rune) :
    c ∈ (nfaCollect tr).tChars ↔ ∃ e ∈ tr, ∃ r ∈ e.2, r.2 ≠ [] ∧ r.1 = c := by
  unfold nfaCollect
  have key : ∀ (acc : NfaCollect),
      c ∈ (tr.foldl (fun acc e =>
        if e.2.length = 0 then acc
        else
          nfaCollectRow e.1
            { acc with
              tStates := GoSet.Add acc.tStates [e.1]
              transitions := mapSet acc.transitions e.1 [] } e.2) acc).tChars ↔
      c ∈ acc.tChars ∨ ∃ e ∈ tr, ∃ r ∈ e.2, r.2 ≠ [] ∧ r.1 = c := by
    induction tr with
    | nil => intro acc; simp
    | cons e tr ih =>
      intro acc
      rw [List.foldl_cons, ih]
      by_cases he : e.2 = []
      · simp [he]
      · have hl : ¬ e.2.length = 0 := fun h => he (List.length_eq_zero.1 h)
        simp only [hl, if_false, nfaCollectRow_tChars, List.mem_cons, exists_eq_or_imp]
        constructor
        · rintro ((h | h) | h)
          · exact Or.inl h
          · exact Or.inr (Or.inl h)
          · exact Or.inr (Or.inr h)
        · rintro (h | h | h)
          · exact Or.inl (Or.inl h)
          · exact Or.inl (Or.inr h)
          · exact Or.inr h
  rw [key]
  simp [NewRuneSet, GoSet.New, GoSet.Add]

theorem nfaBuild_statesCheck (b : nfaMachineBuilder) :
    GoSet.In (NewStringSet b.states) (GoSet.Unwrap (nfaCollect b.transitions).tStates) = true ↔
      ¬ b.badStates := by
  rw [GoSet.In_iff]
  unfold nfaMachineBuilder.badStates GoSet.Unwrap
  simp only [nfaCollect_tStates, NewStringSet, GoSet.mem_New]
  constructor
  · rintro h ⟨e, he, hne, h1 | ⟨r, hr, y, hy, h2⟩⟩
    · exact h1 (h e.1 ⟨e, he, hne, Or.inl rfl⟩)
    · exact h2 (h y ⟨e, he, hne, Or.inr ⟨r, hr, hy⟩⟩)
  · rintro h p ⟨e, he, hne, h1 | ⟨r, hr, hy⟩⟩
    · by_contra hp
      exact h ⟨e, he, hne, Or.inl (h1 ▸ hp)⟩
    · by_contra hp
      exact h ⟨e, he, hne, Or.inr ⟨r, hr, p, hy, hp⟩⟩

theorem nfaBuild_charsCheck (b : nfaMachineBuilder) :
    (decide (GoSet.Len (NewRuneSet b.chars) > 0) &&
      !GoSet.In (NewRuneSet b.chars) (GoSet.Unwrap (nfaCollect b.transitions).tChars)) = true ↔
      b.badChars := by
  rw [Bool.and_eq_true, decide_eq_true_eq, GoSet.Len_pos_iff, Bool.not_eq_true',
    ← Bool.not_eq_true, GoSet.In_iff]
  unfold nfaMachineBuilder.badChars GoSet.Unwrap
  simp only [nfaCollect_tChars, NewRuneSet, GoSet.mem_New]
  constructor
  · rintro ⟨⟨y, hy⟩, h⟩
    refine ⟨List.ne_nil_of_mem hy, ?_⟩
    by_contra hc
    apply h
    rintro p ⟨e, he, r, hr, hne, rfl⟩
    by_contra hp
    exact hc ⟨e, he, r, hr, hne, hp⟩
  · rintro ⟨hne, e, he, r, hr, hne2, hc⟩
    refine ⟨List.exists_mem_of_ne_nil _ hne, ?_⟩
    intro h
    exact hc (h r.1 ⟨e, he, r, hr, hne2, rfl⟩)

/-- C11, as the code has it: `nfaMachineBuilder.Build` checks in a fixed order
the start states, then the accept states, then the transitions.  The transition
check fails when the source state of a row that has an entry, or a destination
state, is undeclared, or when the declared alphabet is not empty and the symbol
of a transition with a non-empty destination list, epsilon included, is outside
it.  `Build` succeeds exactly when all three checks pass, and the machine built
then sits on its start states. -/
theorem nfa_build_validation (b : nfaMachineBuilder) :
    ((∃ y ∈ b.startStates, y ∉ b.states) →
      b.Build = Except.error FaError.ErrInvalidStartStates) ∧
    ((∀ y ∈ b.startStates, y ∈ b.states) → (∃ a ∈ b.acceptStates, a ∉ b.states) →
      b.Build = Except.error FaError.ErrInvalidAcceptStates) ∧
    ((∀ y ∈ b.startStates, y ∈ b.states) → (∀ a ∈ b.acceptStates, a ∈ b.states) →
      (b.badStates ∨ b.badChars) → b.Build = Except.error FaError.ErrInvalidTransitions) ∧
    ((∀ y ∈ b.startStates, y ∈ b.states) → (∀ a ∈ b.acceptStates, a ∈ b.states) →
      ¬ (b.badStates ∨ b.badChars) →
      ∃ m, b.Build = Except.ok m ∧ m.currentStates = m.startStates ∧
        (∀ y, y ∈ m.startStates ↔ y ∈ b.startStates) ∧
        (∀ y, y ∈ m.acceptStates ↔ y ∈ b.acceptStates) ∧
        (∀ y, y ∈ m.states ↔ y ∈ b.states) ∧ (∀ c, c ∈ m.chars ↔ c ∈ b.chars)) ∧
    ((∃ m, b.Build = Except.ok m) ↔
      ((∀ y ∈ b.startStates, y ∈ b.states) ∧ (∀ a ∈ b.acceptStates, a ∈ b.states) ∧
        ¬ (b.badStates ∨ b.badChars))) := by
  have hs : GoSet.In (NewStringSet b.states) b.startStates = true ↔
      ∀ y ∈ b.startStates, y ∈ b.states := by
    rw [GoSet.In_iff]
    constructor
    · intro h a ha; exact (GoSet.mem_New _ _).1 (h a ha)
    · intro h a ha; exact (GoSet.mem_New _ _).2 (h a ha)
  have ha : GoSet.In (NewStringSet b.states) b.acceptStates = true ↔
      ∀ a ∈ b.acceptStates, a ∈ b.states := by
    rw [GoSet.In_iff]
    constructor
    · intro h a ha; exact (GoSet.mem_New _ _).1 (h a ha)
    · intro h a ha; exact (GoSet.mem_New _ _).2 (h a ha)
  have c1 : (∃ y ∈ b.startStates, y ∉ b.states) →
      b.Build = Except.error FaError.ErrInvalidStartStates := by
    rintro ⟨y, hy, hn⟩
    have : GoSet.In (NewStringSet b.states) b.startStates = false := by
      rw [Bool.eq_false_iff]; exact fun hc => hn (hs.1 hc y hy)
    simp [nfaMachineBuilder.Build, this]
  have c2 : (∀ y ∈ b.startStates, y ∈ b.states) → (∃ a ∈ b.acceptStates, a ∉ b.states) →
      b.Build = Except.error FaError.ErrInvalidAcceptStates := by
    intro h1 ⟨a, haa, hna⟩
    have h2 : GoSet.In (NewStringSet b.states) b.acceptStates = false := by
      rw [Bool.eq_false_iff]; exact fun hc => hna (ha.1 hc a haa)
    simp [nfaMachineBuilder.Build, hs.2 h1, h2]
  have c3 : (∀ y ∈ b.startStates, y ∈ b.states) → (∀ a ∈ b.acceptStates, a ∈ b.states) →
      (b.badStates ∨ b.badChars) → b.Build = Except.error FaError.ErrInvalidTransitions := by
    intro h1 h2 h3
    have h4 : (!GoSet.In (NewStringSet b.states)
          (GoSet.Unwrap (nfaCollect b.transitions).tStates)
        || (decide (GoSet.Len (NewRuneSet b.chars) > 0) &&
          !GoSet.In (NewRuneSet b.chars)
            (GoSet.Unwrap (nfaCollect b.transitions).tChars))) = true := by
      rw [Bool.or_eq_true, nfaBuild_charsCheck, Bool.not_eq_true', ← Bool.not_eq_true,
        nfaBuild_statesCheck, not_not]
      exact h3
    unfold nfaMachineBuilder.Build
    simp only [hs.2 h1, ha.2 h2, Bool.not_true, Bool.false_eq_true, if_false, h4, if_true]
  have c4 : (∀ y ∈ b.startStates, y ∈ b.states) → (∀ a ∈ b.acceptStates, a ∈ b.states) →
      ¬ (b.badStates ∨ b.badChars) →
      ∃ m, b.Build = Except.ok m ∧ m.currentStates = m.startStates ∧
        (∀ y, y ∈ m.startStates ↔ y ∈ b.startStates) ∧
        (∀ y, y ∈ m.acceptStates ↔ y ∈ b.acceptStates) ∧
        (∀ y, y ∈ m.states ↔ y ∈ b.states) ∧ (∀ c, c ∈ m.chars ↔ c ∈ b.chars) := by
    intro h1 h2 h3
    have h4 : (!GoSet.In (NewStringSet b.states)
          (GoSet.Unwrap (nfaCollect b.transitions).tStates)
        || (decide (GoSet.Len (NewRuneSet b.chars) > 0) &&
          !GoSet.In (NewRuneSet b.chars)
            (GoSet.Unwrap (nfaCollect b.transitions).tChars))) = false := by
      rw [Bool.eq_false_iff, ne_eq, Bool.or_eq_true, nfaBuild_charsCheck, Bool.not_eq_true',
        ← Bool.not_eq_true, nfaBuild_statesCheck, not_not]
      exact h3
    refine ⟨{ states := NewStringSet b.states, chars := NewRuneSet b.chars,
              startStates := NewStringSet b.startStates,
              acceptStates := NewStringSet b.acceptStates,
              transitions := (nfaCollect b.transitions).transitions,
              currentStates := NewStringSet b.startStates }, ?_, rfl,
      fun y => GoSet.mem_New _ _, fun y => GoSet.mem_New _ _, fun y => GoSet.mem_New _ _,
      fun c => GoSet.mem_New _ _⟩
    unfold nfaMachineBuilder.Build
    simp only [hs.2 h1, ha.2 h2, Bool.not_true, Bool.false_eq_true, if_false, h4]
  refine ⟨c1, c2, c3, c4, ?_⟩
  constructor
  · rintro ⟨m, hm⟩
    by_cases h1 : ∀ y ∈ b.startStates, y ∈ b.states
    · by_cases h2 : ∀ a ∈ b.acceptStates, a ∈ b.states
      · by_cases h3 : b.badStates ∨ b.badChars
        · rw [c3 h1 h2 h3] at hm; cases hm
        · exact ⟨h1, h2, h3⟩
      · push_neg at h2
        rw [c2 h1 h2] at hm; cases hm
    · push_neg at h1
      rw [c1 h1] at hm; cases hm
  · rintro ⟨h1, h2, h3⟩
    obtain ⟨m, hm, _⟩ := c4 h1 h2 h3
    exact ⟨m, hm⟩

/-- Witness for C11 (amended): the builder input of the a(b|c)*d automaton
passes every check, and with an undeclared start state it is rejected. -/
theorem nfa_build_validation_witness :
    (∃ m, abcdBuilder.Build = Except.ok m) ∧
    ({ abcdBuilder with startStates := ["x"] } : nfaMachineBuilder).Build =
      Except.error FaError.ErrInvalidStartStates :=
  ⟨(nfa_build_validation abcdBuilder).2.2.2.2.2 ⟨by decide, by decide, by
      unfold nfaMachineBuilder.badStates nfaMachineBuilder.badChars; decide⟩,
   (nfa_build_validation { abcdBuilder with startStates := ["x"] }).1
    ⟨"x", by decide, by decide⟩⟩

/-- C11 fails as stated, in two ways.  `epsAlphabetBuilder` meets the stated
success condition (its only transition is an epsilon transition, its declared
alphabet is `{a}`), and `Build` rejects it with `ErrInvalidTransitions`: the
symbol check does not exempt epsilon.  `emptyRowBuilder` meets the stated
condition too (it has no transition with a non-empty destination list), and
`Build` rejects it because the source state of its row is undeclared. -/
theorem nfa_build_counterexample :
    (epsAlphabetBuilder.specValid ∧
      epsAlphabetBuilder.Build = Except.error FaError.ErrInvalidTransitions) ∧
    (emptyRowBuilder.specValid ∧
      emptyRowBuilder.Build = Except.error FaError.ErrInvalidTransitions) := by
  refine ⟨⟨?_, rfl⟩, ⟨?_, rfl⟩⟩
  · unfold nfaMachineBuilder.specValid epsAlphabetBuilder
    simp
  · unfold nfaMachineBuilder.specValid emptyRowBuilder
    simp

theorem EpsClosure_empty (tr : NTrans) (S : String → Prop) (h : ∀ y, ¬ S y) (y : String) :
    ¬ EpsClosure tr S y := by
  intro hc
  induction hc with
  | base hy => exact h _ hy
  | step _ _ ih => exact ih

/-- The destinations of the expanded table: the epsilon-closure of the
destinations of the input table, on symbols other than epsilon. -/
theorem mem_tableDelta_ExpandEpsilon (tr : NTrans) (hT : TableOK tr) (fuel : Nat) (T : NTrans)
    (h : ExpandEpsilon fuel tr = some T) (q : String) (a : Rune) (y : String) :
    y ∈ tableDelta T q a ↔
      a ≠ Epsilon ∧ EpsClosure tr (fun p => p ∈ tableDelta tr q a) y := by
  obtain ⟨h1, h2⟩ := ExpandEpsilon_cell tr hT fuel T h q a
  by_cases hc : a = Epsilon ∨ tableDelta tr q a = []
  · have hnone := h2 hc
    have hd : tableDelta T q a = [] := by unfold tableDelta; rw [hnone]; rfl
    rw [hd]
    constructor
    · intro hy; cases hy
    · rintro ⟨ha, hcl⟩
      rcases hc with hc | hc
      · exact absurd hc ha
      · exact absurd hcl (EpsClosure_empty tr _ (fun z hz => by rw [hc] at hz; cases hz) y)
  · rw [not_or] at hc
    obtain ⟨u, hu, _, hmem⟩ := h1 hc.1 hc.2
    rw [tableDelta_of_get T q a u hu, hmem]
    exact ⟨fun hcl => ⟨hc.1, hcl⟩, fun hcl => hcl.2⟩

theorem mem_uselessOf_iff (s : nfaMachine) (hT : TableOK s.transitions) (fuel : Nat)
    (T : NTrans) (h : ExpandEpsilon fuel s.transitions = some T) (y : String) :
    (y ∈ uselessOf s T ↔ IsUseless s T y) ∧
    (IsUseless s T y ↔
      (y ∈ s.states ∧ y ∉ s.acceptStates ∧ ∀ a : Rune, a ≠ Epsilon → s.Delta y a = [])) := by
  have hrow := ExpandEpsilon_row s.transitions hT fuel T h y
  have hA : mapHas T y = false ↔ ∀ a : Rune, a ≠ Epsilon → tableDelta s.transitions y a = [] := by
    rw [← Bool.not_eq_true, hrow]
    push_neg
    rfl
  have hB : (∀ a : Rune, a ≠ Epsilon → tableDelta T y a = []) ↔
      ∀ a : Rune, a ≠ Epsilon → tableDelta s.transitions y a = [] := by
    constructor
    · intro hall a ha
      by_contra hne
      obtain ⟨z, hz⟩ := List.exists_mem_of_ne_nil _ hne
      have : z ∈ tableDelta T y a :=
        (mem_tableDelta_ExpandEpsilon _ hT fuel T h y a z).2 ⟨ha, EpsClosure.base hz⟩
      rw [hall a ha] at this
      cases this
    · intro hall a ha
      by_contra hne
      obtain ⟨z, hz⟩ := List.exists_mem_of_ne_nil _ hne
      have := ((mem_tableDelta_ExpandEpsilon _ hT fuel T h y a z).1 hz).2
      exact EpsClosure_empty _ _ (fun w hw => by rw [hall a ha] at hw; cases hw) z this
  constructor
  · rw [mem_uselessOf, hA]
    unfold IsUseless
    rw [hB]
  · unfold IsUseless nfaMachine.Delta
    rw [hB]

theorem mem_Delta_purge (T : NTrans) (U : StringSet) (q : String) (a : Rune) (y : String) :
    y ∈ tableDelta (purgeTransitions T U) q a ↔ y ∈ tableDelta T q a ∧ y ∉ U := by
  unfold tableDelta
  rw [tableGet_purge]
  cases tableGet T q a with
  | none => simp
  | some u =>
    simp only [Option.map_some', Option.getD_some, GoSet.mem_Del, GoSet.Unwrap]

/-- The fields of a returned expansion, in terms of the machine, the expanded
table `T` and the useless states. -/
theorem ApplyEpsilonExpansion_fields (s : nfaMachine) (hT : TableOK s.transitions)
    (fuel : Nat) (E : nfaMachine) (h : s.ApplyEpsilonExpansion fuel = some E) :
    ∃ T, ExpandEpsilon fuel s.transitions = some T ∧
      (∀ y, y ∈ E.states ↔ y ∈ s.states ∧ ¬ IsUseless s T y) ∧
      (∀ q a y, y ∈ E.Delta q a ↔ y ∈ tableDelta T q a ∧ ¬ IsUseless s T y) ∧
      (∀ y, y ∈ E.startStates ↔
        (y ∈ s.startStates ∨ ∃ p ∈ s.startStates, y ∈ s.Delta p Epsilon) ∧
          ¬ IsUseless s T y) ∧
      (∀ y, y ∈ E.acceptStates ↔ y ∈ s.acceptStates) ∧
      (∀ c, c ∈ E.chars ↔ c ∈ s.chars) ∧
      (∀ y, y ∈ E.currentStates ↔ y ∈ s.currentStates) := by
  obtain ⟨T, hTe, _, _, hEq⟩ := ApplyEpsilonExpansion_some fuel s E h
  have hU : ∀ y, y ∈ uselessOf s T ↔ IsUseless s T y :=
    fun y => (mem_uselessOf_iff s hT fuel T hTe y).1
  refine ⟨T, hTe, ?_, ?_, ?_, ?_, ?_, ?_⟩
  · intro y
    rw [hEq]
    simp only [GoSet.mem_Del, GoSet.mem_Clone, GoSet.Unwrap, hU]
  · intro q a y
    unfold nfaMachine.Delta
    rw [hEq]
    simp only [mem_Delta_purge, hU]
  · intro y
    rw [hEq]
    simp only [GoSet.mem_Del, GoSet.Unwrap, hU, mem_startPass, GoSet.mem_Clone,
      nfaMachine.Delta]
  · intro y
    rw [hEq]
    exact GoSet.mem_Clone _ _
  · intro c
    rw [hEq]
    exact GoSet.mem_Clone _ _
  · intro y
    rw [hEq]
    exact GoSet.mem_Clone _ _

/-- C19: `ApplyEpsilonExpansion` purges exactly the useless states.  With `T`
the expanded table and a state called useless when it is a state of `M`, not an
accept state, and the source of no transition of `T` on a symbol other than
epsilon (equivalently: of no such transition of `M`), every returned machine
has the states of `M` that are not useless, no useless state in any destination
set or among the start states, the accept states and the alphabet of `M`; an
accept state that is a state of `M` is never removed.  The expansion returns,
for every sufficient fuel, whenever the first pass of the start-state loop
leaves its flag unset. -/
theorem expansion_purges_useless (M : nfaMachine) (hT : TableOK M.transitions) :
    (∀ fuel E, M.ApplyEpsilonExpansion fuel = some E →
      ∃ T, ExpandEpsilon fuel M.transitions = some T ∧
        (∀ y, IsUseless M T y ↔
          (y ∈ M.states ∧ y ∉ M.acceptStates ∧ ∀ a : Rune, a ≠ Epsilon → M.Delta y a = [])) ∧
        (∀ y, y ∈ E.states ↔ y ∈ M.states ∧ ¬ IsUseless M T y) ∧
        (∀ (q : String) (a : Rune) (y : String), y ∈ E.Delta q a → ¬ IsUseless M T y) ∧
        (∀ y ∈ E.startStates, ¬ IsUseless M T y) ∧
        (∀ y, y ∈ E.acceptStates ↔ y ∈ M.acceptStates) ∧
        (∀ c, c ∈ E.chars ↔ c ∈ M.chars) ∧
        (∀ y ∈ M.acceptStates, y ∈ M.states → y ∈ E.states)) ∧
    (M.startQuiet = true →
      ∃ E, ∀ fuel, max 1 (expandBound M.transitions) ≤ fuel →
        M.ApplyEpsilonExpansion fuel = some E) := by
  refine ⟨?_, fun hq => ApplyEpsilonExpansion_returns M hq⟩
  intro fuel E h
  obtain ⟨T, hTe, hst, hd, hss, hacc, hch, _⟩ := ApplyEpsilonExpansion_fields M hT fuel E h
  refine ⟨T, hTe, fun y => (mem_uselessOf_iff M hT fuel T hTe y).2, hst,
    fun q a y hy => ((hd q a y).1 hy).2, fun y hy => ((hss y).1 hy).2, hacc, hch, ?_⟩
  intro y hy1 hy2
  rw [hst]
  exact ⟨hy2, fun hu => hu.2.1 hy1⟩

/-- Witness for C19: the a(b|c)*d automaton, whose expansion keeps five of the
ten states. -/
theorem expansion_purges_useless_witness :
    TableOK abcd.transitions ∧ abcd.ApplyEpsilonExpansion 5 = some abcdExpanded ∧
    ∃ T, ExpandEpsilon 5 abcd.transitions = some T ∧
      (∀ y, IsUseless abcd T y ↔
        (y ∈ abcd.states ∧ y ∉ abcd.acceptStates ∧
          ∀ a : Rune, a ≠ Epsilon → abcd.Delta y a = [])) ∧
      (∀ y, y ∈ abcdExpanded.states ↔ y ∈ abcd.states ∧ ¬ IsUseless abcd T y) ∧
      (∀ (q : String) (a : Rune) (y : String),
        y ∈ abcdExpanded.Delta q a → ¬ IsUseless abcd T y) ∧
      (∀ y ∈ abcdExpanded.startStates, ¬ IsUseless abcd T y) ∧
      (∀ y, y ∈ abcdExpanded.acceptStates ↔ y ∈ abcd.acceptStates) ∧
      (∀ c, c ∈ abcdExpanded.chars ↔ c ∈ abcd.chars) ∧
      (∀ y ∈ abcd.acceptStates, y ∈ abcd.states → y ∈ abcdExpanded.states) :=
  ⟨nfaBuild_TableOK abcdBuilder abcd rfl, rfl,
    (expansion_purges_useless abcd (nfaBuild_TableOK abcdBuilder abcd rfl)).1 5
      abcdExpanded rfl⟩

/-- C17, as the code has it: the table of `ApplyEpsilonExpansion(M)` is closure
after step.  Before the useless states are removed, the expanded table `T` has
for every state `q` and every symbol `a` other than epsilon the destinations
`Delta'(q, a)` = the epsilon-closure of `Delta(q, a)` (the least superset of
`Delta(q, a)` closed under epsilon transitions), and no destination on
epsilon; the returned machine has these destinations without the useless
states.  The expansion returns, for every sufficient fuel, whenever the first
pass of the start-state loop leaves its flag unset. -/
theorem expansion_table_closure_after_step (M : nfaMachine) (hT : TableOK M.transitions) :
    (∀ fuel E, M.ApplyEpsilonExpansion fuel = some E →
      ∃ T, ExpandEpsilon fuel M.transitions = some T ∧
        (∀ (q : String) (a : Rune) (y : String), y ∈ tableDelta T q a ↔
          a ≠ Epsilon ∧ EpsClosure M.transitions (fun p => p ∈ M.Delta q a) y) ∧
        (∀ (q : String) (a : Rune) (y : String), y ∈ E.Delta q a ↔
          y ∈ tableDelta T q a ∧ ¬ IsUseless M T y)) ∧
    (M.startQuiet = true →
      ∃ E, ∀ fuel, max 1 (expandBound M.transitions) ≤ fuel →
        M.ApplyEpsilonExpansion fuel = some E) := by
  refine ⟨?_, fun hq => ApplyEpsilonExpansion_returns M hq⟩
  intro fuel E h
  obtain ⟨T, hTe, _, hd, _⟩ := ApplyEpsilonExpansion_fields M hT fuel E h
  exact ⟨T, hTe, fun q a y => mem_tableDelta_ExpandEpsilon M.transitions hT fuel T hTe q a y, hd⟩

/-- Witness for C17 (amended): the machine `basic` of the tests. -/
theorem expansion_table_closure_after_step_witness :
    TableOK basic.transitions ∧ basic.startQuiet = true ∧
    (∀ fuel E, basic.ApplyEpsilonExpansion fuel = some E →
      ∃ T, ExpandEpsilon fuel basic.transitions = some T ∧
        (∀ (q : String) (a : Rune) (y : String), y ∈ tableDelta T q a ↔
          a ≠ Epsilon ∧ EpsClosure basic.transitions (fun p => p ∈ basic.Delta q a) y) ∧
        (∀ (q : String) (a : Rune) (y : String), y ∈ E.Delta q a ↔
          y ∈ tableDelta T q a ∧ ¬ IsUseless basic T y)) ∧
    (basic.startQuiet = true →
      ∃ E, ∀ fuel, max 1 (expandBound basic.transitions) ≤ fuel →
        basic.ApplyEpsilonExpansion fuel = some E) :=
  ⟨firstTable_OK, by decide, expansion_table_closure_after_step basic firstTable_OK⟩

theorem EpsClosure_no_entry (tr : NTrans) (q : String) (h : tableDelta tr q Epsilon = [])
    (p : String) (hp : EpsClosure tr (fun z => z = q) p) : p = q := by
  induction hp with
  | base hy => exact hy
  | step _ hy ih =>
    rw [ih, h] at hy
    cases hy

/-- C17 fails as stated: on the machine `basic` of the tests (`1 -eps-> 2`,
`2 -0-> 4`, `0 -0-> 1`) the specification's table has `4` in `Delta'(1, 0)`,
since `2` is in the epsilon-closure of `1`, and does not have `2` in
`Delta'(0, 0)`; the expanded table of the code, the one `TestExpandEpsilon`
expects, has no `4` in `Delta'(1, 0)` and has `2` in `Delta'(0, 0)`. -/
theorem expansion_table_counterexample :
    basicBuilder.Build = Except.ok basic ∧
    ∃ E T, basic.ApplyEpsilonExpansion 5 = some E ∧
      ExpandEpsilon 5 basic.transitions = some T ∧
      specExpandDelta basic.transitions "1" 48 "4" ∧ "4" ∉ tableDelta T "1" 48 ∧
      "4" ∉ E.Delta "1" 48 ∧
      ¬ specExpandDelta basic.transitions "0" 48 "2" ∧ "2" ∈ tableDelta T "0" 48 ∧
      "2" ∈ E.Delta "0" 48 := by
  refine ⟨rfl, _, _, rfl, rfl, ?_, by decide, by decide, ?_, by decide, by decide⟩
  · exact ⟨"2", EpsClosure.step (EpsClosure.base rfl) (by decide), by decide⟩
  · rintro ⟨p, hp, hy⟩
    have := EpsClosure_no_entry basic.transitions "0" (by decide) p hp
    subst this
    revert hy
    decide

/-- C18, the code at the failing input: `chain` is returned by the builder
(`s -eps-> p -eps-> r -a-> f`, start `s`, accept `f`).  The state `r` is in the
epsilon-closure of the start states and is kept as a state of the expansion,
yet the expansion has no start state at all: the start-state loop stops after
one level, and `s` and `p` are purged.  The machine accepts "a", its expansion
does not. -/
theorem start_closure_stops_after_one_level :
    chainBuilder.Build = Except.ok chain ∧
    EpsClosure chain.transitions (fun y => y ∈ chain.startStates) "r" ∧
    ∃ E, (∀ fuel, 2 ≤ fuel → chain.ApplyEpsilonExpansion fuel = some E) ∧
      "r" ∈ E.states ∧ "r" ∉ E.startStates ∧ E.startStates = [] ∧
      chain.accepts 5 [97] = some true ∧ E.accepts 5 [97] = some false := by
  refine ⟨rfl, ?_, _, fun fuel hf => ApplyEpsilonExpansion_mono chain 2 fuel hf _ rfl,
    by decide, by decide, rfl, by decide, by decide⟩
  have h1 : EpsClosure chain.transitions (fun y => y ∈ chain.startStates) "s" :=
    EpsClosure.base (by decide)
  have h2 : EpsClosure chain.transitions (fun y => y ∈ chain.startStates) "p" :=
    EpsClosure.step h1 (by decide)
  exact EpsClosure.step h2 (by decide)

/-- C30: `SetState` on a DFA fails with `ErrInvalidState` exactly when the
state is not in `Q` and otherwise makes it the current state; `SetStates` on an
NFA fails with `ErrInvalidState` exactly when some given state is not in `Q` and
otherwise makes the given set the current set.  A failed call leaves the
machine as it was, and `Reset` afterwards restores the start state (DFA) or the
start states (NFA). -/
theorem set_state_contract (D : dfaMachine) (M : nfaMachine) (q : String)
    (qs : List String) :
    (q ∉ D.states → D.SetState q = (D, some FaError.ErrInvalidState)) ∧
    (q ∈ D.states → D.SetState q = ({ D with currentState := q }, none)) ∧
    ((D.SetState q).2 = some FaError.ErrInvalidState ↔ q ∉ D.states) ∧
    ((D.SetState q).2 = none ∨ (D.SetState q).2 = some FaError.ErrInvalidState) ∧
    (D.SetState q).1.Reset.currentState = D.startState ∧
    ((∃ y ∈ qs, y ∉ M.states) → M.SetStates qs = (M, some FaError.ErrInvalidState)) ∧
    ((∀ y ∈ qs, y ∈ M.states) →
      ∃ c : StringSet, M.SetStates qs = ({ M with currentStates := c }, none) ∧ c.Nodup ∧
        ∀ y, y ∈ c ↔ y ∈ qs) ∧
    ((M.SetStates qs).2 = some FaError.ErrInvalidState ↔ ∃ y ∈ qs, y ∉ M.states) ∧
    ((M.SetStates qs).2 = none ∨ (M.SetStates qs).2 = some FaError.ErrInvalidState) ∧
    (∀ y, y ∈ (M.SetStates qs).1.Reset.currentStates ↔ y ∈ M.startStates) := by
  have hd : GoSet.In D.states [q] = true ↔ q ∈ D.states := GoSet.In_single _ _
  have hn : GoSet.In M.states (GoSet.Unwrap (NewStringSet qs)) = true ↔
      ∀ y ∈ qs, y ∈ M.states := by
    rw [GoSet.In_iff]
    constructor
    · intro h y hy
      exact h y ((GoSet.mem_New _ _).2 hy)
    · intro h y hy
      exact h y ((GoSet.mem_New _ _).1 hy)
  have d1 : q ∉ D.states → D.SetState q = (D, some FaError.ErrInvalidState) := by
    intro h
    have : GoSet.In D.states [q] = false := by
      rw [Bool.eq_false_iff]; exact fun hc => h (hd.1 hc)
    simp [dfaMachine.SetState, this]
  have d2 : q ∈ D.states → D.SetState q = ({ D with currentState := q }, none) := by
    intro h
    simp [dfaMachine.SetState, hd.2 h]
  have n1 : (∃ y ∈ qs, y ∉ M.states) → M.SetStates qs = (M, some FaError.ErrInvalidState) := by
    rintro ⟨y, hy, hny⟩
    have : GoSet.In M.states (GoSet.Unwrap (NewStringSet qs)) = false := by
      rw [Bool.eq_false_iff]; exact fun hc => hny (hn.1 hc y hy)
    simp [nfaMachine.SetStates, this]
  have n2 : (∀ y ∈ qs, y ∈ M.states) →
      M.SetStates qs = ({ M with currentStates := NewStringSet qs }, none) := by
    intro h
    simp [nfaMachine.SetStates, hn.2 h]
  refine ⟨d1, d2, ?_, ?_, ?_, n1, ?_, ?_, ?_, ?_⟩
  · by_cases h : q ∈ D.states
    · rw [d2 h]; simp [h]
    · rw [d1 h]; simp [h]
  · by_cases h : q ∈ D.states
    · rw [d2 h]; exact Or.inl rfl
    · rw [d1 h]; exact Or.inr rfl
  · by_cases h : q ∈ D.states
    · rw [d2 h]; rfl
    · rw [d1 h]; rfl
  · intro h
    exact ⟨NewStringSet qs, n2 h, GoSet.nodup_New _, fun y => GoSet.mem_New _ _⟩
  · by_cases h : ∀ y ∈ qs, y ∈ M.states
    · rw [n2 h]
      simp only [false_iff, not_exists, not_and, not_not]
      constructor
      · intro hc; cases hc
      · rintro ⟨y, hy, hny⟩; exact absurd (h y hy) hny
    · have h2 : ∃ y ∈ qs, y ∉ M.states := by push_neg at h; exact h
      rw [n1 h2]
      exact ⟨fun _ => h2, fun _ => rfl⟩
  · by_cases h : ∀ y ∈ qs, y ∈ M.states
    · rw [n2 h]; exact Or.inl rfl
    · have h2 : ∃ y ∈ qs, y ∉ M.states := by push_neg at h; exact h
      rw [n1 h2]; exact Or.inr rfl
  · intro y
    by_cases h : ∀ y ∈ qs, y ∈ M.states
    · rw [n2 h]
      exact GoSet.mem_New _ _
    · have h2 : ∃ y ∈ qs, y ∉ M.states := by push_neg at h; exact h
      rw [n1 h2]
      exact GoSet.mem_New _ _

/-- Witness for C30: the parity DFA and the a(b|c)*d NFA, with a state of the
machine and with an unknown state. -/
theorem set_state_contract_witness :
    parity.SetState "odd" = ({ parity with currentState := "odd" }, none) ∧
    parity.SetState "x" = (parity, some FaError.ErrInvalidState) ∧
    abcd.SetStates ["x"] = (abcd, some FaError.ErrInvalidState) :=
  ⟨(set_state_contract parity abcd "odd" []).2.1 (by decide),
    (set_state_contract parity abcd "x" []).1 (by decide),
    (set_state_contract parity abcd "x" ["x"]).2.2.2.2.2.1 ⟨"x", by decide, by decide⟩⟩

theorem nfaPutTrace_dead (fuel : Nat) (s : nfaMachine) (hc : s.currentStates = [])
    (w : List Rune) (hw : ∀ x ∈ w, s.admits x) :
    s.putTrace fuel w = some (s, w.map (fun _ => some FaError.ErrEmptyStates)) := by
  induction w with
  | nil => rfl
  | cons x w ih =>
    have hx : ¬ (s.chars ≠ [] ∧ x ∉ s.chars) := by
      rintro ⟨h1, h2⟩
      rcases hw x (List.mem_cons_self _ _) with h | h
      · exact h1 h
      · exact h2 h
    unfold nfaMachine.putTrace
    rw [nfaPut_dead fuel s x hx hc]
    simp only
    rw [ih (fun y hy => hw y (List.mem_cons_of_mem _ hy))]
    rfl

/-- C25: dead simulation.  On an NFA whose current set is empty, `Put` on any
symbol admitted by the alphabet returns `ErrEmptyStates` and leaves the machine
as it was; hence after any `Put` that leaves the current set empty, every later
`Put` on admitted symbols returns `ErrEmptyStates` and the set stays empty. -/
theorem nfa_dead_stays_dead (fuel : Nat) (s : nfaMachine) (hc : s.currentStates = []) :
    (∀ x, s.admits x → s.Put fuel x = some (s, some FaError.ErrEmptyStates)) ∧
    (∀ w : List Rune, (∀ x ∈ w, s.admits x) →
      s.putTrace fuel w = some (s, w.map (fun _ => some FaError.ErrEmptyStates))) ∧
    (∀ (s0 : nfaMachine) (x0 : Rune) (e : Option FaError), s0.Put fuel x0 = some (s, e) →
      ∀ w : List Rune, (∀ x ∈ w, s.admits x) →
        ∃ m es, s.putTrace fuel w = some (m, es) ∧ m.currentStates = [] ∧
          ∀ r ∈ es, r = some FaError.ErrEmptyStates) := by
  refine ⟨?_, fun w hw => nfaPutTrace_dead fuel s hc w hw, ?_⟩
  · intro x hx
    apply nfaPut_dead fuel s x _ hc
    rintro ⟨h1, h2⟩
    rcases hx with h | h
    · exact h1 h
    · exact h2 h
  · intro s0 x0 e _ w hw
    refine ⟨s, _, nfaPutTrace_dead fuel s hc w hw, hc, ?_⟩
    intro r hr
    rw [List.mem_map] at hr
    obtain ⟨_, _, rfl⟩ := hr
    rfl

/-- Witness for C25: the a(b|c)*d automaton after `Put('x')` from the start. -/
theorem nfa_dead_stays_dead_witness :
    abcd.Reset.Put 4 120 =
      some ({ abcd with currentStates := [] }, some FaError.ErrEmptyStates) ∧
    nfaMachine.putTrace 4 { abcd with currentStates := [] } [97, 100] =
      some ({ abcd with currentStates := [] },
        [some FaError.ErrEmptyStates, some FaError.ErrEmptyStates]) :=
  ⟨by decide,
    (nfa_dead_stays_dead 4 { abcd with currentStates := [] } rfl).2.1 [97, 100]
      (fun x _ => Or.inl rfl)⟩

theorem dfaPut_error_same (s : dfaMachine) (x : Rune) (e : FaError)
    (h : (s.Put x).2 = some e) : (s.Put x).1 = s := by
  by_cases hc : s.chars ≠ [] ∧ x ∉ s.chars
  · rw [dfaPut_invalid s x hc]
  · rw [dfaPut_valid s x hc] at h ⊢
    cases hd : s.delta s.currentState x with
    | none => rfl
    | some q => rw [hd] at h; cases h

theorem dfaPut_outOfTransition_iff (s : dfaMachine) (y : Rune) :
    (s.Put y).2 = some FaError.ErrOutOfTransition ↔
      ¬ (s.chars ≠ [] ∧ y ∉ s.chars) ∧ s.delta s.currentState y = none := by
  by_cases hc : s.chars ≠ [] ∧ y ∉ s.chars
  · rw [dfaPut_invalid s y hc]
    constructor
    · intro h; cases h
    · intro h; exact absurd hc h.1
  · rw [dfaPut_valid s y hc]
    cases hd : s.delta s.currentState y with
    | none => exact ⟨fun _ => ⟨hc, rfl⟩, fun _ => rfl⟩
    | some q =>
      constructor
      · intro h; cases h
      · intro h; cases h.2

/-- C26, as the code has it: a failed `Put` leaves the DFA where it was.  Once
`Put(x)` has failed with `ErrOutOfTransition`, every further `Put(x)` on the
same symbol fails with the same error, as long as neither `Reset` nor `SetState`
is called; a `Put` on any symbol `y` behaves as before the failure: it fails
with `ErrOutOfTransition` exactly when `y` passes the alphabet check and the
current state has no transition on `y`, and every symbol that passes the check
fails so when the current state has no row at all. -/
theorem dfa_failed_put_repeats (s : dfaMachine) (x : Rune)
    (h : (s.Put x).2 = some FaError.ErrOutOfTransition) :
    (s.Put x).1 = s ∧
    (∀ n : Nat, s.putTrace (List.replicate n x) =
      (s, List.replicate n (some FaError.ErrOutOfTransition))) ∧
    (∀ y : Rune, (s.Put x).1.Put y = s.Put y) ∧
    (∀ y : Rune, ((s.Put x).1.Put y).2 = some FaError.ErrOutOfTransition ↔
      ¬ (s.chars ≠ [] ∧ y ∉ s.chars) ∧ s.delta s.currentState y = none) ∧
    (mapGet s.transitions s.currentState = none →
      ∀ y : Rune, ¬ (s.chars ≠ [] ∧ y ∉ s.chars) →
        (s.Put x).1.Put y = (s, some FaError.ErrOutOfTransition)) := by
  have hsame := dfaPut_error_same s x _ h
  have hput : s.Put x = (s, some FaError.ErrOutOfTransition) :=
    Prod.ext hsame h
  refine ⟨hsame, ?_, ?_, ?_, ?_⟩
  · intro n
    induction n with
    | zero => rfl
    | succ n ih =>
      rw [List.replicate_succ, dfaMachine.putTrace, hput]
      simp only
      rw [ih]
      rfl
  · intro y
    rw [hsame]
  · intro y
    rw [hsame]
    exact dfaPut_outOfTransition_iff s y
  · intro hrow y hy
    rw [hsame, dfaPut_valid s y hy]
    have : s.delta s.currentState y = none := by
      unfold dfaMachine.delta
      rw [hrow]
      rfl
    rw [this]

/-- Witness for C26 (amended): the DFA `half` on the symbol `b`. -/
theorem dfa_failed_put_repeats_witness :
    (half.Put 98).2 = some FaError.ErrOutOfTransition ∧
    half.putTrace [98, 98, 98] =
      (half, [some FaError.ErrOutOfTransition, some FaError.ErrOutOfTransition,
        some FaError.ErrOutOfTransition]) :=
  ⟨by decide, (dfa_failed_put_repeats half 98 (by decide)).2.1 3⟩

/-- C26 fails as stated: `half` is returned by the builder and has the single
transition `p -a-> q`.  From `p`, `Put('b')` fails with `ErrOutOfTransition`;
the next `Put('a')`, with no `Reset` or `SetState` in between, returns no error
and moves the machine to `q`. -/
theorem dfa_dead_counterexample :
    halfBuilder.Build = Except.ok half ∧
    half.Put 98 = (half, some FaError.ErrOutOfTransition) ∧
    (half.Put 98).1.Put 97 = ({ half with currentState := "q" }, none) ∧
    half.putTrace [98, 97] =
      ({ half with currentState := "q" }, [some FaError.ErrOutOfTransition, none]) := by
  refine ⟨rfl, by decide, by decide, by decide⟩

/-- What a successful `dfaMachineBuilder.Build` returns and which checks its
input passed. -/
theorem dfaBuild_fields (b : dfaMachineBuilder) (A : dfaMachine) (h : b.Build = Except.ok A) :
    A = { states := NewStringSet b.states
          chars := NewRuneSet b.chars
          acceptStates := NewStringSet b.acceptStates
          startState := b.startState
          transitions := b.transitions
          currentState := b.startState } ∧
    b.startState ∈ b.states ∧ (∀ a ∈ b.acceptStates, a ∈ b.states) ∧
    ¬ b.badStates ∧ ¬ b.badChars := by
  unfold dfaMachineBuilder.Build at h
  simp only at h
  split at h
  · cases h
  · rename_i h1
    split at h
    · cases h
    · rename_i h2
      split at h
      · cases h
      · rename_i h3
        rw [Bool.or_eq_true, not_or, dfaBuild_charsCheck, Bool.not_eq_true', Bool.not_eq_false,
          dfaBuild_statesCheck] at h3
        rw [Bool.not_eq_true', Bool.not_eq_false, GoSet.In_single] at h1
        rw [Bool.not_eq_true', Bool.not_eq_false, GoSet.In_iff] at h2
        cases h
        exact ⟨rfl, (GoSet.mem_New _ _).1 h1, fun a ha => (GoSet.mem_New _ _).1 (h2 a ha),
          h3.1, h3.2⟩

/-- C27, the code at the failing input: the builder returns `noStart` for an
input whose start states were never set; the machine has no start state, so
after `Reset` every `Put` returns `ErrEmptyStates`.  The other half of the claim
holds: the start states of every machine the builder returns are states of
it. -/
theorem nfa_build_empty_start :
    noStartBuilder.Build = Except.ok noStart ∧ noStart.startStates = [] ∧
    noStart.Reset.Put 1 97 = some (noStart.Reset, some FaError.ErrEmptyStates) ∧
    (∀ (b : nfaMachineBuilder) (M : nfaMachine), b.Build = Except.ok M →
      ∀ y ∈ M.startStates, y ∈ M.states) :=
  ⟨rfl, rfl, by decide, fun b M h => (nfaBuild_checks b M h).1⟩

/-- C28, as the code has it: a DFA returned by the builder has exactly the
table it was given, so epsilon is a symbol key of its transition function
exactly when it is one in the builder input; it is none when the declared
alphabet is not empty and does not contain epsilon. -/
theorem dfa_build_keeps_keys (b : dfaMachineBuilder) (A : dfaMachine)
    (h : b.Build = Except.ok A) :
    A.transitions = b.transitions ∧
    (A.NoEpsilonKey ↔ ∀ e ∈ b.transitions, ∀ r ∈ e.2, r.1 ≠ Epsilon) ∧
    (b.chars ≠ [] → Epsilon ∉ b.chars → A.NoEpsilonKey) := by
  obtain ⟨hA, _, _, _, hc⟩ := dfaBuild_fields b A h
  have ht : A.transitions = b.transitions := by rw [hA]
  refine ⟨ht, ?_, ?_⟩
  · unfold dfaMachine.NoEpsilonKey
    rw [ht]
  · intro hne heps e he r hr hr1
    rw [ht] at he
    apply hc
    refine ⟨hne, e, he, r, hr, ?_⟩
    rw [hr1]
    exact heps

/-- Witness for C28 (amended): the parity DFA. -/
theorem dfa_build_keeps_keys_witness :
    parityBuilder.Build = Except.ok parity ∧ parity.NoEpsilonKey :=
  ⟨rfl, (dfa_build_keeps_keys parityBuilder parity rfl).2.2 (by decide) (by decide)⟩

/-- C28 fails as stated: the builder returns `epsDfa`, whose only transition
`p -eps-> q` is keyed by epsilon. -/
theorem dfa_epsilon_key_counterexample :
    epsDfaBuilder.Build = Except.ok epsDfa ∧
    ∃ e ∈ epsDfa.transitions, ∃ r ∈ e.2, r.1 = Epsilon :=
  ⟨rfl, ("p", [(Epsilon, "q")]), by decide, (Epsilon, "q"), by decide, rfl⟩

theorem EpsRun_congr (tr1 tr2 : NTrans)
    (h : ∀ q c y, y ∈ tableDelta tr1 q c → y ∈ tableDelta tr2 q c) (p q : String)
    (w : List Rune) (hr : EpsRun tr1 p w q) : EpsRun tr2 p w q := by
  induction hr with
  | nil p => exact EpsRun.nil p
  | eps hstep _ ih => exact EpsRun.eps (h _ _ _ hstep) ih
  | sym hx hstep _ ih => exact EpsRun.sym hx (h _ _ _ hstep) ih

theorem mem_tableDelta_reverse_twice (tr : NTrans) (hT : TableOK tr) (q : String) (c : Rune)
    (y : String) :
    y ∈ tableDelta (reverseTransitions (reverseTransitions tr)) q c ↔ y ∈ tableDelta tr q c := by
  rw [mem_tableDelta_reverse (reverseTransitions tr) (TableOK_reverse tr) q c y,
    mem_tableDelta_reverse tr hT y c q]

/-- C21: `Reverse` is an involution.  `Reverse(Reverse(M))` has the states, the
alphabet, the start states and the accept states of `M` and the same transition
relation, on every symbol, epsilon included; so the identity on states is an
isomorphism, the two machines have the same language as automata with epsilon
moves and as automata read without them, and when `M` has no epsilon
transition the simulator gives the same verdict on both for every word. -/
theorem reverse_involution (M : nfaMachine) (hT : TableOK M.transitions) :
    (∀ y, y ∈ M.Reverse.Reverse.states ↔ y ∈ M.states) ∧
    (∀ c, c ∈ M.Reverse.Reverse.chars ↔ c ∈ M.chars) ∧
    (∀ y, y ∈ M.Reverse.Reverse.startStates ↔ y ∈ M.startStates) ∧
    (∀ y, y ∈ M.Reverse.Reverse.acceptStates ↔ y ∈ M.acceptStates) ∧
    (∀ (p : String) (a : Rune) (q : String),
      q ∈ M.Reverse.Reverse.Delta p a ↔ q ∈ M.Delta p a) ∧
    (∀ w, M.Reverse.Reverse.EpsLang w ↔ M.EpsLang w) ∧
    (∀ w, M.Reverse.Reverse.Lang w ↔ M.Lang w) ∧
    (M.HasEpsilon = false → ∀ (w : List Rune) (f1 f2 : Nat),
      M.Reverse.Reverse.accepts f1 w = M.accepts f2 w ∧ ∃ v, M.accepts f2 w = some v) := by
  have hrel : ∀ (p : String) (a : Rune) (q : String),
      q ∈ tableDelta M.Reverse.Reverse.transitions p a ↔ q ∈ tableDelta M.transitions p a :=
    fun p a q => mem_tableDelta_reverse_twice M.transitions hT p a q
  have hst : ∀ y, y ∈ M.Reverse.Reverse.startStates ↔ y ∈ M.startStates := by
    intro y
    show y ∈ GoSet.Clone (GoSet.Clone M.startStates) ↔ _
    rw [GoSet.mem_Clone, GoSet.mem_Clone]
  have hacc : ∀ y, y ∈ M.Reverse.Reverse.acceptStates ↔ y ∈ M.acceptStates := by
    intro y
    show y ∈ GoSet.Clone (GoSet.Clone M.acceptStates) ↔ _
    rw [GoSet.mem_Clone, GoSet.mem_Clone]
  have hch : ∀ c, c ∈ M.Reverse.Reverse.chars ↔ c ∈ M.chars := by
    intro c
    show c ∈ GoSet.Clone (GoSet.Clone M.chars) ↔ _
    rw [GoSet.mem_Clone, GoSet.mem_Clone]
  have hadm : ∀ x, M.Reverse.Reverse.admits x ↔ M.admits x := by
    intro x
    unfold nfaMachine.admits
    have hnil : M.Reverse.Reverse.chars = [] ↔ M.chars = [] := by
      show GoSet.Clone (GoSet.Clone M.chars) = [] ↔ _
      rw [GoSet_Clone_eq_nil, GoSet_Clone_eq_nil]
    rw [hnil, hch]
  have hlang : ∀ w, M.Reverse.Reverse.Lang w ↔ M.Lang w := by
    intro w
    rw [Lang_Reverse M.Reverse (Reverse_TableOK M), Lang_Reverse M hT, List.reverse_reverse]
  refine ⟨?_, hch, hst, hacc, hrel, ?_, hlang, ?_⟩
  · intro y
    show y ∈ GoSet.Clone (GoSet.Clone M.states) ↔ _
    rw [GoSet.mem_Clone, GoSet.mem_Clone]
  · intro w
    unfold nfaMachine.EpsLang
    constructor
    · rintro ⟨h1, p, hp, q, hq, hr⟩
      exact ⟨fun x hx => (hadm x).1 (h1 x hx), p, (hst p).1 hp, q, (hacc q).1 hq,
        EpsRun_congr _ _ (fun a b c h => (hrel a b c).1 h) _ _ _ hr⟩
    · rintro ⟨h1, p, hp, q, hq, hr⟩
      exact ⟨fun x hx => (hadm x).2 (h1 x hx), p, (hst p).2 hp, q, (hacc q).2 hq,
        EpsRun_congr _ _ (fun a b c h => (hrel a b c).2 h) _ _ _ hr⟩
  · intro he w f1 f2
    exact accepts_eq_of_Lang f1 f2 _ M
      (Reverse_HasEpsilon M.Reverse (Reverse_TableOK M) (Reverse_HasEpsilon M hT he)) he w
      (hlang w)

/-- Witness for C21: the a(b|c)*d automaton of the tests. -/
theorem reverse_involution_witness :
    TableOK abcd.transitions ∧
    (∀ (p : String) (a : Rune) (q : String),
      q ∈ abcd.Reverse.Reverse.Delta p a ↔ q ∈ abcd.Delta p a) ∧
    (∀ w, abcd.Reverse.Reverse.EpsLang w ↔ abcd.EpsLang w) :=
  ⟨nfaBuild_TableOK abcdBuilder abcd rfl,
    (reverse_involution abcd (nfaBuild_TableOK abcdBuilder abcd rfl)).2.2.2.2.1,
    (reverse_involution abcd (nfaBuild_TableOK abcdBuilder abcd rfl)).2.2.2.2.2.1⟩

theorem dfaDelta_eq_dtGet (D : dfaMachine) (q : String) (x : Rune) :
    D.delta q x = dtGet D.transitions q x := by
  unfold dfaMachine.delta dtGet
  cases mapGet D.transitions q <;> rfl

theorem putNext_singletonTable (dt : GoMap String (GoMap Rune String)) (q : String) (x : Rune) :
    putNext (singletonTable dt) [q] x =
      (match dtGet dt q x with
       | none => []
       | some y => [y]) := by
  unfold putNext
  simp only [GoSet.Unwrap, List.map, List.foldl, tableGet_singletonTable]
  cases dtGet dt q x with
  | none => rfl
  | some y => simp [NewStringSet, GoSet.New, GoSet.Add, GoSet.addOne]

theorem HasEpsilon_singletonTable (X : nfaMachine) (dt : GoMap String (GoMap Rune String))
    (ht : X.transitions = singletonTable dt) (h : ∀ e ∈ dt, ∀ r ∈ e.2, r.1 ≠ Epsilon) :
    X.HasEpsilon = false := by
  unfold nfaMachine.HasEpsilon
  rw [ht, Bool.eq_false_iff, ne_eq, List.any_eq_true]
  rintro ⟨e, he, hm⟩
  unfold singletonTable at he
  rw [List.mem_map] at he
  obtain ⟨e0, he0, rfl⟩ := he
  rw [mapHas_iff] at hm
  simp only [List.map_map, List.mem_map, Function.comp] at hm
  obtain ⟨r, hr, hr1⟩ := hm
  exact h e0 he0 r hr hr1

/-- One `Put` of an NFA over the singleton table of a DFA, from a single current
state, against the `Put` of the DFA in that state. -/
theorem fromDFA_step (D : dfaMachine) (X : nfaMachine) (fuel : Nat) (x : Rune)
    (ht : X.transitions = singletonTable D.transitions) (hch : X.chars = D.chars)
    (he : X.HasEpsilon = false) (hq : X.currentStates = [D.currentState]) :
    ((D.Put x).2 = some FaError.ErrInvalidInputChar →
      X.Put fuel x = some (X, some FaError.ErrInvalidInputChar)) ∧
    ((D.Put x).2 = some FaError.ErrOutOfTransition →
      X.Put fuel x = some ({ X with currentStates := [] }, some FaError.ErrEmptyStates)) ∧
    ((D.Put x).2 = none →
      X.Put fuel x = some ({ X with currentStates := [(D.Put x).1.currentState] }, none)) ∧
    ((D.Put x).2 = none ∨ (D.Put x).2 = some FaError.ErrInvalidInputChar ∨
      (D.Put x).2 = some FaError.ErrOutOfTransition) := by
  by_cases hc : D.chars ≠ [] ∧ x ∉ D.chars
  · rw [dfaPut_invalid D x hc]
    refine ⟨fun _ => nfaPut_invalid fuel X x (by rw [hch]; exact hc), ?_, ?_, Or.inr (Or.inl rfl)⟩
    · intro h; cases h
    · intro h; cases h
  · have hX := nfaPut_epsfree fuel X x he (by rw [hch]; exact hc) (by rw [hq]; simp)
    have hp : putNext X.transitions [D.currentState] x =
        (match D.delta D.currentState x with
         | none => []
         | some y => [y]) := by
      rw [ht, putNext_singletonTable, ← dfaDelta_eq_dtGet]
    rw [hq, hp] at hX
    rw [dfaPut_valid D x hc]
    cases hd : D.delta D.currentState x with
    | none =>
      rw [hd] at hX
      refine ⟨?_, fun _ => ?_, ?_, Or.inr (Or.inr rfl)⟩
      · intro h; cases h
      · rw [hX]; simp
      · intro h; cases h
    | some y =>
      rw [hd] at hX
      refine ⟨?_, ?_, fun _ => ?_, Or.inl rfl⟩
      · intro h; cases h
      · intro h; cases h
      · rw [hX]; simp

/-- The calls `Put` of an NFA over the singleton table of a DFA follow the calls
`Put` of the DFA, word by word. -/
theorem fromDFA_putAll (fuel : Nat) (w : List Rune) (D : dfaMachine) (X : nfaMachine)
    (ht : X.transitions = singletonTable D.transitions) (hch : X.chars = D.chars)
    (he : X.HasEpsilon = false) (hq : X.currentStates = [D.currentState]) :
    nfaMachine.putAll fuel X w =
      some ((dfaMachine.putAll D w).map
        (fun m => { X with currentStates := [m.currentState] })) := by
  induction w generalizing D X with
  | nil =>
    simp only [nfaMachine.putAll, dfaMachine.putAll, Option.map_some']
    rw [← hq]
  | cons x w ih =>
    obtain ⟨h1, h2, h3, h4⟩ := fromDFA_step D X fuel x ht hch he hq
    rcases hp : D.Put x with ⟨D1, _ | e⟩
    · rw [hp] at h3
      have hX := h3 rfl
      obtain ⟨y, _, hD1⟩ := dfaPut_ok D D1 x hp
      simp only [nfaMachine.putAll, dfaMachine.putAll, hX, hp]
      have := ih D1 { X with currentStates := [D1.currentState] }
        (by rw [hD1]; exact ht) (by rw [hD1]; exact hch) he rfl
      rw [this]
    · rw [hp] at h1 h2 h4
      simp only [nfaMachine.putAll, dfaMachine.putAll, hp, Option.map_none']
      rcases h4 with h4 | h4 | h4
      · cases h4
      · rw [h1 h4]
      · rw [h2 h4]

theorem New_singleton {α : Type} [DecidableEq α] (y : α) : GoSet.New [y] = [y] := by
  simp [GoSet.New, GoSet.Add, GoSet.addOne]

/-- The shape of `FromDFA` on a DFA that the builder returned. -/
theorem fromDFA_built (b : dfaMachineBuilder) (D : dfaMachine) (hb : b.Build = Except.ok D) :
    FromDFA D =
      { states := D.states
        startStates := [D.startState]
        chars := D.chars
        acceptStates := D.acceptStates
        currentStates := [D.startState]
        transitions := singletonTable D.transitions } := by
  obtain ⟨hA, _⟩ := dfaBuild_fields b D hb
  subst hA
  unfold FromDFA dfaMachine.ToShell
  simp only [GoSet.Unwrap, NewStringSet, NewRuneSet, New_singleton,
    GoSet_New_of_nodup _ (GoSet.nodup_New _)]

theorem dfaIsAccepted_iff (m : dfaMachine) : m.IsAccepted = true ↔ m.currentState ∈ m.acceptStates := by
  unfold dfaMachine.IsAccepted
  rw [GoSet.In_single]

theorem dfa_complete_putAll (w : List Rune) (D : dfaMachine) (hcomp : D.Complete)
    (hcl : ∀ p c q, D.delta p c = some q → q ∈ D.states) (h0 : D.currentState ∈ D.states)
    (hw : ∀ x ∈ w, x ∈ D.chars) : ∃ m, dfaMachine.putAll D w = some m := by
  induction w generalizing D with
  | nil => exact ⟨D, rfl⟩
  | cons x w ih =>
    have hx : x ∈ D.chars := hw x (List.mem_cons_self _ _)
    obtain ⟨y, hy⟩ := hcomp.2 _ h0 x hx
    have hp := dfaPut_valid D x (fun hc => hc.2 hx)
    rw [hy] at hp
    simp only [dfaMachine.putAll, hp]
    exact ih { D with currentState := y } hcomp hcl (hcl _ _ _ hy)
      (fun z hz => hw z (List.mem_cons_of_mem _ hz))

/-- C24: `FromDFA` preserves the language.  For a DFA `D` that the builder
returned and whose table has no epsilon key, `FromDFA D` has
`Delta(q, a) = {delta(q, a)}` wherever `delta` is defined and no destination
elsewhere, a single start state, follows `D` call by call, and accepts a word
exactly when `D` accepts it from its start state; a `Put` of the DFA returns
`ErrOutOfTransition` exactly when the `Put` of the NFA in the corresponding
configuration returns `ErrEmptyStates`, and `ErrInvalidInputChar` exactly when
the NFA returns it. -/
theorem fromDFA_preserves_language (b : dfaMachineBuilder) (D : dfaMachine)
    (hb : b.Build = Except.ok D) (hne : D.NoEpsilonKey) :
    (∀ q a y, D.delta q a = some y → (FromDFA D).Delta q a = [y]) ∧
    (∀ q a, D.delta q a = none → (FromDFA D).Delta q a = []) ∧
    (FromDFA D).startStates = [D.startState] ∧
    (FromDFA D).HasEpsilon = false ∧
    (∀ (fuel : Nat) (w : List Rune), (FromDFA D).accepts fuel w = some (D.accepts w)) ∧
    (∀ (fuel : Nat) (w : List Rune),
      nfaMachine.putAll fuel (FromDFA D).Reset w =
        some ((dfaMachine.putAll D.Reset w).map
          (fun m => { FromDFA D with currentStates := [m.currentState] }))) ∧
    (∀ (fuel : Nat) (q : String) (x : Rune),
      ((({ D with currentState := q } : dfaMachine).Put x).2 = some FaError.ErrOutOfTransition ↔
        ∃ m, ({ FromDFA D with currentStates := [q] } : nfaMachine).Put fuel x =
          some (m, some FaError.ErrEmptyStates)) ∧
      ((({ D with currentState := q } : dfaMachine).Put x).2 = some FaError.ErrInvalidInputChar ↔
        ∃ m, ({ FromDFA D with currentStates := [q] } : nfaMachine).Put fuel x =
          some (m, some FaError.ErrInvalidInputChar)) ∧
      ((({ D with currentState := q } : dfaMachine).Put x).2 = none ↔
        ∃ m, ({ FromDFA D with currentStates := [q] } : nfaMachine).Put fuel x =
          some (m, none))) := by
  have hF := fromDFA_built b D hb
  have he : (FromDFA D).HasEpsilon = false :=
    HasEpsilon_singletonTable (FromDFA D) D.transitions (by rw [hF]) hne
  have hall : ∀ (fuel : Nat) (w : List Rune),
      nfaMachine.putAll fuel (FromDFA D).Reset w =
        some ((dfaMachine.putAll D.Reset w).map
          (fun m => { FromDFA D with currentStates := [m.currentState] })) := by
    intro fuel w
    have := fromDFA_putAll fuel w D.Reset (FromDFA D).Reset (by rw [hF]; rfl) (by rw [hF]; rfl)
      he (by rw [hF]; exact New_singleton _)
    exact this
  obtain ⟨hs0, hcl⟩ := dfaBuild_closed b D hb
  refine ⟨?_, ?_, by rw [hF], he, ?_, hall, ?_⟩
  · intro q a y hd
    rw [hF]
    show tableDelta (singletonTable D.transitions) q a = [y]
    unfold tableDelta
    rw [tableGet_singletonTable, ← dfaDelta_eq_dtGet, hd]
    exact New_singleton y
  · intro q a hd
    rw [hF]
    show tableDelta (singletonTable D.transitions) q a = []
    unfold tableDelta
    rw [tableGet_singletonTable, ← dfaDelta_eq_dtGet, hd]
    rfl
  · intro fuel w
    unfold nfaMachine.accepts dfaMachine.accepts
    rw [hall fuel w]
    cases hp : dfaMachine.putAll D.Reset w with
    | none => rfl
    | some m =>
      have hm := (dfaPutAll_shape D.Reset m w hcl hs0 hp).1
      simp only [Option.map_some', Option.some.injEq]
      rw [Bool.eq_iff_iff, nfaIsAccepted_iff, dfaIsAccepted_iff]
      have hacc : m.acceptStates = D.acceptStates := by rw [hm]; rfl
      rw [hacc, hF]
      simp
  · intro fuel q x
    obtain ⟨h1, h2, h3, h4⟩ := fromDFA_step { D with currentState := q }
      { FromDFA D with currentStates := [q] } fuel x (by rw [hF]) (by rw [hF]) he rfl
    refine ⟨⟨fun h => ⟨_, h2 h⟩, ?_⟩, ⟨fun h => ⟨_, h1 h⟩, ?_⟩, ⟨fun h => ⟨_, h3 h⟩, ?_⟩⟩
    · rintro ⟨m, hm⟩
      rcases h4 with h | h | h
      · rw [h3 h] at hm; cases hm
      · rw [h1 h] at hm; cases hm
      · exact h
    · rintro ⟨m, hm⟩
      rcases h4 with h | h | h
      · rw [h3 h] at hm; cases hm
      · exact h
      · rw [h2 h] at hm; cases hm
    · rintro ⟨m, hm⟩
      rcases h4 with h | h | h
      · exact h
      · rw [h1 h] at hm; cases hm
      · rw [h2 h] at hm; cases hm

/-- Witness for C24: the parity DFA of the tests. -/
theorem fromDFA_preserves_language_witness :
    parityBuilder.Build = Except.ok parity ∧ parity.NoEpsilonKey ∧
    (∀ (fuel : Nat) (w : List Rune), (FromDFA parity).accepts fuel w = some (parity.accepts w)) :=
  ⟨rfl, by unfold dfaMachine.NoEpsilonKey; decide,
    (fromDFA_preserves_language parityBuilder parity rfl
      (by unfold dfaMachine.NoEpsilonKey; decide)).2.2.2.2.1⟩

/-- C22, counterexample: `epsComplete` is a DFA that the builder returns, its
alphabet is not empty and its transition function is defined on every state
and symbol; it accepts the word `a`, and `Not (FromDFA epsComplete)` accepts
`a` too, because the NFA simulator takes the key epsilon of the table for an
epsilon move. -/
theorem not_complement_counterexample :
    epsCompleteBuilder.Build = Except.ok epsComplete ∧ epsComplete.Complete ∧
    (∀ x ∈ [(97 : Rune)], x ∈ epsComplete.chars) ∧
    epsComplete.accepts [97] = true ∧
    (∀ fuel : Nat, 2 ≤ fuel → (FromDFA epsComplete).Not.accepts fuel [97] = some true) := by
  refine ⟨rfl, ⟨by decide, ?_⟩, by decide, by decide, ?_⟩
  · intro q hq a ha
    have hq2 : q = "p" ∨ q = "q" := by simpa [epsComplete] using hq
    have ha2 : a = Epsilon ∨ a = 97 := by simpa [epsComplete] using ha
    rcases hq2 with rfl | rfl <;> rcases ha2 with rfl | rfl
    · exact ⟨"q", by decide⟩
    · exact ⟨"p", by decide⟩
    · exact ⟨"q", by decide⟩
    · exact ⟨"q", by decide⟩
  · intro fuel hf
    obtain ⟨k, rfl⟩ : ∃ k, fuel = k + 2 := ⟨fuel - 2, by omega⟩
    rfl

/-- C22, with the hypothesis it needs: for a DFA `D` that the builder returned,
with a non-empty alphabet, a transition function defined on every state and
symbol and no epsilon key, and every word `w` over the alphabet,
`Not (FromDFA D)` accepts `w` exactly when `D` does not.  For every NFA `M`,
`Not M` keeps the states, the alphabet, the transitions and the start states
of `M`, and its accept states are the states of `M` that are not accept states
of `M`. -/
theorem not_complements_complete_dfa (b : dfaMachineBuilder) (D : dfaMachine)
    (hb : b.Build = Except.ok D) (hcomp : D.Complete) (hne : D.NoEpsilonKey)
    (w : List Rune) (hw : ∀ x ∈ w, x ∈ D.chars) :
    (∀ fuel : Nat, (FromDFA D).Not.accepts fuel w = some (!D.accepts w)) ∧
    (∀ M : nfaMachine,
      (∀ y, y ∈ M.Not.states ↔ y ∈ M.states) ∧ (∀ c, c ∈ M.Not.chars ↔ c ∈ M.chars) ∧
      M.Not.transitions = M.transitions ∧
      (∀ y, y ∈ M.Not.startStates ↔ y ∈ M.startStates) ∧
      (∀ y, y ∈ M.Not.acceptStates ↔ y ∈ M.states ∧ y ∉ M.acceptStates)) := by
  constructor
  · intro fuel
    have hF := fromDFA_built b D hb
    obtain ⟨hA, _⟩ := dfaBuild_fields b D hb
    have hnd : D.states.Nodup ∧ D.chars.Nodup := by
      rw [hA]; exact ⟨GoSet.nodup_New _, GoSet.nodup_New _⟩
    obtain ⟨hs0, hcl⟩ := dfaBuild_closed b D hb
    have he : (FromDFA D).Not.Reset.HasEpsilon = false :=
      HasEpsilon_singletonTable _ D.transitions (by rw [hF]; rfl) hne
    have hch : (FromDFA D).Not.Reset.chars = D.chars := by
      rw [hF]
      exact GoSet_New_of_nodup _ hnd.2
    have hcur : (FromDFA D).Not.Reset.currentStates = [D.Reset.currentState] := by
      rw [hF]
      show GoSet.New (GoSet.Unwrap (GoSet.Clone [D.startState])) = [D.startState]
      simp only [GoSet.Clone, GoSet.Unwrap, New_singleton]
    have hall := fromDFA_putAll fuel w D.Reset (FromDFA D).Not.Reset (by rw [hF]; rfl) hch he hcur
    obtain ⟨m, hp⟩ := dfa_complete_putAll w D.Reset hcomp hcl hs0 hw
    obtain ⟨hm, hmem⟩ := dfaPutAll_shape D.Reset m w hcl hs0 hp
    have hacc : m.acceptStates = D.acceptStates := by rw [hm]; rfl
    unfold nfaMachine.accepts dfaMachine.accepts
    rw [nfaMachine.Reset] at hall
    rw [nfaMachine.Reset, hall, hp]
    simp only [Option.map_some', Option.some.injEq]
    rw [Bool.eq_iff_iff, nfaIsAccepted_iff, Bool.not_eq_true', ← Bool.not_eq_true,
      dfaIsAccepted_iff, hacc]
    have hN : ∀ y, y ∈ (FromDFA D).Not.acceptStates ↔ y ∈ D.states ∧ y ∉ D.acceptStates := by
      intro y
      rw [hF]
      show y ∈ GoSet.Del (GoSet.Clone D.states) (GoSet.Unwrap D.acceptStates) ↔ _
      rw [GoSet.mem_Del, GoSet.mem_Clone]
      rfl
    constructor
    · rintro ⟨y, hy1, hy2⟩
      have hy : y = m.currentState := by simpa using hy1
      subst hy
      exact ((hN _).1 hy2).2
    · intro h
      exact ⟨m.currentState, by simp, (hN _).2 ⟨hmem, h⟩⟩
  · intro M
    refine ⟨fun y => GoSet.mem_Clone _ _, fun c => GoSet.mem_Clone _ _, rfl,
      fun y => GoSet.mem_Clone _ _, ?_⟩
    intro y
    show y ∈ GoSet.Del (GoSet.Clone M.states) (GoSet.Unwrap M.acceptStates) ↔ _
    rw [GoSet.mem_Del, GoSet.mem_Clone]
    rfl

/-- Witness for C22: the parity DFA of the tests on the word `1`. -/
theorem not_complements_complete_dfa_witness :
    parityBuilder.Build = Except.ok parity ∧ parity.Complete ∧ parity.NoEpsilonKey ∧
    (∀ x ∈ [(49 : Rune)], x ∈ parity.chars) ∧
    (∀ fuel : Nat, (FromDFA parity).Not.accepts fuel [49] = some (!parity.accepts [49])) := by
  have hc : parity.Complete := by
    refine ⟨by decide, ?_⟩
    intro q hq a ha
    have hq2 : q = "even" ∨ q = "odd" := by simpa [parity] using hq
    have ha2 : a = 48 ∨ a = 49 := by simpa [parity] using ha
    rcases hq2 with rfl | rfl <;> rcases ha2 with rfl | rfl
    · exact ⟨"even", by decide⟩
    · exact ⟨"odd", by decide⟩
    · exact ⟨"odd", by decide⟩
    · exact ⟨"even", by decide⟩
  have hn : parity.NoEpsilonKey := by unfold dfaMachine.NoEpsilonKey; decide
  exact ⟨rfl, hc, hn, by decide,
    (not_complements_complete_dfa parityBuilder parity rfl hc hn [49] (by decide)).1⟩

theorem nfaCollectRow_keys (state : String) (acc : NfaCollect) (v : GoMap Rune (List String))
    (h : (∀ e ∈ acc.transitions, e.1 ∈ acc.tStates) ∧ state ∈ acc.tStates) :
    (∀ e ∈ (nfaCollectRow state acc v).transitions, e.1 ∈ (nfaCollectRow state acc v).tStates) ∧
      state ∈ (nfaCollectRow state acc v).tStates := by
  unfold nfaCollectRow
  induction v generalizing acc with
  | nil => exact h
  | cons e v ih =>
    rw [List.foldl_cons]
    apply ih
    split
    · exact h
    · refine ⟨?_, (GoSet.mem_Add _ _ _).2 (Or.inl h.2)⟩
      intro e1 he1
      simp only at he1 ⊢
      rcases mem_mapSet_elim _ _ _ _ he1 with rfl | he1
      · exact (GoSet.mem_Add _ _ _).2 (Or.inl h.2)
      · exact (GoSet.mem_Add _ _ _).2 (Or.inl (h.1 e1 he1))

theorem nfaCollect_keys (tr : GoMap String (GoMap Rune (List String))) :
    ∀ e ∈ (nfaCollect tr).transitions, e.1 ∈ (nfaCollect tr).tStates := by
  unfold nfaCollect
  have key : ∀ (acc : NfaCollect), (∀ e ∈ acc.transitions, e.1 ∈ acc.tStates) →
      ∀ e ∈ (tr.foldl (fun acc e =>
        if e.2.length = 0 then acc
        else
          nfaCollectRow e.1
            { acc with
              tStates := GoSet.Add acc.tStates [e.1]
              transitions := mapSet acc.transitions e.1 [] } e.2) acc).transitions,
        e.1 ∈ (tr.foldl (fun acc e =>
        if e.2.length = 0 then acc
        else
          nfaCollectRow e.1
            { acc with
              tStates := GoSet.Add acc.tStates [e.1]
              transitions := mapSet acc.transitions e.1 [] } e.2) acc).tStates := by
    induction tr with
    | nil => intro acc h; exact h
    | cons e tr ih =>
      intro acc h
      rw [List.foldl_cons]
      apply ih
      split
      · exact h
      · apply (nfaCollectRow_keys e.1 _ e.2 ?_).1
        refine ⟨?_, (GoSet.mem_Add _ _ _).2 (Or.inr (List.mem_singleton_self _))⟩
        intro e1 he1
        rcases mem_mapSet_elim _ _ _ _ he1 with rfl | he1
        · exact (GoSet.mem_Add _ _ _).2 (Or.inr (List.mem_singleton_self _))
        · exact (GoSet.mem_Add _ _ _).2 (Or.inl (h e1 he1))
  exact key _ (fun e he => by cases he)

/-- Every row key of the table of a machine that the NFA builder returned is a
state of the machine. -/
theorem nfaBuild_rowKeys (b : nfaMachineBuilder) (m : nfaMachine) (h : b.Build = Except.ok m) :
    ∀ e ∈ m.transitions, e.1 ∈ m.states := by
  have hk := nfaCollect_keys b.transitions
  unfold nfaMachineBuilder.Build at h
  simp only at h
  split at h
  · cases h
  · split at h
    · cases h
    · split at h
      · cases h
      · rename_i h3
        rw [Bool.or_eq_true, not_or, Bool.not_eq_true', Bool.not_eq_false, GoSet.In_iff] at h3
        cases h
        intro e he
        exact h3.1 e.1 (hk e he)

theorem dtGet_firstTable (tr : NTrans) (q : String) (a : Rune) :
    dtGet (tr.map (fun e => (e.1, e.2.map (fun r => (r.1, firstOf r.2))))) q a =
      (tableGet tr q a).map firstOf := by
  unfold tableGet dtGet
  rw [mapGet_mapValues (fun e => e.2.map (fun r => (r.1, firstOf r.2))) tr q]
  cases mapGet tr q with
  | none => rfl
  | some row =>
    simp only [Option.map]
    exact mapGet_mapValues (fun r => firstOf r.2) row a

theorem dfaBuild_error (b : dfaMachineBuilder) (e : FaError) (h : b.Build = Except.error e) :
    e = FaError.ErrInvalidStartState ∨ e = FaError.ErrInvalidAcceptStates ∨
      e = FaError.ErrInvalidTransitions := by
  unfold dfaMachineBuilder.Build at h
  simp only at h
  split at h
  · cases h; exact Or.inl rfl
  · split at h
    · cases h; exact Or.inr (Or.inl rfl)
    · split at h
      · cases h; exact Or.inr (Or.inr rfl)
      · cases h

theorem dfaBuild_ok_of_checks (b : dfaMachineBuilder) (h1 : b.startState ∈ b.states)
    (h2 : ∀ a ∈ b.acceptStates, a ∈ b.states) (h3 : ¬ b.badStates) (h4 : ¬ b.badChars) :
    ∃ A, b.Build = Except.ok A := by
  unfold dfaMachineBuilder.Build
  simp only
  have c1 : GoSet.In (NewStringSet b.states) [b.startState] = true :=
    (GoSet.In_single _ _).2 ((GoSet.mem_New _ _).2 h1)
  have c2 : GoSet.In (NewStringSet b.states) b.acceptStates = true :=
    (GoSet.In_iff _ _).2 (fun a ha => (GoSet.mem_New _ _).2 (h2 a ha))
  have c3 := (dfaBuild_statesCheck b).2 h3
  have c4 : (decide (GoSet.Len (NewRuneSet b.chars) > 0) &&
      !GoSet.In (NewRuneSet b.chars) (GoSet.Unwrap (dfaCollect b.transitions).2)) = false := by
    rw [← Bool.not_eq_true, dfaBuild_charsCheck]
    exact h4
  rw [c1, c2, c3, c4]
  exact ⟨_, rfl⟩

theorem toDFA_of_IsDFA (M : nfaMachine) (h : M.IsDFA = true) :
    M.ToDFA = dfaMachineBuilder.Build
      { states := GoSet.Unwrap M.states
        acceptStates := GoSet.Unwrap M.acceptStates
        chars := GoSet.Unwrap M.chars
        startState := firstOf M.startStates
        transitions := M.transitions.map (fun e => (e.1, e.2.map (fun r => (r.1, firstOf r.2)))) } := by
  unfold nfaMachine.ToDFA
  rw [h]
  rfl

theorem toDFA_cell (M : nfaMachine) (h : M.IsDFA = true) (q : String) (a : Rune) :
    tableGet M.transitions q a = none ∨ ∃ z, tableGet M.transitions q a = some [z] := by
  cases hg : tableGet M.transitions q a with
  | none => exact Or.inl rfl
  | some u =>
    right
    unfold tableGet at hg
    cases hrow : mapGet M.transitions q with
    | none => rw [hrow] at hg; cases hg
    | some row =>
      rw [hrow] at hg
      have hl : u.length = 1 :=
        ((IsDFA_iff M).1 h).2.2 (q, row) (mapGet_mem _ _ _ hrow) (a, u) (mapGet_mem _ _ _ hg)
      match u, hl with
      | [z], _ => exact ⟨z, rfl⟩

/-- C23: `ToDFA`.  It fails with `ErrNotDFA` exactly when `IsDFA` is false;
`IsDFA` is true exactly when the machine has no epsilon transition, exactly one
start state, and every destination set of its table has exactly one member.
When `ToDFA` returns a DFA, the DFA has the states, the alphabet and the accept
states of the machine, its start state is the only start state of the machine,
it is in its start state, and `delta(q, a)` is defined exactly where
`Delta(q, a)` is not empty and is then its only member.  On a machine that the
NFA builder returned and for which `IsDFA` is true, `ToDFA` returns a DFA. -/
theorem toDFA_contract (M : nfaMachine) :
    (M.ToDFA = Except.error FaError.ErrNotDFA ↔ M.IsDFA = false) ∧
    (M.IsDFA = true ↔ M.HasEpsilon = false ∧ GoSet.Len M.startStates = 1 ∧
      ∀ e ∈ M.transitions, ∀ r ∈ e.2, GoSet.Len r.2 = 1) ∧
    (∀ A, M.ToDFA = Except.ok A →
      M.IsDFA = true ∧
      (∀ y, y ∈ A.states ↔ y ∈ M.states) ∧ (∀ c, c ∈ A.chars ↔ c ∈ M.chars) ∧
      (∀ y, y ∈ A.acceptStates ↔ y ∈ M.acceptStates) ∧
      M.startStates = [A.startState] ∧ A.currentState = A.startState ∧
      (∀ q a y, A.delta q a = some y ↔ M.Delta q a = [y]) ∧
      (∀ q a, A.delta q a = none ↔ M.Delta q a = [])) ∧
    (∀ b : nfaMachineBuilder, b.Build = Except.ok M → M.IsDFA = true →
      ∃ A, M.ToDFA = Except.ok A) := by
  refine ⟨?_, IsDFA_iff M, ?_, ?_⟩
  · constructor
    · intro h
      cases hd : M.IsDFA with
      | false => rfl
      | true =>
        rw [toDFA_of_IsDFA M hd] at h
        rcases dfaBuild_error _ _ h with h1 | h1 | h1 <;> cases h1
    · intro h
      unfold nfaMachine.ToDFA
      rw [h]
      rfl
  · intro A hA
    have hd : M.IsDFA = true := by
      cases hd : M.IsDFA with
      | true => rfl
      | false =>
        unfold nfaMachine.ToDFA at hA
        rw [hd] at hA
        cases hA
    rw [toDFA_of_IsDFA M hd] at hA
    obtain ⟨hrec, _⟩ := dfaBuild_fields _ A hA
    obtain ⟨_, ⟨s0, hs0⟩, _⟩ := IsDFA_parts M hd
    have hdelta : ∀ q a, A.delta q a = (tableGet M.transitions q a).map firstOf := by
      intro q a
      rw [dfaDelta_eq_dtGet, hrec]
      exact dtGet_firstTable M.transitions q a
    refine ⟨hd, ?_, ?_, ?_, ?_, ?_, ?_, ?_⟩
    · intro y; rw [hrec]; exact GoSet.mem_New _ _
    · intro c; rw [hrec]; exact GoSet.mem_New _ _
    · intro y; rw [hrec]; exact GoSet.mem_New _ _
    · rw [hrec, hs0]; rfl
    · rw [hrec]
    · intro q a y
      rw [hdelta]
      unfold nfaMachine.Delta tableDelta
      rcases toDFA_cell M hd q a with h | ⟨z, h⟩
      · rw [h]; simp
      · rw [h]; simp [firstOf, GoSet.Unwrap]
    · intro q a
      rw [hdelta]
      unfold nfaMachine.Delta tableDelta
      rcases toDFA_cell M hd q a with h | ⟨z, h⟩
      · rw [h]; simp
      · rw [h]; simp
  · intro b hb hd
    rw [toDFA_of_IsDFA M hd]
    obtain ⟨h1, h2, h3⟩ := nfaBuild_checks b M hb
    obtain ⟨_, ⟨s0, hs0⟩, _⟩ := IsDFA_parts M hd
    have hkeys := nfaBuild_rowKeys b M hb
    have hT := nfaBuild_TableOK b M hb
    have hcell : ∀ e ∈ M.transitions, ∀ r ∈ e.2,
        firstOf r.2 ∈ tableDelta M.transitions e.1 r.1 := by
      intro e he r hr
      have hl : r.2.length = 1 := ((IsDFA_iff M).1 hd).2.2 e he r hr
      have hg : tableGet M.transitions e.1 r.1 = some r.2 := by
        rw [tableGet_of_TableOK_mem M.transitions hT e.1 e.2 he r.1]
        exact mapGet_of_mem e.2 (hT.2 e he) r.1 r.2 hr
      unfold tableDelta
      rw [hg]
      obtain ⟨c, u⟩ := r
      match u, hl with
      | [z], _ => simp [firstOf, GoSet.Unwrap]
    apply dfaBuild_ok_of_checks
    · show firstOf M.startStates ∈ GoSet.Unwrap M.states
      rw [hs0]
      exact h1 s0 (by rw [hs0]; simp)
    · intro a ha
      exact h2 a ha
    · rintro ⟨e, he, hne, hbad⟩
      simp only [List.mem_map] at he
      obtain ⟨e0, he0, rfl⟩ := he
      rcases hbad with hbad | ⟨r, hr, hbad⟩
      · exact hbad (hkeys e0 he0)
      · simp only [List.mem_map] at hr
        obtain ⟨r0, hr0, rfl⟩ := hr
        exact hbad (h3 _ _ _ (hcell e0 he0 r0 hr0)).1
    · rintro ⟨hne, e, he, r, hr, hbad⟩
      simp only [List.mem_map] at he
      obtain ⟨e0, he0, rfl⟩ := he
      simp only [List.mem_map] at hr
      obtain ⟨r0, hr0, rfl⟩ := hr
      rcases (h3 _ _ _ (hcell e0 he0 r0 hr0)).2 with h | h
      · exact hne h
      · exact hbad h

/-- Witness for C23: `ToDFA` gives the parity DFA back from its image under
`FromDFA`, and fails with `ErrNotDFA` on the machine `basic`, which has an
epsilon transition. -/
theorem toDFA_contract_witness :
    (FromDFA parity).ToDFA = Except.ok parity ∧ (FromDFA parity).IsDFA = true ∧
    basic.IsDFA = false ∧ basic.ToDFA = Except.error FaError.ErrNotDFA ∧
    (∀ q a y, parity.delta q a = some y ↔ (FromDFA parity).Delta q a = [y]) :=
  ⟨rfl, by decide, by decide, (toDFA_contract basic).1.2 (by decide),
    ((toDFA_contract (FromDFA parity)).2.2.1 parity rfl).2.2.2.2.2.2.1⟩

theorem firstTable_singleton (dt : GoMap String (GoMap Rune String)) :
    (singletonTable dt).map (fun e => (e.1, e.2.map (fun r => (r.1, firstOf r.2)))) = dt := by
  unfold singletonTable
  rw [List.map_map]
  conv_rhs => rw [← List.map_id dt]
  apply List.map_congr_left
  intro e _
  obtain ⟨k, row⟩ := e
  simp only [Function.comp, List.map_map, id, Prod.mk.injEq, true_and]
  conv_rhs => rw [← List.map_id row]
  apply List.map_congr_left
  intro r _
  obtain ⟨c, y⟩ := r
  simp [firstOf, GoSet.Unwrap, NewStringSet, New_singleton]

theorem IsDFA_fromDFA (b : dfaMachineBuilder) (D : dfaMachine) (hb : b.Build = Except.ok D)
    (hne : D.NoEpsilonKey) : (FromDFA D).IsDFA = true := by
  have hF := fromDFA_built b D hb
  rw [IsDFA_iff]
  refine ⟨HasEpsilon_singletonTable (FromDFA D) D.transitions (by rw [hF]) hne, by rw [hF]; rfl, ?_⟩
  rw [hF]
  intro e he r hr
  simp only [singletonTable, List.mem_map] at he
  obtain ⟨e0, _, rfl⟩ := he
  simp only [List.mem_map] at hr
  obtain ⟨r0, _, rfl⟩ := hr
  simp [GoSet.Len, NewStringSet, New_singleton]

/-- C40: `FromDFA` followed by `ToDFA` is the identity on structure.  For a DFA
`D` that the builder returned and whose table has no epsilon key, in whatever
current state `q`, `ToDFA (FromDFA D)` succeeds and returns `D` in its start
state: the same states, alphabet, start state, accept states and transition
table, and the current state equal to the start state. -/
theorem fromDFA_toDFA_identity (b : dfaMachineBuilder) (D : dfaMachine)
    (hb : b.Build = Except.ok D) (hne : D.NoEpsilonKey) (q : String) :
    (FromDFA { D with currentState := q }).ToDFA = Except.ok D ∧
    D.currentState = D.startState ∧
    (∀ A, (FromDFA { D with currentState := q }).ToDFA = Except.ok A →
      A.states = D.states ∧ A.chars = D.chars ∧ A.startState = D.startState ∧
      A.acceptStates = D.acceptStates ∧ A.transitions = D.transitions ∧
      (∀ p a, A.delta p a = D.delta p a) ∧ A.currentState = D.startState) := by
  have hsame : FromDFA { D with currentState := q } = FromDFA D := rfl
  rw [hsame]
  have hF := fromDFA_built b D hb
  obtain ⟨hA, h1, h2, h3, h4⟩ := dfaBuild_fields b D hb
  have hcur : D.currentState = D.startState := by rw [hA]
  have hmain : (FromDFA D).ToDFA = Except.ok D := by
    rw [toDFA_of_IsDFA _ (IsDFA_fromDFA b D hb hne), hF]
    simp only [firstTable_singleton]
    simp only [GoSet.Unwrap, firstOf, List.headD_cons]
    have hchecks :
        ∃ A, dfaMachineBuilder.Build
          { states := D.states, chars := D.chars, startState := D.startState,
            acceptStates := D.acceptStates, transitions := D.transitions } = Except.ok A := by
      apply dfaBuild_ok_of_checks
      · rw [hA]; exact (GoSet.mem_New _ _).2 h1
      · intro a ha
        rw [hA] at ha ⊢
        exact (GoSet.mem_New _ _).2 (h2 a ((GoSet.mem_New _ _).1 ha))
      · rintro ⟨e, he, hne2, hbad⟩
        apply h3
        rw [hA] at he hbad
        refine ⟨e, he, hne2, ?_⟩
        rcases hbad with hbad | ⟨r, hr, hbad⟩
        · exact Or.inl (fun hc => hbad ((GoSet.mem_New _ _).2 hc))
        · exact Or.inr ⟨r, hr, fun hc => hbad ((GoSet.mem_New _ _).2 hc)⟩
      · rintro ⟨hne2, e, he, r, hr, hbad⟩
        apply h4
        rw [hA] at he hbad hne2
        refine ⟨?_, e, he, r, hr, fun hc => hbad ((GoSet.mem_New _ _).2 hc)⟩
        intro hnil
        apply hne2
        simp only [hnil]
        rfl
    obtain ⟨A, hAok⟩ := hchecks
    obtain ⟨hrec, _⟩ := dfaBuild_fields _ A hAok
    rw [hAok, hrec]
    congr 1
    rw [hA]
    simp only [NewStringSet, NewRuneSet, GoSet_New_of_nodup _ (GoSet.nodup_New _)]
  refine ⟨hmain, hcur, ?_⟩
  intro A hAeq
  rw [hmain] at hAeq
  cases hAeq
  exact ⟨rfl, rfl, rfl, rfl, rfl, fun _ _ => rfl, hcur⟩

/-- Witness for C40: the parity DFA moved to the state `odd`. -/
theorem fromDFA_toDFA_identity_witness :
    parityBuilder.Build = Except.ok parity ∧ parity.NoEpsilonKey ∧
    (FromDFA { parity with currentState := "odd" }).ToDFA = Except.ok parity :=
  ⟨rfl, by unfold dfaMachine.NoEpsilonKey; decide,
    (fromDFA_toDFA_identity parityBuilder parity rfl
      (by unfold dfaMachine.NoEpsilonKey; decide) "odd").1⟩

theorem runeEqualLoop_same_length (xs ys : List Rune) (h : xs.length = ys.length) :
    runeEqualLoop xs ys = some (decide (xs = ys)) := by
  induction xs generalizing ys with
  | nil =>
    cases ys with
    | nil => rfl
    | cons y ys => simp at h
  | cons p xs ih =>
    cases ys with
    | nil => simp at h
    | cons y ys =>
      simp only [List.length_cons, add_left_inj] at h
      unfold runeEqualLoop
      by_cases hp : p = y
      · subst hp
        simp [ih ys h]
      · simp [hp]

theorem runeEqualLoop_true_iff (xs ys : List Rune) :
    runeEqualLoop xs ys = some true ↔ xs <+: ys := by
  induction xs generalizing ys with
  | nil => simp [runeEqualLoop]
  | cons p xs ih =>
    cases ys with
    | nil => simp [runeEqualLoop]
    | cons y ys =>
      unfold runeEqualLoop
      by_cases hp : p = y
      · subst hp
        simp [ih ys, List.cons_prefix_cons]
      · simp [hp, List.cons_prefix_cons]

theorem runeEqualLoop_none_iff (xs ys : List Rune) :
    runeEqualLoop xs ys = none ↔ ys <+: xs ∧ ys.length < xs.length := by
  induction xs generalizing ys with
  | nil => simp [runeEqualLoop]
  | cons p xs ih =>
    cases ys with
    | nil => simp [runeEqualLoop]
    | cons y ys =>
      unfold runeEqualLoop
      by_cases hp : p = y
      · subst hp
        simp [ih ys, List.cons_prefix_cons]
      · have hp2 : ¬ y = p := fun h => hp h.symm
        simp [hp, hp2, List.cons_prefix_cons]

theorem sortRunes_perm (l : List Rune) : (sortRunes l).Perm l :=
  List.perm_insertionSort _ l

theorem sortRunes_eq_iff (A B : List Rune) (hA : A.Nodup) (hB : B.Nodup) :
    sortRunes A = sortRunes B ↔ ∀ y, y ∈ A ↔ y ∈ B := by
  constructor
  · intro h y
    rw [← (sortRunes_perm A).mem_iff, h, (sortRunes_perm B).mem_iff]
  · intro h
    have hp : A.Perm B := (List.perm_ext_iff_of_nodup hA hB).2 h
    apply List.eq_of_perm_of_sorted (r := fun a b : Rune => a ≤ b)
    · exact (sortRunes_perm A).trans (hp.trans (sortRunes_perm B).symm)
    · exact List.sorted_insertionSort _ A
    · exact List.sorted_insertionSort _ B

theorem StringSet_Equal_iff (A B : StringSet) (hA : A.Nodup) (hB : B.Nodup) :
    StringSet.Equal A B = true ↔ A.length = B.length ∧ ∀ y, y ∈ A ↔ y ∈ B := by
  constructor
  · intro h
    refine ⟨?_, StringSet_Equal_mem A B h⟩
    unfold StringSet.Equal GoSet.Unwrap at h
    by_contra hne
    simp [hne] at h
  · intro h
    exact StringSet_Equal_of_mem A B hA hB h.2

/-- C33, the code at the failing inputs, and what holds.  `stringSet.Equal`
returns true exactly for sets with the same number of elements and the same
elements.  `runeSet.Equal` does not compare the lengths: on `{a}` and `{a, b}`
it returns true, on the empty set and `{a}` it returns true, and on `{a, b}`
and `{a}` it reads past the end of the second slice and returns nothing.  It
returns true exactly when the sorted first set is a prefix of the sorted
second one, returns nothing exactly when the sorted second set is a proper
prefix of the sorted first one, and is right on sets of the same size. -/
theorem rune_set_equal_no_length_check :
    RuneSet.Equal [97] [97, 98] = some true ∧
    RuneSet.Equal [] [97] = some true ∧
    RuneSet.Equal [97, 98] [97] = none ∧
    (∀ A B : StringSet, A.Nodup → B.Nodup →
      (StringSet.Equal A B = true ↔ A.length = B.length ∧ ∀ y, y ∈ A ↔ y ∈ B)) ∧
    (∀ A B : RuneSet, RuneSet.Equal A B = some true ↔ sortRunes A <+: sortRunes B) ∧
    (∀ A B : RuneSet, RuneSet.Equal A B = none ↔
      sortRunes B <+: sortRunes A ∧ B.length < A.length) ∧
    (∀ A B : RuneSet, A.Nodup → B.Nodup → A.length = B.length →
      ∃ r, RuneSet.Equal A B = some r ∧ (r = true ↔ ∀ y, y ∈ A ↔ y ∈ B)) := by
  refine ⟨by decide, by decide, by decide, StringSet_Equal_iff, ?_, ?_, ?_⟩
  · intro A B
    exact runeEqualLoop_true_iff _ _
  · intro A B
    unfold RuneSet.Equal GoSet.Unwrap
    rw [runeEqualLoop_none_iff, (sortRunes_perm A).length_eq, (sortRunes_perm B).length_eq]
  · intro A B hA hB hlen
    refine ⟨decide (sortRunes A = sortRunes B), ?_, ?_⟩
    · unfold RuneSet.Equal GoSet.Unwrap
      exact runeEqualLoop_same_length _ _
        (by rw [(sortRunes_perm A).length_eq, (sortRunes_perm B).length_eq, hlen])
    · rw [decide_eq_true_eq]
      exact sortRunes_eq_iff A B hA hB

theorem cycle_loop_diverges (fuel : Nat) :
    applyEpsilonLoop cycleNfa.transitions fuel ["s"] = none ∧
    applyEpsilonLoop cycleNfa.transitions fuel ["t"] = none := by
  induction fuel with
  | zero => exact ⟨rfl, rfl⟩
  | succ n ih =>
    have hs : applyEpsilonPass cycleNfa.transitions (GoSet.Unwrap ["s"]) ["s"] false =
        (["t"], true) := by decide
    have ht : applyEpsilonPass cycleNfa.transitions (GoSet.Unwrap ["t"]) ["t"] false =
        (["s"], true) := by decide
    constructor
    · unfold applyEpsilonLoop
      simp only [hs, if_true]
      exact ih.2
    · unfold applyEpsilonLoop
      simp only [ht, if_true]
      exact ih.1

theorem nfaPut_epsfree_returns (fuel : Nat) (s : nfaMachine) (x : Rune)
    (he : s.HasEpsilon = false) : ∃ r, s.Put fuel x = some r := by
  rcases nfaPut_epsfree_cases fuel s x he with ⟨h, _⟩ | ⟨⟨r, e, h⟩, _⟩
  · exact ⟨_, h⟩
  · exact ⟨_, h⟩

/-- C34, the code at the failing input: the builder returns `cycleNfa`, whose
epsilon transitions `s -eps-> t` and `t -eps-> s` form a cycle.  The closure
loop of `Put` deletes a state before it adds its epsilon destinations, so from
the current set `{s}` it goes to `{t}`, back to `{s}`, and so on, and every pass
reports a change: no number of passes is enough, and `Put` returns on no
symbol, neither from `{s}` nor from `{t}`.  On a machine without epsilon
transitions `Put` always returns. -/
theorem nfa_put_diverges_on_epsilon_cycle :
    cycleNfaBuilder.Build = Except.ok cycleNfa ∧
    applyEpsilonPass cycleNfa.transitions ["s"] ["s"] false = (["t"], true) ∧
    applyEpsilonPass cycleNfa.transitions ["t"] ["t"] false = (["s"], true) ∧
    (∀ fuel : Nat, applyEpsilonLoop cycleNfa.transitions fuel ["s"] = none) ∧
    (∀ (fuel : Nat) (x : Rune), cycleNfa.Reset.Put fuel x = none) ∧
    (∀ (fuel : Nat) (x : Rune),
      ({ cycleNfa with currentStates := ["t"] } : nfaMachine).Put fuel x = none) ∧
    (∀ (fuel : Nat) (s : nfaMachine) (x : Rune), s.HasEpsilon = false →
      ∃ r, s.Put fuel x = some r) := by
  refine ⟨rfl, by decide, by decide, fun fuel => (cycle_loop_diverges fuel).1, ?_, ?_,
    nfaPut_epsfree_returns⟩
  · intro fuel x
    have h := (cycle_loop_diverges fuel).1
    have he : cycleNfa.Reset.HasEpsilon = true := by decide
    unfold nfaMachine.Put
    have hc : (decide (GoSet.Len cycleNfa.Reset.chars > 0) &&
        !GoSet.In cycleNfa.Reset.chars [x]) = false := by
      have : decide (GoSet.Len cycleNfa.Reset.chars > 0) = false := by decide
      rw [this]; rfl
    have hl : ¬ GoSet.Len cycleNfa.Reset.currentStates = 0 := by decide
    have hcl : cycleNfa.Reset.closeIfEpsilon fuel = none := by
      unfold nfaMachine.closeIfEpsilon nfaMachine.applyEpsilon
      rw [he]
      simp only [if_true]
      show Option.map _ (applyEpsilonLoop cycleNfa.transitions fuel ["s"]) = none
      rw [h]
      rfl
    rw [hc]
    simp only [Bool.false_eq_true, if_false, hl, hcl]
  · intro fuel x
    have h := (cycle_loop_diverges fuel).2
    unfold nfaMachine.Put
    have hc : (decide (GoSet.Len ({ cycleNfa with currentStates := ["t"] } : nfaMachine).chars > 0)
        && !GoSet.In ({ cycleNfa with currentStates := ["t"] } : nfaMachine).chars [x]) = false := by
      have : decide (GoSet.Len ({ cycleNfa with currentStates := ["t"] } : nfaMachine).chars > 0)
          = false := by decide
      rw [this]; rfl
    have hl : ¬ GoSet.Len ({ cycleNfa with currentStates := ["t"] } : nfaMachine).currentStates
        = 0 := by decide
    have hcl : ({ cycleNfa with currentStates := ["t"] } : nfaMachine).closeIfEpsilon fuel
        = none := by
      have he : ({ cycleNfa with currentStates := ["t"] } : nfaMachine).HasEpsilon = true := by
        decide
      unfold nfaMachine.closeIfEpsilon nfaMachine.applyEpsilon
      rw [he]
      simp only [if_true]
      show Option.map _ (applyEpsilonLoop cycleNfa.transitions fuel ["t"]) = none
      rw [h]
      rfl
    rw [hc]
    simp only [Bool.false_eq_true, if_false, hl, hcl]

/-- C35, the code at the failing inputs: the builder returns `loopNfa`, whose
start state has an epsilon self-loop, and `twoStart`, whose start state `s` has
an epsilon transition to the start state `t`.  On both, the first pass of the
start-state loop adds nothing, the loop takes `states.Equal(startStates)` for
the flag `modified` and goes on for ever: `ApplyEpsilonExpansion` returns with
no number of passes.  In general it returns exactly when that first pass
leaves the flag unset.  The destination closure loops of `ExpandEpsilon` do
finish on every table. -/
theorem expansion_diverges_on_start_loop :
    loopNfaBuilder.Build = Except.ok loopNfa ∧
    (∀ fuel : Nat, loopNfa.ApplyEpsilonExpansion fuel = none) ∧
    twoStartBuilder.Build = Except.ok twoStart ∧
    (∀ fuel : Nat, twoStart.ApplyEpsilonExpansion fuel = none) ∧
    (∀ M : nfaMachine, M.startQuiet = false → ∀ fuel : Nat, M.ApplyEpsilonExpansion fuel = none) ∧
    (∀ M : nfaMachine, M.startQuiet = true →
      ∃ E, ∀ fuel : Nat, max 1 (expandBound M.transitions) ≤ fuel →
        M.ApplyEpsilonExpansion fuel = some E) ∧
    (∀ tr : NTrans, ∃ T, ∀ fuel : Nat, expandBound tr ≤ fuel → ExpandEpsilon fuel tr = some T) := by
  refine ⟨rfl, ApplyEpsilonExpansion_diverges loopNfa (by decide), rfl,
    ApplyEpsilonExpansion_diverges twoStart (by decide),
    fun M h => ApplyEpsilonExpansion_diverges M h,
    fun M h => ApplyEpsilonExpansion_returns M h, ?_⟩
  intro tr
  obtain ⟨T, hT⟩ := ExpandEpsilon_total tr (expandBound tr) (Nat.le_refl _)
  exact ⟨T, fun fuel hf => ExpandEpsilon_mono tr _ fuel hf T hT⟩

/-- C37, the code at the failing input: the builder returns `chain`
(`s -eps-> p -eps-> r -a-> f`, start `s`), in the configuration `{s}`.  Its
expansion drops the useless state `s` from the states, the start states and the
destination sets, but clones the current states as they are: the current set of
the result is `{s}`, and `s` is not a state of the result.  In general the
current set of the result is the current set of the machine, whatever the
useless states are. -/
theorem expansion_keeps_purged_current :
    chainBuilder.Build = Except.ok chain ∧ chain.currentStates = ["s"] ∧
    (∃ E, (∀ fuel : Nat, 2 ≤ fuel → chain.ApplyEpsilonExpansion fuel = some E) ∧
      E.currentStates = ["s"] ∧ "s" ∉ E.states ∧ E.states = ["r", "f"] ∧
      E.SetStates (GoSet.Unwrap E.currentStates) = (E, some FaError.ErrInvalidState)) ∧
    (∀ (M E : nfaMachine) (fuel : Nat), M.ApplyEpsilonExpansion fuel = some E →
      E.currentStates = GoSet.Clone M.currentStates ∧
      ∀ y, y ∈ E.currentStates → (y ∈ E.states ↔ y ∈ M.states ∧
        (y ∈ M.acceptStates ∨ mapHas E.transitions y = true))) := by
  refine ⟨rfl, rfl, ⟨_, fun fuel hf => ApplyEpsilonExpansion_mono chain 2 fuel hf _ rfl,
    by decide, by decide, by decide, by decide⟩, ?_⟩
  intro M E fuel h
  obtain ⟨T, hT, _, _, hE⟩ := ApplyEpsilonExpansion_some fuel M E h
  have hcur : E.currentStates = GoSet.Clone M.currentStates := by rw [hE]
  refine ⟨hcur, ?_⟩
  intro y _
  have hst : y ∈ E.states ↔ y ∈ M.states ∧ y ∉ uselessOf M T := by
    rw [hE]
    show y ∈ GoSet.Del (GoSet.Clone M.states) (GoSet.Unwrap (uselessOf M T)) ↔ _
    rw [GoSet.mem_Del, GoSet.mem_Clone]
    rfl
  have hkeys : mapHas E.transitions y = mapHas T y := by
    rw [hE]
    show mapHas (purgeTransitions T (uselessOf M T)) y = mapHas T y
    rw [Bool.eq_iff_iff, mapHas_iff, mapHas_iff]
    unfold purgeTransitions
    rw [keys_mapValues (fun e => e.2.map (fun r => (r.1, GoSet.Del r.2 (GoSet.Unwrap (uselessOf M T))))) T]
  rw [hst, mem_uselessOf, hkeys]
  constructor
  · rintro ⟨h1, h2⟩
    refine ⟨h1, ?_⟩
    by_cases ha : y ∈ M.acceptStates
    · exact Or.inl ha
    · right
      by_contra hm
      exact h2 ⟨h1, ha, by simpa using hm⟩
  · rintro ⟨h1, h2⟩
    refine ⟨h1, ?_⟩
    rintro ⟨_, ha, hm⟩
    rcases h2 with h2 | h2
    · exact ha h2
    · rw [hm] at h2; cases h2

theorem nfaBuild_WellFormed (b : nfaMachineBuilder) (M : nfaMachine)
    (h : b.Build = Except.ok M) : M.WellFormed := by
  obtain ⟨h1, h2, h3⟩ := nfaBuild_checks b M h
  refine ⟨h1, h2, ?_⟩
  intro p a q hq
  refine ⟨?_, (h3 p a q hq).1⟩
  obtain ⟨u, hu, _⟩ := (mem_tableDelta _ _ _ _).1 hq
  unfold tableGet at hu
  cases hrow : mapGet M.transitions p with
  | none => rw [hrow] at hu; cases hu
  | some row => exact nfaBuild_rowKeys b M h (p, row) (mapGet_mem _ _ _ hrow)

theorem Reverse_WellFormed (M : nfaMachine) (hT : TableOK M.transitions) (hw : M.WellFormed) :
    M.Reverse.WellFormed := by
  obtain ⟨h1, h2, h3⟩ := hw
  refine ⟨?_, ?_, ?_⟩
  · intro y hy
    exact (GoSet.mem_Clone _ _).2 (h2 y ((GoSet.mem_Clone _ _).1 hy))
  · intro y hy
    exact (GoSet.mem_Clone _ _).2 (h1 y ((GoSet.mem_Clone _ _).1 hy))
  · intro p a q hq
    have := h3 q a p ((mem_tableDelta_Reverse M hT p a q).1 hq)
    exact ⟨(GoSet.mem_Clone _ _).2 this.2, (GoSet.mem_Clone _ _).2 this.1⟩

theorem Not_WellFormed (M : nfaMachine) (hw : M.WellFormed) : M.Not.WellFormed := by
  obtain ⟨h1, _, h3⟩ := hw
  refine ⟨?_, ?_, ?_⟩
  · intro y hy
    exact (GoSet.mem_Clone _ _).2 (h1 y ((GoSet.mem_Clone _ _).1 hy))
  · intro y hy
    have hy2 : y ∈ GoSet.Del (GoSet.Clone M.states) (GoSet.Unwrap M.acceptStates) := hy
    exact ((GoSet.mem_Del _ _ _).1 hy2).1
  · intro p a q hq
    have := h3 p a q hq
    exact ⟨(GoSet.mem_Clone _ _).2 this.1, (GoSet.mem_Clone _ _).2 this.2⟩

theorem EpsClosure_states (M : nfaMachine) (hw : M.WellFormed) (S : String → Prop)
    (hS : ∀ y, S y → y ∈ M.states) (y : String) (hy : EpsClosure M.transitions S y) :
    y ∈ M.states := by
  induction hy with
  | base hs => exact hS _ hs
  | step _ hd _ => exact (hw.2.2 _ _ _ hd).2

theorem Expansion_WellFormed (M : nfaMachine) (hT : TableOK M.transitions) (hw : M.WellFormed)
    (fuel : Nat) (E : nfaMachine) (h : M.ApplyEpsilonExpansion fuel = some E) :
    E.WellFormed := by
  obtain ⟨T, hTe, hst, hde, hsta, hacc, _, _⟩ := ApplyEpsilonExpansion_fields M hT fuel E h
  refine ⟨?_, ?_, ?_⟩
  · intro y hy
    obtain ⟨hy1, hy2⟩ := (hsta y).1 hy
    refine (hst y).2 ⟨?_, hy2⟩
    rcases hy1 with hy1 | ⟨p, _, hy1⟩
    · exact hw.1 y hy1
    · exact (hw.2.2 _ _ _ hy1).2
  · intro y hy
    have hy1 := (hacc y).1 hy
    exact (hst y).2 ⟨hw.2.1 y hy1, fun hu => hu.2.1 hy1⟩
  · intro p a q hq
    obtain ⟨hq1, hq2⟩ := (hde p a q).1 hq
    obtain ⟨ha, hcl⟩ := (mem_tableDelta_ExpandEpsilon M.transitions hT fuel T hTe p a q).1 hq1
    have hq3 : q ∈ M.states :=
      EpsClosure_states M hw _ (fun y hy => (hw.2.2 _ _ _ hy).2) q hcl
    have hne : ∃ z, z ∈ tableDelta M.transitions p a := by
      by_contra hno
      push_neg at hno
      exact EpsClosure_empty M.transitions _ hno q hcl
    obtain ⟨z, hz⟩ := hne
    refine ⟨(hst p).2 ⟨(hw.2.2 _ _ _ hz).1, ?_⟩, (hst q).2 ⟨hq3, hq2⟩⟩
    intro hu
    have := hu.2.2 a ha
    rw [this] at hq1
    cases hq1

theorem Powerset_WellFormed (M : nfaMachine) (hs : M.startStates.Nodup) (fuel : Nat)
    (D : nfaMachine) (h : M.ApplyPowersetConstruction fuel = some (Except.ok D)) :
    D.WellFormed ∧ D.startStates = ["0"] ∧ "0" ∈ D.states := by
  obtain ⟨_, sets, v, hi, h0, hD⟩ := powerset_inv M hs fuel D h
  subst hD
  have hpos : 0 < sets.length := getElem?_lt _ _ _ h0
  have hzero : "0" ∈ v.states := (hi.hstates "0").2 ⟨0, hpos, rfl⟩
  refine ⟨⟨?_, ?_, ?_⟩, rfl, hzero⟩
  · intro y hy
    have : y = "0" := by simpa [NewStringSet, New_singleton] using hy
    rw [this]
    exact hzero
  · intro y hy
    obtain ⟨i, t, hi1, _, hi2, _⟩ := (hi.haccept y).1 hy
    exact (hi.hstates y).2 ⟨i, hi1, hi2⟩
  · intro p a q hq
    have hq1 : dtGet v.transitions p a = some q := (mem_tableDelta_singleton _ _ _ _).1 hq
    obtain ⟨i, t, ht, hn, hh, hne⟩ := hi.honly _ _ _ hq1
    refine ⟨(hi.hstates p).2 ⟨i, getElem?_lt _ _ _ ht, hn⟩, ?_⟩
    obtain ⟨j, u, hu, _, hj⟩ := hi.hedge i t a ht hh hne
    rw [← hn, hq1] at hj
    cases hj
    exact (hi.hstates _).2 ⟨j, getElem?_lt _ _ _ hu, rfl⟩

/-- C38: the transformations preserve the structural invariants.  If the start
states and the accept states of an NFA are states and so are the source and
the destination of every transition, the same holds of its `Reverse`, of its
`Not`, and of every machine that `ApplyEpsilonExpansion` returns on it; every
machine that `ApplyPowersetConstruction` returns has the invariants, the start
state `0`, and `0` among its states. -/
theorem transformations_preserve_invariants (M : nfaMachine) (hT : TableOK M.transitions)
    (hs : M.startStates.Nodup) (hw : M.WellFormed) :
    M.Reverse.WellFormed ∧ M.Not.WellFormed ∧
    (∀ (fuel : Nat) (E : nfaMachine), M.ApplyEpsilonExpansion fuel = some E → E.WellFormed) ∧
    (∀ (fuel : Nat) (D : nfaMachine), M.ApplyPowersetConstruction fuel = some (Except.ok D) →
      D.WellFormed ∧ D.startStates = ["0"] ∧ "0" ∈ D.states) :=
  ⟨Reverse_WellFormed M hT hw, Not_WellFormed M hw, Expansion_WellFormed M hT hw,
    Powerset_WellFormed M hs⟩

/-- Witness for C38: the parity NFA, on which both constructions return. -/
theorem transformations_preserve_invariants_witness :
    TableOK parityNfa.transitions ∧ parityNfa.startStates.Nodup ∧ parityNfa.WellFormed ∧
    parityNfa.Reverse.WellFormed ∧
    (∃ E, parityNfa.ApplyEpsilonExpansion 3 = some E ∧ E.WellFormed) ∧
    (∃ D, parityNfa.ApplyPowersetConstruction 5 = some (Except.ok D) ∧ D.WellFormed) :=
  ⟨nfaBuild_TableOK parityNfaBuilder parityNfa rfl, by decide,
    nfaBuild_WellFormed parityNfaBuilder parityNfa rfl,
    (transformations_preserve_invariants parityNfa
      (nfaBuild_TableOK parityNfaBuilder parityNfa rfl) (by decide)
      (nfaBuild_WellFormed parityNfaBuilder parityNfa rfl)).1,
    ⟨_, rfl, (transformations_preserve_invariants parityNfa
      (nfaBuild_TableOK parityNfaBuilder parityNfa rfl) (by decide)
      (nfaBuild_WellFormed parityNfaBuilder parityNfa rfl)).2.2.1 3 _ rfl⟩,
    ⟨_, rfl, ((transformations_preserve_invariants parityNfa
      (nfaBuild_TableOK parityNfaBuilder parityNfa rfl) (by decide)
      (nfaBuild_WellFormed parityNfaBuilder parityNfa rfl)).2.2.2 5 _ rfl).1⟩⟩

theorem subset_key_mem_sublists (Q : List String) (t : StringSet) (hnd : t.Nodup)
    (hsub : ∀ y ∈ t, y ∈ Q) :
    stringSetToString t ∈ Q.sublists.map stringSetToString := by
  obtain ⟨l, hl1, hl2⟩ := List.subperm_of_subset hnd hsub
  rw [List.mem_map]
  refine ⟨l, List.mem_sublists.2 hl2, ?_⟩
  unfold stringSetToString GoSet.Unwrap
  rw [sortStrings_eq_of_perm _ _ hl1]

theorem psFinal_subsets (s : nfaMachine) (chars : RuneSet) (sets : List StringSet) (d : Nat)
    (cs : List Rune) (reg : Nat) (v : PowersetVars) (h : PowersetInv s chars sets d cs reg v)
    (h0 : sets[0]? = some s.startStates) (h1 : ∀ y ∈ s.startStates, y ∈ s.states)
    (h2 : ∀ p a q, q ∈ s.Delta p a → q ∈ s.states) (i : Nat) (t : StringSet)
    (ht : sets[i]? = some t) : ∀ y ∈ t, y ∈ s.states := by
  intro y hy
  cases i with
  | zero =>
    rw [h0] at ht
    cases ht
    exact h1 y hy
  | succ i =>
    obtain ⟨t0, c, hu, _⟩ := h.hfrom (i + 1) t (by omega) ht
    rw [hu, mem_powersetNext] at hy
    obtain ⟨p, _, hp⟩ := hy
    exact h2 p c y hp

/-- C39: `ApplyPowersetConstruction` terminates.  On every NFA without epsilon
transitions the loop over the subsets ends: one machine `D` is returned with
every number of rounds from `powersetBound M` on, a bound that depends only on
the destinations of the table.  Every subset is enqueued under a canonical key
that was new, and when the start states and the destinations of the
transitions are states of `M`, the number of states of `D` is at most
`2 ^ |Q|`. -/
theorem powerset_terminates (M : nfaMachine) (hs : M.startStates.Nodup)
    (he : M.HasEpsilon = false) :
    ∃ D, (∀ fuel : Nat, powersetBound M ≤ fuel →
        M.ApplyPowersetConstruction fuel = some (Except.ok D)) ∧
      (∀ (fuel : Nat) (r : Except FaError nfaMachine),
        M.ApplyPowersetConstruction fuel = some r → r = Except.ok D) ∧
      D.states.length ≤ powersetBound M ∧
      ((∀ y ∈ M.startStates, y ∈ M.states) → (∀ p a q, q ∈ M.Delta p a → q ∈ M.states) →
        D.states.length ≤ 2 ^ M.states.length) := by
  obtain ⟨D, hD⟩ := powerset_total M hs he (powersetBound M) (Nat.le_refl _)
  have hmono : ∀ fuel : Nat, powersetBound M ≤ fuel →
      M.ApplyPowersetConstruction fuel = some (Except.ok D) :=
    fun fuel hf => ApplyPowersetConstruction_mono M _ fuel hf _ hD
  obtain ⟨_, sets, v, hi, h0, hDeq⟩ := powerset_inv M hs _ D hD
  have hlen : D.states.length = sets.length := by
    rw [hDeq]
    exact states_length_of_numerals v.states sets.length hi.hstatesNodup hi.hstates
  refine ⟨D, hmono, ?_, ?_, ?_⟩
  · intro fuel r hr
    have h1 := ApplyPowersetConstruction_mono M fuel (max fuel (powersetBound M))
      (Nat.le_max_left _ _) r hr
    rw [hmono _ (Nat.le_max_right _ _)] at h1
    exact (Option.some.inj h1).symm
  · rw [hlen]
    exact psInv_bound M _ sets _ _ _ v hi
  · intro h1 h2
    rw [hlen]
    have hsub : sets.map stringSetToString ⊆ M.states.sublists.map stringSetToString := by
      intro k hk
      rw [List.mem_map] at hk
      obtain ⟨t, ht, rfl⟩ := hk
      obtain ⟨i, hi2⟩ := List.getElem?_of_mem ht
      exact subset_key_mem_sublists M.states t (hi.hnodup t ht)
        (psFinal_subsets M _ sets _ _ _ v hi h0 h1 h2 i t hi2)
    have hle := (List.subperm_of_subset hi.hkeys hsub).length_le
    rw [List.length_map, List.length_map, List.length_sublists] at hle
    exact hle

/-- Witness for C39: the parity NFA. -/
theorem powerset_terminates_witness :
    parityNfa.startStates.Nodup ∧ parityNfa.HasEpsilon = false ∧
    ∃ D, (∀ fuel : Nat, powersetBound parityNfa ≤ fuel →
        parityNfa.ApplyPowersetConstruction fuel = some (Except.ok D)) ∧
      (∀ (fuel : Nat) (r : Except FaError nfaMachine),
        parityNfa.ApplyPowersetConstruction fuel = some r → r = Except.ok D) ∧
      D.states.length ≤ powersetBound parityNfa ∧
      ((∀ y ∈ parityNfa.startStates, y ∈ parityNfa.states) →
        (∀ p a q, q ∈ parityNfa.Delta p a → q ∈ parityNfa.states) →
        D.states.length ≤ 2 ^ parityNfa.states.length) :=
  ⟨by decide, by decide, powerset_terminates parityNfa (by decide) (by decide)⟩

theorem SubsetReach_good (s : nfaMachine) (hs : s.startStates.Nodup) (hg : GoodNames s)
    (t : StringSet) (ht : SubsetReach s t) : t.Nodup ∧ ∀ n ∈ t, GoodName n := by
  cases ht with
  | start => exact ⟨hs, fun n hn => hg n (Or.inl hn)⟩
  | step _ _ _ => exact ⟨nodup_powersetNext _ _ _, good_powersetNext s hg _ _⟩

theorem powersetNext_congr (tr : NTrans) (t u : StringSet) (c : Rune)
    (h : ∀ y, y ∈ t ↔ y ∈ u) (y : String) :
    y ∈ powersetNext tr t c ↔ y ∈ powersetNext tr u c := by
  rw [mem_powersetNext, mem_powersetNext]
  constructor
  · rintro ⟨p, hp, hy⟩
    exact ⟨p, (h p).1 hp, hy⟩
  · rintro ⟨p, hp, hy⟩
    exact ⟨p, (h p).2 hp, hy⟩

theorem SubsetReach_index (s : nfaMachine) (hs : s.startStates.Nodup) (hg : GoodNames s)
    (sets : List StringSet) (v : PowersetVars)
    (hi : PowersetInv s (powersetChars s) sets sets.length [] sets.length v)
    (h0 : sets[0]? = some s.startStates) (t : StringSet) (ht : SubsetReach s t) :
    ∃ (i : Nat) (u : StringSet), sets[i]? = some u ∧
      stringSetToString u = stringSetToString t := by
  induction ht with
  | start => exact ⟨0, _, h0, rfl⟩
  | @step t c hreach hc hne ih =>
    obtain ⟨i, u, hu, hk⟩ := ih
    have hgu := psFinal_good s _ sets _ _ _ v hi h0 hg i u hu
    have hgt := SubsetReach_good s hs hg t hreach
    have hmem := stringSetToString_mem u t hgu hgt.2 hk
    have hnext := powersetNext_congr s.transitions u t c hmem
    have hne2 : powersetNext s.transitions u c ≠ [] := by
      intro hnil
      apply hne
      apply List.eq_nil_iff_forall_not_mem.2
      intro y hy
      have := (hnext y).2 hy
      rw [hnil] at this
      cases this
    obtain ⟨j, w, hw, hkw, _⟩ := hi.hedge i u c hu
      ((psFinal_handled _ _ _ _).2 ⟨getElem?_lt _ _ _ hu, hc⟩) hne2
    refine ⟨j, w, hw, ?_⟩
    rw [hkw]
    exact stringSetToString_of_mem _ _ (nodup_powersetNext _ _ _) (nodup_powersetNext _ _ _) hnext

theorem powersetLoop_final (M : nfaMachine) (hs : M.startStates.Nodup) :
    ∃ (v : PowersetVars) (sets : List StringSet),
      (∀ fuel : Nat, powersetBound M ≤ fuel →
        powersetLoop M (powersetChars M) fuel (powersetVars0 M) = some v) ∧
      PowersetInv M (powersetChars M) sets sets.length [] sets.length v ∧
      sets[0]? = some M.startStates := by
  have h0 := psInv_init M (powersetChars M) hs
  obtain ⟨v, hv⟩ := powersetLoop_total M (powersetChars M) (nodup_powersetChars M)
    (powersetBound M) _ 0 _ h0 (by omega)
  obtain ⟨ext, hi⟩ := psInv_loop M (powersetChars M) (nodup_powersetChars M) _ _ 0 _ v h0 hv
  refine ⟨v, _, fun fuel hf => powersetLoop_mono M _ _ fuel hf _ v hv, hi, ?_⟩
  simp only [List.singleton_append, List.getElem?_cons_zero, Option.some.injEq]
  exact GoSet_New_of_nodup _ hs

/-- C36: subset naming is injective on well-formed names.  Sorting the names
of a set and joining them with `_` gives two sets of non-empty names without
`_` the same string exactly when they have the same members.  So on an NFA
without epsilon transitions whose names are such, `ApplyPowersetConstruction`
returns, every reachable subset has a DFA state name in `dfaStatesMap` that is
a state of the result, and two reachable subsets have the same DFA state name
exactly when they are the same set. -/
theorem subset_naming_injective (M : nfaMachine) (hs : M.startStates.Nodup)
    (he : M.HasEpsilon = false) (hg : GoodNames M) :
    (∀ t u : StringSet, t.Nodup → u.Nodup → (∀ n ∈ t, GoodName n) → (∀ n ∈ u, GoodName n) →
      (stringSetToString t = stringSetToString u ↔ ∀ y, y ∈ t ↔ y ∈ u)) ∧
    ∃ (v : PowersetVars) (D : nfaMachine),
      (∀ fuel : Nat, powersetBound M ≤ fuel →
        powersetLoop M (powersetChars M) fuel (powersetVars0 M) = some v ∧
        M.ApplyPowersetConstruction fuel = some (Except.ok D)) ∧
      D.states = v.states ∧
      ∀ t u : StringSet, SubsetReach M t → SubsetReach M u →
        (∃ n, mapGet v.dfaStatesMap (stringSetToString t) = some n ∧ n ∈ D.states) ∧
        (mapGetD v.dfaStatesMap (stringSetToString t) =
            mapGetD v.dfaStatesMap (stringSetToString u) ↔ ∀ y, y ∈ t ↔ y ∈ u) := by
  have hkey : ∀ t u : StringSet, t.Nodup → u.Nodup → (∀ n ∈ t, GoodName n) →
      (∀ n ∈ u, GoodName n) →
      (stringSetToString t = stringSetToString u ↔ ∀ y, y ∈ t ↔ y ∈ u) :=
    fun t u h1 h2 h3 h4 =>
      ⟨fun h => stringSetToString_mem t u h3 h4 h, fun h => stringSetToString_of_mem t u h1 h2 h⟩
  refine ⟨hkey, ?_⟩
  obtain ⟨v, sets, hv, hi, h0⟩ := powersetLoop_final M hs
  refine ⟨v, { states := v.states
               chars := powersetChars M
               startStates := NewStringSet ["0"]
               acceptStates := v.acceptStates
               transitions := singletonTable v.transitions
               currentStates := NewStringSet ["0"] }, ?_, rfl, ?_⟩
  · intro fuel hf
    refine ⟨hv fuel hf, ?_⟩
    have hl := hv fuel hf
    unfold powersetVars0 at hl
    unfold nfaMachine.ApplyPowersetConstruction
    rw [he]
    simp only [Bool.false_eq_true, if_false, hl]
  · intro t u ht hu
    obtain ⟨i, ti, hti, hki⟩ := SubsetReach_index M hs hg sets v hi h0 t ht
    obtain ⟨j, uj, huj, hkj⟩ := SubsetReach_index M hs hg sets v hi h0 u hu
    have hni : mapGet v.dfaStatesMap (stringSetToString t) = some (toString i) := by
      rw [hi.hmap, ← hki]
      have := nameFrom_get 0 sets hi.hkeys i ti hti
      rwa [Nat.zero_add] at this
    have hnj : mapGet v.dfaStatesMap (stringSetToString u) = some (toString j) := by
      rw [hi.hmap, ← hkj]
      have := nameFrom_get 0 sets hi.hkeys j uj huj
      rwa [Nat.zero_add] at this
    refine ⟨⟨_, hni, (hi.hstates _).2 ⟨i, getElem?_lt _ _ _ hti, rfl⟩⟩, ?_⟩
    have hgt := SubsetReach_good M hs hg t ht
    have hgu := SubsetReach_good M hs hg u hu
    unfold mapGetD
    rw [hni, hnj, Option.getD_some, Option.getD_some, ← hkey t u hgt.1 hgu.1 hgt.2 hgu.2]
    constructor
    · intro h
      have hij := natToString_injective i j h
      subst hij
      rw [hti] at huj
      cases huj
      rw [← hki, ← hkj]
    · intro h
      have hij := keys_index_unique sets hi.hkeys i j ti uj hti huj (by rw [hki, hkj, h])
      rw [hij]

/-- Witness for C36: the parity NFA. -/
theorem subset_naming_injective_witness :
    parityNfa.startStates.Nodup ∧ parityNfa.HasEpsilon = false ∧ GoodNames parityNfa ∧
    (∀ t u : StringSet, t.Nodup → u.Nodup → (∀ n ∈ t, GoodName n) → (∀ n ∈ u, GoodName n) →
      (stringSetToString t = stringSetToString u ↔ ∀ y, y ∈ t ↔ y ∈ u)) :=
  ⟨by decide, by decide, parityNfa_GoodNames,
    (subset_naming_injective parityNfa (by decide) (by decide) parityNfa_GoodNames).1⟩

theorem charOfNat_toNat (n : Nat) (h : n.isValidChar) : (Char.ofNat n).toNat = n := by
  unfold Char.ofNat
  simp only [h, dite_true, Char.toNat, Char.ofNatAux]
  rfl

theorem utf8Len_pos (c : Char) : 1 ≤ utf8Len c := by
  unfold utf8Len
  split
  · exact Nat.le_refl _
  · split
    · omega
    · split <;> omega

theorem utf8Len_eq_one (c : Char) : utf8Len c = 1 ↔ c.toNat < 128 := by
  unfold utf8Len
  constructor
  · intro h
    by_contra hc
    rw [if_neg hc] at h
    split at h
    · omega
    · split at h <;> omega
  · intro h
    rw [if_pos h]

theorem goLen_eq_one (x : String) :
    goLen x = 1 ↔ ∃ c : Char, x = String.mk [c] ∧ c.toNat < 128 := by
  unfold goLen
  obtain ⟨l⟩ := x
  simp only
  constructor
  · intro h
    match l, h with
    | [], h => simp at h
    | [c], h =>
      simp only [List.map_cons, List.map_nil, List.sum_cons, List.sum_nil, add_zero] at h
      exact ⟨c, rfl, (utf8Len_eq_one c).1 h⟩
    | c :: d :: r, h =>
      simp only [List.map_cons, List.sum_cons] at h
      have h1 := utf8Len_pos c
      have h2 := utf8Len_pos d
      omega
  · rintro ⟨c, hc, hlt⟩
    have hl : l = [c] := by
      have := congrArg String.data hc
      exact this
    subst hl
    simp [(utf8Len_eq_one c).2 hlt]

/-- A rune that is a code point below U+0080. -/
theorem runeToString_ascii (x : Rune) (h0 : 0 ≤ x) (h1 : x < 128) :
    goLen (runeToString x) = 1 ∧ firstRune (runeToString x) = x := by
  obtain ⟨n, hn⟩ := Int.eq_ofNat_of_zero_le h0
  subst hn
  have hlt : n < 128 := by exact_mod_cast h1
  have hv : Nat.isValidChar n := Or.inl (by omega)
  have hc : (Char.ofNat n).toNat = n := charOfNat_toNat _ hv
  unfold runeToString
  rw [if_pos ⟨h0, by simpa using hv⟩]
  simp only [Int.toNat_ofNat]
  constructor
  · rw [goLen_eq_one]
    exact ⟨_, rfl, by rw [hc]; exact hlt⟩
  · unfold firstRune
    simp only [hc]

theorem runeToString_len_iff (x : Rune) : goLen (runeToString x) = 1 ↔ 0 ≤ x ∧ x < 128 := by
  constructor
  · intro h
    unfold runeToString at h
    split at h
    · rename_i hv
      obtain ⟨n, hn⟩ := Int.eq_ofNat_of_zero_le hv.1
      subst hn
      simp only [Int.toNat_ofNat] at h hv
      rw [goLen_eq_one] at h
      obtain ⟨c, hc, hlt⟩ := h
      have hcc : Char.ofNat n = c := by
        have := congrArg String.data hc
        simpa using this
      rw [← hcc, charOfNat_toNat _ hv.2] at hlt
      exact ⟨hv.1, by exact_mod_cast hlt⟩
    · exfalso
      revert h
      decide
  · rintro ⟨h0, h1⟩
    exact (runeToString_ascii x h0 h1).1

theorem decodeChars_ok (l : List String) (h : ∀ x ∈ l, goLen x = 1) :
    decodeChars l = Except.ok (l.map firstRune) := by
  induction l with
  | nil => rfl
  | cons x l ih =>
    unfold decodeChars
    have hx : ¬ goLen x ≠ 1 := by
      rw [not_not]; exact h x (List.mem_cons_self _ _)
    rw [if_neg hx, ih (fun y hy => h y (List.mem_cons_of_mem _ hy))]
    rfl

theorem decodeChars_error (l : List String) (h : ∃ x ∈ l, goLen x ≠ 1) :
    decodeChars l = Except.error FaError.ErrCannotUnmarshalMachine := by
  induction l with
  | nil => obtain ⟨x, hx, _⟩ := h; cases hx
  | cons x l ih =>
    unfold decodeChars
    by_cases hx : goLen x ≠ 1
    · rw [if_pos hx]
    · rw [if_neg hx]
      obtain ⟨y, hy, hy2⟩ := h
      rcases List.mem_cons.1 hy with rfl | hy
      · exact absurd hy2 hx
      · rw [ih ⟨y, hy, hy2⟩]

theorem nfaDecodeRow_ok (x : GoMap String (List String)) (acc : GoMap Rune (List String))
    (h : ∀ r ∈ x, goLen r.1 = 1) : ∃ row, nfaDecodeRow x acc = Except.ok row := by
  induction x generalizing acc with
  | nil => exact ⟨acc, rfl⟩
  | cons r x ih =>
    obtain ⟨kx, kv⟩ := r
    unfold nfaDecodeRow
    have hx : ¬ goLen kx ≠ 1 := by
      rw [not_not]; exact h (kx, kv) (List.mem_cons_self _ _)
    rw [if_neg hx]
    simp only
    split
    · exact ih _ (fun y hy => h y (List.mem_cons_of_mem _ hy))
    · exact ih _ (fun y hy => h y (List.mem_cons_of_mem _ hy))

theorem nfaDecodeRow_error (x : GoMap String (List String)) (acc : GoMap Rune (List String))
    (h : ∃ r ∈ x, goLen r.1 ≠ 1) :
    nfaDecodeRow x acc = Except.error FaError.ErrCannotUnmarshalMachine := by
  induction x generalizing acc with
  | nil => obtain ⟨r, hr, _⟩ := h; cases hr
  | cons r x ih =>
    obtain ⟨kx, kv⟩ := r
    unfold nfaDecodeRow
    by_cases hx : goLen kx ≠ 1
    · rw [if_pos hx]
    · rw [if_neg hx]
      obtain ⟨y, hy, hy2⟩ := h
      rcases List.mem_cons.1 hy with rfl | hy
      · exact absurd hy2 hx
      · simp only
        split
        · exact ih _ ⟨y, hy, hy2⟩
        · exact ih _ ⟨y, hy, hy2⟩

theorem nfaDecodeTable_ok (t : GoMap String (GoMap String (List String)))
    (acc : GoMap String (GoMap Rune (List String)))
    (h : ∀ e ∈ t, ∀ r ∈ e.2, goLen r.1 = 1) : ∃ ts, nfaDecodeTable t acc = Except.ok ts := by
  induction t generalizing acc with
  | nil => exact ⟨acc, rfl⟩
  | cons e t ih =>
    obtain ⟨k, x⟩ := e
    unfold nfaDecodeTable
    obtain ⟨row, hrow⟩ := nfaDecodeRow_ok x [] (h (k, x) (List.mem_cons_self _ _))
    rw [hrow]
    exact ih _ (fun y hy => h y (List.mem_cons_of_mem _ hy))

theorem nfaDecodeTable_error (t : GoMap String (GoMap String (List String)))
    (acc : GoMap String (GoMap Rune (List String)))
    (h : ∃ e ∈ t, ∃ r ∈ e.2, goLen r.1 ≠ 1) :
    nfaDecodeTable t acc = Except.error FaError.ErrCannotUnmarshalMachine := by
  induction t generalizing acc with
  | nil => obtain ⟨e, he, _⟩ := h; cases he
  | cons e t ih =>
    obtain ⟨k, x⟩ := e
    unfold nfaDecodeTable
    by_cases hx : ∃ r ∈ x, goLen r.1 ≠ 1
    · rw [nfaDecodeRow_error x [] hx]
    · push_neg at hx
      obtain ⟨row, hrow⟩ := nfaDecodeRow_ok x [] hx
      rw [hrow]
      obtain ⟨y, hy, r, hr, hr2⟩ := h
      rcases List.mem_cons.1 hy with rfl | hy
      · exact absurd (hx r hr) hr2
      · exact ih _ ⟨y, hy, r, hr, hr2⟩

theorem nfaFromJSON_cases (b : NFAJson) :
    ((∀ x ∈ b.chars, goLen x = 1) ∧ (∀ e ∈ b.transitions, ∀ r ∈ e.2, goLen r.1 = 1) ∧
      ∃ ts, nfaDecodeTable b.transitions [] = Except.ok ts ∧
        NewNFAMachineShellFromJSON b = Except.ok
          { States := b.states
            Chars := b.chars.map firstRune
            StartStates := b.start_states
            AcceptStates := b.accept_states
            Transitions := ts
            CurrentStates := b.current_states }) ∨
    (((∃ x ∈ b.chars, goLen x ≠ 1) ∨ ∃ e ∈ b.transitions, ∃ r ∈ e.2, goLen r.1 ≠ 1) ∧
      NewNFAMachineShellFromJSON b = Except.error FaError.ErrCannotUnmarshalMachine) := by
  unfold NewNFAMachineShellFromJSON
  by_cases hc : ∃ x ∈ b.chars, goLen x ≠ 1
  · right
    rw [decodeChars_error _ hc]
    exact ⟨Or.inl hc, rfl⟩
  · push_neg at hc
    rw [decodeChars_ok _ hc]
    by_cases ht : ∃ e ∈ b.transitions, ∃ r ∈ e.2, goLen r.1 ≠ 1
    · right
      rw [nfaDecodeTable_error _ _ ht]
      exact ⟨Or.inr ht, rfl⟩
    · push_neg at ht
      left
      obtain ⟨ts, hts⟩ := nfaDecodeTable_ok b.transitions [] ht
      rw [hts]
      exact ⟨hc, ht, ts, rfl, rfl⟩

/-- C32, the code at the failing input, and what holds.  The decoder tests
`len(kx) != 1`, the number of bytes of the key: the key `é` is one code point
of two bytes, and decoding a JSON object with that transition key fails with
`ErrCannotUnmarshalMachine`; so does decoding what `ToJSON` writes for the
machine `accentNfa`, which the builder returns.  A key has length one exactly
when it is one code point below U+0080.  Decoding succeeds exactly when every
entry of `chars` and every transition key has length one, it fails with
`ErrCannotUnmarshalMachine` otherwise, and a key of length one is kept as its
code point, U+0007 being translated to epsilon. -/
theorem json_key_length_counts_bytes :
    ("é".data.length = 1 ∧ goLen "é" = 2) ∧
    NewNFAMachineShellFromJSON accentJson = Except.error FaError.ErrCannotUnmarshalMachine ∧
    accentNfaBuilder.Build = Except.ok accentNfa ∧
    accentNfa.ToShell.ToJSON = { accentJson with current_states := some ["s"] } ∧
    nfaToggle accentNfa = Except.error FaError.ErrCannotUnmarshalMachine ∧
    (∀ kx : String, goLen kx = 1 ↔ ∃ c : Char, kx = String.mk [c] ∧ c.toNat < 128) ∧
    (∀ b : NFAJson, (∃ s, NewNFAMachineShellFromJSON b = Except.ok s) ↔
      (∀ x ∈ b.chars, goLen x = 1) ∧ ∀ e ∈ b.transitions, ∀ r ∈ e.2, goLen r.1 = 1) ∧
    (∀ b : NFAJson, (¬ ∃ s, NewNFAMachineShellFromJSON b = Except.ok s) →
      NewNFAMachineShellFromJSON b = Except.error FaError.ErrCannotUnmarshalMachine) ∧
    (∀ (kx : String) (kv : List String) (acc : GoMap Rune (List String)), goLen kx = 1 →
      nfaDecodeRow [(kx, kv)] acc =
        Except.ok (mapSet acc (if firstRune kx = EpsilonForJSON then Epsilon else firstRune kx) kv))
    := by
  refine ⟨⟨by decide, by decide⟩, rfl, rfl, by decide, rfl, goLen_eq_one, ?_, ?_, ?_⟩
  · intro b
    rcases nfaFromJSON_cases b with ⟨h1, h2, ts, _, h3⟩ | ⟨h1, h2⟩
    · exact ⟨fun _ => ⟨h1, h2⟩, fun _ => ⟨_, h3⟩⟩
    · constructor
      · rintro ⟨s, hs⟩
        rw [h2] at hs
        cases hs
      · rintro ⟨ha, hb⟩
        rcases h1 with ⟨x, hx, hx2⟩ | ⟨e, he, r, hr, hr2⟩
        · exact absurd (ha x hx) hx2
        · exact absurd (hb e he r hr) hr2
  · intro b hno
    rcases nfaFromJSON_cases b with ⟨_, _, ts, _, h3⟩ | ⟨_, h2⟩
    · exact absurd ⟨_, h3⟩ hno
    · exact h2
  · intro kx kv acc h
    unfold nfaDecodeRow
    have hx : ¬ goLen kx ≠ 1 := by rw [not_not]; exact h
    rw [if_neg hx]
    simp only
    split <;> rfl

theorem foldl_mapSet_fresh {κ ν ι : Type} [DecidableEq κ] (l : List ι) (key : ι → κ)
    (val : ι → ν) (acc : GoMap κ ν) (h : (acc.map Prod.fst ++ l.map key).Nodup) :
    l.foldl (fun m e => mapSet m (key e) (val e)) acc = acc ++ l.map (fun e => (key e, val e)) := by
  induction l generalizing acc with
  | nil => simp
  | cons e l ih =>
    rw [List.foldl_cons]
    have hfresh : key e ∉ acc.map Prod.fst := by
      intro hc
      rw [List.map_cons, List.nodup_append] at h
      exact h.2.2 hc (List.mem_cons_self _ _)
    rw [mapSet_absent acc (key e) (val e) hfresh, ih]
    · simp
    · simpa [List.map_append, List.append_assoc] using h

/-- The key that `NFAMachineShell.ToJSON` writes for the symbol `c`. -/
theorem nfaEncodeRow_eq (x : GoMap Rune (List String))
    (h : (x.map (fun r => if r.1 = Epsilon then runeToString EpsilonForJSON
      else runeToString r.1)).Nodup) :
    nfaEncodeRow x = x.map (fun r =>
      (if r.1 = Epsilon then runeToString EpsilonForJSON else runeToString r.1, r.2)) := by
  unfold nfaEncodeRow
  have hf : (fun (row : GoMap String (List String)) (r : Rune × List String) =>
      if r.1 = Epsilon then mapSet row (runeToString EpsilonForJSON) r.2
      else mapSet row (runeToString r.1) r.2) =
      (fun row r => mapSet row
        (if r.1 = Epsilon then runeToString EpsilonForJSON else runeToString r.1) r.2) := by
    funext row r
    split <;> rfl
  rw [hf, foldl_mapSet_fresh x _ (fun r => r.2) [] (by simpa using h)]
  simp

theorem nfaKey_decode (c : Rune)
    (h : c = Epsilon ∨ (0 ≤ c ∧ c < 128 ∧ c ≠ EpsilonForJSON)) :
    goLen (if c = Epsilon then runeToString EpsilonForJSON else runeToString c) = 1 ∧
    (if firstRune (if c = Epsilon then runeToString EpsilonForJSON else runeToString c)
        = EpsilonForJSON then Epsilon
      else firstRune (if c = Epsilon then runeToString EpsilonForJSON else runeToString c)) = c
    := by
  rcases h with rfl | ⟨h0, h1, h7⟩
  · exact ⟨by decide, by decide⟩
  · have hne : c ≠ Epsilon := by
      intro hc
      rw [hc] at h1
      revert h1
      decide
    rw [if_neg hne]
    obtain ⟨ha, hb⟩ := runeToString_ascii c h0 h1
    refine ⟨ha, ?_⟩
    rw [hb, if_neg h7]

theorem nfaKeys_nodup (x : GoMap Rune (List String)) (hnd : NodupKeys x)
    (hk : ∀ r ∈ x, r.1 = Epsilon ∨ (0 ≤ r.1 ∧ r.1 < 128 ∧ r.1 ≠ EpsilonForJSON)) :
    (x.map (fun r => if r.1 = Epsilon then runeToString EpsilonForJSON
      else runeToString r.1)).Nodup := by
  have hcomp : x.map (fun r => if r.1 = Epsilon then runeToString EpsilonForJSON
      else runeToString r.1) =
      (x.map Prod.fst).map (fun c => if c = Epsilon then runeToString EpsilonForJSON
        else runeToString c) := by
    rw [List.map_map]
    rfl
  rw [hcomp]
  apply List.Nodup.map_on _ hnd
  intro a ha b hb hab
  rw [List.mem_map] at ha hb
  obtain ⟨ra, hra, rfl⟩ := ha
  obtain ⟨rb, hrb, rfl⟩ := hb
  have h1 := (nfaKey_decode ra.1 (hk ra hra)).2
  have h2 := (nfaKey_decode rb.1 (hk rb hrb)).2
  rw [← h1, ← h2, hab]

theorem nfaDecodeRow_encoded (x : GoMap Rune (List String)) (acc : GoMap Rune (List String))
    (hnd : (acc.map Prod.fst ++ x.map Prod.fst).Nodup)
    (hk : ∀ r ∈ x, r.1 = Epsilon ∨ (0 ≤ r.1 ∧ r.1 < 128 ∧ r.1 ≠ EpsilonForJSON)) :
    nfaDecodeRow (x.map (fun r =>
      (if r.1 = Epsilon then runeToString EpsilonForJSON else runeToString r.1, r.2))) acc =
      Except.ok (acc ++ x) := by
  induction x generalizing acc with
  | nil => simp [nfaDecodeRow]
  | cons r x ih =>
    obtain ⟨c, kv⟩ := r
    obtain ⟨hlen, hdec⟩ := nfaKey_decode c (hk (c, kv) (List.mem_cons_self _ _))
    have hfresh : c ∉ acc.map Prod.fst := by
      intro hc
      rw [List.map_cons, List.nodup_append] at hnd
      exact hnd.2.2 hc (List.mem_cons_self _ _)
    have hstep : ∀ (k : Rune), k = c → nfaDecodeRow (x.map (fun r =>
        (if r.1 = Epsilon then runeToString EpsilonForJSON else runeToString r.1, r.2)))
        (mapSet acc k kv) = Except.ok (acc ++ (c, kv) :: x) := by
      intro k hkc
      rw [hkc, mapSet_absent acc c kv hfresh, ih]
      · simp
      · simpa [List.map_append, List.append_assoc] using hnd
      · exact fun r hr => hk r (List.mem_cons_of_mem _ hr)
    rw [List.map_cons]
    simp only
    generalize (if c = Epsilon then runeToString EpsilonForJSON else runeToString c) = enc
      at hlen hdec
    unfold nfaDecodeRow
    have hx : ¬ goLen enc ≠ 1 := by
      rw [not_not]; exact hlen
    rw [if_neg hx]
    simp only
    by_cases h7 : firstRune enc = EpsilonForJSON
    · rw [if_pos h7] at hdec ⊢
      exact hstep Epsilon hdec
    · rw [if_neg h7] at hdec ⊢
      exact hstep _ hdec

theorem nfaEncodeTable_eq (t : GoMap String (GoMap Rune (List String))) (h : NodupKeys t) :
    nfaEncodeTable t = t.map (fun e => (e.1, nfaEncodeRow e.2)) := by
  unfold nfaEncodeTable
  rw [foldl_mapSet_fresh t (fun e => e.1) (fun e => nfaEncodeRow e.2) [] (by simpa using h)]
  simp

theorem nfaDecodeTable_encoded (t : GoMap String (GoMap Rune (List String)))
    (acc : GoMap String (GoMap Rune (List String)))
    (hnd : (acc.map Prod.fst ++ t.map Prod.fst).Nodup)
    (hrows : ∀ e ∈ t, NodupKeys e.2)
    (hk : ∀ e ∈ t, ∀ r ∈ e.2,
      r.1 = Epsilon ∨ (0 ≤ r.1 ∧ r.1 < 128 ∧ r.1 ≠ EpsilonForJSON)) :
    nfaDecodeTable (t.map (fun e => (e.1, nfaEncodeRow e.2))) acc = Except.ok (acc ++ t) := by
  induction t generalizing acc with
  | nil => simp [nfaDecodeTable]
  | cons e t ih =>
    obtain ⟨k, x⟩ := e
    rw [List.map_cons]
    unfold nfaDecodeTable
    simp only
    have hx := hrows (k, x) (List.mem_cons_self _ _)
    have hkx := hk (k, x) (List.mem_cons_self _ _)
    rw [nfaEncodeRow_eq x (nfaKeys_nodup x hx hkx),
      nfaDecodeRow_encoded x [] (by simpa using hx) hkx]
    simp only [List.nil_append]
    have hfresh : k ∉ acc.map Prod.fst := by
      intro hc
      rw [List.map_cons, List.nodup_append] at hnd
      exact hnd.2.2 hc (List.mem_cons_self _ _)
    rw [mapSet_absent acc k x hfresh, ih]
    · simp
    · simpa [List.map_append, List.append_assoc] using hnd
    · exact fun e he => hrows e (List.mem_cons_of_mem _ he)
    · exact fun e he => hk e (List.mem_cons_of_mem _ he)

theorem tableGet_cellSet (tr : NTrans) (state : String) (c1 : Rune) (v : StringSet)
    (q : String) (c : Rune) :
    tableGet (mapSet tr state (mapSet ((mapGet tr state).getD []) c1 v)) q c =
      if q = state ∧ c = c1 then some v else tableGet tr q c := by
  unfold tableGet
  rw [mapGet_mapSet]
  by_cases hq : q = state
  · subst hq
    simp only [if_true, true_and]
    rw [mapGet_mapSet]
    by_cases hc : c = c1
    · simp [hc]
    · simp only [hc, if_false]
      cases mapGet tr q with
      | none => rfl
      | some row => rfl
  · simp [hq]

theorem tableGet_rowReset (tr : NTrans) (state : String) (q : String) (c : Rune) :
    tableGet (mapSet tr state []) q c = if q = state then none else tableGet tr q c := by
  unfold tableGet
  rw [mapGet_mapSet]
  by_cases hq : q = state
  · simp [hq, mapGet]
  · simp [hq]

theorem tableGet_nfaCollectRow (state : String) (v : GoMap Rune (List String))
    (hnd : NodupKeys v) (acc : NfaCollect) (q : String) (c : Rune) :
    (∀ u, q = state → (c, u) ∈ v → u ≠ [] →
      tableGet (nfaCollectRow state acc v).transitions q c = some (NewStringSet u)) ∧
    ((q ≠ state ∨ ∀ u, (c, u) ∈ v → u = []) →
      tableGet (nfaCollectRow state acc v).transitions q c = tableGet acc.transitions q c) := by
  unfold nfaCollectRow
  induction v generalizing acc with
  | nil =>
    exact ⟨fun u _ hu _ => (by cases hu), fun _ => rfl⟩
  | cons e v ih =>
    obtain ⟨c1, u1⟩ := e
    have hnd1 : NodupKeys v := by
      unfold NodupKeys at hnd ⊢
      rw [List.map_cons, List.nodup_cons] at hnd
      exact hnd.2
    have hfresh : ∀ u, (c1, u) ∈ v → False := by
      intro u hu
      unfold NodupKeys at hnd
      rw [List.map_cons, List.nodup_cons] at hnd
      exact hnd.1 (List.mem_map.2 ⟨(c1, u), hu, rfl⟩)
    rw [List.foldl_cons]
    constructor
    · intro u hq hu hne
      rcases List.mem_cons.1 hu with heq | hu
      · cases heq
        have hlen : ¬ u1.length = 0 := fun h => hne (List.length_eq_zero.1 h)
        simp only [hlen, if_false]
        rw [(ih hnd1 _).2 (Or.inr (fun u2 hu2 => absurd hu2 (fun h => hfresh u2 h))),
          tableGet_cellSet, if_pos ⟨hq, rfl⟩]
      · exact (ih hnd1 _).1 u hq hu hne
    · intro h
      rw [(ih hnd1 _).2 (by
        rcases h with h | h
        · exact Or.inl h
        · exact Or.inr (fun u hu => h u (List.mem_cons_of_mem _ hu)))]
      simp only
      split
      · rfl
      · rename_i hlen
        rw [tableGet_cellSet]
        rcases h with h | h
        · simp [h]
        · have hne : ¬ (q = state ∧ c = c1) := by
            rintro ⟨_, hc⟩
            subst hc
            have := h u1 (List.mem_cons_self _ _)
            rw [this] at hlen
            exact hlen rfl
          rw [if_neg hne]

theorem tableGet_nfaCollect_from (tr : GoMap String (GoMap Rune (List String)))
    (hnd : NodupKeys tr) (hrows : ∀ e ∈ tr, NodupKeys e.2) (acc : NfaCollect) (q : String)
    (c : Rune) :
    (∀ row u, (q, row) ∈ tr → (c, u) ∈ row → u ≠ [] →
      tableGet (tr.foldl (fun acc e =>
        if e.2.length = 0 then acc
        else
          nfaCollectRow e.1
            { acc with
              tStates := GoSet.Add acc.tStates [e.1]
              transitions := mapSet acc.transitions e.1 [] } e.2) acc).transitions q c =
        some (NewStringSet u)) ∧
    (((∀ row, (q, row) ∈ tr → False) ∨
        (tableGet acc.transitions q c = none ∧ ∀ row u, (q, row) ∈ tr → (c, u) ∈ row → u = [])) →
      tableGet (tr.foldl (fun acc e =>
        if e.2.length = 0 then acc
        else
          nfaCollectRow e.1
            { acc with
              tStates := GoSet.Add acc.tStates [e.1]
              transitions := mapSet acc.transitions e.1 [] } e.2) acc).transitions q c =
        tableGet acc.transitions q c) := by
  induction tr generalizing acc with
  | nil =>
    exact ⟨fun row u h => (by cases h), fun _ => rfl⟩
  | cons e tr ih =>
    obtain ⟨k, row1⟩ := e
    have hnd1 : NodupKeys tr := by
      unfold NodupKeys at hnd ⊢
      rw [List.map_cons, List.nodup_cons] at hnd
      exact hnd.2
    have hfresh : ∀ row, (k, row) ∈ tr → False := by
      intro row hr
      unfold NodupKeys at hnd
      rw [List.map_cons, List.nodup_cons] at hnd
      exact hnd.1 (List.mem_map.2 ⟨(k, row), hr, rfl⟩)
    have hrows1 : ∀ e ∈ tr, NodupKeys e.2 := fun e he => hrows e (List.mem_cons_of_mem _ he)
    have hrow1 : NodupKeys row1 := hrows (k, row1) (List.mem_cons_self _ _)
    rw [List.foldl_cons]
    simp only
    constructor
    · intro row u hrow hu hne
      rcases List.mem_cons.1 hrow with heq | hrow
      · cases heq
        have hlen : ¬ row1.length = 0 := by
          intro h
          rw [List.length_eq_zero.1 h] at hu
          cases hu
        rw [if_neg hlen, (ih hnd1 hrows1 _).2 (Or.inl hfresh)]
        exact (tableGet_nfaCollectRow q row1 hrow1 _ q c).1 u rfl hu hne
      · exact (ih hnd1 hrows1 _).1 row u hrow hu hne
    · intro h
      have hstep : tableGet (if row1.length = 0 then acc
          else nfaCollectRow k
            { acc with
              tStates := GoSet.Add acc.tStates [k]
              transitions := mapSet acc.transitions k [] } row1).transitions q c =
          tableGet acc.transitions q c := by
        split
        · rfl
        · by_cases hq : q = k
          · subst hq
            rcases h with h | ⟨hnone, h⟩
            · exact absurd (List.mem_cons_self _ _) (fun hm => h row1 hm)
            · rw [(tableGet_nfaCollectRow q row1 hrow1 _ q c).2
                (Or.inr (fun u hu => h row1 u (List.mem_cons_self _ _) hu))]
              simp only
              rw [tableGet_rowReset, if_pos rfl, hnone]
          · rw [(tableGet_nfaCollectRow k row1 hrow1 _ q c).2 (Or.inl hq)]
            simp only
            rw [tableGet_rowReset, if_neg hq]
      rw [(ih hnd1 hrows1 _).2 (by
        rcases h with h | ⟨hnone, h⟩
        · exact Or.inl (fun row hr => h row (List.mem_cons_of_mem _ hr))
        · exact Or.inr ⟨by rw [hstep]; exact hnone,
            fun row u hr hu => h row u (List.mem_cons_of_mem _ hr) hu⟩), hstep]

theorem New_ne_nil {α : Type} [DecidableEq α] (l : List α) (h : l ≠ []) : GoSet.New l ≠ [] := by
  cases l with
  | nil => exact absurd rfl h
  | cons a l =>
    intro hc
    have : a ∈ GoSet.New (a :: l) := (GoSet.mem_New _ _).2 (List.mem_cons_self _ _)
    rw [hc] at this
    cases this

theorem nfaCollectRow_cells (state : String) (acc : NfaCollect) (v : GoMap Rune (List String))
    (h : ∀ e ∈ acc.transitions, ∀ r ∈ e.2, r.2 ≠ [] ∧ r.2.Nodup) :
    ∀ e ∈ (nfaCollectRow state acc v).transitions, ∀ r ∈ e.2, r.2 ≠ [] ∧ r.2.Nodup := by
  unfold nfaCollectRow
  induction v generalizing acc with
  | nil => exact h
  | cons e v ih =>
    rw [List.foldl_cons]
    apply ih
    split
    · exact h
    · rename_i hlen
      intro e1 he1 r hr
      simp only at he1
      have hold : ∀ r ∈ (mapGet acc.transitions state).getD [], r.2 ≠ [] ∧ r.2.Nodup := by
        intro r hr
        cases hg : mapGet acc.transitions state with
        | none => rw [hg] at hr; cases hr
        | some row =>
          rw [hg] at hr
          exact h (state, row) (mapGet_mem _ _ _ hg) r hr
      rcases mem_mapSet_elim _ _ _ _ he1 with rfl | he1
      · rcases mem_mapSet_elim _ _ _ _ hr with rfl | hr
        · exact ⟨New_ne_nil _ (fun hc => hlen (by rw [hc]; rfl)), GoSet.nodup_New _⟩
        · exact hold r hr
      · exact h e1 he1 r hr

theorem nfaCollect_cells (tr : GoMap String (GoMap Rune (List String))) :
    ∀ e ∈ (nfaCollect tr).transitions, ∀ r ∈ e.2, r.2 ≠ [] ∧ r.2.Nodup := by
  unfold nfaCollect
  have key : ∀ (acc : NfaCollect),
      (∀ e ∈ acc.transitions, ∀ r ∈ e.2, r.2 ≠ [] ∧ r.2.Nodup) →
      ∀ e ∈ (tr.foldl (fun acc e =>
        if e.2.length = 0 then acc
        else
          nfaCollectRow e.1
            { acc with
              tStates := GoSet.Add acc.tStates [e.1]
              transitions := mapSet acc.transitions e.1 [] } e.2) acc).transitions,
        ∀ r ∈ e.2, r.2 ≠ [] ∧ r.2.Nodup := by
    induction tr with
    | nil => intro acc h; exact h
    | cons e tr ih =>
      intro acc h
      rw [List.foldl_cons]
      apply ih
      split
      · exact h
      · apply nfaCollectRow_cells
        intro e1 he1 r hr
        rcases mem_mapSet_elim _ _ _ _ he1 with rfl | he1
        · cases hr
        · exact h e1 he1 r hr
  exact key _ (fun e he => by cases he)

/-- Collecting a table that is already a table of destination sets changes no
lookup. -/
theorem tableGet_nfaCollect_self (T : NTrans) (hT : TableOK T)
    (hcells : ∀ e ∈ T, ∀ r ∈ e.2, r.2 ≠ [] ∧ r.2.Nodup) (q : String) (c : Rune) :
    tableGet (nfaCollect T).transitions q c = tableGet T q c := by
  have hmain := tableGet_nfaCollect_from T hT.1 hT.2
    { tStates := NewStringSet [], tChars := NewRuneSet [], transitions := [] } q c
  unfold nfaCollect
  cases hg : tableGet T q c with
  | some u =>
    obtain ⟨e, he, r, hr, h1, h2, h3⟩ := (tableGet_iff_mem T hT q c u).1 hg
    obtain ⟨k, row⟩ := e
    obtain ⟨c1, u1⟩ := r
    simp only at h1 h2 h3
    subst h1 h2 h3
    have hc := hcells (k, row) he (c1, u1) hr
    rw [hmain.1 row u1 he hr hc.1]
    exact congrArg some (GoSet_New_of_nodup _ hc.2)
  | none =>
    rw [hmain.2 (Or.inr ⟨rfl, ?_⟩)]
    · rfl
    · intro row u hrow hu
      have := (tableGet_iff_mem T hT q c u).2 ⟨(q, row), hrow, (c, u), hu, rfl, rfl, rfl⟩
      rw [hg] at this
      cases this

theorem nfaBuild_ok_of_checks (b : nfaMachineBuilder) (h1 : ∀ y ∈ b.startStates, y ∈ b.states)
    (h2 : ∀ y ∈ b.acceptStates, y ∈ b.states) (h3 : ¬ b.badStates) (h4 : ¬ b.badChars) :
    ∃ M, b.Build = Except.ok M := by
  unfold nfaMachineBuilder.Build
  simp only
  have c1 : GoSet.In (NewStringSet b.states) b.startStates = true :=
    (GoSet.In_iff _ _).2 (fun a ha => (GoSet.mem_New _ _).2 (h1 a ha))
  have c2 : GoSet.In (NewStringSet b.states) b.acceptStates = true :=
    (GoSet.In_iff _ _).2 (fun a ha => (GoSet.mem_New _ _).2 (h2 a ha))
  have c3 := (nfaBuild_statesCheck b).2 h3
  have c4 : (decide (GoSet.Len (NewRuneSet b.chars) > 0) &&
      !GoSet.In (NewRuneSet b.chars) (GoSet.Unwrap (nfaCollect b.transitions).tChars)) = false := by
    rw [← Bool.not_eq_true, nfaBuild_charsCheck]
    exact h4
  rw [c1, c2, c3, c4]
  exact ⟨_, rfl⟩

theorem nfaBuild_nodup (b : nfaMachineBuilder) (M : nfaMachine) (h : b.Build = Except.ok M) :
    M.states.Nodup ∧ M.chars.Nodup ∧ M.startStates.Nodup ∧ M.acceptStates.Nodup := by
  obtain ⟨_, h1, h2, h3, h4, _⟩ := nfaBuild_inv b M h
  rw [h1, h2, h3, h4]
  exact ⟨GoSet.nodup_New _, GoSet.nodup_New _, GoSet.nodup_New _, GoSet.nodup_New _⟩

/-- Building again from the fields of a machine that the builder returned gives
the machine back, up to the arrangement of its table. -/
theorem nfaBuild_rebuild (b : nfaMachineBuilder) (M : nfaMachine) (h : b.Build = Except.ok M) :
    ∃ M1, nfaMachineBuilder.Build
        { states := M.states
          chars := M.chars
          startStates := M.startStates
          acceptStates := M.acceptStates
          transitions := M.transitions } = Except.ok M1 ∧
      M1.states = M.states ∧ M1.chars = M.chars ∧ M1.startStates = M.startStates ∧
      M1.acceptStates = M.acceptStates ∧ M1.currentStates = M.startStates ∧
      ∀ q c, tableGet M1.transitions q c = tableGet M.transitions q c := by
  obtain ⟨hs, hc, hst, hac⟩ := nfaBuild_nodup b M h
  obtain ⟨k1, k2, k3⟩ := nfaBuild_checks b M h
  have hT := nfaBuild_TableOK b M h
  have hkeys := nfaBuild_rowKeys b M h
  have hcells : ∀ e ∈ M.transitions, ∀ r ∈ e.2, r.2 ≠ [] ∧ r.2.Nodup := by
    rw [(nfaBuild_inv b M h).1]
    exact nfaCollect_cells _
  have hedge : ∀ e ∈ M.transitions, ∀ r ∈ e.2, ∀ y ∈ r.2,
      y ∈ tableDelta M.transitions e.1 r.1 := by
    intro e he r hr y hy
    exact (mem_tableDelta _ _ _ _).2
      ⟨r.2, (tableGet_iff_mem _ hT _ _ _).2 ⟨e, he, r, hr, rfl, rfl, rfl⟩, hy⟩
  obtain ⟨M1, hM1⟩ := nfaBuild_ok_of_checks
    { states := M.states, chars := M.chars, startStates := M.startStates,
      acceptStates := M.acceptStates, transitions := M.transitions } k1 k2
    (by
      rintro ⟨e, he, _, hbad⟩
      rcases hbad with hbad | ⟨r, hr, y, hy, hbad⟩
      · exact hbad (hkeys e he)
      · exact hbad (k3 _ _ _ (hedge e he r hr y hy)).1)
    (by
      rintro ⟨hne, e, he, r, hr, hr2, hbad⟩
      obtain ⟨y, hy⟩ := List.exists_mem_of_ne_nil _ hr2
      rcases (k3 _ _ _ (hedge e he r hr y hy)).2 with hadm | hadm
      · exact hne hadm
      · exact hbad hadm)
  obtain ⟨i1, i2, i3, i4, i5, i6⟩ := nfaBuild_inv _ M1 hM1
  refine ⟨M1, hM1, ?_, ?_, ?_, ?_, ?_, ?_⟩
  · rw [i2]; exact GoSet_New_of_nodup _ hs
  · rw [i3]; exact GoSet_New_of_nodup _ hc
  · rw [i4]; exact GoSet_New_of_nodup _ hst
  · rw [i5]; exact GoSet_New_of_nodup _ hac
  · rw [i6]; exact GoSet_New_of_nodup _ hst
  · intro q c
    rw [i1]
    exact tableGet_nfaCollect_self M.transitions hT hcells q c

theorem decodeChars_encoded (cs : List Rune) (h : ∀ c ∈ cs, 0 ≤ c ∧ c < 128) :
    decodeChars (cs.map runeToString) = Except.ok cs := by
  rw [decodeChars_ok]
  · rw [List.map_map]
    congr 1
    conv_rhs => rw [← List.map_id cs]
    apply List.map_congr_left
    intro c hc
    exact (runeToString_ascii c (h c hc).1 (h c hc).2).2
  · intro x hx
    rw [List.mem_map] at hx
    obtain ⟨c, hc, rfl⟩ := hx
    exact (runeToString_ascii c (h c hc).1 (h c hc).2).1

theorem dfaKeys_nodup (x : GoMap Rune String) (hnd : NodupKeys x)
    (hk : ∀ r ∈ x, 0 ≤ r.1 ∧ r.1 < 128) : (x.map (fun r => runeToString r.1)).Nodup := by
  have hcomp : x.map (fun r => runeToString r.1) = (x.map Prod.fst).map runeToString := by
    rw [List.map_map]
    rfl
  rw [hcomp]
  apply List.Nodup.map_on _ hnd
  intro a ha b hb hab
  rw [List.mem_map] at ha hb
  obtain ⟨ra, hra, rfl⟩ := ha
  obtain ⟨rb, hrb, rfl⟩ := hb
  have h1 := (runeToString_ascii ra.1 (hk ra hra).1 (hk ra hra).2).2
  have h2 := (runeToString_ascii rb.1 (hk rb hrb).1 (hk rb hrb).2).2
  rw [← h1, ← h2, hab]

theorem dfaEncodeRow_eq (x : GoMap Rune String) (h : (x.map (fun r => runeToString r.1)).Nodup) :
    dfaEncodeRow x = x.map (fun r => (runeToString r.1, r.2)) := by
  unfold dfaEncodeRow
  rw [foldl_mapSet_fresh x (fun r => runeToString r.1) (fun r => r.2) [] (by simpa using h)]
  simp

theorem dfaDecodeRow_encoded (x : GoMap Rune String) (acc : GoMap Rune String)
    (hnd : (acc.map Prod.fst ++ x.map Prod.fst).Nodup) (hk : ∀ r ∈ x, 0 ≤ r.1 ∧ r.1 < 128) :
    dfaDecodeRow (x.map (fun r => (runeToString r.1, r.2))) acc = Except.ok (acc ++ x) := by
  induction x generalizing acc with
  | nil => simp [dfaDecodeRow]
  | cons r x ih =>
    obtain ⟨c, kv⟩ := r
    have hc := hk (c, kv) (List.mem_cons_self _ _)
    obtain ⟨hlen, hdec⟩ := runeToString_ascii c hc.1 hc.2
    have hfresh : c ∉ acc.map Prod.fst := by
      intro hin
      rw [List.map_cons, List.nodup_append] at hnd
      exact hnd.2.2 hin (List.mem_cons_self _ _)
    rw [List.map_cons]
    unfold dfaDecodeRow
    simp only
    have hx : ¬ goLen (runeToString c) ≠ 1 := by rw [not_not]; exact hlen
    rw [if_neg hx, hdec, mapSet_absent acc c kv hfresh, ih]
    · simp
    · simpa [List.map_append, List.append_assoc] using hnd
    · exact fun r hr => hk r (List.mem_cons_of_mem _ hr)

theorem dfaEncodeTable_eq (t : GoMap String (GoMap Rune String)) (h : NodupKeys t) :
    dfaEncodeTable t = t.map (fun e => (e.1, dfaEncodeRow e.2)) := by
  unfold dfaEncodeTable
  rw [foldl_mapSet_fresh t (fun e => e.1) (fun e => dfaEncodeRow e.2) [] (by simpa using h)]
  simp

theorem dfaDecodeTable_encoded (t : GoMap String (GoMap Rune String))
    (acc : GoMap String (GoMap Rune String))
    (hnd : (acc.map Prod.fst ++ t.map Prod.fst).Nodup) (hrows : ∀ e ∈ t, NodupKeys e.2)
    (hk : ∀ e ∈ t, ∀ r ∈ e.2, 0 ≤ r.1 ∧ r.1 < 128) :
    dfaDecodeTable (t.map (fun e => (e.1, dfaEncodeRow e.2))) acc = Except.ok (acc ++ t) := by
  induction t generalizing acc with
  | nil => simp [dfaDecodeTable]
  | cons e t ih =>
    obtain ⟨k, x⟩ := e
    rw [List.map_cons]
    unfold dfaDecodeTable
    simp only
    have hx := hrows (k, x) (List.mem_cons_self _ _)
    have hkx := hk (k, x) (List.mem_cons_self _ _)
    rw [dfaEncodeRow_eq x (dfaKeys_nodup x hx hkx),
      dfaDecodeRow_encoded x [] (by simpa using hx) hkx]
    simp only [List.nil_append]
    have hfresh : k ∉ acc.map Prod.fst := by
      intro hc
      rw [List.map_cons, List.nodup_append] at hnd
      exact hnd.2.2 hc (List.mem_cons_self _ _)
    rw [mapSet_absent acc k x hfresh, ih]
    · simp
    · simpa [List.map_append, List.append_assoc] using hnd
    · exact fun e he => hrows e (List.mem_cons_of_mem _ he)
    · exact fun e he => hk e (List.mem_cons_of_mem _ he)

/-- Building again from the fields of a DFA that the builder returned gives the
DFA back, in its start state. -/
theorem dfaBuild_rebuild (b : dfaMachineBuilder) (D : dfaMachine) (hb : b.Build = Except.ok D) :
    dfaMachineBuilder.Build
      { states := D.states, chars := D.chars, startState := D.startState,
        acceptStates := D.acceptStates, transitions := D.transitions } = Except.ok D := by
  obtain ⟨hA, h1, h2, h3, h4⟩ := dfaBuild_fields b D hb
  have hchecks :
      ∃ A, dfaMachineBuilder.Build
        { states := D.states, chars := D.chars, startState := D.startState,
          acceptStates := D.acceptStates, transitions := D.transitions } = Except.ok A := by
    apply dfaBuild_ok_of_checks
    · rw [hA]; exact (GoSet.mem_New _ _).2 h1
    · intro a ha
      rw [hA] at ha ⊢
      exact (GoSet.mem_New _ _).2 (h2 a ((GoSet.mem_New _ _).1 ha))
    · rintro ⟨e, he, hne2, hbad⟩
      apply h3
      rw [hA] at he hbad
      refine ⟨e, he, hne2, ?_⟩
      rcases hbad with hbad | ⟨r, hr, hbad⟩
      · exact Or.inl (fun hc => hbad ((GoSet.mem_New _ _).2 hc))
      · exact Or.inr ⟨r, hr, fun hc => hbad ((GoSet.mem_New _ _).2 hc)⟩
    · rintro ⟨hne2, e, he, r, hr, hbad⟩
      apply h4
      rw [hA] at he hbad hne2
      refine ⟨?_, e, he, r, hr, fun hc => hbad ((GoSet.mem_New _ _).2 hc)⟩
      intro hnil
      apply hne2
      simp only [hnil]
      rfl
  obtain ⟨A, hAok⟩ := hchecks
  obtain ⟨hrec, _⟩ := dfaBuild_fields _ A hAok
  rw [hAok, hrec]
  congr 1
  rw [hA]
  simp only [NewStringSet, NewRuneSet, GoSet_New_of_nodup _ (GoSet.nodup_New _)]

theorem dfaShell_decode_encode (D : dfaMachine)
    (hT : NodupKeys D.transitions ∧ ∀ e ∈ D.transitions, NodupKeys e.2)
    (hc : ∀ c ∈ D.chars, 0 ≤ c ∧ c < 128)
    (hk : ∀ e ∈ D.transitions, ∀ r ∈ e.2, 0 ≤ r.1 ∧ r.1 < 128) (q : String) :
    NewDFAMachineShellFromJSON ({ D with currentState := q } : dfaMachine).ToShell.ToJSON =
      Except.ok ({ D with currentState := q } : dfaMachine).ToShell := by
  unfold NewDFAMachineShellFromJSON DFAMachineShell.ToJSON dfaMachine.ToShell
  simp only [GoSet.Unwrap]
  rw [decodeChars_encoded D.chars hc, dfaEncodeTable_eq D.transitions hT.1,
    dfaDecodeTable_encoded D.transitions [] (by simpa using hT.1) hT.2 hk]
  rfl

theorem shellTable_eq (T : NTrans) :
    T.map (fun e => (e.1, e.2.map (fun r => (r.1, GoSet.Unwrap r.2)))) = T := by
  conv_rhs => rw [← List.map_id T]
  apply List.map_congr_left
  intro e _
  obtain ⟨k, row⟩ := e
  simp only [id, Prod.mk.injEq, true_and]
  conv_rhs => rw [← List.map_id row]
  apply List.map_congr_left
  intro r _
  rfl

theorem nfaShell_decode_encode (M : nfaMachine) (hT : TableOK M.transitions)
    (hc : ∀ c ∈ M.chars, 0 ≤ c ∧ c < 128)
    (hk : ∀ e ∈ M.transitions, ∀ r ∈ e.2,
      r.1 = Epsilon ∨ (0 ≤ r.1 ∧ r.1 < 128 ∧ r.1 ≠ EpsilonForJSON)) :
    NewNFAMachineShellFromJSON M.ToShell.ToJSON =
      Except.ok
        { States := M.states
          Chars := M.chars
          StartStates := M.startStates
          AcceptStates := M.acceptStates
          Transitions := M.transitions
          CurrentStates := if M.currentStates.length = 0 then none else some M.currentStates } := by
  unfold NewNFAMachineShellFromJSON NFAMachineShell.ToJSON nfaMachine.ToShell
  simp only [shellTable_eq]
  simp only [GoSet.Unwrap]
  rw [decodeChars_encoded M.chars hc, nfaEncodeTable_eq M.transitions hT.1,
    nfaDecodeTable_encoded M.transitions [] (by simpa using hT.1) hT.2 hk]
  rfl

theorem nfaSetStates_ok (M : nfaMachine) (cur : List String) (hnd : cur.Nodup)
    (h : ∀ y ∈ cur, y ∈ M.states) : M.SetStates cur = ({ M with currentStates := cur }, none) := by
  unfold nfaMachine.SetStates
  have hnew : NewStringSet cur = cur := GoSet_New_of_nodup _ hnd
  have hin : GoSet.In M.states (GoSet.Unwrap cur) = true := (GoSet.In_iff _ _).2 h
  simp only [hnew, hin]
  rfl

theorem dfaSetState_ok (D : dfaMachine) (q : String) (h : q ∈ D.states) :
    D.SetState q = ({ D with currentState := q }, none) := by
  unfold dfaMachine.SetState
  have hin : GoSet.In D.states [q] = true := (GoSet.In_single _ _).2 h
  simp only [hin]
  rfl

/-- C31 fails as stated: the builder returns `bellNfa`, whose only transition
`s -U+0007-> f` is on the symbol that stands for epsilon in the JSON text.  The
round trip succeeds, but in the machine it yields the transition is an epsilon
transition: `Delta(s, U+0007)` is empty and `Delta(s, epsilon)` is `{f}`. -/
theorem shell_round_trip_counterexample :
    bellNfaBuilder.Build = Except.ok bellNfa ∧
    tableGet bellNfa.transitions "s" 7 = some ["f"] ∧
    tableGet bellNfa.transitions "s" Epsilon = none ∧
    ∃ M1, nfaToggle bellNfa = Except.ok M1 ∧
      tableGet M1.transitions "s" 7 = none ∧
      tableGet M1.transitions "s" Epsilon = some ["f"] ∧
      bellNfa.HasEpsilon = false ∧ M1.HasEpsilon = true :=
  ⟨rfl, by decide, by decide, _, rfl, by decide, by decide, by decide, by decide⟩

/-- C31, for symbols of one byte: let the alphabet symbols and the transition
symbols of a machine that its builder returned be code points below U+0080,
where an NFA may also have transitions on epsilon but none on U+0007.  Then
machine to shell, to JSON, back to a shell and to a machine succeeds.  For a
DFA in the state `q` it returns the same DFA in the state `q`, or in its start
state when `q` is the empty name, which the JSON text leaves out.  For an NFA
in the configuration `cur` it returns a machine with the same states,
alphabet, start states, accept states and the same destination set for every
state and symbol, epsilon included, in the configuration `cur`, or in its start
configuration when `cur` is empty. -/
theorem shell_round_trip_single_byte
    (bd : dfaMachineBuilder) (D : dfaMachine) (hD : bd.Build = Except.ok D)
    (hDT : NodupKeys D.transitions ∧ ∀ e ∈ D.transitions, NodupKeys e.2)
    (hDc : ∀ c ∈ D.chars, 0 ≤ c ∧ c < 128)
    (hDk : ∀ e ∈ D.transitions, ∀ r ∈ e.2, 0 ≤ r.1 ∧ r.1 < 128)
    (q : String) (hq : q ∈ D.states)
    (bn : nfaMachineBuilder) (M : nfaMachine) (hM : bn.Build = Except.ok M)
    (hMc : ∀ c ∈ M.chars, 0 ≤ c ∧ c < 128)
    (hMk : ∀ e ∈ M.transitions, ∀ r ∈ e.2,
      r.1 = Epsilon ∨ (0 ≤ r.1 ∧ r.1 < 128 ∧ r.1 ≠ EpsilonForJSON))
    (cur : List String) (hcn : cur.Nodup) (hcs : ∀ y ∈ cur, y ∈ M.states) :
    (q ≠ "" → dfaToggle { D with currentState := q } = Except.ok { D with currentState := q }) ∧
    dfaToggle { D with currentState := "" } = Except.ok D ∧
    ∃ M1, nfaToggle { M with currentStates := cur } = Except.ok M1 ∧
      M1.states = M.states ∧ M1.chars = M.chars ∧ M1.startStates = M.startStates ∧
      M1.acceptStates = M.acceptStates ∧
      (∀ p c, tableGet M1.transitions p c = tableGet M.transitions p c) ∧
      (cur ≠ [] → M1.currentStates = cur) ∧ (cur = [] → M1.currentStates = M.startStates) := by
  have hreb := dfaBuild_rebuild bd D hD
  refine ⟨?_, ?_, ?_⟩
  · intro hq0
    unfold dfaToggle
    rw [dfaShell_decode_encode D hDT hDc hDk q]
    simp only
    unfold DFAMachineShell.ToMachine dfaMachine.ToShell
    simp only [GoSet.Unwrap]
    rw [hreb]
    simp only [ne_eq, hq0, not_false_eq_true, if_true]
    rw [dfaSetState_ok D q hq]
  · unfold dfaToggle
    rw [dfaShell_decode_encode D hDT hDc hDk ""]
    simp only
    unfold DFAMachineShell.ToMachine dfaMachine.ToShell
    simp only [GoSet.Unwrap]
    rw [hreb]
    simp
  · obtain ⟨M1, hM1, h1, h2, h3, h4, h5, h6⟩ := nfaBuild_rebuild bn M hM
    have hdec := nfaShell_decode_encode { M with currentStates := cur }
      (nfaBuild_TableOK bn M hM) hMc hMk
    by_cases hcur : cur = []
    · subst hcur
      refine ⟨M1, ?_, h1, h2, h3, h4, h6, fun h => absurd rfl h, fun _ => h5⟩
      unfold nfaToggle
      rw [hdec]
      simp only [List.length_nil, if_true]
      unfold NFAMachineShell.ToMachine
      simp only
      rw [hM1]
    · have hlen : ¬ cur.length = 0 := fun h => hcur (List.length_eq_zero.1 h)
      refine ⟨{ M1 with currentStates := cur }, ?_, h1, h2, h3, h4, h6, fun _ => rfl,
        fun h => absurd h hcur⟩
      unfold nfaToggle
      rw [hdec]
      simp only [hlen, if_false]
      unfold NFAMachineShell.ToMachine
      simp only
      rw [hM1]
      simp only
      rw [nfaSetStates_ok M1 cur hcn (fun y hy => by rw [h1]; exact hcs y hy)]

/-- Witness for C31 (amended): the parity DFA in the state `odd` and the
`a(b|c)*d` NFA of the tests in the configuration it reaches on `a`. -/
theorem shell_round_trip_single_byte_witness :
    dfaToggle { parity with currentState := "odd" } =
      Except.ok { parity with currentState := "odd" } ∧
    ∃ M1, nfaToggle { abcd with currentStates := ["b-start", "c-start", "d-start"] } =
        Except.ok M1 ∧
      M1.states = abcd.states ∧ M1.currentStates = ["b-start", "c-start", "d-start"] ∧
      ∀ p c, tableGet M1.transitions p c = tableGet abcd.transitions p c := by
  have h := shell_round_trip_single_byte parityBuilder parity rfl
    ⟨by unfold NodupKeys; decide, by unfold NodupKeys; decide⟩ (by decide) (by decide) "odd"
    (by decide) abcdBuilder abcd rfl (by decide) (by decide)
    ["b-start", "c-start", "d-start"] (by decide) (by decide)
  obtain ⟨h1, _, M1, h3, h4, _, _, _, h5, h6, _⟩ := h
  exact ⟨h1 (by decide), M1, h3, h4, h6 (by decide), h5⟩

/-! ## The set the closure loop of the simulator returns -/

theorem EpsClosure_head (tr : NTrans) (w y : String)
    (h : EpsClosure tr (fun z => z = w) y) :
    y = w ∨ ∃ p, p ∈ tableDelta tr w Epsilon ∧ EpsClosure tr (fun z => z = p) y := by
  induction h with
  | base hs => exact Or.inl hs
  | @step p0 y _ hd ih =>
    rcases ih with rfl | ⟨p, hp, hcl⟩
    · exact Or.inr ⟨y, hd, EpsClosure.base rfl⟩
    · exact Or.inr ⟨p, hp, EpsClosure.step hcl hd⟩

theorem EpsClosure_from (tr : NTrans) (S : String → Prop) (y : String) :
    EpsClosure tr S y ↔ ∃ w, S w ∧ EpsClosure tr (fun z => z = w) y := by
  constructor
  · intro h
    induction h with
    | base hs => exact ⟨_, hs, EpsClosure.base rfl⟩
    | step _ hd ih =>
      obtain ⟨w, hw, hcl⟩ := ih
      exact ⟨w, hw, EpsClosure.step hcl hd⟩
  · rintro ⟨w, hw, hcl⟩
    exact EpsClosure_mono tr _ S (fun z (hz : z = w) => hz ▸ hw) y hcl

theorem EpsClosure_cons (tr : NTrans) (p w y : String) (hw : w ∈ tableDelta tr p Epsilon)
    (h : EpsClosure tr (fun z => z = w) y) : EpsClosure tr (fun z => z = p) y := by
  induction h with
  | base hs => exact EpsClosure.step (EpsClosure.base rfl) (hs ▸ hw)
  | step _ hd ih => exact EpsClosure.step ih hd

/-- One pass of the closure loop loses no kept state that is reached from the
set by epsilon transitions. -/
theorem applyEpsilonPass_complete (tr : NTrans) (snap : List String) (cur : StringSet)
    (modified : Bool) (y : String) (hk : EpsKept tr y)
    (hy : EpsClosure tr (fun p => p ∈ cur) y) :
    EpsClosure tr (fun p => p ∈ (applyEpsilonPass tr snap cur modified).1) y := by
  induction snap generalizing cur modified with
  | nil => simpa [applyEpsilonPass] using hy
  | cons state rest ih =>
    unfold applyEpsilonPass
    cases h1 : tableGet tr state Epsilon with
    | none => exact ih cur modified hy
    | some u =>
      simp only
      apply ih
      have hd : tableDelta tr state Epsilon = u := tableDelta_of_get tr state Epsilon u h1
      obtain ⟨w, hw, hcl⟩ := (EpsClosure_from tr _ y).1 hy
      by_cases hws : w = state
      · subst hws
        rcases EpsClosure_head tr w y hcl with rfl | ⟨p, hp, hcl2⟩
        · rcases hk with hk | hk
          · rw [hk] at h1
            cases h1
          · refine EpsClosure.base ?_
            rw [GoSet.mem_Add]
            right
            rw [hd] at hk
            exact hk
        · refine (EpsClosure_from tr _ y).2 ⟨p, ?_, hcl2⟩
          rw [GoSet.mem_Add]
          right
          rw [hd] at hp
          exact hp
      · refine (EpsClosure_from tr _ y).2 ⟨w, ?_, hcl⟩
        rw [GoSet.mem_Add, GoSet.mem_Del]
        left
        exact ⟨hw, by simpa using hws⟩

theorem applyEpsilonLoop_complete (tr : NTrans) (fuel : Nat) (cur r : StringSet)
    (hr : applyEpsilonLoop tr fuel cur = some r) (y : String) (hk : EpsKept tr y)
    (hy : EpsClosure tr (fun p => p ∈ cur) y) : EpsClosure tr (fun p => p ∈ r) y := by
  induction fuel generalizing cur with
  | zero => simp [applyEpsilonLoop] at hr
  | succ n ih =>
    simp only [applyEpsilonLoop] at hr
    have hpass := applyEpsilonPass_complete tr (GoSet.Unwrap cur) cur false y hk hy
    split at hr
    · exact ih _ hr hpass
    · rw [Option.some.injEq] at hr
      exact hr ▸ hpass

theorem EpsStable_closed (tr : NTrans) (r : StringSet) (hs : EpsStable tr r) (y : String)
    (hy : EpsClosure tr (fun p => p ∈ r) y) : y ∈ r := by
  induction hy with
  | base h => exact h
  | @step p y _ hd ih =>
    obtain ⟨u, hu, hyu⟩ := (mem_tableDelta tr p Epsilon y).1 hd
    exact (hs p ih u hu).2 y hyu

/-- The set that the closure loop returns: the kept states of the
epsilon-closure of the set it started from. -/
theorem applyEpsilonLoop_exact (tr : NTrans) (fuel : Nat) (cur r : StringSet)
    (hr : applyEpsilonLoop tr fuel cur = some r) (y : String) :
    y ∈ r ↔ keptClosure tr (fun p => p ∈ cur) y := by
  have hst := applyEpsilonLoop_stable tr fuel cur r hr
  constructor
  · intro hy
    refine ⟨?_, applyEpsilonLoop_sound tr _ (fun p z hp hz => EpsClosure.step hp hz)
      fuel cur r (fun z hz => EpsClosure.base hz) hr y hy⟩
    cases hg : tableGet tr y Epsilon with
    | none => exact Or.inl hg
    | some u =>
      right
      rw [tableDelta_of_get tr y Epsilon u hg]
      exact (hst y hy u hg).1
  · rintro ⟨hk, hcl⟩
    exact EpsStable_closed tr r hst y (applyEpsilonLoop_complete tr fuel cur r hr y hk hcl)

/-! ## The closure loop returns when the epsilon transitions form no cycle -/

theorem applyEpsilonPass_noop (tr : NTrans) (snap : List String) (cur : StringSet)
    (modified : Bool) (h : ∀ s ∈ snap, tableGet tr s Epsilon = none) :
    applyEpsilonPass tr snap cur modified = (cur, modified) := by
  induction snap with
  | nil => rfl
  | cons s rest ih =>
    unfold applyEpsilonPass
    rw [h s (List.mem_cons_self _ _)]
    exact ih (fun z hz => h z (List.mem_cons_of_mem _ hz))

/-- After one pass over a snapshot, a member is a state of the snapshot without
epsilon entry or an epsilon destination of a state of the snapshot. -/
theorem applyEpsilonPass_members (tr : NTrans) (snap0 snap : List String) (cur : StringSet)
    (modified : Bool) (hsub : ∀ s ∈ snap, s ∈ snap0)
    (hcur : ∀ y ∈ cur, (y ∈ snap ∨ tableGet tr y Epsilon = none) ∨
      ∃ p ∈ snap0, y ∈ tableDelta tr p Epsilon) :
    ∀ y ∈ (applyEpsilonPass tr snap cur modified).1,
      tableGet tr y Epsilon = none ∨ ∃ p ∈ snap0, y ∈ tableDelta tr p Epsilon := by
  induction snap generalizing cur modified with
  | nil =>
    intro y hy
    rcases hcur y (by simpa [applyEpsilonPass] using hy) with (h | h) | h
    · cases h
    · exact Or.inl h
    · exact Or.inr h
  | cons state rest ih =>
    have hrest : ∀ s ∈ rest, s ∈ snap0 := fun s hs => hsub s (List.mem_cons_of_mem _ hs)
    unfold applyEpsilonPass
    cases h1 : tableGet tr state Epsilon with
    | none =>
      apply ih cur modified hrest
      intro y hy
      rcases hcur y hy with (h | h) | h
      · rcases List.mem_cons.1 h with rfl | h
        · exact Or.inl (Or.inr h1)
        · exact Or.inl (Or.inl h)
      · exact Or.inl (Or.inr h)
      · exact Or.inr h
    | some u =>
      simp only
      apply ih _ _ hrest
      intro y hy
      rw [GoSet.mem_Add, GoSet.mem_Del] at hy
      rcases hy with ⟨hy, hne⟩ | hy
      · rcases hcur y hy with (h | h) | h
        · rcases List.mem_cons.1 h with rfl | h
          · exact absurd (List.mem_singleton.2 rfl) hne
          · exact Or.inl (Or.inl h)
        · exact Or.inl (Or.inr h)
        · exact Or.inr h
      · right
        refine ⟨state, hsub state (List.mem_cons_self _ _), ?_⟩
        rw [tableDelta_of_get tr state Epsilon u h1]
        exact hy

theorem applyEpsilonLoop_total (tr : NTrans) (rank : String → Nat)
    (hrank : ∀ p q, q ∈ tableDelta tr p Epsilon → rank q < rank p) (k : Nat) :
    ∀ (cur : StringSet) (fuel : Nat),
      (∀ y ∈ cur, tableGet tr y Epsilon ≠ none → rank y < k) → k + 1 ≤ fuel →
      ∃ r, applyEpsilonLoop tr fuel cur = some r := by
  induction k with
  | zero =>
    intro cur fuel hP hf
    obtain ⟨n, rfl⟩ : ∃ n, fuel = n + 1 := ⟨fuel - 1, by omega⟩
    have hno : ∀ s ∈ GoSet.Unwrap cur, tableGet tr s Epsilon = none := by
      intro s hs
      by_contra hc
      exact absurd (hP s hs hc) (by omega)
    simp only [applyEpsilonLoop, applyEpsilonPass_noop tr _ cur false hno]
    exact ⟨cur, by simp⟩
  | succ k ih =>
    intro cur fuel hP hf
    obtain ⟨n, rfl⟩ : ∃ n, fuel = n + 1 := ⟨fuel - 1, by omega⟩
    simp only [applyEpsilonLoop]
    split
    · apply ih _ n _ (by omega)
      intro y hy hne
      have hm := applyEpsilonPass_members tr (GoSet.Unwrap cur) (GoSet.Unwrap cur) cur false
        (fun s hs => hs) (fun z hz => Or.inl (Or.inl hz)) y hy
      rcases hm with hm | ⟨p, hp, hyp⟩
      · exact absurd hm hne
      · have hpe : tableGet tr p Epsilon ≠ none := by
          intro hc
          obtain ⟨u, hu, _⟩ := (mem_tableDelta tr p Epsilon y).1 hyp
          rw [hc] at hu
          cases hu
        have h1 := hP p hp hpe
        have h2 := hrank p y hyp
        omega
    · exact ⟨_, rfl⟩

theorem rank_lt_rankBound (rank : String → Nat) (tr : NTrans) (p : String) (c : Rune)
    (h : tableGet tr p c ≠ none) : rank p < rankBound rank tr := by
  have hmem : ∃ row, (p, row) ∈ tr := by
    unfold tableGet at h
    cases hg : mapGet tr p with
    | none => rw [hg] at h; exact absurd rfl h
    | some row => exact ⟨row, mapGet_mem _ _ _ hg⟩
  obtain ⟨row, hrow⟩ := hmem
  unfold rankBound
  clear h
  induction tr with
  | nil => cases hrow
  | cons e tr ih =>
    simp only [List.map_cons, List.foldr_cons]
    rcases List.mem_cons.1 hrow with h | h
    · subst h
      simp only
      omega
    · have := ih h
      omega

/-- The closure loop returns from every set, for every fuel above the rank
bound, when the epsilon transitions form no cycle. -/
theorem applyEpsilonLoop_returns (tr : NTrans) (rank : String → Nat)
    (hrank : ∀ p q, q ∈ tableDelta tr p Epsilon → rank q < rank p) (cur : StringSet)
    (fuel : Nat) (hf : rankBound rank tr + 1 ≤ fuel) :
    ∃ r, applyEpsilonLoop tr fuel cur = some r :=
  applyEpsilonLoop_total tr rank hrank (rankBound rank tr) cur fuel
    (fun y _ hne => rank_lt_rankBound rank tr y Epsilon hne) hf

/-! ## C9: the set `Put` produces on a machine with epsilon transitions -/

theorem EpsClosure_epsfree (s : nfaMachine) (he : s.HasEpsilon = false) (S : String → Prop)
    (y : String) (hy : EpsClosure s.transitions S y) : S y := by
  induction hy with
  | base h => exact h
  | @step p y _ hd _ =>
    obtain ⟨u, hu, _⟩ := (mem_tableDelta s.transitions p Epsilon y).1 hd
    rw [tableGet_eps_none s he p] at hu
    cases hu

/-- What `closeIfEpsilon` returns: the same machine with the kept states of the
epsilon-closure of its current set. -/
theorem closeIfEpsilon_exact (fuel : Nat) (s s1 : nfaMachine)
    (h : s.closeIfEpsilon fuel = some s1) :
    s1 = { s with currentStates := s1.currentStates } ∧
    ∀ y, y ∈ s1.currentStates ↔
      keptClosure s.transitions (fun p => p ∈ s.currentStates) y := by
  unfold nfaMachine.closeIfEpsilon at h
  cases he : s.HasEpsilon with
  | false =>
    rw [he] at h
    simp only [Bool.false_eq_true, if_false, Option.some.injEq] at h
    subst h
    refine ⟨rfl, fun y => ⟨fun hy => ⟨Or.inl (tableGet_eps_none s he y), EpsClosure.base hy⟩,
      fun hy => EpsClosure_epsfree s he _ y hy.2⟩⟩
  | true =>
    rw [he] at h
    simp only [if_true, nfaMachine.applyEpsilon, Option.map_eq_some'] at h
    obtain ⟨c, hc, rfl⟩ := h
    exact ⟨rfl, fun y => applyEpsilonLoop_exact s.transitions fuel s.currentStates c hc y⟩

theorem closeIfEpsilon_returns (s : nfaMachine) (rank : String → Nat)
    (hrank : ∀ p q, q ∈ tableDelta s.transitions p Epsilon → rank q < rank p)
    (fuel : Nat) (hf : rankBound rank s.transitions + 1 ≤ fuel) :
    ∃ s1, s.closeIfEpsilon fuel = some s1 := by
  unfold nfaMachine.closeIfEpsilon
  split
  · obtain ⟨r, hr⟩ := applyEpsilonLoop_returns s.transitions rank hrank s.currentStates fuel hf
    unfold nfaMachine.applyEpsilon
    rw [hr]
    exact ⟨_, rfl⟩
  · exact ⟨s, rfl⟩

/-- The two closure calls of a `Put` that gets past its first two checks. -/
theorem nfaPut_steps (fuel : Nat) (s : nfaMachine) (x : Rune)
    (h : ¬ (s.chars ≠ [] ∧ x ∉ s.chars)) (hc : s.currentStates ≠ [])
    (r : nfaMachine × Option FaError) (hr : s.Put fuel x = some r) :
    ∃ s1 s3, s.closeIfEpsilon fuel = some s1 ∧
      nfaMachine.closeIfEpsilon fuel
        { s1 with currentStates := putNext s1.transitions s1.currentStates x } = some s3 ∧
      r = (s3, if s3.currentStates = [] then some FaError.ErrEmptyStates else none) := by
  unfold nfaMachine.Put at hr
  rw [nfaPut_charCheck_false s x h] at hr
  have hl : ¬ GoSet.Len s.currentStates = 0 := fun h0 => hc ((GoSet.Len_eq_zero_iff _).1 h0)
  simp only [Bool.false_eq_true, if_false, hl] at hr
  cases h1 : s.closeIfEpsilon fuel with
  | none => rw [h1] at hr; cases hr
  | some s1 =>
    rw [h1] at hr
    simp only at hr
    cases h2 : nfaMachine.closeIfEpsilon fuel
        { s1 with currentStates := putNext s1.transitions s1.currentStates x } with
    | none => rw [h2] at hr; cases hr
    | some s3 =>
      rw [h2] at hr
      simp only [GoSet.Len_eq_zero_iff] at hr
      refine ⟨s1, s3, rfl, h2, ?_⟩
      split at hr
      · rename_i h0
        rw [if_pos h0]
        exact (Option.some.inj hr).symm
      · rename_i h0
        rw [if_neg h0]
        exact (Option.some.inj hr).symm

/-- The machine and the error of a `Put` that gets past its first two checks
and returns. -/
theorem nfaPut_exact (fuel : Nat) (s : nfaMachine) (x : Rune)
    (h : ¬ (s.chars ≠ [] ∧ x ∉ s.chars)) (hc : s.currentStates ≠ [])
    (r : nfaMachine × Option FaError) (hr : s.Put fuel x = some r) :
    r.1 = { s with currentStates := r.1.currentStates } ∧
    (∀ y, y ∈ r.1.currentStates ↔ keptPutSet s.transitions s.currentStates x y) ∧
    r.2 = if r.1.currentStates = [] then some FaError.ErrEmptyStates else none := by
  obtain ⟨s1, s3, h1, h2, rfl⟩ := nfaPut_steps fuel s x h hc r hr
  obtain ⟨he1, hm1⟩ := closeIfEpsilon_exact fuel s s1 h1
  obtain ⟨he3, hm3⟩ := closeIfEpsilon_exact fuel _ s3 h2
  have ht1 : s1.transitions = s.transitions := by rw [he1]
  simp only at hm3 he3
  refine ⟨?_, ?_, rfl⟩
  · simp only
    rw [he3, he1]
  · intro y
    simp only
    rw [hm3 y, ht1]
    unfold keptPutSet keptClosure
    have hS : ∀ z, z ∈ putNext s.transitions s1.currentStates x ↔
        ∃ q, (EpsKept s.transitions q ∧
          EpsClosure s.transitions (fun p => p ∈ s.currentStates) q) ∧
          z ∈ tableDelta s.transitions q x := by
      intro z
      rw [mem_putNext]
      constructor
      · rintro ⟨q, hq, hz⟩
        exact ⟨q, (hm1 q).1 hq, hz⟩
      · rintro ⟨q, hq, hz⟩
        exact ⟨q, (hm1 q).2 hq, hz⟩
    constructor
    · rintro ⟨hk, hcl⟩
      exact ⟨hk, EpsClosure_mono _ _ _ (fun z hz => (hS z).1 hz) y hcl⟩
    · rintro ⟨hk, hcl⟩
      exact ⟨hk, EpsClosure_mono _ _ _ (fun z hz => (hS z).2 hz) y hcl⟩

theorem nfaPut_returns (s : nfaMachine) (x : Rune) (rank : String → Nat)
    (hrank : ∀ p q, q ∈ tableDelta s.transitions p Epsilon → rank q < rank p)
    (fuel : Nat) (hf : rankBound rank s.transitions + 1 ≤ fuel) :
    ∃ r, s.Put fuel x = some r := by
  unfold nfaMachine.Put
  split
  · exact ⟨_, rfl⟩
  · split
    · exact ⟨_, rfl⟩
    · obtain ⟨s1, h1⟩ := closeIfEpsilon_returns s rank hrank fuel hf
      have ht1 : s1.transitions = s.transitions := by
        rw [(closeIfEpsilon_exact fuel s s1 h1).1]
      rw [h1]
      simp only
      obtain ⟨s3, h3⟩ := closeIfEpsilon_returns
        { s1 with currentStates := putNext s1.transitions s1.currentStates x } rank
        (by simpa [ht1] using hrank) fuel (by simpa [ht1] using hf)
      rw [h3]
      simp only
      split
      · exact ⟨_, rfl⟩
      · exact ⟨_, rfl⟩

theorem keptPutSet_sub_spec (tr : NTrans) (C : StringSet) (x : Rune) (y : String)
    (h : keptPutSet tr C x y) : specPutSet tr C x y := by
  refine EpsClosure_mono tr _ _ ?_ y h.2
  rintro z ⟨q, hq, hz⟩
  exact ⟨q, hq.2, hz⟩

theorem keptPutSet_nil (tr : NTrans) (x : Rune) (y : String) : ¬ keptPutSet tr [] x y := by
  intro h
  refine EpsClosure_empty tr _ ?_ y h.2
  rintro z ⟨q, hq, _⟩
  exact EpsClosure_empty tr _ (fun p hp => by cases hp) q hq.2

/-- C9, as the code has it.  The closure loop replaces a state that has an
epsilon entry by its epsilon destinations, so it keeps only the states that have
no epsilon entry or are among their own epsilon destinations.  After a `Put(x)`
that returns no error from current set `C`, the new current set is exactly the
set of kept states of the epsilon-closure of the union of `Delta(q, x)` over the
kept states `q` of the epsilon-closure of `C`; it is not empty, it is part of
the set of the claim, and nothing else of the machine changes.  A `Put(x)` that
returns an error returns `ErrInvalidInputChar` on a symbol outside a non-empty
alphabet, and otherwise `ErrEmptyStates` with an empty current set, and that set
of kept states is then empty.  When the epsilon transitions form no cycle,
`Put(x)` returns for every fuel above a bound. -/
theorem nfa_put_kept_closure (s : nfaMachine) (x : Rune) :
    (∀ fuel m, s.Put fuel x = some (m, none) →
      (∀ y, y ∈ m.currentStates ↔ keptPutSet s.transitions s.currentStates x y) ∧
      m.currentStates ≠ [] ∧ m = { s with currentStates := m.currentStates } ∧
      ∀ y ∈ m.currentStates, specPutSet s.transitions s.currentStates x y) ∧
    (∀ fuel m e, s.Put fuel x = some (m, some e) →
      (e = FaError.ErrInvalidInputChar ∧ ¬ s.admits x ∧ m = s) ∨
      (e = FaError.ErrEmptyStates ∧ s.admits x ∧ m.currentStates = [] ∧
        ∀ y, ¬ keptPutSet s.transitions s.currentStates x y)) ∧
    (EpsAcyclic s.transitions →
      ∃ fuel0, ∀ fuel, fuel0 ≤ fuel → ∃ r, s.Put fuel x = some r) := by
  have hadm : ¬ (s.chars ≠ [] ∧ x ∉ s.chars) ↔ s.admits x := by
    unfold nfaMachine.admits
    constructor
    · intro h
      by_contra hc
      push_neg at hc
      exact h hc
    · rintro (h | h) ⟨h1, h2⟩
      · exact h1 h
      · exact h2 h
  refine ⟨?_, ?_, ?_⟩
  · intro fuel m hput
    by_cases h : s.chars ≠ [] ∧ x ∉ s.chars
    · rw [nfaPut_invalid fuel s x h] at hput
      cases hput
    · by_cases hc : s.currentStates = []
      · rw [nfaPut_dead fuel s x h hc] at hput
        cases hput
      · obtain ⟨h1, h2, h3⟩ := nfaPut_exact fuel s x h hc _ hput
        simp only at h1 h2 h3
        have hne : m.currentStates ≠ [] := by
          intro h0
          rw [if_pos h0] at h3
          cases h3
        exact ⟨h2, hne, h1, fun y hy => keptPutSet_sub_spec _ _ _ _ ((h2 y).1 hy)⟩
  · intro fuel m e hput
    by_cases h : s.chars ≠ [] ∧ x ∉ s.chars
    · rw [nfaPut_invalid fuel s x h] at hput
      cases hput
      exact Or.inl ⟨rfl, fun ha => (hadm.2 ha) h, rfl⟩
    · right
      by_cases hc : s.currentStates = []
      · rw [nfaPut_dead fuel s x h hc] at hput
        cases hput
        refine ⟨rfl, hadm.1 h, hc, fun y => ?_⟩
        rw [hc]
        exact keptPutSet_nil _ _ _
      · obtain ⟨_, h2, h3⟩ := nfaPut_exact fuel s x h hc _ hput
        simp only at h2 h3
        by_cases h0 : m.currentStates = []
        · rw [if_pos h0] at h3
          cases h3
          refine ⟨rfl, hadm.1 h, h0, fun y hy => ?_⟩
          have := (h2 y).2 hy
          rw [h0] at this
          cases this
        · rw [if_neg h0] at h3
          cases h3
  · rintro ⟨rank, hrank⟩
    exact ⟨rankBound rank s.transitions + 1, fun fuel hf => nfaPut_returns s x rank hrank fuel hf⟩

/-- Witness for C9 (amended) on the `a(b|c)*d` machine: `Put('a')` from
`{a-start}` leaves exactly `{d-start, b-start, c-start}`. -/
theorem nfa_put_kept_closure_witness :
    (∀ y, y ∈ ["d-start", "b-start", "c-start"] ↔
      keptPutSet abcd.transitions abcd.Reset.currentStates 97 y) ∧
    ["d-start", "b-start", "c-start"] ≠ [] :=
  ⟨((nfa_put_kept_closure abcd.Reset 97).1 4
      { abcd with currentStates := ["d-start", "b-start", "c-start"] } (by decide)).1,
    ((nfa_put_kept_closure abcd.Reset 97).1 4
      { abcd with currentStates := ["d-start", "b-start", "c-start"] } (by decide)).2.1⟩

/-- C9 fails as stated: on the `a(b|c)*d` machine, which has epsilon
transitions, `Put('a')` from `{a-start}` returns no error, the state `a-end` is
in the epsilon-closure of the union of `Delta(q, 'a')` over the closure of the
current set, and `a-end` is not in the new current set. -/
theorem nfa_put_closure_counterexample :
    abcd.HasEpsilon = true ∧
    ∃ m, abcd.Reset.Put 4 97 = some (m, none) ∧
      ¬ (∀ y, y ∈ m.currentStates ↔
          specPutSet abcd.transitions abcd.Reset.currentStates 97 y) := by
  refine ⟨by decide, { abcd with currentStates := ["d-start", "b-start", "c-start"] },
    by decide, ?_⟩
  intro hall
  have hin : specPutSet abcd.transitions abcd.Reset.currentStates 97 "a-end" :=
    EpsClosure.base ⟨"a-start", EpsClosure.base (by decide), by decide⟩
  have hmem := (hall "a-end").2 hin
  revert hmem
  decide

/-! ## Acceptance by the simulator and runs with epsilon moves -/

theorem EpsRun_of_closure (tr : NTrans) (p y q : String) (w : List Rune)
    (h : EpsClosure tr (fun z => z = p) y) (hr : EpsRun tr y w q) : EpsRun tr p w q := by
  induction h with
  | base hs => exact hs ▸ hr
  | step _ hd ih => exact ih (EpsRun.eps hd hr)

theorem EpsRun_nil_iff (tr : NTrans) (p q : String) :
    EpsRun tr p [] q ↔ EpsClosure tr (fun z => z = p) q := by
  constructor
  · intro h
    generalize hw : ([] : List Rune) = w at h
    induction h with
    | nil p => exact EpsClosure.base rfl
    | eps hd _ ih => exact EpsClosure_cons tr _ _ _ hd (ih hw)
    | sym _ _ _ _ => cases hw
  · intro h
    exact EpsRun_of_closure tr p q q [] h (EpsRun.nil q)

/-- A run over a word that is not empty: epsilon moves, then the first symbol,
then the run over the rest. -/
theorem EpsRun_cons (tr : NTrans) (p q : String) (x : Rune) (w : List Rune)
    (h : EpsRun tr p (x :: w) q) :
    ∃ q0 p1, EpsClosure tr (fun z => z = p) q0 ∧ x ≠ Epsilon ∧ p1 ∈ tableDelta tr q0 x ∧
      EpsRun tr p1 w q := by
  generalize hw : x :: w = v at h
  induction h with
  | nil p => cases hw
  | eps hd _ ih =>
    obtain ⟨q0, p1, hcl, hx, hp1, hrun⟩ := ih hw
    exact ⟨q0, p1, EpsClosure_cons tr _ _ _ hd hcl, hx, hp1, hrun⟩
  | @sym p y q x1 w1 hx hd hrun _ =>
    cases hw
    exact ⟨p, y, EpsClosure.base rfl, hx, hd, hrun⟩

theorem EpsKept_of_rank (tr : NTrans) (rank : String → Nat)
    (hrank : ∀ p q, q ∈ tableDelta tr p Epsilon → rank q < rank p) (y : String) :
    EpsKept tr y ↔ tableGet tr y Epsilon = none := by
  constructor
  · rintro (h | h)
    · exact h
    · exact absurd (hrank y y h) (Nat.lt_irrefl _)
  · exact Or.inl

theorem tableDelta_eps_of_none (tr : NTrans) (q : String) (h : tableGet tr q Epsilon = none) :
    tableDelta tr q Epsilon = [] := by
  unfold tableDelta
  rw [h]
  rfl

/-- The run from `p` over `w` to `q` as the simulator makes it from a state of
its current set: no move on the empty word, a run with epsilon moves
otherwise. -/
theorem simRun_start (s : nfaMachine) (hpure : s.EpsStatesPure) (p1 q : String)
    (w : List Rune) (hq : q ∈ s.acceptStates) (h : EpsRun s.transitions p1 w q) :
    ∃ p2, EpsClosure s.transitions (fun z => z = p1) p2 ∧
      tableGet s.transitions p2 Epsilon = none ∧
      ((w = [] ∧ p2 = q) ∨ (w ≠ [] ∧ EpsRun s.transitions p2 w q)) := by
  cases w with
  | nil =>
    refine ⟨q, (EpsRun_nil_iff _ _ _).1 h, ?_, Or.inl ⟨rfl, rfl⟩⟩
    by_contra hc
    exact (hpure q hc).1 hq
  | cons x w =>
    obtain ⟨q0, p2, hcl, hx, hp2, hrun⟩ := EpsRun_cons _ _ _ _ _ h
    refine ⟨q0, hcl, ?_, Or.inr ⟨List.cons_ne_nil _ _, EpsRun.sym hx hp2 hrun⟩⟩
    by_contra hc
    have := (hpure q0 hc).2 x hx
    unfold nfaMachine.Delta at this
    rw [this] at hp2
    cases hp2

/-- The verdict of the simulator from any current set, on a machine whose
states with an epsilon entry are pure junctions and whose epsilon transitions
form no cycle: the calls return, and they end in an accepting set exactly when
every symbol is admitted and a run leads from a current state to an accept
state. -/
theorem putAll_eps (fuel : Nat) (rank : String → Nat) (w : List Rune) :
    ∀ (s : nfaMachine), s.EpsStatesPure →
      (∀ p q, q ∈ tableDelta s.transitions p Epsilon → rank q < rank p) →
      rankBound rank s.transitions + 1 ≤ fuel →
      ∃ r, nfaMachine.putAll fuel s w = some r ∧
        ((∃ m, r = some m ∧ m.IsAccepted = true) ↔
          ((∀ x ∈ w, s.admits x) ∧
            ∃ p ∈ s.currentStates, ∃ q ∈ s.acceptStates,
              ((w = [] ∧ p = q) ∨ (w ≠ [] ∧ EpsRun s.transitions p w q)))) := by
  induction w with
  | nil =>
    intro s _ _ _
    refine ⟨some s, rfl, ?_⟩
    constructor
    · rintro ⟨m, hm, hacc⟩
      cases hm
      obtain ⟨y, hy1, hy2⟩ := (nfaIsAccepted_iff s).1 hacc
      exact ⟨by simp, y, hy1, y, hy2, Or.inl ⟨rfl, rfl⟩⟩
    · rintro ⟨_, p, hp, q, hq, hrun⟩
      rcases hrun with ⟨_, rfl⟩ | ⟨hne, _⟩
      · exact ⟨s, rfl, (nfaIsAccepted_iff s).2 ⟨p, hp, hq⟩⟩
      · exact absurd rfl hne
  | cons x w ih =>
    intro s hpure hrank hf
    have hrhs : ∀ p ∈ s.currentStates, ∀ q ∈ s.acceptStates,
        EpsRun s.transitions p (x :: w) q →
        ∃ p2, keptPutSet s.transitions s.currentStates x p2 ∧
          ((w = [] ∧ p2 = q) ∨ (w ≠ [] ∧ EpsRun s.transitions p2 w q)) := by
      intro p hp q hq hrun
      obtain ⟨q0, p1, hcl, hx, hp1, hrest⟩ := EpsRun_cons _ _ _ _ _ hrun
      obtain ⟨p2, hcl2, hnone, hsim⟩ := simRun_start s hpure p1 q w hq hrest
      have hq0 : tableGet s.transitions q0 Epsilon = none := by
        by_contra hc
        have := (hpure q0 hc).2 x hx
        unfold nfaMachine.Delta at this
        rw [this] at hp1
        cases hp1
      refine ⟨p2, ⟨Or.inl hnone, ?_⟩, hsim⟩
      refine (EpsClosure_from _ _ _).2 ⟨p1, ⟨q0, ⟨Or.inl hq0, ?_⟩, hp1⟩, hcl2⟩
      exact (EpsClosure_from _ _ _).2 ⟨p, hp, hcl⟩
    by_cases h : s.chars ≠ [] ∧ x ∉ s.chars
    · refine ⟨none, ?_, ?_⟩
      · unfold nfaMachine.putAll
        rw [nfaPut_invalid fuel s x h]
      · constructor
        · rintro ⟨m, hm, _⟩
          cases hm
        · rintro ⟨hall, _⟩
          exfalso
          rcases hall x (List.mem_cons_self _ _) with h1 | h1
          · exact h.1 h1
          · exact h.2 h1
    · have hadm : s.admits x := by
        unfold nfaMachine.admits
        by_contra hc
        push_neg at hc
        exact h hc
      by_cases hc : s.currentStates = []
      · refine ⟨none, ?_, ?_⟩
        · unfold nfaMachine.putAll
          rw [nfaPut_dead fuel s x h hc]
        · constructor
          · rintro ⟨m, hm, _⟩
            cases hm
          · rintro ⟨_, p, hp, _⟩
            rw [hc] at hp
            cases hp
      · obtain ⟨⟨m, e⟩, hput⟩ := nfaPut_returns s x rank hrank fuel hf
        obtain ⟨h1, h2, h3⟩ := nfaPut_exact fuel s x h hc _ hput
        simp only at h1 h2 h3
        by_cases h0 : m.currentStates = []
        · rw [if_pos h0] at h3
          subst h3
          refine ⟨none, ?_, ?_⟩
          · unfold nfaMachine.putAll
            rw [hput]
          · constructor
            · rintro ⟨m1, hm1, _⟩
              cases hm1
            · rintro ⟨_, p, hp, q, hq, hrun⟩
              exfalso
              rcases hrun with ⟨hnil, _⟩ | ⟨_, hrun⟩
              · cases hnil
              · obtain ⟨p2, hp2, _⟩ := hrhs p hp q hq hrun
                have := (h2 p2).2 hp2
                rw [h0] at this
                cases this
        · rw [if_neg h0] at h3
          subst h3
          have hm : m = { s with currentStates := m.currentStates } := h1
          obtain ⟨r, hr, hiff⟩ := ih { s with currentStates := m.currentStates } hpure hrank hf
          refine ⟨r, ?_, ?_⟩
          · unfold nfaMachine.putAll
            rw [hput]
            simp only
            rw [hm]
            exact hr
          · rw [hiff]
            simp only
            constructor
            · rintro ⟨hall, p2, hp2, q, hq, hsim⟩
              refine ⟨?_, ?_⟩
              · intro z hz
                rcases List.mem_cons.1 hz with rfl | hz
                · exact hadm
                · exact hall z hz
              · obtain ⟨_, hcl⟩ := (h2 p2).1 hp2
                obtain ⟨p1, ⟨q0, ⟨hk0, hcl0⟩, hp1⟩, hcl2⟩ := (EpsClosure_from _ _ _).1 hcl
                obtain ⟨p, hp, hclp⟩ := (EpsClosure_from _ _ _).1 hcl0
                have hq0 := (EpsKept_of_rank _ rank hrank q0).1 hk0
                have hx : x ≠ Epsilon := by
                  rintro rfl
                  rw [tableDelta_eps_of_none _ _ hq0] at hp1
                  cases hp1
                have hrun2 : EpsRun s.transitions p2 w q := by
                  rcases hsim with ⟨rfl, rfl⟩ | ⟨_, hrun⟩
                  · exact EpsRun.nil _
                  · exact hrun
                refine ⟨p, hp, q, hq, Or.inr ⟨List.cons_ne_nil _ _, ?_⟩⟩
                exact EpsRun_of_closure _ _ _ _ _ hclp
                  (EpsRun.sym hx hp1 (EpsRun_of_closure _ _ _ _ _ hcl2 hrun2))
            · rintro ⟨hall, p, hp, q, hq, hrun⟩
              rcases hrun with ⟨hnil, _⟩ | ⟨_, hrun⟩
              · cases hnil
              · obtain ⟨p2, hp2, hsim⟩ := hrhs p hp q hq hrun
                exact ⟨fun z hz => hall z (List.mem_cons_of_mem _ hz), p2, (h2 p2).2 hp2,
                  q, hq, hsim⟩

/-- The verdict of the simulator on a word: on the empty word, whether a start
state is an accept state; on another word, whether the word is in the language
with epsilon moves. -/
theorem accepts_eps (fuel : Nat) (rank : String → Nat) (s : nfaMachine)
    (hpure : s.EpsStatesPure)
    (hrank : ∀ p q, q ∈ tableDelta s.transitions p Epsilon → rank q < rank p)
    (hf : rankBound rank s.transitions + 1 ≤ fuel) (w : List Rune) :
    ∃ b, s.accepts fuel w = some b ∧
      (w = [] → (b = true ↔ ∃ p ∈ s.startStates, p ∈ s.acceptStates)) ∧
      (w ≠ [] → (b = true ↔ s.EpsLang w)) := by
  obtain ⟨r, hr, hiff⟩ := putAll_eps fuel rank w s.Reset hpure hrank hf
  unfold nfaMachine.accepts
  rw [hr]
  refine ⟨_, rfl, ?_, ?_⟩
  · rintro rfl
    simp only [Option.map_some']
    refine Iff.trans (b := ∃ m, r = some m ∧ m.IsAccepted = true) ?_ (hiff.trans ?_)
    · cases r with
      | none => simp
      | some m => simp
    unfold nfaMachine.Reset
    simp only [NewStringSet, GoSet.Unwrap, GoSet.mem_New]
    constructor
    · rintro ⟨_, p, hp, q, hq, hrun⟩
      rcases hrun with ⟨_, rfl⟩ | ⟨hne, _⟩
      · exact ⟨p, hp, hq⟩
      · exact absurd rfl hne
    · rintro ⟨p, hp, hq⟩
      exact ⟨by simp, p, hp, p, hq, by simp⟩
  · intro hne
    simp only [Option.map_some']
    refine Iff.trans (b := ∃ m, r = some m ∧ m.IsAccepted = true) ?_ (hiff.trans ?_)
    · cases r with
      | none => simp
      | some m => simp
    unfold nfaMachine.EpsLang nfaMachine.Reset nfaMachine.admits
    simp only [NewStringSet, GoSet.Unwrap, GoSet.mem_New]
    constructor
    · rintro ⟨hall, p, hp, q, hq, hrun⟩
      rcases hrun with ⟨hnil, _⟩ | ⟨_, hrun⟩
      · exact absurd hnil hne
      · exact ⟨hall, p, hp, q, hq, hrun⟩
    · rintro ⟨hall, p, hp, q, hq, hrun⟩
      exact ⟨hall, p, hp, q, hq, Or.inr ⟨hne, hrun⟩⟩

/-! ## The language of a returned expansion -/

theorem StartOneLevel_closure (s : nfaMachine) (hone : s.StartOneLevel) (y : String)
    (h : EpsClosure s.transitions (fun p => p ∈ s.startStates) y) :
    y ∈ s.startStates ∨ ∃ p ∈ s.startStates, y ∈ s.Delta p Epsilon := by
  induction h with
  | base hs => exact Or.inl hs
  | @step z y _ hd ih =>
    rcases ih with hz | ⟨p, hp, hz⟩
    · exact Or.inr ⟨z, hz, hd⟩
    · exact hone p hp z hz y hd

/-- A returned expansion of a machine whose start states are closed by one
level of epsilon destinations accepts, read without epsilon moves, the words
that the machine accepts read with epsilon moves. -/
theorem Lang_expansion (s : nfaMachine) (hT : TableOK s.transitions) (hone : s.StartOneLevel)
    (fuel : Nat) (E : nfaMachine) (h : s.ApplyEpsilonExpansion fuel = some E)
    (w : List Rune) : E.Lang w ↔ s.EpsLang w := by
  obtain ⟨T, hTe, _, hd, hst, hacc, hch, _⟩ := ApplyEpsilonExpansion_fields s hT fuel E h
  have hcell := mem_tableDelta_ExpandEpsilon s.transitions hT fuel T hTe
  have hadm : ∀ x, E.admits x ↔ s.admits x := by
    intro x
    unfold nfaMachine.admits
    rw [hch x, List.eq_nil_iff_forall_not_mem, List.eq_nil_iff_forall_not_mem]
    simp only [hch]
  have hfwd : ∀ p q v, Path E.transitions p v q → EpsRun s.transitions p v q := by
    intro p q v hp
    induction hp with
    | nil p => exact EpsRun.nil p
    | @cons p y q x v hstep _ ih =>
      have h1 := ((hd p x y).1 hstep).1
      obtain ⟨hx, hcl⟩ := (hcell p x y).1 h1
      obtain ⟨y0, hy0, hcl0⟩ := (EpsClosure_from _ _ _).1 hcl
      exact EpsRun.sym hx hy0 (EpsRun_of_closure _ _ _ _ _ hcl0 ih)
  have hbwd : ∀ p q v, EpsRun s.transitions p v q → q ∈ s.acceptStates →
      ∃ p1, EpsClosure s.transitions (fun z => z = p) p1 ∧ Path E.transitions p1 v q ∧
        ¬ IsUseless s T p1 := by
    intro p q v hrun hq
    induction hrun with
    | nil p => exact ⟨p, EpsClosure.base rfl, Path.nil p, fun hu => hu.2.1 hq⟩
    | eps hy _ ih =>
      obtain ⟨p1, hcl, hpath, hnu⟩ := ih hq
      exact ⟨p1, EpsClosure_cons _ _ _ _ hy hcl, hpath, hnu⟩
    | @sym p y q x v hx hy _ ih =>
      obtain ⟨p1, hcl, hpath, hnu⟩ := ih hq
      have hin : p1 ∈ tableDelta T p x :=
        (hcell p x p1).2 ⟨hx, (EpsClosure_from _ _ _).2 ⟨y, hy, hcl⟩⟩
      refine ⟨p, EpsClosure.base rfl, Path.cons ((hd p x p1).2 ⟨hin, hnu⟩) hpath, ?_⟩
      intro hu
      have := hu.2.2 x hx
      rw [this] at hin
      cases hin
  unfold nfaMachine.Lang nfaMachine.EpsLang
  constructor
  · rintro ⟨hall, p, hp, q, hq, hpath⟩
    refine ⟨fun x hx => (hadm x).1 (hall x hx), ?_⟩
    have hrun := hfwd p q w hpath
    rcases ((hst p).1 hp).1 with hps | ⟨p0, hp0, hps⟩
    · exact ⟨p, hps, q, (hacc q).1 hq, hrun⟩
    · exact ⟨p0, hp0, q, (hacc q).1 hq, EpsRun.eps hps hrun⟩
  · rintro ⟨hall, p, hp, q, hq, hrun⟩
    refine ⟨fun x hx => (hadm x).2 (hall x hx), ?_⟩
    obtain ⟨p1, hcl, hpath, hnu⟩ := hbwd p q w hrun hq
    refine ⟨p1, (hst p1).2 ⟨?_, hnu⟩, q, (hacc q).2 hq, hpath⟩
    exact StartOneLevel_closure s hone p1 ((EpsClosure_from _ _ _).2 ⟨p, hp, hcl⟩)

/-! ## The start-state loop returns when every start state adds a state -/

/-- When a pass ends with the flag `modified` set, some state of the snapshot
has an epsilon entry whose destinations were all in the set when the pass came
to it. -/
theorem startPass_flag_split (tr : NTrans) (snap : List String) (cur : StringSet)
    (h : (startPass tr snap cur false).2 = true) :
    ∃ l1 p l2 u, snap = l1 ++ p :: l2 ∧ tableGet tr p Epsilon = some u ∧
      ∀ y ∈ u, y ∈ cur ∨ ∃ p1 ∈ l1, y ∈ tableDelta tr p1 Epsilon := by
  induction snap generalizing cur with
  | nil => cases h
  | cons q snap ih =>
    unfold startPass at h
    cases hg : tableGet tr q Epsilon with
    | none =>
      rw [hg] at h
      simp only at h
      obtain ⟨l1, p, l2, u, hs, hu, hsub⟩ := ih cur h
      refine ⟨q :: l1, p, l2, u, by rw [hs]; rfl, hu, fun y hy => ?_⟩
      rcases hsub y hy with h1 | ⟨p1, hp1, h1⟩
      · exact Or.inl h1
      · exact Or.inr ⟨p1, List.mem_cons_of_mem _ hp1, h1⟩
    | some v =>
      rw [hg] at h
      simp only [Bool.not_false, if_true] at h
      cases heq : StringSet.Equal (GoSet.Clone cur) (GoSet.Add cur (GoSet.Unwrap v)) with
      | true =>
        refine ⟨[], q, snap, v, rfl, hg, fun y hy => Or.inl ?_⟩
        have := (StringSet_Equal_mem _ _ heq y).2 ((GoSet.mem_Add _ _ _).2 (Or.inr hy))
        exact (GoSet.mem_Clone _ _).1 this
      | false =>
        rw [heq] at h
        obtain ⟨l1, p, l2, u, hs, hu, hsub⟩ := ih _ h
        refine ⟨q :: l1, p, l2, u, by rw [hs]; rfl, hu, fun y hy => ?_⟩
        rcases hsub y hy with h1 | ⟨p1, hp1, h1⟩
        · rcases (GoSet.mem_Add _ _ _).1 h1 with h2 | h2
          · exact Or.inl h2
          · refine Or.inr ⟨q, List.mem_cons_self _ _, ?_⟩
            rw [tableDelta_of_get tr q Epsilon v hg]
            exact h2
        · exact Or.inr ⟨p1, List.mem_cons_of_mem _ hp1, h1⟩

theorem startQuiet_of_StartAddsNew (s : nfaMachine) (h : s.StartAddsNew) :
    s.startQuiet = true := by
  unfold nfaMachine.startQuiet
  rw [Bool.not_eq_true']
  cases hf : (startPass s.transitions (GoSet.Unwrap (GoSet.Clone s.startStates))
      (GoSet.Clone s.startStates) false).2 with
  | false => rfl
  | true =>
    exfalso
    obtain ⟨l1, p, l2, u, hs, hu, hsub⟩ := startPass_flag_split _ _ _ hf
    have hnd : (l1 ++ p :: l2).Nodup := by
      rw [← hs]
      exact GoSet.nodup_New _
    have hmem : ∀ z, z ∈ l1 ++ p :: l2 → z ∈ s.startStates := by
      intro z hz
      rw [← hs] at hz
      exact (GoSet.mem_Clone _ _).1 hz
    have hp : p ∈ s.startStates := hmem p (by simp)
    obtain ⟨y, hy, hy1, hy2⟩ := h p hp (by rw [hu]; simp)
    unfold nfaMachine.Delta at hy hy2
    rw [tableDelta_of_get _ p Epsilon u hu] at hy
    rcases hsub y hy with h1 | ⟨p1, hp1, h1⟩
    · exact hy1 ((GoSet.mem_Clone _ _).1 h1)
    · refine hy2 p1 (hmem p1 (by simp [hp1])) ?_ h1
      rintro rfl
      have := List.nodup_append.1 hnd
      exact this.2.2 hp1 (List.mem_cons_self _ _)

/-- The expansion returns on a machine whose start states each add a state, and
the returned machine has no epsilon transition, a table with distinct keys and
a start set without repetition. -/
theorem ApplyEpsilonExpansion_ok (s : nfaMachine) (hadds : s.StartAddsNew) :
    ∃ E, (∀ fuel, max 1 (expandBound s.transitions) ≤ fuel →
        s.ApplyEpsilonExpansion fuel = some E) ∧
      E.HasEpsilon = false ∧ E.startStates.Nodup := by
  obtain ⟨E, hE⟩ := ApplyEpsilonExpansion_returns s (startQuiet_of_StartAddsNew s hadds)
  have h0 := hE _ (Nat.le_refl _)
  refine ⟨E, hE, (ApplyEpsilonExpansion_noEps _ s E h0).1, ?_⟩
  obtain ⟨T, _, _, _, hEq⟩ := ApplyEpsilonExpansion_some _ s E h0
  rw [hEq]
  exact GoSet.nodup_Del _ _ (startPass_nodup _ _ _ _ (GoSet.nodup_New _))

/-! ## C1: the expansion against the simulator -/

theorem EpsStatesPure_of_rows (s : nfaMachine)
    (h : ∀ e ∈ s.transitions, mapHas e.2 Epsilon = true →
      e.1 ∉ s.acceptStates ∧ ∀ r ∈ e.2, r.1 ≠ Epsilon → r.2 = []) :
    s.EpsStatesPure := by
  intro p hp
  unfold tableGet at hp
  cases hg : mapGet s.transitions p with
  | none => rw [hg] at hp; exact absurd rfl hp
  | some row =>
    rw [hg] at hp
    simp only at hp
    have hmem := mapGet_mem _ _ _ hg
    have hhas : mapHas row Epsilon = true := by
      unfold mapHas
      cases hr : mapGet row Epsilon with
      | none => exact absurd hr hp
      | some u => rfl
    obtain ⟨h1, h2⟩ := h (p, row) hmem hhas
    refine ⟨h1, fun a ha => ?_⟩
    unfold nfaMachine.Delta tableDelta tableGet
    rw [hg]
    simp only
    cases hr : mapGet row a with
    | none => rfl
    | some v => exact h2 (a, v) (mapGet_mem _ _ _ hr) ha

theorem EpsAcyclic_of_rows (tr : NTrans) (rank : String → Nat)
    (h : ∀ e ∈ tr, ∀ r ∈ e.2, r.1 = Epsilon → ∀ y ∈ r.2, rank y < rank e.1) :
    EpsAcyclic tr := by
  refine ⟨rank, fun p q hq => ?_⟩
  obtain ⟨u, hu, hqu⟩ := (mem_tableDelta tr p Epsilon q).1 hq
  unfold tableGet at hu
  cases hg : mapGet tr p with
  | none => rw [hg] at hu; cases hu
  | some row =>
    rw [hg] at hu
    exact h (p, row) (mapGet_mem _ _ _ hg) (Epsilon, u) (mapGet_mem _ _ _ hu) rfl q hqu

theorem abcd_EpsStatesPure : abcd.EpsStatesPure :=
  EpsStatesPure_of_rows abcd (by decide)

theorem abcd_EpsAcyclic : EpsAcyclic abcd.transitions :=
  EpsAcyclic_of_rows abcd.transitions abcdRank (by decide)

theorem abcd_StartOneLevel : abcd.StartOneLevel := by
  unfold nfaMachine.StartOneLevel
  decide

theorem abcd_StartAddsNew : abcd.StartAddsNew := by
  unfold nfaMachine.StartAddsNew
  decide

theorem abcd_EmptyWordAgrees : abcd.EmptyWordAgrees := by
  rintro ⟨p, hp, q, hq, hcl⟩
  exfalso
  have hp1 : p = "a-start" := by simpa [abcd] using hp
  have hq1 : q = "d-end" := by simpa [abcd] using hq
  subst hp1 hq1
  rcases EpsClosure_head _ _ _ hcl with h | ⟨z, hz, _⟩
  · revert h
    decide
  · have hd : tableDelta abcd.transitions "a-start" Epsilon = [] := by decide
    rw [hd] at hz
    cases hz

/-- A machine without epsilon transitions meets every condition under which the
expansion and `Minimize` are compared with the simulator, and reads the empty
word alike with and without epsilon moves. -/
theorem epsfree_conditions (s : nfaMachine) (he : s.HasEpsilon = false) :
    s.EpsStatesPure ∧ EpsAcyclic s.transitions ∧ s.StartOneLevel ∧ s.StartAddsNew ∧
      s.EmptyWordAgrees := by
  have hg := tableGet_eps_none s he
  have hd : ∀ p y, y ∉ tableDelta s.transitions p Epsilon := by
    intro p y hy
    rw [tableDelta_eps_of_none _ _ (hg p)] at hy
    cases hy
  refine ⟨fun p hp => absurd (hg p) hp, ⟨fun _ => 0, fun p q hq => absurd hq (hd p q)⟩,
    fun p _ z hz => absurd hz (hd p z), fun p _ hp => absurd (hg p) hp, ?_⟩
  rintro ⟨p, hp, q, hq, hcl⟩
  have : q = p := EpsClosure_epsfree s he _ q hcl
  subst this
  exact ⟨q, hp, hq⟩

theorem EpsLang_nil (s : nfaMachine) :
    s.EpsLang [] ↔ ∃ p ∈ s.startStates, ∃ q ∈ s.acceptStates,
      EpsClosure s.transitions (fun z => z = p) q := by
  unfold nfaMachine.EpsLang
  simp only [List.not_mem_nil, false_implies, implies_true, true_and, EpsRun_nil_iff]

theorem ring_loop_diverges (fuel : Nat) :
    applyEpsilonLoop ringNfa.transitions fuel ["s"] = none ∧
    applyEpsilonLoop ringNfa.transitions fuel ["t"] = none := by
  induction fuel with
  | zero => exact ⟨rfl, rfl⟩
  | succ n ih =>
    have hs : applyEpsilonPass ringNfa.transitions (GoSet.Unwrap ["s"]) ["s"] false =
        (["t"], true) := by decide
    have ht : applyEpsilonPass ringNfa.transitions (GoSet.Unwrap ["t"]) ["t"] false =
        (["s"], true) := by decide
    constructor
    · unfold applyEpsilonLoop
      simp only [hs, if_true]
      exact ih.2
    · unfold applyEpsilonLoop
      simp only [ht, if_true]
      exact ih.1

theorem ring_put_diverges (fuel : Nat) : ringNfa.Reset.Put fuel 97 = none := by
  cases fuel with
  | zero => rfl
  | succ n =>
    have h1 : ringNfa.Reset.closeIfEpsilon (n + 1) = some ringNfa.Reset := by
      have hp : applyEpsilonPass ringNfa.transitions (GoSet.Unwrap ["q"]) ["q"] false =
          (["q"], false) := by decide
      have he : ringNfa.Reset.HasEpsilon = true := by decide
      unfold nfaMachine.closeIfEpsilon nfaMachine.applyEpsilon
      rw [he]
      simp only [if_true]
      show Option.map _ (applyEpsilonLoop ringNfa.transitions (n + 1) ["q"]) = _
      unfold applyEpsilonLoop
      simp only [hp]
      rfl
    have h2 : nfaMachine.closeIfEpsilon (n + 1)
        { ringNfa.Reset with
          currentStates := putNext ringNfa.Reset.transitions ringNfa.Reset.currentStates 97 } =
        none := by
      have hn : putNext ringNfa.Reset.transitions ringNfa.Reset.currentStates 97 = ["s"] := by
        decide
      rw [hn]
      unfold nfaMachine.closeIfEpsilon nfaMachine.applyEpsilon
      have he : nfaMachine.HasEpsilon { ringNfa.Reset with currentStates := ["s"] } = true := by
        decide
      rw [he]
      simp only [if_true]
      show Option.map _ (applyEpsilonLoop ringNfa.transitions (n + 1) ["s"]) = none
      rw [(ring_loop_diverges (n + 1)).1]
      rfl
    unfold nfaMachine.Put
    have hc : (decide (GoSet.Len ringNfa.Reset.chars > 0) &&
        !GoSet.In ringNfa.Reset.chars [97]) = false := by decide
    have hl : ¬ GoSet.Len ringNfa.Reset.currentStates = 0 := by decide
    simp only [hc, Bool.false_eq_true, if_false, hl, h1, h2]

/-- C1, as the code has it.  Let `M` be returned by the builder, and let every
state of `M` that has an epsilon entry be a pure junction (not an accept state,
no transition on another symbol), let the epsilon transitions form no cycle,
let one level of epsilon destinations close the start states, and let every
start state with an epsilon entry have an epsilon destination of its own.  Then
`ApplyEpsilonExpansion` returns one machine `E` for every sufficient fuel, `E`
has no epsilon transition, and on every word that is not empty the run of `E`
and the run of `M` return the same verdict; so they do on the empty word when
`M` reads it alike with and without epsilon moves.  On the empty word `M`
accepts exactly when a start state is an accept state, and `E` exactly when an
accept state is reached from a start state by epsilon transitions alone.  A
machine without epsilon transitions meets all these conditions
(`epsfree_conditions`). -/
theorem expansion_equivalent_on_pure_junctions (b : nfaMachineBuilder) (M : nfaMachine)
    (hb : b.Build = Except.ok M) (hpure : M.EpsStatesPure) (hacyc : EpsAcyclic M.transitions)
    (hone : M.StartOneLevel) (hadds : M.StartAddsNew) :
    ∃ fuel0 E, (∀ fuel, fuel0 ≤ fuel → M.ApplyEpsilonExpansion fuel = some E) ∧
      E.HasEpsilon = false ∧
      (∀ (w : List Rune) (f1 f2 : Nat), fuel0 ≤ f2 → (w ≠ [] ∨ M.EmptyWordAgrees) →
        E.accepts f1 w = M.accepts f2 w ∧ ∃ v, M.accepts f2 w = some v) ∧
      (∀ f1 f2 : Nat, fuel0 ≤ f2 →
        ∃ v1 v2, E.accepts f1 [] = some v1 ∧ M.accepts f2 [] = some v2 ∧
          (v2 = true ↔ ∃ p ∈ M.startStates, p ∈ M.acceptStates) ∧
          (v1 = true ↔ ∃ p ∈ M.startStates, ∃ q ∈ M.acceptStates,
            EpsClosure M.transitions (fun z => z = p) q)) := by
  have hT := nfaBuild_TableOK b M hb
  obtain ⟨rank, hrank⟩ := hacyc
  obtain ⟨E, hE, heE, _⟩ := ApplyEpsilonExpansion_ok M hadds
  have hL := Lang_expansion M hT hone _ E (hE _ (Nat.le_refl _))
  refine ⟨max (max 1 (expandBound M.transitions)) (rankBound rank M.transitions + 1), E,
    fun fuel hf => hE fuel (by omega), heE, ?_, ?_⟩
  · intro w f1 f2 hf2 hw
    obtain ⟨v1, hv1, hi1⟩ := accepts_epsfree f1 E heE w
    obtain ⟨v2, hv2, hn2, hc2⟩ := accepts_eps f2 rank M hpure hrank (by omega) w
    refine ⟨?_, v2, hv2⟩
    rw [hv1, hv2]
    have : v1 = true ↔ v2 = true := by
      rw [hi1, hL w]
      by_cases hnil : w = []
      · subst hnil
        rw [hn2 rfl, EpsLang_nil]
        constructor
        · intro h
          rcases hw with hw | hw
          · exact absurd rfl hw
          · exact hw h
        · rintro ⟨p, hp, hq⟩
          exact ⟨p, hp, p, hq, EpsClosure.base rfl⟩
      · exact (hc2 hnil).symm
    cases v1 <;> cases v2 <;> simp_all
  · intro f1 f2 hf2
    obtain ⟨v1, hv1, hi1⟩ := accepts_epsfree f1 E heE []
    obtain ⟨v2, hv2, hn2, _⟩ := accepts_eps f2 rank M hpure hrank (by omega) []
    refine ⟨v1, v2, hv1, hv2, hn2 rfl, ?_⟩
    rw [hi1, hL [], EpsLang_nil]

/-- Witness for C1 (amended): the `a(b|c)*d` machine of `TestSyncMachine`, which
has epsilon transitions and reads the empty word alike with and without epsilon
moves, so that every word is covered. -/
theorem expansion_equivalent_on_pure_junctions_witness :
    abcd.HasEpsilon = true ∧ abcd.EmptyWordAgrees ∧
    ∃ fuel0 E, (∀ fuel, fuel0 ≤ fuel → abcd.ApplyEpsilonExpansion fuel = some E) ∧
      E.HasEpsilon = false ∧
      (∀ (w : List Rune) (f1 f2 : Nat), fuel0 ≤ f2 → (w ≠ [] ∨ abcd.EmptyWordAgrees) →
        E.accepts f1 w = abcd.accepts f2 w ∧ ∃ v, abcd.accepts f2 w = some v) ∧
      (∀ f1 f2 : Nat, fuel0 ≤ f2 →
        ∃ v1 v2, E.accepts f1 [] = some v1 ∧ abcd.accepts f2 [] = some v2 ∧
          (v2 = true ↔ ∃ p ∈ abcd.startStates, p ∈ abcd.acceptStates) ∧
          (v1 = true ↔ ∃ p ∈ abcd.startStates, ∃ q ∈ abcd.acceptStates,
            EpsClosure abcd.transitions (fun z => z = p) q)) :=
  ⟨by decide, abcd_EmptyWordAgrees,
    expansion_equivalent_on_pure_junctions abcdBuilder abcd rfl abcd_EpsStatesPure
    abcd_EpsAcyclic abcd_StartOneLevel abcd_StartAddsNew⟩

/-- C1 fails as stated; each machine below is returned by the builder.
On `fork` the state `s` has an epsilon transition and a transition on `a`: the
simulator replaces `s` by its epsilon destination before the step and rejects
"a", the expansion keeps the edge on `a` and accepts "a".  On `acceptEps` the
accept state `f` has an epsilon entry: the simulator replaces `f` and rejects
"a", the expansion accepts "a".  On `epsStart` the accept state is an epsilon
destination of the start state: `Reset` does not close the start set, so the
machine rejects the empty word and the expansion accepts it.  On `ringNfa` the
epsilon transitions form a cycle and the run of the simulator on "a" returns
with no number of passes.  On `selfLoopNfa` the state `p` is among its own
epsilon destinations, so the closure loop keeps it and `Put` of the rune epsilon
steps along its epsilon entry: the machine accepts the word of `a` and the rune
epsilon, the expansion rejects it.  On `chain` the start state reaches `r` by two
epsilon transitions in a row: the machine accepts "a", the expansion, whose
start-state loop stops after one level, rejects it.  On `twoStart` an epsilon
transition leads from a start state to a start state and the expansion returns
with no number of passes. -/
theorem expansion_equivalent_counterexample :
    (forkBuilder.Build = Except.ok fork ∧
      fork.Reset.Put 2 97 =
        some ({ fork with currentStates := [] }, some FaError.ErrEmptyStates) ∧
      fork.accepts 2 [97] = some false ∧
      ∃ E, fork.ApplyEpsilonExpansion 2 = some E ∧ E.accepts 2 [97] = some true) ∧
    (acceptEpsBuilder.Build = Except.ok acceptEps ∧ acceptEps.accepts 2 [97] = some false ∧
      ∃ E, acceptEps.ApplyEpsilonExpansion 2 = some E ∧ E.accepts 2 [97] = some true) ∧
    (epsStartBuilder.Build = Except.ok epsStart ∧ epsStart.accepts 2 [] = some false ∧
      ∃ E, epsStart.ApplyEpsilonExpansion 2 = some E ∧ E.accepts 2 [] = some true) ∧
    (ringNfaBuilder.Build = Except.ok ringNfa ∧ ∀ fuel, ringNfa.accepts fuel [97] = none) ∧
    (selfLoopNfaBuilder.Build = Except.ok selfLoopNfa ∧
      selfLoopNfa.accepts 5 [97, Epsilon] = some true ∧
      ∃ E, selfLoopNfa.ApplyEpsilonExpansion 5 = some E ∧
        E.accepts 5 [97, Epsilon] = some false) ∧
    (chainBuilder.Build = Except.ok chain ∧ chain.accepts 5 [97] = some true ∧
      ∃ E, chain.ApplyEpsilonExpansion 5 = some E ∧ E.accepts 5 [97] = some false) ∧
    (twoStartBuilder.Build = Except.ok twoStart ∧
      ∀ fuel, twoStart.ApplyEpsilonExpansion fuel = none) := by
  refine ⟨⟨rfl, by decide, by decide,
      { states := ["s", "f"], chars := [], startStates := ["s"], acceptStates := ["f"],
        transitions := [("s", [(97, ["f"])])], currentStates := ["s"] }, by decide, by decide⟩,
    ⟨rfl, by decide, _, rfl, by decide⟩, ⟨rfl, by decide, _, rfl, by decide⟩,
    ⟨rfl, fun fuel => ?_⟩, ⟨rfl, by decide, _, rfl, by decide⟩,
    ⟨rfl, by decide, _, rfl, by decide⟩,
    ⟨rfl, ApplyEpsilonExpansion_diverges twoStart (by decide)⟩⟩
  unfold nfaMachine.accepts nfaMachine.putAll
  rw [ring_put_diverges fuel]
  rfl

/-! ## C3: `Minimize` against the simulator -/

theorem EpsRun_snoc_eps (tr : NTrans) (p y q : String) (w : List Rune)
    (hp : EpsRun tr p w y) (hs : q ∈ tableDelta tr y Epsilon) : EpsRun tr p w q := by
  induction hp with
  | nil p => exact EpsRun.eps hs (EpsRun.nil q)
  | eps hstep _ ih => exact EpsRun.eps hstep (ih hs)
  | sym hx hstep _ ih => exact EpsRun.sym hx hstep (ih hs)

theorem EpsRun_snoc_sym (tr : NTrans) (p y q : String) (w : List Rune) (x : Rune)
    (hp : EpsRun tr p w y) (hx : x ≠ Epsilon) (hs : q ∈ tableDelta tr y x) :
    EpsRun tr p (w ++ [x]) q := by
  induction hp with
  | nil p => exact EpsRun.sym hx hs (EpsRun.nil q)
  | eps hstep _ ih => exact EpsRun.eps hstep (ih hs)
  | sym hx1 hstep _ ih => exact EpsRun.sym hx1 hstep (ih hs)

theorem EpsRun_reverse (tr tr2 : NTrans)
    (h : ∀ q c y, q ∈ tableDelta tr y c → y ∈ tableDelta tr2 q c) (p q : String)
    (w : List Rune) (hp : EpsRun tr p w q) : EpsRun tr2 q w.reverse p := by
  induction hp with
  | nil p => exact EpsRun.nil p
  | @eps p y q w hstep _ ih => exact EpsRun_snoc_eps tr2 q y p w.reverse ih (h y Epsilon p hstep)
  | @sym p y q x w hx hstep _ ih =>
    rw [List.reverse_cons]
    exact EpsRun_snoc_sym tr2 q y p w.reverse x ih hx (h y x p hstep)

/-- The reversed machine accepts, read with epsilon moves, the reversals of the
words that the machine accepts read with epsilon moves. -/
theorem EpsLang_Reverse (s : nfaMachine) (h : TableOK s.transitions) (w : List Rune) :
    s.Reverse.EpsLang w ↔ s.EpsLang w.reverse := by
  unfold nfaMachine.EpsLang nfaMachine.admits nfaMachine.Reverse
  simp only [GoSet.mem_Clone, GoSet_Clone_eq_nil, List.mem_reverse]
  constructor
  · rintro ⟨hall, p, hp, q, hq, hrun⟩
    refine ⟨hall, q, hq, p, hp, ?_⟩
    exact EpsRun_reverse _ _ (fun q c y hy => (mem_tableDelta_reverse _ h _ _ _).1 hy) _ _ _ hrun
  · rintro ⟨hall, p, hp, q, hq, hrun⟩
    refine ⟨hall, q, hq, p, hp, ?_⟩
    have := EpsRun_reverse _ (reverseTransitions s.transitions)
      (fun q c y hy => (mem_tableDelta_reverse _ h _ _ _).2 hy) _ _ _ hrun
    rwa [List.reverse_reverse] at this

theorem TableOK_ExpandEpsilon (tr : NTrans) (fuel : Nat) (T : NTrans)
    (hT : ExpandEpsilon fuel tr = some T) : TableOK T := by
  unfold ExpandEpsilon at hT
  have hE := TableOK_expandExtract tr
  refine ⟨?_, ?_⟩
  · unfold NodupKeys
    rw [mapValuesM_keys _ _ _ hT]
    exact hE.1
  · intro e he
    obtain ⟨e0, he0, _, hrow⟩ := mapValuesM_mem _ _ _ hT e he
    unfold NodupKeys
    rw [mapValuesM_keys _ _ _ hrow]
    exact hE.2 e0 he0

theorem TableOK_expansion (s : nfaMachine) (fuel : Nat) (E : nfaMachine)
    (h : s.ApplyEpsilonExpansion fuel = some E) : TableOK E.transitions := by
  obtain ⟨T, hT, _, _, hEq⟩ := ApplyEpsilonExpansion_some fuel s E h
  rw [hEq]
  exact TableOK_purge _ _ (TableOK_ExpandEpsilon _ _ _ hT)

/-- The names that the first subset construction of `Minimize` meets are good
when the accept states and the states with an outgoing transition have good
names. -/
theorem GoodNames_expansion_reverse (s : nfaMachine) (hT : TableOK s.transitions)
    (hg : SourceNamesGood s) (fuel : Nat) (E : nfaMachine)
    (h : s.Reverse.ApplyEpsilonExpansion fuel = some E) : GoodNames E := by
  have hTR : TableOK s.Reverse.transitions := TableOK_reverse _
  obtain ⟨T, hTe, _, hd, hst, _, _, _⟩ := ApplyEpsilonExpansion_fields s.Reverse hTR fuel E h
  have hback : ∀ (z : String) (c : Rune) (n : String),
      n ∈ tableDelta s.Reverse.transitions z c → GoodName n := by
    intro z c n hn
    exact hg n (Or.inr ⟨c, z, (mem_tableDelta_reverse _ hT _ _ _).1 hn⟩)
  intro n hn
  rcases hn with hn | hn
  · rcases ((hst n).1 hn).1 with h1 | ⟨p, _, h1⟩
    · exact hg n (Or.inl ((GoSet.mem_Clone _ _).1 h1))
    · exact hback p Epsilon n h1
  · rw [mem_tableDests_iff _ (TableOK_expansion _ fuel E h)] at hn
    obtain ⟨q, c, hn⟩ := hn
    have h1 := ((hd q c n).1 hn).1
    obtain ⟨_, hcl⟩ := (mem_tableDelta_ExpandEpsilon _ hTR fuel T hTe q c n).1 h1
    cases hcl with
    | base hb => exact hback q c n hb
    | step _ hs => exact hback _ Epsilon n hs

theorem SourceNamesGood_of_keys (s : nfaMachine)
    (h : ∀ n ∈ s.acceptStates ++ s.transitions.map Prod.fst, GoodName n) :
    SourceNamesGood s := by
  intro n hn
  apply h n
  rw [List.mem_append]
  rcases hn with hn | ⟨c, y, hn⟩
  · exact Or.inl hn
  · right
    obtain ⟨u, hu, _⟩ := (mem_tableDelta _ _ _ _).1 hn
    unfold tableGet at hu
    cases hg : mapGet s.transitions n with
    | none => rw [hg] at hu; cases hu
    | some row => exact List.mem_map.2 ⟨(n, row), mapGet_mem _ _ _ hg, rfl⟩

/-- The first half of `Minimize` on a machine with epsilon transitions: it
returns a machine without epsilon transitions that accepts the reversals of the
words that the machine accepts read with epsilon moves. -/
theorem halfMinimize_eps (s : nfaMachine) (hT : TableOK s.transitions)
    (hone : s.Reverse.StartOneLevel) (hadds : s.Reverse.StartAddsNew)
    (hg : SourceNamesGood s) :
    ∃ fuel0 D, (∀ fuel, fuel0 ≤ fuel → halfMinimize fuel s = some (Except.ok D)) ∧
      D.HasEpsilon = false ∧ TableOK D.transitions ∧ SourceNamesGood D ∧
      ∀ w, D.Lang w ↔ s.EpsLang w.reverse := by
  have hTR : TableOK s.Reverse.transitions := TableOK_reverse _
  obtain ⟨E, hE, heE, hsE⟩ := ApplyEpsilonExpansion_ok s.Reverse hadds
  have hE0 := hE _ (Nat.le_refl _)
  have hgE := GoodNames_expansion_reverse s hT hg _ E hE0
  obtain ⟨D, hD⟩ := powerset_total E hsE heE (powersetBound E) (Nat.le_refl _)
  obtain ⟨_, sets, v, hi, h0, hDeq⟩ := powerset_inv _ hsE _ D hD
  refine ⟨max (max 1 (expandBound s.Reverse.transitions)) (powersetBound E), D, ?_, ?_, ?_, ?_, ?_⟩
  · intro fuel hf
    unfold halfMinimize
    rw [hE fuel (by omega)]
    exact ApplyPowersetConstruction_mono _ _ fuel (by omega) _ hD
  · exact powerset_HasEpsilon _ heE _ sets _ _ _ v hi D (by rw [hDeq])
  · rw [hDeq]
    exact TableOK_singletonTable _ hi.htableOK
  · intro n hn
    rw [hDeq] at hn
    simp only at hn
    rcases hn with hn | ⟨c, y, hn⟩
    · obtain ⟨i, _, _, _, rfl, _⟩ := (hi.haccept n).1 hn
      exact natToString_good i
    · rw [mem_tableDelta_singleton] at hn
      obtain ⟨i, _, _, rfl, _, _⟩ := hi.honly _ _ _ hn
      exact natToString_good i
  · intro w
    rw [powerset_Lang _ sets v hi h0 hgE D hDeq w, Lang_expansion s.Reverse hTR hone _ E hE0,
      EpsLang_Reverse s hT]

/-- What `Minimize` returns on a machine with epsilon transitions: a machine
without epsilon transitions that accepts the words that the machine accepts read
with epsilon moves. -/
theorem Minimize_eps (s : nfaMachine) (hT : TableOK s.transitions)
    (hone : s.Reverse.StartOneLevel) (hadds : s.Reverse.StartAddsNew)
    (hg : SourceNamesGood s) :
    ∃ fuel0 D, (∀ fuel, fuel0 ≤ fuel → s.Minimize fuel = some (Except.ok D)) ∧
      D.HasEpsilon = false ∧ ∀ w, D.Lang w ↔ s.EpsLang w := by
  obtain ⟨g1, D1, hD1, he1, hT1, hg1, hL1⟩ := halfMinimize_eps s hT hone hadds hg
  obtain ⟨D2, hD2, he2, _, _, hL2⟩ := halfMinimize_spec D1 hT1 he1 hg1
  refine ⟨max g1 (max 1 (powersetBound (expandedOf D1.Reverse))), D2, ?_, he2, ?_⟩
  · intro fuel hf
    rw [Minimize_eq_half, hD1 fuel (by omega)]
    exact hD2 fuel (by omega)
  · intro w
    rw [hL2, hL1, List.reverse_reverse]

theorem abcd_SourceNamesGood : SourceNamesGood abcd :=
  SourceNamesGood_of_keys abcd (by
    intro n hn
    have hl : abcd.acceptStates ++ abcd.transitions.map Prod.fst =
        ["d-end", "a-start", "a-end", "bc-start", "b-start", "c-start", "b-end", "c-end",
          "bc-end", "d-start"] := by decide
    rw [hl] at hn
    simp only [List.mem_cons, List.mem_singleton, List.not_mem_nil, or_false] at hn
    rcases hn with rfl | rfl | rfl | rfl | rfl | rfl | rfl | rfl | rfl | rfl <;>
      exact ⟨by decide, by decide⟩)

theorem abcd_Reverse_StartOneLevel : abcd.Reverse.StartOneLevel := by
  unfold nfaMachine.StartOneLevel
  decide

theorem abcd_Reverse_StartAddsNew : abcd.Reverse.StartAddsNew := by
  unfold nfaMachine.StartAddsNew
  decide

/-- C3, as the code has it.  Let `M` be returned by the builder, and let every
state of `M` that has an epsilon entry be a pure junction (not an accept state,
no transition on another symbol), let the epsilon transitions form no cycle,
let the names of the accept states and of the states with an outgoing
transition be non-empty and without `_`, and let, in the reversed machine that
`Minimize` expands first, one level of epsilon destinations close the start
states and every start state with an epsilon entry have an epsilon destination
of its own.  Then `Minimize` returns one machine `D` for every sufficient fuel,
`D` has no epsilon transition, and on every word that is not empty the run of
`D` and the run of `M` return the same verdict; so they do on the empty word
when `M` reads it alike with and without epsilon moves.  On the empty word `M`
accepts exactly when a start state is an accept state, and `D` exactly when an
accept state is reached from a start state by epsilon transitions alone. -/
theorem minimize_equivalent_on_pure_junctions (b : nfaMachineBuilder) (M : nfaMachine)
    (hb : b.Build = Except.ok M) (hpure : M.EpsStatesPure) (hacyc : EpsAcyclic M.transitions)
    (hone : M.Reverse.StartOneLevel) (hadds : M.Reverse.StartAddsNew)
    (hg : SourceNamesGood M) :
    ∃ fuel0 D, (∀ fuel, fuel0 ≤ fuel → M.Minimize fuel = some (Except.ok D)) ∧
      D.HasEpsilon = false ∧
      (∀ (w : List Rune) (f1 f2 : Nat), fuel0 ≤ f2 → (w ≠ [] ∨ M.EmptyWordAgrees) →
        D.accepts f1 w = M.accepts f2 w ∧ ∃ v, M.accepts f2 w = some v) ∧
      (∀ f1 f2 : Nat, fuel0 ≤ f2 →
        ∃ v1 v2, D.accepts f1 [] = some v1 ∧ M.accepts f2 [] = some v2 ∧
          (v2 = true ↔ ∃ p ∈ M.startStates, p ∈ M.acceptStates) ∧
          (v1 = true ↔ ∃ p ∈ M.startStates, ∃ q ∈ M.acceptStates,
            EpsClosure M.transitions (fun z => z = p) q)) := by
  have hT := nfaBuild_TableOK b M hb
  obtain ⟨rank, hrank⟩ := hacyc
  obtain ⟨g0, D, hD, heD, hL⟩ := Minimize_eps M hT hone hadds hg
  refine ⟨max g0 (rankBound rank M.transitions + 1), D, fun fuel hf => hD fuel (by omega), heD,
    ?_, ?_⟩
  · intro w f1 f2 hf2 hw
    obtain ⟨v1, hv1, hi1⟩ := accepts_epsfree f1 D heD w
    obtain ⟨v2, hv2, hn2, hc2⟩ := accepts_eps f2 rank M hpure hrank (by omega) w
    refine ⟨?_, v2, hv2⟩
    rw [hv1, hv2]
    have : v1 = true ↔ v2 = true := by
      rw [hi1, hL w]
      by_cases hnil : w = []
      · subst hnil
        rw [hn2 rfl, EpsLang_nil]
        constructor
        · intro h
          rcases hw with hw | hw
          · exact absurd rfl hw
          · exact hw h
        · rintro ⟨p, hp, hq⟩
          exact ⟨p, hp, p, hq, EpsClosure.base rfl⟩
      · exact (hc2 hnil).symm
    cases v1 <;> cases v2 <;> simp_all
  · intro f1 f2 hf2
    obtain ⟨v1, hv1, hi1⟩ := accepts_epsfree f1 D heD []
    obtain ⟨v2, hv2, hn2, _⟩ := accepts_eps f2 rank M hpure hrank (by omega) []
    refine ⟨v1, v2, hv1, hv2, hn2 rfl, ?_⟩
    rw [hi1, hL [], EpsLang_nil]

/-- Witness for C3 (amended): the `a(b|c)*d` machine of `TestSyncMachine`, which
has epsilon transitions and reads the empty word alike with and without epsilon
moves, so that every word is covered. -/
theorem minimize_equivalent_on_pure_junctions_witness :
    abcd.HasEpsilon = true ∧ abcd.EmptyWordAgrees ∧
    ∃ fuel0 D, (∀ fuel, fuel0 ≤ fuel → abcd.Minimize fuel = some (Except.ok D)) ∧
      D.HasEpsilon = false ∧
      (∀ (w : List Rune) (f1 f2 : Nat), fuel0 ≤ f2 → (w ≠ [] ∨ abcd.EmptyWordAgrees) →
        D.accepts f1 w = abcd.accepts f2 w ∧ ∃ v, abcd.accepts f2 w = some v) ∧
      (∀ f1 f2 : Nat, fuel0 ≤ f2 →
        ∃ v1 v2, D.accepts f1 [] = some v1 ∧ abcd.accepts f2 [] = some v2 ∧
          (v2 = true ↔ ∃ p ∈ abcd.startStates, p ∈ abcd.acceptStates) ∧
          (v1 = true ↔ ∃ p ∈ abcd.startStates, ∃ q ∈ abcd.acceptStates,
            EpsClosure abcd.transitions (fun z => z = p) q)) :=
  ⟨by decide, abcd_EmptyWordAgrees,
    minimize_equivalent_on_pure_junctions abcdBuilder abcd rfl abcd_EpsStatesPure
    abcd_EpsAcyclic abcd_Reverse_StartOneLevel abcd_Reverse_StartAddsNew abcd_SourceNamesGood⟩

theorem Minimize_diverges (s : nfaMachine) (hq : s.Reverse.startQuiet = false) (fuel : Nat) :
    s.Minimize fuel = none := by
  rw [Minimize_eq_half]
  unfold halfMinimize
  rw [ApplyEpsilonExpansion_diverges s.Reverse hq fuel]

/-- C3 fails as stated; each machine below is returned by the builder.
On `fork` the state `s` has an epsilon transition and a transition on `a`: the
simulator replaces `s` by its epsilon destination and rejects "a", the
minimized machine accepts "a".  On `acceptEps` the accept state has an epsilon
entry: the simulator rejects "a", the minimized machine accepts it.  On
`epsStart` the accept state is an epsilon destination of the start state: the
machine rejects the empty word, the minimized machine accepts it.  On `ringNfa`
the epsilon transitions form a cycle and the run of the simulator on "a"
returns with no number of passes.  On `selfLoopNfa` the state `p` is among its
own epsilon destinations, so the closure loop keeps it and `Put` of the rune
epsilon steps along its epsilon entry: the machine accepts the word of `a` and
the rune epsilon, the minimized machine rejects it.  On `tailChain` the accept state is reached
by two epsilon transitions in a row: the machine accepts "a", the minimized
machine, built on a start-state loop that stops after one level, rejects it.
On `twoAccept` two accept states are epsilon destinations of one state: the
machine accepts "a" and `Minimize` returns with no number of passes.  On
`clashRev`, which has no epsilon transition, the reversed machine meets the
subset `{a, b}` and the state `a_b`: the machine accepts "yx", the minimized
machine rejects it. -/
theorem minimize_equivalent_counterexample :
    (forkBuilder.Build = Except.ok fork ∧ fork.accepts 9 [97] = some false ∧
      ∃ D, fork.Minimize 9 = some (Except.ok D) ∧ D.accepts 9 [97] = some true) ∧
    (acceptEpsBuilder.Build = Except.ok acceptEps ∧ acceptEps.accepts 9 [97] = some false ∧
      ∃ D, acceptEps.Minimize 9 = some (Except.ok D) ∧ D.accepts 9 [97] = some true) ∧
    (epsStartBuilder.Build = Except.ok epsStart ∧ epsStart.accepts 9 [] = some false ∧
      ∃ D, epsStart.Minimize 9 = some (Except.ok D) ∧ D.accepts 9 [] = some true) ∧
    (ringNfaBuilder.Build = Except.ok ringNfa ∧ ∀ fuel, ringNfa.accepts fuel [97] = none) ∧
    (selfLoopNfaBuilder.Build = Except.ok selfLoopNfa ∧
      selfLoopNfa.accepts 9 [97, Epsilon] = some true ∧
      ∃ D, selfLoopNfa.Minimize 9 = some (Except.ok D) ∧
        D.accepts 9 [97, Epsilon] = some false) ∧
    (tailChainBuilder.Build = Except.ok tailChain ∧ tailChain.accepts 9 [97] = some true ∧
      ∃ D, tailChain.Minimize 9 = some (Except.ok D) ∧ D.accepts 9 [97] = some false) ∧
    (twoAcceptBuilder.Build = Except.ok twoAccept ∧ twoAccept.accepts 9 [97] = some true ∧
      ∀ fuel, twoAccept.Minimize fuel = none) ∧
    (clashRevBuilder.Build = Except.ok clashRev ∧ clashRev.HasEpsilon = false ∧
      clashRev.accepts 9 [121, 120] = some true ∧
      ∃ D, clashRev.Minimize 9 = some (Except.ok D) ∧ D.accepts 9 [121, 120] = some false) := by
  refine ⟨⟨rfl, by decide,
      { states := ["0", "1"], chars := [97], startStates := ["0"], acceptStates := ["1"],
        transitions := [("0", [(97, ["1"])])], currentStates := ["0"] }, rfl, by decide⟩,
    ⟨rfl, by decide, _, rfl, by decide⟩, ⟨rfl, by decide, _, rfl, by decide⟩,
    ⟨rfl, fun fuel => ?_⟩, ⟨rfl, by decide, _, rfl, by decide⟩,
    ⟨rfl, by decide, _, rfl, by decide⟩,
    ⟨rfl, by decide, Minimize_diverges twoAccept (by decide)⟩,
    ⟨rfl, by decide, by decide,
      { states := ["0", "1"], chars := [121, 122, 120], startStates := ["0"],
        acceptStates := ["1"],
        transitions := [("0", [(122, ["1"])]), ("1", [(120, ["1"])])],
        currentStates := ["0"] }, rfl, by decide⟩⟩
  unfold nfaMachine.accepts nfaMachine.putAll
  rw [ring_put_diverges fuel]
  rfl

end roughfa
